import Mathlib


/-! Red-black tree of `rbtree.c`: memory model and embedding of the C functions

Pointers (also the `void*` keys and values) are natural numbers, `0` is
`NULL`.  The memory maps an address to
the `rbtree_node` stored there (or to nothing when the address is not an
allocated node).  Reading or writing through `NULL` or through an address
that holds no node is a fault.  Loops take a budget of iterations; when the
budget is used up the result is `timeout`.
-/

namespace RBTree

/-- The `#define COLOR_BLACK 0` of `rbtree.h`. -/
abbrev COLOR_BLACK : Int := 0
/-- The `#define COLOR_RED 1` of `rbtree.h`. -/
abbrev COLOR_RED : Int := 1
/-- The `#define NODE_NOT_FOUND 0` of `rbtree.h`. -/
abbrev NODE_NOT_FOUND : Int := 0
/-- The `#define NODE_FOUND 1` of `rbtree.h`. -/
abbrev NODE_FOUND : Int := 1
/-- The `#define NODE_KEY_LESS -1` of `rbtree.h`. -/
abbrev NODE_KEY_LESS : Int := -1
/-- The `#define NODE_KEY_EQUAL 0` of `rbtree.h`. -/
abbrev NODE_KEY_EQUAL : Int := 0
/-- The `#define NODE_KEY_LARGER 1` of `rbtree.h`. -/
abbrev NODE_KEY_LARGER : Int := 1

/-- The `struct rbtree_node` of `rbtree.h`. -/
structure rbtree_node where
  key : Nat
  value : Nat
  parent : Nat
  left : Nat
  right : Nat
  color : Int
deriving DecidableEq, Repr

/-- The memory holding the nodes, together with the two fields of the one
`rbtree_ctx` the functions work on (`root` and `cmp`). -/
structure State where
  mem : Nat → Option rbtree_node
  root : Nat
  cmp : Nat → Nat → Int

/-- Result of running a piece of C code: a value, a fault (a dereference of
`NULL` or of an address holding no node), or an exhausted loop budget. -/
inductive Res (α : Type) where
  | ok : α → Res α
  | fault : Res α
  | timeout : Res α
deriving Repr

/-- Sequencing of results. -/
def Res.bind {α β : Type} : Res α → (α → Res β) → Res β
  | .ok a, f => f a
  | .fault, _ => .fault
  | .timeout, _ => .timeout

instance : Monad Res where
  pure := Res.ok
  bind := Res.bind

/-- Read the node stored at `p` (`*p`). -/
def load (s : State) (p : Nat) : Res rbtree_node :=
  if p = 0 then .fault
  else match s.mem p with
    | some n => .ok n
    | none => .fault

/-- Overwrite the node stored at `p`. -/
def store (s : State) (p : Nat) (n : rbtree_node) : State :=
  { s with mem := fun q => if q = p then some n else s.mem q }

/-- The assignment `tree->root = r`. -/
def set_root (s : State) (r : Nat) : State :=
  { s with root := r }

/-- An assignment to a field of `*p`: read the node, change it, write it back. -/
def modify (s : State) (p : Nat) (f : rbtree_node → rbtree_node) : Res State := do
  let n ← load s p
  pure (store s p (f n))

/-- The call `free(p)` on an allocated node. -/
def release (s : State) (p : Nat) : Res State := do
  let _ ← load s p
  pure { s with mem := fun q => if q = p then none else s.mem q }

/-- `bst_create_node`: `a` is what `malloc` returned (`0` when it failed,
otherwise an address holding no node).  The node is zeroed, then key and
value are set. -/
def bst_create_node (s : State) (a : Nat) (key value : Nat) : State × Nat :=
  if a = 0 then (s, 0)
  else (store s a ⟨key, value, 0, 0, 0, 0⟩, a)

/-- `bst_destroy_node`. -/
def bst_destroy_node (s : State) (node : Nat) : Res State :=
  if node = 0 then pure s
  else release s node

/-- The `while (root != NULL)` loop of `bst_insert`; the result is the
returned pointer. -/
def bst_insert_loop (cmp : Nat → Nat → Int) (key node : Nat) :
    Nat → State → Nat → Res (State × Nat)
  | 0, _, _ => .timeout
  | fuel + 1, s, root =>
    if root = 0 then pure (s, node)
    else do
      let rn ← load s root
      let r := cmp key rn.key
      if r = NODE_KEY_EQUAL then pure (s, root)
      else if r = NODE_KEY_LESS then
        if rn.left = 0 then do
          let s ← modify s root (fun n => { n with left := node })
          let s ← modify s node (fun n => { n with parent := root })
          pure (s, node)
        else bst_insert_loop cmp key node fuel s rn.left
      else
        if rn.right = 0 then do
          let s ← modify s root (fun n => { n with right := node })
          let s ← modify s node (fun n => { n with parent := root })
          pure (s, node)
        else bst_insert_loop cmp key node fuel s rn.right

/-- `bst_insert`; `a` is the result of the `malloc` call inside. -/
def bst_insert (fuel : Nat) (s : State) (a : Nat) (root : Nat) (cmp : Nat → Nat → Int)
    (key value : Nat) : Res (State × Nat) :=
  let sn := bst_create_node s a key value
  if sn.2 = 0 then pure (sn.1, 0)
  else if root = 0 then pure sn
  else bst_insert_loop cmp key sn.2 fuel sn.1 root

/-- The `while (node != NULL)` loop of `bst_search`. -/
def bst_search_loop (s : State) (cmp : Nat → Nat → Int) (key : Nat) : Nat → Nat → Res Nat
  | 0, _ => .timeout
  | fuel + 1, node =>
    if node = 0 then pure node
    else do
      let n ← load s node
      let r := cmp key n.key
      if r = NODE_KEY_EQUAL then pure node
      else if r = NODE_KEY_LESS then bst_search_loop s cmp key fuel n.left
      else bst_search_loop s cmp key fuel n.right

/-- `bst_search`. -/
def bst_search (fuel : Nat) (s : State) (root : Nat) (cmp : Nat → Nat → Int) (key : Nat) :
    Res Nat :=
  bst_search_loop s cmp key fuel root

/-- The inner loop of `bst_delete`:
`while (successor->right != NULL) successor = successor->right;`. -/
def bst_delete_rightmost (s : State) : Nat → Nat → Res Nat
  | 0, _ => .timeout
  | fuel + 1, successor => do
    let n ← load s successor
    if n.right ≠ 0 then bst_delete_rightmost s fuel n.right
    else pure successor

/-- The outer loop of `bst_delete`:
`while (node->left != NULL || node->right != NULL)`. -/
def bst_delete_loop : Nat → State → Nat → Res (State × Nat)
  | 0, _, _ => .timeout
  | fuel + 1, s, node => do
    let n ← load s node
    if n.left ≠ 0 ∨ n.right ≠ 0 then do
      let successor ←
        if n.left ≠ 0 ∧ n.right ≠ 0 then bst_delete_rightmost s fuel n.left
        else if n.left ≠ 0 then pure n.left
        else pure n.right
      let sk := (← load s successor).key
      let s ← modify s node (fun m => { m with key := sk })
      let sv := (← load s successor).value
      let s ← modify s node (fun m => { m with value := sv })
      bst_delete_loop fuel s successor
    else pure (s, node)

/-- `bst_delete`. -/
def bst_delete (fuel : Nat) (s : State) (root : Nat) (cmp : Nat → Nat → Int) (key : Nat) :
    Res (State × Nat) := do
  let node ← bst_search fuel s root cmp key
  if node = 0 then pure (s, 0)
  else bst_delete_loop fuel s node

/-- `set_color`. -/
def set_color (s : State) (node : Nat) (color : Int) : Res State :=
  if node = 0 then pure s
  else modify s node (fun n => { n with color := color })

/-- `get_color`. -/
def get_color (s : State) (node : Nat) : Res Int :=
  if node = 0 then pure COLOR_BLACK
  else do pure (← load s node).color

/-- `get_parent`. -/
def get_parent (s : State) (node : Nat) : Res Nat :=
  if node = 0 then pure 0
  else do pure (← load s node).parent

/-- `get_grandparent`. -/
def get_grandparent (s : State) (node : Nat) : Res Nat := do
  let parent ← get_parent s node
  if parent = 0 then pure 0
  else pure (← load s parent).parent

/-- `get_uncle`. -/
def get_uncle (s : State) (node : Nat) : Res Nat := do
  let parent ← get_parent s node
  let grandparent ← get_grandparent s node
  if grandparent = 0 then pure 0
  else do
    let g ← load s grandparent
    if g.left = parent then pure g.right
    else pure g.left

/-- `get_sibling`. -/
def get_sibling (s : State) (node : Nat) : Res Nat := do
  let parent ← get_parent s node
  if parent = 0 then pure 0
  else do
    let p ← load s parent
    if p.left = node then pure p.right
    else pure p.left

/-- `get_nephew`. -/
def get_nephew (s : State) (node : Nat) : Res Nat := do
  let parent ← get_parent s node
  let sibling ← get_sibling s node
  if parent = 0 then pure 0
  else if sibling = 0 then pure 0
  else do
    let p ← load s parent
    if p.left = node then pure (← load s sibling).right
    else pure (← load s sibling).left

/-- `get_niece`. -/
def get_niece (s : State) (node : Nat) : Res Nat := do
  let parent ← get_parent s node
  let sibling ← get_sibling s node
  if parent = 0 then pure 0
  else if sibling = 0 then pure 0
  else do
    let p ← load s parent
    if p.left = node then pure (← load s sibling).left
    else pure (← load s sibling).right

/-- `is_red`: returns `COLOR_RED` or `COLOR_BLACK`, used as a truth value. -/
def is_red (s : State) (node : Nat) : Res Int :=
  if node = 0 then pure COLOR_BLACK
  else do
    let n ← load s node
    if n.color = COLOR_RED then pure COLOR_RED
    else pure COLOR_BLACK

/-- `is_left`: the C truth value of `parent->left == node`. -/
def is_left (s : State) (node : Nat) : Res Int :=
  if node = 0 then pure 0
  else do
    let parent ← get_parent s node
    if parent = 0 then pure 0
    else do
      let p ← load s parent
      pure (if p.left = node then 1 else 0)

/-- `is_right`: the C truth value of `parent->right == node`. -/
def is_right (s : State) (node : Nat) : Res Int :=
  if node = 0 then pure 0
  else do
    let parent ← get_parent s node
    if parent = 0 then pure 0
    else do
      let p ← load s parent
      pure (if p.right = node then 1 else 0)

/-- `rotl`. -/
def rotl (s : State) (node : Nat) (c : Int) : Res State := do
  let temp := (← load s node).right
  let tl := (← load s temp).left
  let s ← modify s node (fun n => { n with right := tl })
  let nr := (← load s node).right
  let s ← if nr ≠ 0 then modify s nr (fun n => { n with parent := node }) else pure s
  let parent := (← load s node).parent
  let s ← modify s temp (fun n => { n with parent := parent })
  let s := if parent = 0 then set_root s temp else s
  let s ←
    if parent ≠ 0 then do
      let p ← load s parent
      if p.left = node then modify s parent (fun n => { n with left := temp })
      else modify s parent (fun n => { n with right := temp })
    else pure s
  let s ← modify s temp (fun n => { n with left := node })
  let s ← modify s node (fun n => { n with parent := temp })
  if c ≠ 0 then do
    let node_color ← get_color s node
    let temp_color ← get_color s temp
    let s ← set_color s temp node_color
    set_color s node temp_color
  else pure s

/-- `rotr`. -/
def rotr (s : State) (node : Nat) (c : Int) : Res State := do
  let temp := (← load s node).left
  let tr := (← load s temp).right
  let s ← modify s node (fun n => { n with left := tr })
  let nl := (← load s node).left
  let s ← if nl ≠ 0 then modify s nl (fun n => { n with parent := node }) else pure s
  let parent := (← load s node).parent
  let s ← modify s temp (fun n => { n with parent := parent })
  let s := if parent = 0 then set_root s temp else s
  let s ←
    if parent ≠ 0 then do
      let p ← load s parent
      if p.left = node then modify s parent (fun n => { n with left := temp })
      else modify s parent (fun n => { n with right := temp })
    else pure s
  let s ← modify s temp (fun n => { n with right := node })
  let s ← modify s node (fun n => { n with parent := temp })
  if c ≠ 0 then do
    let node_color ← get_color s node
    let temp_color ← get_color s temp
    let s ← set_color s temp node_color
    set_color s node temp_color
  else pure s

/-- `rot_by_side`. -/
def rot_by_side (s : State) (node_to_del node : Nat) : Res State := do
  if (← is_left s node_to_del) ≠ 0 then rotl s node 0
  else rotr s node 0

/-- The `while (node != tree->root && is_red(parent))` loop of
`rbtree_insert_fixup`, started with the current `node` and `parent`. -/
def rbtree_insert_fixup_loop : Nat → State → Nat → Nat → Res State
  | 0, _, _, _ => .timeout
  | fuel + 1, s, node, parent => do
    let go ← if node ≠ s.root then do pure (decide ((← is_red s parent) ≠ 0)) else pure false
    if go then do
      let grandparent ← get_grandparent s node
      let uncle ← get_uncle s node
      let s ←
        if (← is_red s uncle) ≠ 0 then do
          let s ← set_color s parent COLOR_BLACK
          let s ← set_color s uncle COLOR_BLACK
          set_color s grandparent COLOR_RED
        else do
          let pl ← is_left s parent
          let nl ← if pl ≠ 0 then is_left s node else pure 0
          if pl ≠ 0 ∧ nl ≠ 0 then rotr s grandparent 1
          else do
            let pl ← is_left s parent
            let nr ← if pl ≠ 0 then is_right s node else pure 0
            if pl ≠ 0 ∧ nr ≠ 0 then do
              let s ← rotl s parent 0
              rotr s grandparent 1
            else do
              let pr ← is_right s parent
              let nl ← if pr ≠ 0 then is_left s node else pure 0
              if pr ≠ 0 ∧ nl ≠ 0 then do
                let s ← rotr s parent 0
                rotl s grandparent 1
              else rotl s grandparent 1
      let node := grandparent
      let parent ← get_parent s node
      rbtree_insert_fixup_loop fuel s node parent
    else pure s

/-- `rbtree_insert_fixup`. -/
def rbtree_insert_fixup (fuel : Nat) (s : State) (node : Nat) : Res State := do
  let parent ← get_parent s node
  let s ← rbtree_insert_fixup_loop fuel s node parent
  set_color s s.root COLOR_BLACK

/-- The `while (node != root && !is_red(node))` loop of `rbtree_delete_fixup`;
`root` is the value of `tree->root` read once before the loop.  The result is
the memory and the final value of `node`. -/
def rbtree_delete_fixup_loop (root : Nat) : Nat → State → Nat → Res (State × Nat)
  | 0, _, _ => .timeout
  | fuel + 1, s, node => do
    let go ← if node ≠ root then do pure (decide ((← is_red s node) = 0)) else pure false
    if go then do
      let sibling ← get_sibling s node
      let parent ← get_parent s node
      if (← is_red s sibling) ≠ 0 then do
        let s ← set_color s parent COLOR_RED
        let s ← set_color s sibling COLOR_BLACK
        let s ← rot_by_side s node parent
        rbtree_delete_fixup_loop root fuel s node
      else do
        let nephew ← get_nephew s node
        let niece ← get_niece s node
        if (← is_red s nephew) ≠ 0 then do
          let pc := (← load s parent).color
          let s ← set_color s sibling pc
          let s ← set_color s parent COLOR_BLACK
          let s ← set_color s nephew COLOR_BLACK
          let s ← rot_by_side s node parent
          rbtree_delete_fixup_loop root fuel s root
        else if (← is_red s niece) ≠ 0 then do
          let s ← set_color s sibling COLOR_RED
          let s ← set_color s niece COLOR_BLACK
          let s ← if (← is_left s node) ≠ 0 then rotr s sibling 0 else rotl s sibling 0
          rbtree_delete_fixup_loop root fuel s node
        else do
          let s ← set_color s sibling COLOR_RED
          rbtree_delete_fixup_loop root fuel s parent
    else pure (s, node)

/-- `rbtree_delete_fixup`. -/
def rbtree_delete_fixup (fuel : Nat) (s : State) (node : Nat) : Res State := do
  let root := s.root
  let sn ← rbtree_delete_fixup_loop root fuel s node
  set_color sn.1 sn.2 COLOR_BLACK

/-- `rbtree_init`; a `NULL` comparator is `none`. -/
def rbtree_init (s : State) (cmp : Option (Nat → Nat → Int)) : State :=
  match cmp with
  | none => s
  | some f => { s with root := 0, cmp := f }

/-- `rbtree_insert`; `a` is the result of the `malloc` call made by
`bst_insert`. -/
def rbtree_insert (fuel : Nat) (s : State) (a : Nat) (key value : Nat) : Res State :=
  if key = 0 ∨ value = 0 then pure s
  else do
    let sn ← bst_insert fuel s a s.root s.cmp key value
    let s := sn.1
    let node := sn.2
    let s := if s.root = 0 then set_root s node else s
    let s ← set_color s node COLOR_RED
    rbtree_insert_fixup fuel s node

/-- `rbtree_search`: the returned `void*` is the pointer `bst_search` found. -/
def rbtree_search (fuel : Nat) (s : State) (key : Nat) : Res Nat :=
  if key = 0 then pure 0
  else do
    let node ← bst_search fuel s s.root s.cmp key
    pure node

/-- `rbtree_exists`. -/
def rbtree_exists (fuel : Nat) (s : State) (key : Nat) : Res Int := do
  let found ← rbtree_search fuel s key
  if found = 0 then pure NODE_NOT_FOUND
  else pure NODE_FOUND

/-- `rbtree_delete`. -/
def rbtree_delete (fuel : Nat) (s : State) (key : Nat) : Res State :=
  if key = 0 then pure s
  else do
    let sn ← bst_delete fuel s s.root s.cmp key
    let node := sn.2
    let s ← rbtree_delete_fixup fuel sn.1 node
    let parent ← get_parent s node
    let s ←
      if parent ≠ 0 then do
        let p ← load s parent
        if p.left = node then modify s parent (fun n => { n with left := 0 })
        else modify s parent (fun n => { n with right := 0 })
      else pure s
    bst_destroy_node s node

/-! ## The tree a memory holds, and the invariants of the specification -/

/-- Node colour: `black` stands for the stored `COLOR_BLACK`, `red` for
`COLOR_RED`. -/
inductive Color where
  | black : Color
  | red : Color
deriving DecidableEq, Repr

/-- The `int` stored in the `color` field for a colour. -/
def Color.code : Color → Int
  | .black => COLOR_BLACK
  | .red => COLOR_RED

/-- A binary tree of nodes; each node carries the address it is stored at,
its colour, key and value. `nil` is a missing child (`NULL`). -/
inductive Tree where
  | nil : Tree
  | node (a : Nat) (c : Color) (k v : Nat) (l r : Tree) : Tree
deriving DecidableEq, Repr

/-- The pointer to a (sub)tree: the address of its top node, `NULL` for `nil`. -/
def Tree.ptr : Tree → Nat
  | .nil => 0
  | .node a _ _ _ _ _ => a

/-- Colour of the top node; a missing child counts as black. -/
def Tree.color : Tree → Color
  | .nil => .black
  | .node _ c _ _ _ _ => c

/-- The tree with the colour of its top node replaced (`nil` stays `nil`). -/
def Tree.setColor : Tree → Color → Tree
  | .nil, _ => .nil
  | .node a _ k v l r, c => .node a c k v l r

/-- Addresses of all nodes. -/
def Tree.addrs : Tree → List Nat
  | .nil => []
  | .node a _ _ _ l r => a :: (l.addrs ++ r.addrs)

/-- In-order sequence of (key, value) pairs. -/
def Tree.inorder : Tree → List (Nat × Nat)
  | .nil => []
  | .node _ _ k v l r => l.inorder ++ (k, v) :: r.inorder

/-- In-order sequence of keys. -/
def Tree.keys (t : Tree) : List Nat := t.inorder.map Prod.fst

/-- Number of nodes. -/
def Tree.size : Tree → Nat
  | .nil => 0
  | .node _ _ _ _ l r => l.size + r.size + 1

/-- The memory `m` holds the subtree `t` below a node at address `par`: every
node of `t` is stored at its address with the recorded key, value and colour,
its `left` and `right` fields point to its subtrees and its `parent` field to
the node above it (`par` for the top node). -/
def RepAt (m : Nat → Option rbtree_node) : Nat → Tree → Prop
  | _, .nil => True
  | par, .node a c k v l r =>
    a ≠ 0 ∧ m a = some ⟨k, v, par, l.ptr, r.ptr, c.code⟩ ∧ RepAt m a l ∧ RepAt m a r

/-- `RepAt` can be checked by looking at the memory. -/
instance RepAt.dec (m : Nat → Option rbtree_node) :
    (par : Nat) → (t : Tree) → Decidable (RepAt m par t)
  | _, .nil => isTrue trivial
  | par, .node a c k v l r =>
    have := RepAt.dec m a l
    have := RepAt.dec m a r
    inferInstanceAs
      (Decidable (a ≠ 0 ∧ m a = some ⟨k, v, par, l.ptr, r.ptr, c.code⟩ ∧ RepAt m a l ∧ RepAt m a r))

/-- The state holds the tree `t` with comparator `cmp`: `tree->root` points to
the top node of `t`, whose parent link is `NULL`, all links are consistent, and
no node occurs twice. -/
def Represents (cmp : Nat → Nat → Int) (s : State) (t : Tree) : Prop :=
  s.cmp = cmp ∧ s.root = t.ptr ∧ RepAt s.mem 0 t ∧ t.addrs.Nodup

/-- Contract of the comparator: a three-way comparison that is a consistent
total order on keys. -/
structure CmpOK (cmp : Nat → Nat → Int) : Prop where
  tri : ∀ a b, cmp a b = NODE_KEY_LESS ∨ cmp a b = NODE_KEY_EQUAL ∨ cmp a b = NODE_KEY_LARGER
  anti : ∀ a b, cmp a b = NODE_KEY_LESS ↔ cmp b a = NODE_KEY_LARGER
  trans : ∀ a b c, cmp a b = NODE_KEY_LESS → cmp b c = NODE_KEY_LESS → cmp a c = NODE_KEY_LESS
  congr : ∀ a b c, cmp a b = NODE_KEY_EQUAL → cmp a c = cmp b c

/-- BST order invariant: at every node, all keys of the left subtree compare
LESS than the node's key and all keys of the right subtree compare GREATER. -/
def BST (cmp : Nat → Nat → Int) : Tree → Prop
  | .nil => True
  | .node _ _ k _ l r =>
    (∀ x ∈ l.keys, cmp x k = NODE_KEY_LESS) ∧ (∀ x ∈ r.keys, cmp x k = NODE_KEY_LARGER) ∧
      BST cmp l ∧ BST cmp r

/-- No-red-red invariant: a red node has no red child. -/
def NoRedRed : Tree → Prop
  | .nil => True
  | .node _ c _ _ l r =>
    (c = .red → l.color = .black ∧ r.color = .black) ∧ NoRedRed l ∧ NoRedRed r

/-- Black-height invariant: every path from the top of the tree to a missing
child passes through exactly `n` black nodes. -/
def BlackHeight : Tree → Nat → Prop
  | .nil, n => n = 0
  | .node _ .red _ _ l r, n => BlackHeight l n ∧ BlackHeight r n
  | .node _ .black _ _ l r, n => ∃ m, n = m + 1 ∧ BlackHeight l m ∧ BlackHeight r m

/-- The three red-black invariants of a whole tree: no red node has a red
parent, all paths from the root to a missing child have the same number of
black nodes, and the root is black. -/
def RB (t : Tree) : Prop :=
  NoRedRed t ∧ (∃ n, BlackHeight t n) ∧ t.color = .black

/-- The key `key` is stored in the tree: some node's key compares EQUAL to it. -/
def Present (cmp : Nat → Nat → Int) (key : Nat) (t : Tree) : Prop :=
  ∃ x ∈ t.keys, cmp key x = NODE_KEY_EQUAL

/-- A list of (key, value) pairs is strictly ascending in comparator order. -/
def Ascending (cmp : Nat → Nat → Int) (l : List (Nat × Nat)) : Prop :=
  l.Pairwise (fun x y => cmp x.1 y.1 = NODE_KEY_LESS)

/-! ## Paths: a tree with a hole -/

/-- One step of a path from a node up to the root: the node above the hole
(address, colour, key, value) and its other subtree.  `L` means the hole is
the left child, `R` that it is the right child. -/
inductive Frame where
  | L (a : Nat) (c : Color) (k v : Nat) (r : Tree) : Frame
  | R (a : Nat) (c : Color) (k v : Nat) (l : Tree) : Frame
deriving DecidableEq, Repr

/-- Put a subtree into the hole of a frame. -/
def Frame.plug : Frame → Tree → Tree
  | .L a c k v r, t => .node a c k v t r
  | .R a c k v l, t => .node a c k v l t

/-- Address of the node of a frame. -/
def Frame.addr : Frame → Nat
  | .L a _ _ _ _ => a
  | .R a _ _ _ _ => a

/-- Colour of the node of a frame. -/
def Frame.color : Frame → Color
  | .L _ c _ _ _ => c
  | .R _ c _ _ _ => c

/-- The other subtree of a frame. -/
def Frame.sib : Frame → Tree
  | .L _ _ _ _ r => r
  | .R _ _ _ _ l => l

/-- Put a subtree into the hole of a path (innermost frame first). -/
def fill : List Frame → Tree → Tree
  | [], t => t
  | f :: rest, t => fill rest (f.plug t)

/-- Address of the node directly above the hole, `NULL` at the root. -/
def parentOf : List Frame → Nat
  | [] => 0
  | f :: _ => f.addr

/-- Addresses of all nodes of a path (the nodes on it and their other subtrees). -/
def pathAddrs : List Frame → List Nat
  | [] => []
  | f :: rest => f.addr :: (f.sib.addrs ++ pathAddrs rest)

/-- Pointer to the top of the tree obtained by filling the path with a tree
whose pointer is `p`. -/
def rootPtr : List Frame → Nat → Nat
  | [], p => p
  | f :: rest, _ => rootPtr rest f.addr

/-- The memory holds the nodes of a path whose hole is filled by a tree with
pointer `p`. -/
def RepCtx (m : Nat → Option rbtree_node) : List Frame → Nat → Prop
  | [], _ => True
  | .L a c k v r :: rest, p =>
    a ≠ 0 ∧ m a = some ⟨k, v, parentOf rest, p, r.ptr, c.code⟩ ∧ RepAt m a r ∧ RepCtx m rest a
  | .R a c k v l :: rest, p =>
    a ≠ 0 ∧ m a = some ⟨k, v, parentOf rest, l.ptr, p, c.code⟩ ∧ RepAt m a l ∧ RepCtx m rest a

/-! ## The loops as functions on paths -/

/-- The root of the tree is black: the outermost node of the path is black. -/
def OuterBlack : List Frame → Prop
  | [] => True
  | [f] => f.color = .black
  | _ :: g :: rest => OuterBlack (g :: rest)

/-- The tree left by the loop of `rbtree_insert_fixup` when it is entered with
the current node on top of the subtree `t` in the hole of `path`.  The four
rotation cases are the four combinations of the two innermost frames. -/
def insFix : List Frame → Tree → Tree
  | .L p .red kp vp ps :: .L g cg kg vg u :: rest, t =>
    match u.color with
    | .red => insFix rest (.node g .red kg vg (.node p .black kp vp t ps) (u.setColor .black))
    | .black => insFix (.R p cg kp vp t :: rest) (.node g .red kg vg ps u)
  | .R p .red kp vp ps :: .L g cg kg vg u :: rest, t =>
    match u.color with
    | .red => insFix rest (.node g .red kg vg (.node p .black kp vp ps t) (u.setColor .black))
    | .black =>
      match t with
      | .node n cn kn vn tl tr =>
        insFix (.R n cg kn vn (.node p .red kp vp ps tl) :: rest) (.node g cn kg vg tr u)
      | .nil => fill (.R p .red kp vp ps :: .L g cg kg vg u :: rest) .nil
  | .L p .red kp vp ps :: .R g cg kg vg u :: rest, t =>
    match u.color with
    | .red => insFix rest (.node g .red kg vg (u.setColor .black) (.node p .black kp vp t ps))
    | .black =>
      match t with
      | .node n cn kn vn tl tr =>
        insFix (.L n cg kn vn (.node p .red kp vp tr ps) :: rest) (.node g cn kg vg u tl)
      | .nil => fill (.L p .red kp vp ps :: .R g cg kg vg u :: rest) .nil
  | .R p .red kp vp ps :: .R g cg kg vg u :: rest, t =>
    match u.color with
    | .red => insFix rest (.node g .red kg vg (u.setColor .black) (.node p .black kp vp ps t))
    | .black => insFix (.L p cg kp vp t :: rest) (.node g .red kg vg u ps)
  | path, t => fill path t
termination_by path => path.length
decreasing_by all_goals simp_wf <;> omega

/-- Descent of `bst_insert` and `bst_search` from the top of `t` below `path`:
the position where the walk stops (an EQUAL node or a missing child). -/
def zoom (cmp : Nat → Nat → Int) (key : Nat) : Tree → List Frame → List Frame × Tree
  | .nil, path => (path, .nil)
  | .node a c k v l r, path =>
    if cmp key k = NODE_KEY_EQUAL then (path, .node a c k v l r)
    else if cmp key k = NODE_KEY_LESS then zoom cmp key l (.L a c k v r :: path)
    else zoom cmp key r (.R a c k v l :: path)

/-- In-order (key, value) pairs of a path that come before the hole. -/
def pathLeft : List Frame → List (Nat × Nat)
  | [] => []
  | .L _ _ _ _ _ :: rest => pathLeft rest
  | .R _ _ k v l :: rest => pathLeft rest ++ (l.inorder ++ [(k, v)])

/-- In-order (key, value) pairs of a path that come after the hole. -/
def pathRight : List Frame → List (Nat × Nat)
  | [] => []
  | .L _ _ k v r :: rest => ((k, v) :: r.inorder) ++ pathRight rest
  | .R _ _ _ _ _ :: rest => pathRight rest

/-- Colour of the node directly above the hole; black at the root. -/
def headColor : List Frame → Color
  | [] => .black
  | f :: _ => f.color

/-- No-red-red invariant of a path: it holds inside every other subtree and
between each node of the path and its parent and its other child.  Nothing is
said about the subtree in the hole. -/
def PathNoRedRed : List Frame → Prop
  | [] => True
  | f :: rest =>
    NoRedRed f.sib ∧ (f.color = .red → f.sib.color = .black ∧ headColor rest = .black) ∧
      PathNoRedRed rest

/-- Black-height invariant of a path whose hole takes a subtree of black
height `n`. -/
def PathBlackHeight : List Frame → Nat → Prop
  | [], _ => True
  | f :: rest, n =>
    BlackHeight f.sib n ∧
      PathBlackHeight rest (match f.color with | .black => n + 1 | .red => n)

end RBTree


namespace RBTree

/-- The BST order invariant can be checked by computation. -/
instance BST.dec (cmp : Nat → Nat → Int) : (t : Tree) → Decidable (BST cmp t)
  | .nil => isTrue trivial
  | .node _ _ k _ l r =>
    have := BST.dec cmp l
    have := BST.dec cmp r
    inferInstanceAs (Decidable ((∀ x ∈ l.keys, cmp x k = NODE_KEY_LESS) ∧
      (∀ x ∈ r.keys, cmp x k = NODE_KEY_LARGER) ∧ BST cmp l ∧ BST cmp r))

/-- The no-red-red invariant can be checked by computation. -/
instance NoRedRed.dec : (t : Tree) → Decidable (NoRedRed t)
  | .nil => isTrue trivial
  | .node _ c _ _ l r =>
    have := NoRedRed.dec l
    have := NoRedRed.dec r
    inferInstanceAs (Decidable ((c = .red → l.color = .black ∧ r.color = .black) ∧
      NoRedRed l ∧ NoRedRed r))

/-- The black-height invariant can be checked by computation. -/
instance BlackHeight.dec : (t : Tree) → (n : Nat) → Decidable (BlackHeight t n)
  | .nil, n => inferInstanceAs (Decidable (n = 0))
  | .node _ .red _ _ l r, n =>
    have := BlackHeight.dec l n
    have := BlackHeight.dec r n
    inferInstanceAs (Decidable (BlackHeight l n ∧ BlackHeight r n))
  | .node _ .black _ _ _ _, 0 => isFalse (fun h => by obtain ⟨m, e, _⟩ := h; cases e)
  | .node _ .black _ _ l r, n + 1 =>
    have := BlackHeight.dec l n
    have := BlackHeight.dec r n
    decidable_of_iff (BlackHeight l n ∧ BlackHeight r n)
      ⟨fun h => ⟨n, rfl, h⟩, fun h => by obtain ⟨m, e, h2⟩ := h; cases e; exact h2⟩

/-- A comparator for examples: keys are compared as numbers. -/
def natCmp (a b : Nat) : Int :=
  if a < b then NODE_KEY_LESS else if a = b then NODE_KEY_EQUAL else NODE_KEY_LARGER

/-- The state after `rbtree_init` with `natCmp` and no node allocated. -/
def emptyState : State :=
  rbtree_init ⟨fun _ => none, 0, fun _ _ => 0⟩ (some natCmp)

/-- A memory holding the listed nodes at the addresses 1, 2, 3, ... -/
def memOf (cells : List rbtree_node) : Nat → Option rbtree_node :=
  fun q => if q = 0 then none else cells.get? (q - 1)

/-- A tree with the single key 10 (value 100), as left by one `rbtree_insert`. -/
def oneState : State :=
  ⟨memOf [⟨10, 100, 0, 0, 0, COLOR_BLACK⟩], 1, natCmp⟩

/-- The tree held by `oneState`. -/
def oneTree : Tree :=
  .node 1 .black 10 100 .nil .nil

/-- A search tree whose root is RED: root 20 with left child 10. -/
def redRootState : State :=
  ⟨memOf [⟨20, 200, 0, 2, 0, COLOR_RED⟩, ⟨10, 100, 1, 0, 0, COLOR_BLACK⟩], 1, natCmp⟩

/-- The tree held by `redRootState`. -/
def redRootTree : Tree :=
  .node 1 .red 20 200 (.node 2 .black 10 100 .nil .nil) .nil

/-- The tree left by `rbtree_insert` of the keys 10, 20, 30, 40 (values 100,
200, 300, 400, nodes allocated at the addresses 1, 2, 3, 4): black root 20,
black children 10 and 30, red 40 below 30. -/
def fourState : State :=
  ⟨memOf [⟨10, 100, 2, 0, 0, COLOR_BLACK⟩, ⟨20, 200, 0, 1, 3, COLOR_BLACK⟩,
    ⟨30, 300, 2, 0, 4, COLOR_BLACK⟩, ⟨40, 400, 3, 0, 0, COLOR_RED⟩], 2, natCmp⟩

/-- The tree held by `fourState`. -/
def fourTree : Tree :=
  .node 2 .black 20 200 (.node 1 .black 10 100 .nil .nil)
    (.node 3 .black 30 300 .nil (.node 4 .red 40 400 .nil .nil))

/-- The tree `fourTree` with the node of key 10 coloured RED. -/
def fourTreeRed : Tree :=
  .node 2 .black 20 200 (.node 1 .red 10 100 .nil .nil)
    (.node 3 .black 30 300 .nil (.node 4 .red 40 400 .nil .nil))

/-- The state in the middle of `rbtree_insert` of the key 10 into the tree with
black root 30 and red left child 20: the red node 10 is linked below 20. -/
def zigLeftState : State :=
  ⟨memOf [⟨10, 100, 2, 0, 0, COLOR_RED⟩, ⟨20, 200, 3, 1, 0, COLOR_RED⟩,
    ⟨30, 300, 0, 2, 0, COLOR_BLACK⟩], 3, natCmp⟩

/-- The state in the middle of `rbtree_insert` of the key 30 into the tree with
black root 10 and red right child 20: the red node 30 is linked below 20. -/
def zigRightState : State :=
  ⟨memOf [⟨10, 100, 0, 0, 2, COLOR_BLACK⟩, ⟨20, 200, 1, 0, 3, COLOR_RED⟩,
    ⟨30, 300, 2, 0, 0, COLOR_RED⟩], 1, natCmp⟩

/-- The state in the middle of `rbtree_insert` of the key 20 into the tree with
black root 10 and red right child 30: the red node 20 is the left child of 30. -/
def zagLeftState : State :=
  ⟨memOf [⟨10, 100, 0, 0, 3, COLOR_BLACK⟩, ⟨20, 200, 3, 0, 0, COLOR_RED⟩,
    ⟨30, 300, 1, 2, 0, COLOR_RED⟩], 1, natCmp⟩

/-- The state in the middle of `rbtree_insert` of the key 20 into the tree with
black root 30 and red left child 10: the red node 20 is the right child of 10. -/
def zagRightState : State :=
  ⟨memOf [⟨10, 100, 3, 0, 2, COLOR_RED⟩, ⟨20, 200, 1, 0, 0, COLOR_RED⟩,
    ⟨30, 300, 0, 1, 0, COLOR_BLACK⟩], 3, natCmp⟩

/-- A red-black tree in which the black leaf 10 has a black sibling 40 whose
only child is the red near niece 30: root 20. -/
def nearLeftState : State :=
  ⟨memOf [⟨10, 100, 2, 0, 0, COLOR_BLACK⟩, ⟨20, 200, 0, 1, 4, COLOR_BLACK⟩,
    ⟨30, 300, 4, 0, 0, COLOR_RED⟩, ⟨40, 400, 2, 3, 0, COLOR_BLACK⟩], 2, natCmp⟩

/-- A red-black tree in which the black leaf 40 has a black sibling 10 whose
only child is the red near niece 20: root 30. -/
def nearRightState : State :=
  ⟨memOf [⟨10, 100, 3, 0, 2, COLOR_BLACK⟩, ⟨20, 200, 1, 0, 0, COLOR_RED⟩,
    ⟨30, 300, 0, 1, 4, COLOR_BLACK⟩, ⟨40, 400, 3, 0, 0, COLOR_BLACK⟩], 3, natCmp⟩

/-- A tree with consistent links and a black root that is not a search tree:
root 10 with the red left child 20. -/
def unorderedState : State :=
  ⟨memOf [⟨10, 100, 0, 2, 0, COLOR_BLACK⟩, ⟨20, 200, 1, 0, 0, COLOR_RED⟩], 1, natCmp⟩

/-- The tree held by `unorderedState`. -/
def unorderedTree : Tree :=
  .node 1 .black 10 100 (.node 2 .red 20 200 .nil .nil) .nil

/-- A caller that inserts the entries of a list one after the other with
`rbtree_insert`; each entry is the address `malloc` returns in that call, the
key and the value. -/
def rbtree_insert_all (fuel : Nat) : State → List (Nat × Nat × Nat) → Res State
  | s, [] => pure s
  | s, (a, key, value) :: rest => do
    let s ← rbtree_insert fuel s a key value
    rbtree_insert_all fuel s rest

end RBTree


namespace RBTree

/-! ## Deletion as functions on paths -/

/-- Key of the top node (0 for `nil`). -/
def Tree.key : Tree → Nat
  | .nil => 0
  | .node _ _ k _ _ _ => k

/-- Value of the top node (0 for `nil`). -/
def Tree.val : Tree → Nat
  | .nil => 0
  | .node _ _ _ v _ _ => v

/-- The subtree on top of which the rightmost node of the tree sits: the node
reached by `while (successor->right != NULL) successor = successor->right`. -/
def Tree.maxNode : Tree → Tree
  | .nil => .nil
  | .node a c k v l .nil => .node a c k v l .nil
  | .node _ _ _ _ _ (.node b cb kb vb lb rb) => (Tree.node b cb kb vb lb rb).maxNode

/-- The frames passed on the way from the top of a tree to its rightmost node,
innermost first, put on top of `acc`. -/
def spineR : Tree → List Frame → List Frame
  | .nil, acc => acc
  | .node _ _ _ _ _ .nil, acc => acc
  | .node a c k v l (.node b cb kb vb lb rb), acc =>
    spineR (.node b cb kb vb lb rb) (.R a c k v l :: acc)

/-- The loop of `bst_delete`, started at the node on top of the subtree in the
hole of the path: as long as the node has a child, the payload of its
successor (the rightmost node of the left subtree if it has two children, its
only child otherwise) is copied into it and the walk goes on from the
successor.  The result is the position of the node the loop ends at. -/
def delReduce : Nat → List Frame → Tree → List Frame × Tree
  | 0, P, t => (P, t)
  | _ + 1, P, .nil => (P, .nil)
  | _ + 1, P, .node x c k v .nil .nil => (P, .node x c k v .nil .nil)
  | n + 1, P, .node x c _ _ (.node a ca ka va la ra) .nil =>
    delReduce n (.L x c ka va .nil :: P) (.node a ca ka va la ra)
  | n + 1, P, .node x c _ _ .nil (.node a ca ka va la ra) =>
    delReduce n (.R x c ka va .nil :: P) (.node a ca ka va la ra)
  | n + 1, P, .node x c _ _ (.node a ca ka va la ra) (.node b cb kb vb lb rb) =>
    delReduce n
      (spineR (.node a ca ka va la ra) [] ++
        (.L x c (Tree.node a ca ka va la ra).maxNode.key (Tree.node a ca ka va la ra).maxNode.val
          (.node b cb kb vb lb rb) :: P))
      (Tree.node a ca ka va la ra).maxNode

/-- The loop of `rbtree_delete_fixup` followed by the final
`set_color(node, COLOR_BLACK)`, started with the current node on top of the
subtree `t` in the hole of `path`; `none` when the budget of passes is used
up.  The result is the whole tree. -/
def delFix : Nat → List Frame → Tree → Option Tree
  | 0, _, _ => none
  | _ + 1, [], t => some (t.setColor .black)
  | n + 1, f :: rest, t =>
    match t.color with
    | .red => some (fill (f :: rest) (t.setColor .black))
    | .black =>
      match f with
      | .L p cp kp vp .nil => delFix n rest (.node p cp kp vp t .nil)
      | .R p cp kp vp .nil => delFix n rest (.node p cp kp vp .nil t)
      | .L p _ kp vp (.node sa .red ks vs sl sr) =>
        delFix n (.L p .red kp vp sl :: .L sa .black ks vs sr :: rest) t
      | .R p _ kp vp (.node sa .red ks vs sl sr) =>
        delFix n (.R p .red kp vp sr :: .R sa .black ks vs sl :: rest) t
      | .L p cp kp vp (.node sa .black ks vs sl sr) =>
        match sr.color with
        | .red => some (fill rest (.node sa cp ks vs (.node p .black kp vp t sl) (sr.setColor .black)))
        | .black =>
          match sl with
          | .node la .red kl vl ll lr =>
            delFix n (.L p cp kp vp (.node la .black kl vl ll (.node sa .red ks vs lr sr)) :: rest) t
          | _ => delFix n rest (.node p cp kp vp t (.node sa .red ks vs sl sr))
      | .R p cp kp vp (.node sa .black ks vs sl sr) =>
        match sl.color with
        | .red => some (fill rest (.node sa cp ks vs (sl.setColor .black) (.node p .black kp vp sr t)))
        | .black =>
          match sr with
          | .node ra .red kr vr rl rr =>
            delFix n (.R p cp kp vp (.node ra .black kr vr (.node sa .red ks vs sl rl) rr) :: rest) t
          | _ => delFix n rest (.node p cp kp vp (.node sa .red ks vs sl sr) t)

/-- Relation between the pointer `r0` that `rbtree_delete_fixup` read from
`tree->root` before its loop and the current position: `r0` is still the root
of the tree and the root is black; or a rotation at the root has moved the
node `r0`, which is now the red parent of the current node; or the current
node is `r0` itself and is red. -/
def RootInv (r0 : Nat) (path : List Frame) (t : Tree) : Prop :=
  (r0 = rootPtr path t.ptr ∧ OuterBlack path) ∨
    (∃ f rest, path = f :: rest ∧ f.addr = r0 ∧ f.color = .red) ∨
    (t.ptr = r0 ∧ t.color = .red)

/-- Weight of a path in the termination measure of the loop of
`rbtree_delete_fixup`: a black node counts 4, a red node 1. -/
def pathWeight : List Frame → Nat
  | [] => 0
  | f :: rest => (match f.color with | .black => 4 | .red => 1) + pathWeight rest

/-- Extra passes the loop of `rbtree_delete_fixup` spends at the current
parent: a red sibling is first rotated away, a red niece first rotated into
the nephew position. -/
def sibBonus : Frame → Nat
  | .L _ _ _ _ (.node _ .red _ _ _ _) => 3
  | .R _ _ _ _ (.node _ .red _ _ _ _) => 3
  | .L _ _ _ _ (.node _ .black _ _ sl sr) =>
    match sr.color, sl.color with
    | .black, .red => 1
    | _, _ => 0
  | .R _ _ _ _ (.node _ .black _ _ sl sr) =>
    match sl.color, sr.color with
    | .black, .red => 1
    | _, _ => 0
  | _ => 0

/-- Termination measure of the loop of `rbtree_delete_fixup`. -/
def delMeasure (path : List Frame) (t : Tree) : Nat :=
  match t.color, path with
  | .red, _ => 0
  | .black, [] => 0
  | .black, f :: rest => sibBonus f + pathWeight (f :: rest)

/-- Relation between the pointer `r0` that `rbtree_delete_fixup` read from
`tree->root` before its loop and the current position, in a tree of any
colouring: `r0` is still the root of the tree; or `r0` is the red parent of the
current node; or the current node is `r0` itself and is red. -/
def RootSeen (r0 : Nat) (path : List Frame) (t : Tree) : Prop :=
  r0 = rootPtr path t.ptr ∨
    (∃ f rest, path = f :: rest ∧ f.addr = r0 ∧ f.color = .red) ∨
    (t.ptr = r0 ∧ t.color = .red)

/-- The links and the colour of a node: its `parent`, `left`, `right` and
`color` fields. -/
def rbtree_node.links (n : rbtree_node) : Nat × Nat × Nat × Int :=
  (n.parent, n.left, n.right, n.color)

/-- The state `s'` differs from `s` at most in the keys and values stored in
the nodes: same root pointer, same comparator, the same addresses hold nodes
and every node has the same `parent`, `left`, `right` and `color`. -/
def SameLinks (s s' : State) : Prop :=
  s'.root = s.root ∧ s'.cmp = s.cmp ∧
    ∀ b, (s'.mem b).map rbtree_node.links = (s.mem b).map rbtree_node.links

/-- The loop of the variant of `rbtree_delete_fixup` that reads `tree->root`
again at each loop test and at the assignment `node = root` of the red-nephew
case, where `rbtree_delete_fixup` uses the value it read before the loop.
Everything else is `rbtree_delete_fixup_loop`. -/
def rbtree_delete_fixup_reread_loop : Nat → State → Nat → Res (State × Nat)
  | 0, _, _ => .timeout
  | fuel + 1, s, node => do
    let go ← if node ≠ s.root then do pure (decide ((← is_red s node) = 0)) else pure false
    if go then do
      let sibling ← get_sibling s node
      let parent ← get_parent s node
      if (← is_red s sibling) ≠ 0 then do
        let s ← set_color s parent COLOR_RED
        let s ← set_color s sibling COLOR_BLACK
        let s ← rot_by_side s node parent
        rbtree_delete_fixup_reread_loop fuel s node
      else do
        let nephew ← get_nephew s node
        let niece ← get_niece s node
        if (← is_red s nephew) ≠ 0 then do
          let pc := (← load s parent).color
          let s ← set_color s sibling pc
          let s ← set_color s parent COLOR_BLACK
          let s ← set_color s nephew COLOR_BLACK
          let s ← rot_by_side s node parent
          rbtree_delete_fixup_reread_loop fuel s s.root
        else if (← is_red s niece) ≠ 0 then do
          let s ← set_color s sibling COLOR_RED
          let s ← set_color s niece COLOR_BLACK
          let s ← if (← is_left s node) ≠ 0 then rotr s sibling 0 else rotl s sibling 0
          rbtree_delete_fixup_reread_loop fuel s node
        else do
          let s ← set_color s sibling COLOR_RED
          rbtree_delete_fixup_reread_loop fuel s parent
    else pure (s, node)

/-- The variant of `rbtree_delete_fixup` that reads `tree->root` again at each
loop test and at the assignment `node = root`. -/
def rbtree_delete_fixup_reread (fuel : Nat) (s : State) (node : Nat) : Res State := do
  let sn ← rbtree_delete_fixup_reread_loop fuel s node
  set_color sn.1 sn.2 COLOR_BLACK

end RBTree


namespace RBTree

/-! ## Results and memory -/

@[simp] theorem Res.pure_eq {α : Type} (a : α) : (pure a : Res α) = Res.ok a := rfl
@[simp] theorem Res.ok_bind {α β : Type} (a : α) (f : α → Res β) : (Res.ok a >>= f) = f a := rfl
@[simp] theorem Res.fault_bind {α β : Type} (f : α → Res β) : (Res.fault >>= f) = Res.fault := rfl
@[simp] theorem Res.timeout_bind {α β : Type} (f : α → Res β) :
    (Res.timeout >>= f) = Res.timeout := rfl

@[simp] theorem store_mem (s : State) (p : Nat) (n : rbtree_node) (q : Nat) :
    (store s p n).mem q = if q = p then some n else s.mem q := rfl
@[simp] theorem store_root (s : State) (p : Nat) (n : rbtree_node) : (store s p n).root = s.root := rfl
@[simp] theorem store_cmp (s : State) (p : Nat) (n : rbtree_node) : (store s p n).cmp = s.cmp := rfl

@[simp] theorem set_root_mem (s : State) (r : Nat) : (set_root s r).mem = s.mem := rfl
@[simp] theorem set_root_root (s : State) (r : Nat) : (set_root s r).root = r := rfl
@[simp] theorem set_root_cmp (s : State) (r : Nat) : (set_root s r).cmp = s.cmp := rfl
@[simp] theorem load_set_root (s : State) (r q : Nat) : load (set_root s r) q = load s q := rfl
@[simp] theorem store_set_root (s : State) (r a : Nat) (n : rbtree_node) :
    store (set_root s r) a n = set_root (store s a n) r := rfl

@[simp] theorem load_store (s : State) (a : Nat) (n : rbtree_node) (q : Nat) :
    load (store s a n) q = if q = a then (if q = 0 then .fault else .ok n) else load s q := by
  unfold load
  by_cases h : q = a <;> by_cases h0 : q = 0 <;> simp [h, h0]

theorem load_of {s : State} {a : Nat} {n : rbtree_node} (ha : a ≠ 0) (h : s.mem a = some n) :
    load s a = .ok n := by
  simp [load, ha, h]

theorem modify_of {s : State} {a : Nat} {n : rbtree_node} (ha : a ≠ 0) (h : s.mem a = some n)
    (f : rbtree_node → rbtree_node) : modify s a f = .ok (store s a (f n)) := by
  simp [modify, load_of ha h]

/-! ## Trees and paths -/

@[simp] theorem Tree.ptr_nil : Tree.nil.ptr = 0 := rfl
@[simp] theorem Tree.ptr_node (a c k v l r) : (Tree.node a c k v l r).ptr = a := rfl
@[simp] theorem Tree.addrs_nil : Tree.nil.addrs = [] := rfl
@[simp] theorem Tree.addrs_node (a c k v l r) :
    (Tree.node a c k v l r).addrs = a :: (l.addrs ++ r.addrs) := rfl
@[simp] theorem Tree.color_nil : Tree.nil.color = .black := rfl
@[simp] theorem Tree.color_node (a c k v l r) : (Tree.node a c k v l r).color = c := rfl
@[simp] theorem Tree.inorder_nil : Tree.nil.inorder = [] := rfl
@[simp] theorem Tree.inorder_node (a c k v l r) :
    (Tree.node a c k v l r).inorder = l.inorder ++ (k, v) :: r.inorder := rfl
@[simp] theorem Tree.setColor_nil (c) : Tree.nil.setColor c = .nil := rfl
@[simp] theorem Tree.setColor_node (a c k v l r c') :
    (Tree.node a c k v l r).setColor c' = .node a c' k v l r := rfl
@[simp] theorem Color.code_black : Color.black.code = 0 := rfl
@[simp] theorem Color.code_red : Color.red.code = 1 := rfl

@[simp] theorem fill_nil (t : Tree) : fill [] t = t := rfl
@[simp] theorem fill_cons (f : Frame) (rest : List Frame) (t : Tree) :
    fill (f :: rest) t = fill rest (f.plug t) := rfl
@[simp] theorem parentOf_nil : parentOf [] = 0 := rfl
@[simp] theorem parentOf_cons (f : Frame) (rest : List Frame) : parentOf (f :: rest) = f.addr := rfl
@[simp] theorem Frame.addr_L (a c k v r) : (Frame.L a c k v r).addr = a := rfl
@[simp] theorem Frame.addr_R (a c k v l) : (Frame.R a c k v l).addr = a := rfl
@[simp] theorem Frame.sib_L (a c k v r) : (Frame.L a c k v r).sib = r := rfl
@[simp] theorem Frame.sib_R (a c k v l) : (Frame.R a c k v l).sib = l := rfl
@[simp] theorem Frame.color_L (a c k v r) : (Frame.L a c k v r).color = c := rfl
@[simp] theorem Frame.color_R (a c k v l) : (Frame.R a c k v l).color = c := rfl
@[simp] theorem Frame.plug_L (a c k v r t) : (Frame.L a c k v r).plug t = .node a c k v t r := rfl
@[simp] theorem Frame.plug_R (a c k v l t) : (Frame.R a c k v l).plug t = .node a c k v l t := rfl
@[simp] theorem pathAddrs_nil : pathAddrs [] = [] := rfl
@[simp] theorem pathAddrs_cons (f : Frame) (rest : List Frame) :
    pathAddrs (f :: rest) = f.addr :: (f.sib.addrs ++ pathAddrs rest) := rfl
@[simp] theorem rootPtr_nil (p : Nat) : rootPtr [] p = p := rfl
@[simp] theorem rootPtr_cons (f : Frame) (rest : List Frame) (p : Nat) :
    rootPtr (f :: rest) p = rootPtr rest f.addr := rfl

theorem Tree.ptr_eq_zero_of_rep {m : Nat → Option rbtree_node} {par : Nat} {t : Tree}
    (h : RepAt m par t) : t.ptr = 0 ↔ t = .nil := by
  cases t with
  | nil => simp
  | node a c k v l r => simp [RepAt] at h; simp [h.1]

theorem Tree.zero_not_mem_addrs {m : Nat → Option rbtree_node} {par : Nat} {t : Tree}
    (h : RepAt m par t) : 0 ∉ t.addrs := by
  induction t generalizing par with
  | nil => simp
  | node a c k v l r ihl ihr =>
    simp only [RepAt] at h
    simp only [Tree.addrs_node, List.mem_cons, List.mem_append, not_or]
    exact ⟨fun e => h.1 e.symm, ihl h.2.2.1, ihr h.2.2.2⟩

theorem Tree.ptr_mem_addrs {t : Tree} (h : t ≠ .nil) : t.ptr ∈ t.addrs := by
  cases t with
  | nil => exact absurd rfl h
  | node a c k v l r => simp

/-- Changing the memory outside the nodes of a subtree does not affect it. -/
theorem RepAt_congr {m m' : Nat → Option rbtree_node} {t : Tree} :
    ∀ {par : Nat}, (∀ a ∈ t.addrs, m' a = m a) → (RepAt m' par t ↔ RepAt m par t) := by
  induction t with
  | nil => intro par _; simp [RepAt]
  | node a c k v l r ihl ihr =>
    intro par h
    simp only [RepAt]
    rw [h a (by simp), ihl (fun x hx => h x (by simp [hx])), ihr (fun x hx => h x (by simp [hx]))]

theorem RepCtx_congr {m m' : Nat → Option rbtree_node} {P : List Frame} :
    ∀ {p : Nat}, (∀ a ∈ pathAddrs P, m' a = m a) → (RepCtx m' P p ↔ RepCtx m P p) := by
  induction P with
  | nil => intro p _; simp [RepCtx]
  | cons f rest ih =>
    intro p h
    cases f with
    | L a c k v r =>
      simp only [RepCtx]
      rw [h a (by simp), RepAt_congr (fun x hx => h x (by simp [hx])),
        ih (fun x hx => h x (by simp [hx]))]
    | R a c k v l =>
      simp only [RepCtx]
      rw [h a (by simp), RepAt_congr (fun x hx => h x (by simp [hx])),
        ih (fun x hx => h x (by simp [hx]))]

/-- The hole pointer of a path only matters in the innermost frame. -/
theorem RepAt_fill {m : Nat → Option rbtree_node} {P : List Frame} :
    ∀ {t : Tree}, RepAt m 0 (fill P t) ↔ RepCtx m P t.ptr ∧ RepAt m (parentOf P) t := by
  induction P with
  | nil => intro t; simp [RepCtx]
  | cons f rest ih =>
    intro t
    cases f with
    | L a c k v r =>
      simp only [fill_cons, Frame.plug_L, ih, RepCtx, RepAt, Tree.ptr_node, parentOf_cons,
        Frame.addr_L]
      tauto
    | R a c k v l =>
      simp only [fill_cons, Frame.plug_R, ih, RepCtx, RepAt, Tree.ptr_node, parentOf_cons,
        Frame.addr_R]
      tauto

theorem addrs_fill {P : List Frame} :
    ∀ {t : Tree}, List.Perm (fill P t).addrs (t.addrs ++ pathAddrs P) := by
  induction P with
  | nil => intro t; simp
  | cons f rest ih =>
    intro t
    refine (ih (t := f.plug t)).trans ?_
    cases f with
    | L a c k v r =>
      simp only [Frame.plug_L, Tree.addrs_node, pathAddrs_cons, Frame.addr_L, Frame.sib_L]
      rw [List.perm_iff_count]
      intro x
      simp [List.count_cons, List.count_append]
      omega
    | R a c k v l =>
      simp only [Frame.plug_R, Tree.addrs_node, pathAddrs_cons, Frame.addr_R, Frame.sib_R]
      rw [List.perm_iff_count]
      intro x
      simp [List.count_cons, List.count_append]
      omega

theorem ptr_fill {P : List Frame} : ∀ {t : Tree}, (fill P t).ptr = rootPtr P t.ptr := by
  induction P with
  | nil => intro t; rfl
  | cons f rest ih =>
    intro t
    cases f <;> simp [ih]

/-- A state holding a tree given as a path filled with a subtree. -/
@[simp] theorem RepAt_store {s : State} {a : Nat} {n : rbtree_node} {par : Nat} {t : Tree}
    (h : a ∉ t.addrs) : RepAt (store s a n).mem par t ↔ RepAt s.mem par t := by
  apply RepAt_congr
  intro b hb
  have : b ≠ a := by rintro rfl; exact h hb
  simp [this]

@[simp] theorem RepCtx_store {s : State} {a : Nat} {n : rbtree_node} {p : Nat} {P : List Frame}
    (h : a ∉ pathAddrs P) : RepCtx (store s a n).mem P p ↔ RepCtx s.mem P p := by
  apply RepCtx_congr
  intro b hb
  have : b ≠ a := by rintro rfl; exact h hb
  simp [this]

theorem rep_fill {cmp : Nat → Nat → Int} {s : State} {P : List Frame} {t : Tree} :
    Represents cmp s (fill P t) ↔
      s.cmp = cmp ∧ s.root = rootPtr P t.ptr ∧ RepCtx s.mem P t.ptr ∧
        RepAt s.mem (parentOf P) t ∧ (t.addrs ++ pathAddrs P).Nodup := by
  unfold Represents
  rw [RepAt_fill, ptr_fill, (addrs_fill (P := P) (t := t)).nodup_iff]
  tauto

theorem OuterBlack.tail2 {f g : Frame} {rest : List Frame} (h : OuterBlack (f :: g :: rest)) :
    OuterBlack rest := by
  cases rest with
  | nil => trivial
  | cons x r => exact h

theorem OuterBlack.cons_of {f g g' : Frame} {rest : List Frame} (h : OuterBlack (f :: g :: rest))
    (hc : g'.color = g.color) : OuterBlack (g' :: rest) := by
  cases rest with
  | nil => simp only [OuterBlack] at h ⊢; rw [hc]; exact h
  | cons x r => exact h


@[simp] theorem zoom_nil (cmp : Nat → Nat → Int) (key : Nat) (P : List Frame) :
    zoom cmp key .nil P = (P, .nil) := rfl

theorem zoom_node (cmp : Nat → Nat → Int) (key : Nat) (P : List Frame)
    (a : Nat) (c : Color) (k v : Nat) (l r : Tree) :
    zoom cmp key (.node a c k v l r) P =
      if cmp key k = 0 then (P, .node a c k v l r)
      else if cmp key k = -1 then zoom cmp key l (.L a c k v r :: P)
      else zoom cmp key r (.R a c k v l :: P) := rfl

theorem fill_zoom (cmp : Nat → Nat → Int) (key : Nat) :
    ∀ (t : Tree) (P : List Frame),
      fill (zoom cmp key t P).1 (zoom cmp key t P).2 = fill P t := by
  intro t
  induction t with
  | nil => intro P; rfl
  | node a c k v l r ihl ihr =>
    intro P
    rw [zoom_node]
    split
    · rfl
    · split
      · rw [ihl]; rfl
      · rw [ihr]; rfl

theorem zoom_length (cmp : Nat → Nat → Int) (key : Nat) :
    ∀ (t : Tree) (P : List Frame),
      (zoom cmp key t P).1.length + (zoom cmp key t P).2.size ≤ P.length + t.size := by
  intro t
  induction t with
  | nil => intro P; simp
  | node a c k v l r ihl ihr =>
    intro P
    rw [zoom_node]
    split
    · exact le_refl _
    · split
      · have := ihl (.L a c k v r :: P)
        simp only [List.length_cons, Tree.size] at this ⊢
        omega
      · have := ihr (.R a c k v l :: P)
        simp only [List.length_cons, Tree.size] at this ⊢
        omega

theorem zoom_outerBlack (cmp : Nat → Nat → Int) (key : Nat) :
    ∀ (t : Tree) (P : List Frame), OuterBlack P → (P = [] → t.color = .black) →
      OuterBlack (zoom cmp key t P).1 := by
  intro t
  induction t with
  | nil => intro P h _; exact h
  | node a c k v l r ihl ihr =>
    intro P h hc
    rw [zoom_node]
    split
    · exact h
    · split
      · apply ihl
        · cases P with
          | nil => simpa [OuterBlack] using hc rfl
          | cons f p => exact h
        · simp
      · apply ihr
        · cases P with
          | nil => simpa [OuterBlack] using hc rfl
          | cons f p => exact h
        · simp


end RBTree


namespace RBTree

@[simp] theorem store_store_same (s : State) (a : Nat) (n n' : rbtree_node) :
    store (store s a n) a n' = store s a n' := by
  unfold store
  congr 1
  funext q
  by_cases h : q = a <;> simp [h]

theorem store_mem_ne {s : State} {a : Nat} {n : rbtree_node} {q : Nat} (h : q ≠ a) :
    (store s a n).mem q = s.mem q := by simp [h]

theorem store_mem_eq {s : State} {a : Nat} {n : rbtree_node} :
    (store s a n).mem a = some n := by simp

theorem load_store_ne {s : State} {a : Nat} {n : rbtree_node} {q : Nat} (h : q ≠ a) :
    load (store s a n) q = load s q := by simp [h]

theorem load_store_eq {s : State} {a : Nat} {n : rbtree_node} (h : a ≠ 0) :
    load (store s a n) a = .ok n := by simp [h]

theorem Tree.ptr_ne {t : Tree} {x : Nat} (hx0 : x ≠ 0) (h : x ∉ t.addrs) : t.ptr ≠ x := by
  cases t with
  | nil => exact fun e => hx0 e.symm
  | node a c k v l r =>
    simp only [Tree.addrs_node, List.mem_cons, not_or] at h
    exact fun e => h.1 e.symm

set_option maxHeartbeats 1000000 in
theorem rotl_spec {cmp : Nat → Nat → Int} {s : State} {P : List Frame}
    {x : Nat} {cx : Color} {kx vx : Nat} {α : Tree} {y : Nat} {cy : Color} {ky vy : Nat}
    {β γ : Tree}
    (h : Represents cmp s (fill P (.node x cx kx vx α (.node y cy ky vy β γ)))) (c : Int) :
    ∃ s', rotl s x c = .ok s' ∧
      Represents cmp s' (fill P (.node y (if c = 0 then cy else cx) ky vy (.node x (if c = 0 then cx else cy) kx vx α β) γ)) := by
  rw [rep_fill] at h
  obtain ⟨h1, h2, h3, h4, h5⟩ := h
  have hnd : ((Tree.node y (if c = 0 then cy else cx) ky vy (.node x (if c = 0 then cx else cy) kx vx α β) γ).addrs ++ pathAddrs P).Nodup := by
    refine (List.Perm.nodup_iff ?_).mp h5
    rw [List.perm_iff_count]
    intro q
    simp [List.count_cons, List.count_append]
    omega
  rcases P with _ | ⟨⟨pa, cp, kp, vp, σ⟩ | ⟨pa, cp, kp, vp, σ⟩, rest⟩ <;>
  rcases β with _ | ⟨b, cb, kb, vb, βl, βr⟩
  all_goals simp only [RepAt, Tree.ptr_node, Tree.ptr_nil] at h4
  all_goals obtain ⟨hx0, hx, h4a, h4b⟩ := h4
  all_goals obtain ⟨hy0, hy, h4c, h4d⟩ := h4b
  all_goals simp only [Tree.addrs_node, List.cons_append, List.nodup_cons, List.mem_append, not_or,
      List.nodup_append, List.mem_cons, List.append_assoc, List.disjoint_cons_left,
      List.disjoint_cons_right, List.disjoint_append_left, List.disjoint_append_right,
      pathAddrs_cons, pathAddrs_nil, Frame.addr_L, Frame.addr_R, Frame.sib_L, Frame.sib_R,
      Tree.addrs_nil, List.not_mem_nil, not_false_eq_true, true_and, and_true,
      List.nodup_nil, List.disjoint_nil_left, List.disjoint_nil_right, List.append_nil] at h5
  all_goals simp only [RepCtx, parentOf_nil, parentOf_cons, Tree.ptr_nil, Tree.ptr_node,
    Frame.addr_L, Frame.addr_R] at h3 h2 hx hy
  all_goals have hlx := load_of hx0 hx
  all_goals have hly := load_of hy0 hy
  all_goals have hxy : x ≠ y := by simp only [h5, ne_eq, not_false_eq_true]
  all_goals have hyx := hxy.symm
  all_goals try obtain ⟨hpa0, hpa, hσ, hrest⟩ := h3
  all_goals try obtain ⟨hb0, hb, hβl, hβr⟩ := h4c
  all_goals try have hlpa := load_of hpa0 hpa
  all_goals try have hlb := load_of hb0 hb
  all_goals try have hxb : x ≠ b := by simp only [h5, ne_eq, not_false_eq_true]
  all_goals try have hxp : x ≠ pa := by simp only [h5, ne_eq, not_false_eq_true]
  all_goals try have hyb : y ≠ b := by simp only [h5, ne_eq, not_false_eq_true]
  all_goals try have hyp : y ≠ pa := by simp only [h5, ne_eq, not_false_eq_true]
  all_goals try have hbp : b ≠ pa := by simp only [h5, ne_eq, not_false_eq_true]
  all_goals try have hbx := hxb.symm
  all_goals try have hpx := hxp.symm
  all_goals try have hby := hyb.symm
  all_goals try have hpy := hyp.symm
  all_goals try have hpb := hbp.symm
  all_goals try have hσx : σ.ptr ≠ x := Tree.ptr_ne hx0 (by simp only [h5, not_false_eq_true])
  all_goals by_cases hc : c = 0
  all_goals simp only [rotl, modify, load_store, *,
          Res.ok_bind, Res.pure_eq, ne_eq, not_true_eq_false, ite_false, ite_true,
          load_set_root, store_set_root, if_false, if_true, not_false_eq_true,
          store_store_same, get_color, set_color,
          Res.ok.injEq, exists_eq_left']
  all_goals rw [rep_fill]
  all_goals refine ⟨by simp [h1], by simp [h2], ?_, ?_, by simpa [hc] using hnd⟩
  all_goals simp [RepCtx, RepAt, *]

set_option maxHeartbeats 1000000 in
theorem rotr_spec {cmp : Nat → Nat → Int} {s : State} {P : List Frame}
    {x : Nat} {cx : Color} {kx vx : Nat} {α : Tree} {y : Nat} {cy : Color} {ky vy : Nat}
    {β γ : Tree}
    (h : Represents cmp s (fill P (.node x cx kx vx (.node y cy ky vy γ β) α))) (c : Int) :
    ∃ s', rotr s x c = .ok s' ∧
      Represents cmp s' (fill P (.node y (if c = 0 then cy else cx) ky vy γ (.node x (if c = 0 then cx else cy) kx vx β α))) := by
  rw [rep_fill] at h
  obtain ⟨h1, h2, h3, h4, h5⟩ := h
  have hnd : ((Tree.node y (if c = 0 then cy else cx) ky vy γ (.node x (if c = 0 then cx else cy) kx vx β α)).addrs ++ pathAddrs P).Nodup := by
    refine (List.Perm.nodup_iff ?_).mp h5
    rw [List.perm_iff_count]
    intro q
    simp [List.count_cons, List.count_append]
    omega
  rcases P with _ | ⟨⟨pa, cp, kp, vp, σ⟩ | ⟨pa, cp, kp, vp, σ⟩, rest⟩ <;>
  rcases β with _ | ⟨b, cb, kb, vb, βl, βr⟩
  all_goals simp only [RepAt, Tree.ptr_node, Tree.ptr_nil] at h4
  all_goals obtain ⟨hx0, hx, h4a, h4b⟩ := h4
  all_goals obtain ⟨hy0, hy, h4c, h4d⟩ := h4a
  all_goals simp only [Tree.addrs_node, List.cons_append, List.nodup_cons, List.mem_append, not_or,
      List.nodup_append, List.mem_cons, List.append_assoc, List.disjoint_cons_left,
      List.disjoint_cons_right, List.disjoint_append_left, List.disjoint_append_right,
      pathAddrs_cons, pathAddrs_nil, Frame.addr_L, Frame.addr_R, Frame.sib_L, Frame.sib_R,
      Tree.addrs_nil, List.not_mem_nil, not_false_eq_true, true_and, and_true,
      List.nodup_nil, List.disjoint_nil_left, List.disjoint_nil_right, List.append_nil] at h5
  all_goals simp only [RepCtx, parentOf_nil, parentOf_cons, Tree.ptr_nil, Tree.ptr_node,
    Frame.addr_L, Frame.addr_R] at h3 h2 hx hy
  all_goals have hlx := load_of hx0 hx
  all_goals have hly := load_of hy0 hy
  all_goals have hxy : x ≠ y := by simp only [h5, ne_eq, not_false_eq_true]
  all_goals have hyx := hxy.symm
  all_goals try obtain ⟨hpa0, hpa, hσ, hrest⟩ := h3
  all_goals try obtain ⟨hb0, hb, hβl, hβr⟩ := h4d
  all_goals try have hlpa := load_of hpa0 hpa
  all_goals try have hlb := load_of hb0 hb
  all_goals try have hxb : x ≠ b := by simp only [h5, ne_eq, not_false_eq_true]
  all_goals try have hxp : x ≠ pa := by simp only [h5, ne_eq, not_false_eq_true]
  all_goals try have hyb : y ≠ b := by simp only [h5, ne_eq, not_false_eq_true]
  all_goals try have hyp : y ≠ pa := by simp only [h5, ne_eq, not_false_eq_true]
  all_goals try have hbp : b ≠ pa := by simp only [h5, ne_eq, not_false_eq_true]
  all_goals try have hbx := hxb.symm
  all_goals try have hpx := hxp.symm
  all_goals try have hby := hyb.symm
  all_goals try have hpy := hyp.symm
  all_goals try have hpb := hbp.symm
  all_goals try have hσx : σ.ptr ≠ x := Tree.ptr_ne hx0 (by simp only [h5, not_false_eq_true])
  all_goals by_cases hc : c = 0
  all_goals simp only [rotr, modify, load_store, *,
          Res.ok_bind, Res.pure_eq, ne_eq, not_true_eq_false, ite_false, ite_true,
          load_set_root, store_set_root, if_false, if_true, not_false_eq_true,
          store_store_same, get_color, set_color,
          Res.ok.injEq, exists_eq_left']
  all_goals rw [rep_fill]
  all_goals refine ⟨by simp [h1], by simp [h2], ?_, ?_, by simpa [hc] using hnd⟩
  all_goals simp [RepCtx, RepAt, *]

/-- The cell of the node on top of the subtree in the hole. -/
theorem rep_load {cmp : Nat → Nat → Int} {s : State} {P : List Frame} {a : Nat} {c : Color}
    {k v : Nat} {l r : Tree} (h : Represents cmp s (fill P (.node a c k v l r))) :
    a ≠ 0 ∧ load s a = .ok ⟨k, v, parentOf P, l.ptr, r.ptr, c.code⟩ := by
  rw [rep_fill] at h
  obtain ⟨_, _, _, h4, _⟩ := h
  simp only [RepAt] at h4
  exact ⟨h4.1, load_of h4.1 h4.2.1⟩

theorem rootPtr_mem : ∀ (p : List Frame) (q : Nat), p ≠ [] → rootPtr p q ∈ pathAddrs p := by
  intro p
  induction p with
  | nil => intro q h; exact absurd rfl h
  | cons g p ih =>
    intro q _
    simp only [rootPtr_cons, pathAddrs_cons]
    cases p with
    | nil => simp
    | cons g2 p2 =>
      have := ih g.addr (by simp)
      exact List.mem_cons_of_mem _ (List.mem_append_right _ this)

/-- The root pointer differs from the pointer to a proper subtree. -/
theorem rep_root_ne {cmp : Nat → Nat → Int} {s : State} {f : Frame} {rest : List Frame} {t : Tree}
    (h : Represents cmp s (fill (f :: rest) t)) (ht : t ≠ .nil) : t.ptr ≠ s.root := by
  rw [rep_fill] at h
  obtain ⟨_, h2, _, _, h5⟩ := h
  rw [h2]
  have h1 := rootPtr_mem (f :: rest) t.ptr (by simp)
  have h3 := Tree.ptr_mem_addrs ht
  intro e
  rw [List.nodup_append] at h5
  exact h5.2.2 h3 (e ▸ h1)

theorem set_color_spec {cmp : Nat → Nat → Int} {s : State} {P : List Frame} {t : Tree}
    (h : Represents cmp s (fill P t)) (c : Color) :
    ∃ s', set_color s t.ptr c.code = .ok s' ∧ Represents cmp s' (fill P (t.setColor c)) := by
  cases t with
  | nil => exact ⟨s, by simp [set_color], h⟩
  | node a c0 k v l r =>
    obtain ⟨ha, hl⟩ := rep_load h
    rw [rep_fill] at h
    obtain ⟨h1, h2, h3, h4, h5⟩ := h
    have hnd : ((Tree.node a c k v l r).addrs ++ pathAddrs P).Nodup := h5
    simp only [Tree.addrs_node, List.cons_append, List.nodup_cons, List.mem_append, not_or] at h5
    simp only [RepAt] at h4
    simp only [set_color, modify, Tree.ptr_node, hl, ha, if_false, Res.ok_bind, Res.pure_eq,
      Res.ok.injEq, exists_eq_left', Tree.setColor_node]
    rw [rep_fill]
    refine ⟨by simp [h1], by simpa using h2, ?_, ?_, hnd⟩
    · simpa [h5] using h3
    · simp [RepAt, h5, h4, ha]

theorem set_color_black_spec {cmp : Nat → Nat → Int} {s : State} {P : List Frame} {t : Tree}
    (h : Represents cmp s (fill P t)) :
    ∃ s', set_color s t.ptr 0 = .ok s' ∧ Represents cmp s' (fill P (t.setColor .black)) :=
  set_color_spec h .black

theorem set_color_red_spec {cmp : Nat → Nat → Int} {s : State} {P : List Frame} {t : Tree}
    (h : Represents cmp s (fill P t)) :
    ∃ s', set_color s t.ptr 1 = .ok s' ∧ Represents cmp s' (fill P (t.setColor .red)) :=
  set_color_spec h .red

theorem is_red_spec {cmp : Nat → Nat → Int} {s : State} {P : List Frame} {t : Tree}
    (h : Represents cmp s (fill P t)) : is_red s t.ptr = .ok t.color.code := by
  cases t with
  | nil => simp [is_red]
  | node a c k v l r =>
    obtain ⟨ha, hl⟩ := rep_load h
    cases c <;> simp [is_red, ha, hl]

end RBTree


namespace RBTree

theorem rep_sib_ptr_ne {cmp : Nat → Nat → Int} {s : State} {f : Frame} {rest : List Frame}
    {t : Tree} (h : Represents cmp s (fill (f :: rest) t)) (ht : t ≠ .nil) : f.sib.ptr ≠ t.ptr := by
  rw [rep_fill] at h
  obtain ⟨_, _, _, h4, h5⟩ := h
  have h0 : t.ptr ≠ 0 := fun e => ht ((Tree.ptr_eq_zero_of_rep h4).mp e)
  apply Tree.ptr_ne h0
  have hm := Tree.ptr_mem_addrs ht
  rw [List.nodup_append] at h5
  intro hc
  exact h5.2.2 hm (by simp [hc])

theorem rep_ptr_ne_parent {cmp : Nat → Nat → Int} {s : State} {f : Frame} {rest : List Frame}
    {t : Tree} (h : Represents cmp s (fill (f :: rest) t)) : t.ptr ≠ f.addr := by
  rw [rep_fill] at h
  obtain ⟨_, _, h3, h4, h5⟩ := h
  cases t with
  | nil =>
    have : f.addr ≠ 0 := by cases f <;> simp only [RepCtx] at h3 <;> exact h3.1
    exact fun e => this e.symm
  | node a c k v l r =>
    simp only [Tree.addrs_node, List.cons_append, List.nodup_cons, List.mem_append, not_or,
      pathAddrs_cons, List.mem_cons] at h5
    exact h5.1.2.1

theorem get_parent_spec {cmp : Nat → Nat → Int} {s : State} {P : List Frame} {a : Nat}
    {c : Color} {k v : Nat} {l r : Tree} (h : Represents cmp s (fill P (.node a c k v l r))) :
    get_parent s a = .ok (parentOf P) := by
  obtain ⟨ha, hl⟩ := rep_load h
  simp [get_parent, ha, hl]

theorem get_color_spec {cmp : Nat → Nat → Int} {s : State} {P : List Frame} {t : Tree}
    (h : Represents cmp s (fill P t)) : get_color s t.ptr = .ok t.color.code := by
  cases t with
  | nil => simp [get_color]
  | node a c k v l r =>
    obtain ⟨ha, hl⟩ := rep_load h
    simp [get_color, ha, hl]

theorem get_grandparent_spec {cmp : Nat → Nat → Int} {s : State} {f : Frame} {rest : List Frame}
    {a : Nat} {c : Color} {k v : Nat} {l r : Tree}
    (h : Represents cmp s (fill (f :: rest) (.node a c k v l r))) :
    get_grandparent s a = .ok (parentOf rest) := by
  have hp := get_parent_spec h
  cases f with
  | L pa pc pk pv pr =>
    obtain ⟨hp0, hn⟩ := rep_load (P := rest)
      (show Represents cmp s (fill rest (.node pa pc pk pv (.node a c k v l r) pr)) from h)
    simp [get_grandparent, hp, hp0, hn]
  | R pa pc pk pv pl =>
    obtain ⟨hp0, hn⟩ := rep_load (P := rest)
      (show Represents cmp s (fill rest (.node pa pc pk pv pl (.node a c k v l r))) from h)
    simp [get_grandparent, hp, hp0, hn]

theorem get_sibling_spec {cmp : Nat → Nat → Int} {s : State} {f : Frame} {rest : List Frame}
    {a : Nat} {c : Color} {k v : Nat} {l r : Tree}
    (h : Represents cmp s (fill (f :: rest) (.node a c k v l r))) :
    get_sibling s a = .ok f.sib.ptr := by
  have hp := get_parent_spec h
  have hne := rep_sib_ptr_ne h (by simp)
  cases f with
  | L pa pc pk pv pr =>
    obtain ⟨hp0, hn⟩ := rep_load (P := rest)
      (show Represents cmp s (fill rest (.node pa pc pk pv (.node a c k v l r) pr)) from h)
    simp [get_sibling, hp, hp0, hn]
  | R pa pc pk pv pl =>
    obtain ⟨hp0, hn⟩ := rep_load (P := rest)
      (show Represents cmp s (fill rest (.node pa pc pk pv pl (.node a c k v l r))) from h)
    simp at hne
    simp [get_sibling, hp, hp0, hn, hne]

theorem get_uncle_spec {cmp : Nat → Nat → Int} {s : State} {f g : Frame} {rest : List Frame}
    {a : Nat} {c : Color} {k v : Nat} {l r : Tree}
    (h : Represents cmp s (fill (f :: g :: rest) (.node a c k v l r))) :
    get_uncle s a = .ok g.sib.ptr := by
  have h' : Represents cmp s (fill (g :: rest) (f.plug (.node a c k v l r))) := h
  have hne := rep_sib_ptr_ne h' (by cases f <;> simp)
  have hpp : (f.plug (.node a c k v l r)).ptr = f.addr := by cases f <;> rfl
  rw [hpp] at hne
  have hp := get_parent_spec h
  have hg := get_grandparent_spec h
  cases g with
  | L ga gc gk gv gr =>
    obtain ⟨hg0, hn⟩ := rep_load (P := rest)
      (show Represents cmp s (fill rest (.node ga gc gk gv (f.plug (.node a c k v l r)) gr)) from h)
    simp [hpp] at hn
    simp [get_uncle, hp, hg, hg0, hn]
  | R ga gc gk gv gl =>
    obtain ⟨hg0, hn⟩ := rep_load (P := rest)
      (show Represents cmp s (fill rest (.node ga gc gk gv gl (f.plug (.node a c k v l r)))) from h)
    simp [hpp] at hn hne
    simp [get_uncle, hp, hg, hg0, hn, hne]

theorem is_left_spec_L {cmp : Nat → Nat → Int} {s : State} {rest : List Frame}
    {pa : Nat} {pc : Color} {pk pv : Nat} {pr : Tree}
    {a : Nat} {c : Color} {k v : Nat} {l r : Tree}
    (h : Represents cmp s (fill (.L pa pc pk pv pr :: rest) (.node a c k v l r))) :
    is_left s a = .ok 1 ∧ is_right s a = .ok 0 := by
  obtain ⟨ha, -⟩ := rep_load h
  have hp := get_parent_spec h
  have hne := rep_sib_ptr_ne h (by simp)
  obtain ⟨hp0, hn⟩ := rep_load (P := rest)
      (show Represents cmp s (fill rest (.node pa pc pk pv (.node a c k v l r) pr)) from h)
  simp at hne hp
  simp [is_left, is_right, hp, hp0, hn, ha, hne]

theorem is_left_spec_R {cmp : Nat → Nat → Int} {s : State} {rest : List Frame}
    {pa : Nat} {pc : Color} {pk pv : Nat} {pl : Tree}
    {a : Nat} {c : Color} {k v : Nat} {l r : Tree}
    (h : Represents cmp s (fill (.R pa pc pk pv pl :: rest) (.node a c k v l r))) :
    is_left s a = .ok 0 ∧ is_right s a = .ok 1 := by
  obtain ⟨ha, -⟩ := rep_load h
  have hp := get_parent_spec h
  have hne := rep_sib_ptr_ne h (by simp)
  obtain ⟨hp0, hn⟩ := rep_load (P := rest)
      (show Represents cmp s (fill rest (.node pa pc pk pv pl (.node a c k v l r))) from h)
  simp at hne hp
  simp [is_left, is_right, hp, hp0, hn, ha, hne]

theorem is_left_spec_root {cmp : Nat → Nat → Int} {s : State}
    {a : Nat} {c : Color} {k v : Nat} {l r : Tree}
    (h : Represents cmp s (fill [] (.node a c k v l r))) :
    is_left s a = .ok 0 ∧ is_right s a = .ok 0 := by
  obtain ⟨ha, -⟩ := rep_load h
  have hp := get_parent_spec h
  simp at hp
  simp [is_left, is_right, hp, ha]

end RBTree


namespace RBTree

theorem insFix_nil (t : Tree) : insFix [] t = t := by
  rw [insFix]
  · rfl
  all_goals simp

theorem insFix_black (f : Frame) (rest : List Frame) (t : Tree) (hf : f.color = .black) :
    insFix (f :: rest) t = fill (f :: rest) t := by
  rw [insFix]
  all_goals intros
  all_goals simp_all

theorem insFix_single (f : Frame) (t : Tree) : insFix [f] t = fill [f] t := by
  rw [insFix]
  all_goals simp

theorem loop_exit_root {cmp : Nat → Nat → Int} {s : State} {t : Tree}
    (h : Represents cmp s (fill [] t)) (fuel : Nat) (par : Nat) :
    rbtree_insert_fixup_loop (fuel + 1) s t.ptr par = .ok s := by
  have : s.root = t.ptr := h.2.1
  simp [rbtree_insert_fixup_loop, this]

theorem loop_exit_black {cmp : Nat → Nat → Int} {s : State} {f : Frame} {rest : List Frame}
    {t : Tree} (h : Represents cmp s (fill (f :: rest) t)) (hf : f.color = .black) (fuel : Nat) :
    rbtree_insert_fixup_loop (fuel + 1) s t.ptr f.addr = .ok s := by
  have h1 := is_red_spec (P := rest) (t := f.plug t) h
  have h2 : (f.plug t).ptr = f.addr := by cases f <;> rfl
  have h3 : (f.plug t).color = f.color := by cases f <;> rfl
  rw [h2, h3, hf] at h1
  simp [rbtree_insert_fixup_loop, h1]

end RBTree


namespace RBTree

/-- One pass of the loop of `rbtree_insert_fixup`: parent red, uncle red. -/
theorem loop_step_LL_red {cmp : Nat → Nat → Int} {s : State} {rest : List Frame}
    {p kp vp : Nat} {ps : Tree} {g : Nat} {cg : Color} {kg vg : Nat} {u : Tree}
    {n : Nat} {cn : Color} {kn vn : Nat} {tl tr : Tree}
    (h : Represents cmp s (fill (.L p .red kp vp ps :: .L g cg kg vg u :: rest)
      (.node n cn kn vn tl tr))) (hu : u.color = .red) (fuel : Nat) :
    ∃ s', rbtree_insert_fixup_loop (fuel + 1) s n p =
        rbtree_insert_fixup_loop fuel s' g (parentOf rest) ∧
      Represents cmp s' (fill rest (.node g .red kg vg (.node p .black kp vp (.node n cn kn vn tl tr) ps) (u.setColor .black))) := by
  have hroot := rep_root_ne h (by simp)
  have hredp := is_red_spec (show Represents cmp s (fill (.L g cg kg vg u :: rest) (.node p .red kp vp (.node n cn kn vn tl tr) ps)) from h)
  have hgp := get_grandparent_spec h
  have hun := get_uncle_spec h
  have hredu := is_red_spec (show Represents cmp s (fill (.R g cg kg vg (.node p .red kp vp (.node n cn kn vn tl tr) ps) :: rest) u) from h)
  obtain ⟨s1, hs1, hr1⟩ := set_color_black_spec (show Represents cmp s (fill (.L g cg kg vg u :: rest) (.node p .red kp vp (.node n cn kn vn tl tr) ps)) from h)
  obtain ⟨s2, hs2, hr2⟩ := set_color_black_spec
    (show Represents cmp s1 (fill (.R g cg kg vg (.node p .black kp vp (.node n cn kn vn tl tr) ps) :: rest) u) from hr1)
  obtain ⟨s3, hs3, hr3⟩ := set_color_red_spec
    (show Represents cmp s2 (fill rest (.node g cg kg vg (.node p .black kp vp (.node n cn kn vn tl tr) ps) (u.setColor .black))) from hr2)
  have hpar := get_parent_spec
    (show Represents cmp s3 (fill rest (.node g .red kg vg (.node p .black kp vp (.node n cn kn vn tl tr) ps) (u.setColor .black))) from hr3)
  refine ⟨s3, ?_, hr3⟩
  simp only [Tree.ptr_node, Tree.color_node, Color.code_red, hu, parentOf_cons, Frame.addr_L,
    Frame.addr_R, Frame.sib_L, Frame.sib_R] at hroot hredp hgp hun hredu hs1 hs2 hs3 hpar
  simp [rbtree_insert_fixup_loop, hroot, hredp, hgp, hun, hredu, hs1, hs2, hs3, hpar]

/-- One pass of the loop of `rbtree_insert_fixup`: parent red, uncle black; the pass
consists of the rotations named last. -/
theorem loop_step_LL_black {cmp : Nat → Nat → Int} {s : State} {rest : List Frame}
    {p kp vp : Nat} {ps : Tree} {g : Nat} {cg : Color} {kg vg : Nat} {u : Tree}
    {n : Nat} {cn : Color} {kn vn : Nat} {tl tr : Tree}
    (h : Represents cmp s (fill (.L p .red kp vp ps :: .L g cg kg vg u :: rest)
      (.node n cn kn vn tl tr))) (hu : u.color = .black) (fuel : Nat) :
    ∃ s', rbtree_insert_fixup_loop (fuel + 1) s n p =
        rbtree_insert_fixup_loop fuel s' g p ∧
      Represents cmp s' (fill (.R p cg kp vp (.node n cn kn vn tl tr) :: rest) (.node g .red kg vg ps u)) ∧
      rotr s g 1 = .ok s' := by
  have hroot := rep_root_ne h (by simp)
  have hredp := is_red_spec (show Represents cmp s (fill (.L g cg kg vg u :: rest) (.node p .red kp vp (.node n cn kn vn tl tr) ps)) from h)
  have hgp := get_grandparent_spec h
  have hun := get_uncle_spec h
  have hredu := is_red_spec (show Represents cmp s (fill (.R g cg kg vg (.node p .red kp vp (.node n cn kn vn tl tr) ps) :: rest) u) from h)
  have hlp := is_left_spec_L (show Represents cmp s (fill (.L g cg kg vg u :: rest) (.node p .red kp vp (.node n cn kn vn tl tr) ps)) from h)
  have hln := is_left_spec_L h
  obtain ⟨s1, hs1, hr1⟩ := rotr_spec
    (show Represents cmp s (fill rest (.node g cg kg vg (.node p .red kp vp (.node n cn kn vn tl tr) ps) u)) from h) 1
  simp only [one_ne_zero, if_false] at hr1
  have hpar := get_parent_spec
    (show Represents cmp s1 (fill (.R p cg kp vp (.node n cn kn vn tl tr) :: rest) (.node g .red kg vg ps u)) from hr1)
  refine ⟨s1, ?_, hr1, hs1⟩
  simp only [Tree.ptr_node, Tree.color_node, Color.code_red, Color.code_black, hu, parentOf_cons,
    Frame.addr_L, Frame.addr_R, Frame.sib_L, Frame.sib_R] at hroot hredp hgp hun hredu hs1 hpar hlp hln
  simp [rbtree_insert_fixup_loop, hroot, hredp, hgp, hun, hredu, hs1, hpar, hlp, hln]

/-- One pass of the loop of `rbtree_insert_fixup`: parent red, uncle red. -/
theorem loop_step_LR_red {cmp : Nat → Nat → Int} {s : State} {rest : List Frame}
    {p kp vp : Nat} {ps : Tree} {g : Nat} {cg : Color} {kg vg : Nat} {u : Tree}
    {n : Nat} {cn : Color} {kn vn : Nat} {tl tr : Tree}
    (h : Represents cmp s (fill (.L p .red kp vp ps :: .R g cg kg vg u :: rest)
      (.node n cn kn vn tl tr))) (hu : u.color = .red) (fuel : Nat) :
    ∃ s', rbtree_insert_fixup_loop (fuel + 1) s n p =
        rbtree_insert_fixup_loop fuel s' g (parentOf rest) ∧
      Represents cmp s' (fill rest (.node g .red kg vg (u.setColor .black) (.node p .black kp vp (.node n cn kn vn tl tr) ps))) := by
  have hroot := rep_root_ne h (by simp)
  have hredp := is_red_spec (show Represents cmp s (fill (.R g cg kg vg u :: rest) (.node p .red kp vp (.node n cn kn vn tl tr) ps)) from h)
  have hgp := get_grandparent_spec h
  have hun := get_uncle_spec h
  have hredu := is_red_spec (show Represents cmp s (fill (.L g cg kg vg (.node p .red kp vp (.node n cn kn vn tl tr) ps) :: rest) u) from h)
  obtain ⟨s1, hs1, hr1⟩ := set_color_black_spec (show Represents cmp s (fill (.R g cg kg vg u :: rest) (.node p .red kp vp (.node n cn kn vn tl tr) ps)) from h)
  obtain ⟨s2, hs2, hr2⟩ := set_color_black_spec
    (show Represents cmp s1 (fill (.L g cg kg vg (.node p .black kp vp (.node n cn kn vn tl tr) ps) :: rest) u) from hr1)
  obtain ⟨s3, hs3, hr3⟩ := set_color_red_spec
    (show Represents cmp s2 (fill rest (.node g cg kg vg (u.setColor .black) (.node p .black kp vp (.node n cn kn vn tl tr) ps))) from hr2)
  have hpar := get_parent_spec
    (show Represents cmp s3 (fill rest (.node g .red kg vg (u.setColor .black) (.node p .black kp vp (.node n cn kn vn tl tr) ps))) from hr3)
  refine ⟨s3, ?_, hr3⟩
  simp only [Tree.ptr_node, Tree.color_node, Color.code_red, hu, parentOf_cons, Frame.addr_L,
    Frame.addr_R, Frame.sib_L, Frame.sib_R] at hroot hredp hgp hun hredu hs1 hs2 hs3 hpar
  simp [rbtree_insert_fixup_loop, hroot, hredp, hgp, hun, hredu, hs1, hs2, hs3, hpar]

/-- One pass of the loop of `rbtree_insert_fixup`: parent red, uncle black; the pass
consists of the rotations named last. -/
theorem loop_step_LR_black {cmp : Nat → Nat → Int} {s : State} {rest : List Frame}
    {p kp vp : Nat} {ps : Tree} {g : Nat} {cg : Color} {kg vg : Nat} {u : Tree}
    {n : Nat} {cn : Color} {kn vn : Nat} {tl tr : Tree}
    (h : Represents cmp s (fill (.L p .red kp vp ps :: .R g cg kg vg u :: rest)
      (.node n cn kn vn tl tr))) (hu : u.color = .black) (fuel : Nat) :
    ∃ s', rbtree_insert_fixup_loop (fuel + 1) s n p =
        rbtree_insert_fixup_loop fuel s' g n ∧
      Represents cmp s' (fill (.L n cg kn vn (.node p .red kp vp tr ps) :: rest) (.node g cn kg vg u tl)) ∧
      ∃ s1, rotr s p 0 = .ok s1 ∧ rotl s1 g 1 = .ok s' := by
  have hroot := rep_root_ne h (by simp)
  have hredp := is_red_spec (show Represents cmp s (fill (.R g cg kg vg u :: rest) (.node p .red kp vp (.node n cn kn vn tl tr) ps)) from h)
  have hgp := get_grandparent_spec h
  have hun := get_uncle_spec h
  have hredu := is_red_spec (show Represents cmp s (fill (.L g cg kg vg (.node p .red kp vp (.node n cn kn vn tl tr) ps) :: rest) u) from h)
  have hlp := is_left_spec_R (show Represents cmp s (fill (.R g cg kg vg u :: rest) (.node p .red kp vp (.node n cn kn vn tl tr) ps)) from h)
  have hln := is_left_spec_L h
  obtain ⟨s1, hs1, hr1⟩ := rotr_spec
    (show Represents cmp s (fill (.R g cg kg vg u :: rest)
      (.node p .red kp vp (.node n cn kn vn tl tr) ps)) from h) 0
  simp only [if_true] at hr1
  obtain ⟨s2, hs2, hr2⟩ := rotl_spec
    (show Represents cmp s1 (fill rest
      (.node g cg kg vg u (.node n cn kn vn tl (.node p .red kp vp tr ps)))) from hr1) 1
  simp only [one_ne_zero, if_false] at hr2
  have hpar := get_parent_spec
    (show Represents cmp s2 (fill (.L n cg kn vn (.node p .red kp vp tr ps) :: rest) (.node g cn kg vg u tl)) from hr2)
  have hrot : ∃ s1, rotr s p 0 = .ok s1 ∧ rotl s1 g 1 = .ok s2 := ⟨s1, hs1, hs2⟩
  refine ⟨s2, ?_, hr2, hrot⟩
  simp only [Tree.ptr_node, Tree.color_node, Color.code_red, Color.code_black, hu, parentOf_cons,
    Frame.addr_L, Frame.addr_R, Frame.sib_L, Frame.sib_R] at hroot hredp hgp hun hredu hs1 hs2 hpar hlp hln
  simp [rbtree_insert_fixup_loop, hroot, hredp, hgp, hun, hredu, hs1, hs2, hpar, hlp, hln]

/-- One pass of the loop of `rbtree_insert_fixup`: parent red, uncle red. -/
theorem loop_step_RL_red {cmp : Nat → Nat → Int} {s : State} {rest : List Frame}
    {p kp vp : Nat} {ps : Tree} {g : Nat} {cg : Color} {kg vg : Nat} {u : Tree}
    {n : Nat} {cn : Color} {kn vn : Nat} {tl tr : Tree}
    (h : Represents cmp s (fill (.R p .red kp vp ps :: .L g cg kg vg u :: rest)
      (.node n cn kn vn tl tr))) (hu : u.color = .red) (fuel : Nat) :
    ∃ s', rbtree_insert_fixup_loop (fuel + 1) s n p =
        rbtree_insert_fixup_loop fuel s' g (parentOf rest) ∧
      Represents cmp s' (fill rest (.node g .red kg vg (.node p .black kp vp ps (.node n cn kn vn tl tr)) (u.setColor .black))) := by
  have hroot := rep_root_ne h (by simp)
  have hredp := is_red_spec (show Represents cmp s (fill (.L g cg kg vg u :: rest) (.node p .red kp vp ps (.node n cn kn vn tl tr))) from h)
  have hgp := get_grandparent_spec h
  have hun := get_uncle_spec h
  have hredu := is_red_spec (show Represents cmp s (fill (.R g cg kg vg (.node p .red kp vp ps (.node n cn kn vn tl tr)) :: rest) u) from h)
  obtain ⟨s1, hs1, hr1⟩ := set_color_black_spec (show Represents cmp s (fill (.L g cg kg vg u :: rest) (.node p .red kp vp ps (.node n cn kn vn tl tr))) from h)
  obtain ⟨s2, hs2, hr2⟩ := set_color_black_spec
    (show Represents cmp s1 (fill (.R g cg kg vg (.node p .black kp vp ps (.node n cn kn vn tl tr)) :: rest) u) from hr1)
  obtain ⟨s3, hs3, hr3⟩ := set_color_red_spec
    (show Represents cmp s2 (fill rest (.node g cg kg vg (.node p .black kp vp ps (.node n cn kn vn tl tr)) (u.setColor .black))) from hr2)
  have hpar := get_parent_spec
    (show Represents cmp s3 (fill rest (.node g .red kg vg (.node p .black kp vp ps (.node n cn kn vn tl tr)) (u.setColor .black))) from hr3)
  refine ⟨s3, ?_, hr3⟩
  simp only [Tree.ptr_node, Tree.color_node, Color.code_red, hu, parentOf_cons, Frame.addr_L,
    Frame.addr_R, Frame.sib_L, Frame.sib_R] at hroot hredp hgp hun hredu hs1 hs2 hs3 hpar
  simp [rbtree_insert_fixup_loop, hroot, hredp, hgp, hun, hredu, hs1, hs2, hs3, hpar]

/-- One pass of the loop of `rbtree_insert_fixup`: parent red, uncle black; the pass
consists of the rotations named last. -/
theorem loop_step_RL_black {cmp : Nat → Nat → Int} {s : State} {rest : List Frame}
    {p kp vp : Nat} {ps : Tree} {g : Nat} {cg : Color} {kg vg : Nat} {u : Tree}
    {n : Nat} {cn : Color} {kn vn : Nat} {tl tr : Tree}
    (h : Represents cmp s (fill (.R p .red kp vp ps :: .L g cg kg vg u :: rest)
      (.node n cn kn vn tl tr))) (hu : u.color = .black) (fuel : Nat) :
    ∃ s', rbtree_insert_fixup_loop (fuel + 1) s n p =
        rbtree_insert_fixup_loop fuel s' g n ∧
      Represents cmp s' (fill (.R n cg kn vn (.node p .red kp vp ps tl) :: rest) (.node g cn kg vg tr u)) ∧
      ∃ s1, rotl s p 0 = .ok s1 ∧ rotr s1 g 1 = .ok s' := by
  have hroot := rep_root_ne h (by simp)
  have hredp := is_red_spec (show Represents cmp s (fill (.L g cg kg vg u :: rest) (.node p .red kp vp ps (.node n cn kn vn tl tr))) from h)
  have hgp := get_grandparent_spec h
  have hun := get_uncle_spec h
  have hredu := is_red_spec (show Represents cmp s (fill (.R g cg kg vg (.node p .red kp vp ps (.node n cn kn vn tl tr)) :: rest) u) from h)
  have hlp := is_left_spec_L (show Represents cmp s (fill (.L g cg kg vg u :: rest) (.node p .red kp vp ps (.node n cn kn vn tl tr))) from h)
  have hln := is_left_spec_R h
  obtain ⟨s1, hs1, hr1⟩ := rotl_spec
    (show Represents cmp s (fill (.L g cg kg vg u :: rest)
      (.node p .red kp vp ps (.node n cn kn vn tl tr))) from h) 0
  simp only [if_true] at hr1
  obtain ⟨s2, hs2, hr2⟩ := rotr_spec
    (show Represents cmp s1 (fill rest
      (.node g cg kg vg (.node n cn kn vn (.node p .red kp vp ps tl) tr) u)) from hr1) 1
  simp only [one_ne_zero, if_false] at hr2
  have hpar := get_parent_spec
    (show Represents cmp s2 (fill (.R n cg kn vn (.node p .red kp vp ps tl) :: rest) (.node g cn kg vg tr u)) from hr2)
  have hrot : ∃ s1, rotl s p 0 = .ok s1 ∧ rotr s1 g 1 = .ok s2 := ⟨s1, hs1, hs2⟩
  refine ⟨s2, ?_, hr2, hrot⟩
  simp only [Tree.ptr_node, Tree.color_node, Color.code_red, Color.code_black, hu, parentOf_cons,
    Frame.addr_L, Frame.addr_R, Frame.sib_L, Frame.sib_R] at hroot hredp hgp hun hredu hs1 hs2 hpar hlp hln
  simp [rbtree_insert_fixup_loop, hroot, hredp, hgp, hun, hredu, hs1, hs2, hpar, hlp, hln]

/-- One pass of the loop of `rbtree_insert_fixup`: parent red, uncle red. -/
theorem loop_step_RR_red {cmp : Nat → Nat → Int} {s : State} {rest : List Frame}
    {p kp vp : Nat} {ps : Tree} {g : Nat} {cg : Color} {kg vg : Nat} {u : Tree}
    {n : Nat} {cn : Color} {kn vn : Nat} {tl tr : Tree}
    (h : Represents cmp s (fill (.R p .red kp vp ps :: .R g cg kg vg u :: rest)
      (.node n cn kn vn tl tr))) (hu : u.color = .red) (fuel : Nat) :
    ∃ s', rbtree_insert_fixup_loop (fuel + 1) s n p =
        rbtree_insert_fixup_loop fuel s' g (parentOf rest) ∧
      Represents cmp s' (fill rest (.node g .red kg vg (u.setColor .black) (.node p .black kp vp ps (.node n cn kn vn tl tr)))) := by
  have hroot := rep_root_ne h (by simp)
  have hredp := is_red_spec (show Represents cmp s (fill (.R g cg kg vg u :: rest) (.node p .red kp vp ps (.node n cn kn vn tl tr))) from h)
  have hgp := get_grandparent_spec h
  have hun := get_uncle_spec h
  have hredu := is_red_spec (show Represents cmp s (fill (.L g cg kg vg (.node p .red kp vp ps (.node n cn kn vn tl tr)) :: rest) u) from h)
  obtain ⟨s1, hs1, hr1⟩ := set_color_black_spec (show Represents cmp s (fill (.R g cg kg vg u :: rest) (.node p .red kp vp ps (.node n cn kn vn tl tr))) from h)
  obtain ⟨s2, hs2, hr2⟩ := set_color_black_spec
    (show Represents cmp s1 (fill (.L g cg kg vg (.node p .black kp vp ps (.node n cn kn vn tl tr)) :: rest) u) from hr1)
  obtain ⟨s3, hs3, hr3⟩ := set_color_red_spec
    (show Represents cmp s2 (fill rest (.node g cg kg vg (u.setColor .black) (.node p .black kp vp ps (.node n cn kn vn tl tr)))) from hr2)
  have hpar := get_parent_spec
    (show Represents cmp s3 (fill rest (.node g .red kg vg (u.setColor .black) (.node p .black kp vp ps (.node n cn kn vn tl tr)))) from hr3)
  refine ⟨s3, ?_, hr3⟩
  simp only [Tree.ptr_node, Tree.color_node, Color.code_red, hu, parentOf_cons, Frame.addr_L,
    Frame.addr_R, Frame.sib_L, Frame.sib_R] at hroot hredp hgp hun hredu hs1 hs2 hs3 hpar
  simp [rbtree_insert_fixup_loop, hroot, hredp, hgp, hun, hredu, hs1, hs2, hs3, hpar]

/-- One pass of the loop of `rbtree_insert_fixup`: parent red, uncle black; the pass
consists of the rotations named last. -/
theorem loop_step_RR_black {cmp : Nat → Nat → Int} {s : State} {rest : List Frame}
    {p kp vp : Nat} {ps : Tree} {g : Nat} {cg : Color} {kg vg : Nat} {u : Tree}
    {n : Nat} {cn : Color} {kn vn : Nat} {tl tr : Tree}
    (h : Represents cmp s (fill (.R p .red kp vp ps :: .R g cg kg vg u :: rest)
      (.node n cn kn vn tl tr))) (hu : u.color = .black) (fuel : Nat) :
    ∃ s', rbtree_insert_fixup_loop (fuel + 1) s n p =
        rbtree_insert_fixup_loop fuel s' g p ∧
      Represents cmp s' (fill (.L p cg kp vp (.node n cn kn vn tl tr) :: rest) (.node g .red kg vg u ps)) ∧
      rotl s g 1 = .ok s' := by
  have hroot := rep_root_ne h (by simp)
  have hredp := is_red_spec (show Represents cmp s (fill (.R g cg kg vg u :: rest) (.node p .red kp vp ps (.node n cn kn vn tl tr))) from h)
  have hgp := get_grandparent_spec h
  have hun := get_uncle_spec h
  have hredu := is_red_spec (show Represents cmp s (fill (.L g cg kg vg (.node p .red kp vp ps (.node n cn kn vn tl tr)) :: rest) u) from h)
  have hlp := is_left_spec_R (show Represents cmp s (fill (.R g cg kg vg u :: rest) (.node p .red kp vp ps (.node n cn kn vn tl tr))) from h)
  have hln := is_left_spec_R h
  obtain ⟨s1, hs1, hr1⟩ := rotl_spec
    (show Represents cmp s (fill rest (.node g cg kg vg u (.node p .red kp vp ps (.node n cn kn vn tl tr)))) from h) 1
  simp only [one_ne_zero, if_false] at hr1
  have hpar := get_parent_spec
    (show Represents cmp s1 (fill (.L p cg kp vp (.node n cn kn vn tl tr) :: rest) (.node g .red kg vg u ps)) from hr1)
  refine ⟨s1, ?_, hr1, hs1⟩
  simp only [Tree.ptr_node, Tree.color_node, Color.code_red, Color.code_black, hu, parentOf_cons,
    Frame.addr_L, Frame.addr_R, Frame.sib_L, Frame.sib_R] at hroot hredp hgp hun hredu hs1 hpar hlp hln
  simp [rbtree_insert_fixup_loop, hroot, hredp, hgp, hun, hredu, hs1, hpar, hlp, hln]

end RBTree


namespace RBTree

/-- The loop of `rbtree_insert_fixup` terminates on a tree with a black root and
leaves the tree `insFix P t`. -/
theorem insert_fixup_loop_spec (cmp : Nat → Nat → Int) :
    ∀ (m : Nat) (P : List Frame) (t : Tree) (s : State), P.length ≤ m → t ≠ .nil →
      OuterBlack P → Represents cmp s (fill P t) → ∀ fuel, m < fuel →
      ∃ s', rbtree_insert_fixup_loop fuel s t.ptr (parentOf P) = .ok s' ∧
        Represents cmp s' (insFix P t) := by
  intro m
  induction m using Nat.strong_induction_on with
  | _ m ih =>
    intro P t s hlen ht hob h fuel hfuel
    obtain ⟨fuel, rfl⟩ : ∃ k, fuel = k + 1 := ⟨fuel - 1, by omega⟩
    match P, hlen, hob, h with
    | [], _, _, h => exact ⟨s, loop_exit_root h fuel _, by rw [insFix_nil]; exact h⟩
    | [f], _, hob, h =>
      exact ⟨s, loop_exit_black h hob fuel, by rw [insFix_single]; exact h⟩
    | f :: g :: rest, hlen, hob, h =>
      simp only [List.length_cons] at hlen
      cases hfc : f.color with
      | black => exact ⟨s, loop_exit_black h hfc fuel, by rw [insFix_black _ _ _ hfc]; exact h⟩
      | red =>
        obtain ⟨n, cn, kn, vn, tl, tr, rfl⟩ : ∃ n cn kn vn tl tr, t = .node n cn kn vn tl tr := by
          cases t with
          | nil => exact absurd rfl ht
          | node n cn kn vn tl tr => exact ⟨_, _, _, _, _, _, rfl⟩
        have hob' : OuterBlack rest := hob.tail2
        rcases f with ⟨p, cp, kp, vp, ps⟩ | ⟨p, cp, kp, vp, ps⟩ <;>
        rcases g with ⟨g, cg, kg, vg, u⟩ | ⟨g, cg, kg, vg, u⟩ <;>
        simp only [Frame.color_L, Frame.color_R] at hfc <;>
        subst hfc <;>
        cases hu : u.color
        · obtain ⟨s1, e1, h1, -⟩ := loop_step_LL_black h hu fuel
          obtain ⟨s', e2, h2⟩ := ih (rest.length + 1) (by omega) (.R p cg kp vp _ :: rest) _ s1
            (by simp) (by simp) (hob.cons_of (by simp)) h1 fuel (by omega)
          exact ⟨s', by simpa [e1] using e2, by rw [insFix, hu]; exact h2⟩
        · obtain ⟨s1, e1, h1⟩ := loop_step_LL_red h hu fuel
          obtain ⟨s', e2, h2⟩ := ih rest.length (by omega) rest _ s1
            (by simp) (by simp) hob' h1 fuel (by omega)
          exact ⟨s', by simpa [e1] using e2, by rw [insFix, hu]; exact h2⟩
        · obtain ⟨s1, e1, h1, -⟩ := loop_step_LR_black h hu fuel
          obtain ⟨s', e2, h2⟩ := ih (rest.length + 1) (by omega) (.L n cg kn vn _ :: rest) _ s1
            (by simp) (by simp) (hob.cons_of (by simp)) h1 fuel (by omega)
          exact ⟨s', by simpa [e1] using e2, by rw [insFix, hu]; exact h2⟩
        · obtain ⟨s1, e1, h1⟩ := loop_step_LR_red h hu fuel
          obtain ⟨s', e2, h2⟩ := ih rest.length (by omega) rest _ s1
            (by simp) (by simp) hob' h1 fuel (by omega)
          exact ⟨s', by simpa [e1] using e2, by rw [insFix, hu]; exact h2⟩
        · obtain ⟨s1, e1, h1, -⟩ := loop_step_RL_black h hu fuel
          obtain ⟨s', e2, h2⟩ := ih (rest.length + 1) (by omega) (.R n cg kn vn _ :: rest) _ s1
            (by simp) (by simp) (hob.cons_of (by simp)) h1 fuel (by omega)
          exact ⟨s', by simpa [e1] using e2, by rw [insFix, hu]; exact h2⟩
        · obtain ⟨s1, e1, h1⟩ := loop_step_RL_red h hu fuel
          obtain ⟨s', e2, h2⟩ := ih rest.length (by omega) rest _ s1
            (by simp) (by simp) hob' h1 fuel (by omega)
          exact ⟨s', by simpa [e1] using e2, by rw [insFix, hu]; exact h2⟩
        · obtain ⟨s1, e1, h1, -⟩ := loop_step_RR_black h hu fuel
          obtain ⟨s', e2, h2⟩ := ih (rest.length + 1) (by omega) (.L p cg kp vp _ :: rest) _ s1
            (by simp) (by simp) (hob.cons_of (by simp)) h1 fuel (by omega)
          exact ⟨s', by simpa [e1] using e2, by rw [insFix, hu]; exact h2⟩
        · obtain ⟨s1, e1, h1⟩ := loop_step_RR_red h hu fuel
          obtain ⟨s', e2, h2⟩ := ih rest.length (by omega) rest _ s1
            (by simp) (by simp) hob' h1 fuel (by omega)
          exact ⟨s', by simpa [e1] using e2, by rw [insFix, hu]; exact h2⟩

end RBTree


namespace RBTree

/-- `rbtree_insert_fixup` on a tree with a black root (or started at the root):
it terminates and leaves the tree `insFix P t` with its root coloured black. -/
theorem rbtree_insert_fixup_spec {cmp : Nat → Nat → Int} {s : State} {P : List Frame}
    {t : Tree} (h : Represents cmp s (fill P t)) (ht : t ≠ .nil) (hob : OuterBlack P)
    (fuel : Nat) (hfuel : P.length < fuel) :
    ∃ s', rbtree_insert_fixup fuel s t.ptr = .ok s' ∧
      Represents cmp s' ((insFix P t).setColor .black) := by
  obtain ⟨n, cn, kn, vn, tl, tr, rfl⟩ : ∃ n cn kn vn tl tr, t = .node n cn kn vn tl tr := by
    cases t with
    | nil => exact absurd rfl ht
    | node n cn kn vn tl tr => exact ⟨_, _, _, _, _, _, rfl⟩
  have hp := get_parent_spec h
  obtain ⟨s1, e1, h1⟩ := insert_fixup_loop_spec cmp P.length P _ s (le_refl _) ht hob h
    fuel hfuel
  obtain ⟨s2, e2, h2⟩ := set_color_black_spec (P := []) (t := insFix P _) h1
  have hroot : s1.root = (insFix P (.node n cn kn vn tl tr)).ptr := h1.2.1
  refine ⟨s2, ?_, h2⟩
  simp only [Tree.ptr_node] at e1
  simp [rbtree_insert_fixup, hp, e1, hroot, e2]

/-- Linking a fresh node as the left child of a node without left child. -/
theorem link_left_spec {cmp : Nat → Nat → Int} {s : State} {P : List Frame}
    {x : Nat} {c : Color} {k v : Nat} {r : Tree} {a key value : Nat}
    (h : Represents cmp s (fill P (.node x c k v .nil r)))
    (ha0 : a ≠ 0) (ha : s.mem a = some ⟨key, value, 0, 0, 0, 0⟩)
    (hfresh : a ∉ (fill P (.node x c k v .nil r)).addrs) :
    ∃ s', (modify s x (fun n => { n with left := a }) >>= fun s1 =>
        modify s1 a (fun n => { n with parent := x })) = .ok s' ∧
      Represents cmp s' (fill P (.node x c k v (.node a .black key value .nil .nil) r)) := by
  obtain ⟨hx0, hlx⟩ := rep_load h
  rw [(addrs_fill (P := P)).mem_iff] at hfresh
  rw [rep_fill] at h
  obtain ⟨h1, h2, h3, h4, h5⟩ := h
  have hnd : ((Tree.node x c k v (.node a .black key value .nil .nil) r).addrs ++
      pathAddrs P).Nodup := by
    simp only [Tree.addrs_node, Tree.addrs_nil, List.nil_append, List.cons_append,
      List.nodup_cons, List.mem_cons, List.mem_append, not_or, List.append_nil] at h5 hfresh ⊢
    exact ⟨⟨fun e => hfresh.1 e.symm, h5.1.1, h5.1.2⟩, ⟨hfresh.2.1, hfresh.2.2⟩, h5.2⟩
  simp only [Tree.addrs_node, Tree.addrs_nil, List.nil_append, List.cons_append,
      List.nodup_cons, List.mem_cons, List.mem_append, not_or] at h5 hfresh
  simp only [RepAt, Tree.ptr_nil] at h4
  have hax : a ≠ x := hfresh.1
  have hxa : x ≠ a := hax.symm
  have hla := load_of ha0 ha
  simp only [modify, hlx, hla, load_store, hax, hxa, ha0, hx0, Res.ok_bind, Res.pure_eq, if_false,
    Res.ok.injEq, exists_eq_left']
  rw [rep_fill]
  refine ⟨by simp [h1], by simpa using h2, ?_, ?_, hnd⟩
  · simpa [h5, hfresh] using h3
  · simp [RepAt, h5, h4, hx0, ha0, hfresh, hax, hxa]

/-- Linking a fresh node as the right child of a node without right child. -/
theorem link_right_spec {cmp : Nat → Nat → Int} {s : State} {P : List Frame}
    {x : Nat} {c : Color} {k v : Nat} {l : Tree} {a key value : Nat}
    (h : Represents cmp s (fill P (.node x c k v l .nil)))
    (ha0 : a ≠ 0) (ha : s.mem a = some ⟨key, value, 0, 0, 0, 0⟩)
    (hfresh : a ∉ (fill P (.node x c k v l .nil)).addrs) :
    ∃ s', (modify s x (fun n => { n with right := a }) >>= fun s1 =>
        modify s1 a (fun n => { n with parent := x })) = .ok s' ∧
      Represents cmp s' (fill P (.node x c k v l (.node a .black key value .nil .nil))) := by
  obtain ⟨hx0, hlx⟩ := rep_load h
  rw [(addrs_fill (P := P)).mem_iff] at hfresh
  rw [rep_fill] at h
  obtain ⟨h1, h2, h3, h4, h5⟩ := h
  have hnd : ((Tree.node x c k v l (.node a .black key value .nil .nil)).addrs ++
      pathAddrs P).Nodup := by
    refine (List.Perm.nodup_iff ?_).mp
      (List.nodup_cons.mpr ⟨(by simpa using hfresh : a ∉ _), h5⟩)
    rw [List.perm_iff_count]
    intro q
    simp [List.count_cons, List.count_append]
    omega
  simp only [Tree.addrs_node, Tree.addrs_nil, List.nil_append, List.cons_append,
      List.nodup_cons, List.mem_cons, List.mem_append, not_or, List.append_nil] at h5 hfresh
  simp only [RepAt, Tree.ptr_nil] at h4
  have hax : a ≠ x := hfresh.1
  have hxa : x ≠ a := hax.symm
  have hla := load_of ha0 ha
  simp only [modify, hlx, hla, load_store, hax, hxa, ha0, hx0, Res.ok_bind, Res.pure_eq, if_false,
    Res.ok.injEq, exists_eq_left']
  rw [rep_fill]
  refine ⟨by simp [h1], by simpa using h2, ?_, ?_, hnd⟩
  · simpa [h5, hfresh] using h3
  · simp [RepAt, h5, h4, hx0, ha0, hfresh, hax, hxa]

end RBTree


namespace RBTree

/-- `bst_search` walks down to the position `zoom` computes. -/
theorem bst_search_loop_spec {cmp : Nat → Nat → Int} {s : State} (key : Nat) :
    ∀ (t : Tree) (P : List Frame), Represents cmp s (fill P t) →
      ∀ fuel, t.size < fuel →
        bst_search_loop s cmp key fuel t.ptr = .ok (zoom cmp key t P).2.ptr := by
  intro t
  induction t with
  | nil =>
    intro P _ fuel hf
    obtain ⟨fuel, rfl⟩ : ∃ k, fuel = k + 1 := ⟨fuel - 1, by omega⟩
    simp [bst_search_loop]
  | node a c k v l r ihl ihr =>
    intro P h fuel hf
    obtain ⟨fuel, rfl⟩ : ∃ k, fuel = k + 1 := ⟨fuel - 1, by omega⟩
    obtain ⟨ha, hl⟩ := rep_load h
    simp only [Tree.size] at hf
    have h1 := ihl (.L a c k v r :: P) h fuel (by omega)
    have h2 := ihr (.R a c k v l :: P) h fuel (by omega)
    rw [zoom_node]
    simp only [bst_search_loop, Tree.ptr_node, ha, if_false, hl, Res.ok_bind, Res.pure_eq]
    split
    · rfl
    · split
      · exact h1
      · exact h2

/-- With any budget `bst_search` either finds the position or runs out of budget. -/
theorem bst_search_loop_any {cmp : Nat → Nat → Int} {s : State} (key : Nat) :
    ∀ (t : Tree) (P : List Frame), Represents cmp s (fill P t) →
      ∀ fuel, bst_search_loop s cmp key fuel t.ptr = .ok (zoom cmp key t P).2.ptr ∨
        bst_search_loop s cmp key fuel t.ptr = .timeout := by
  intro t
  induction t with
  | nil =>
    intro P _ fuel
    cases fuel with
    | zero => right; rfl
    | succ fuel => left; simp [bst_search_loop]
  | node a c k v l r ihl ihr =>
    intro P h fuel
    cases fuel with
    | zero => right; rfl
    | succ fuel =>
      obtain ⟨ha, hl⟩ := rep_load h
      have h1 := ihl (.L a c k v r :: P) h fuel
      have h2 := ihr (.R a c k v l :: P) h fuel
      rw [zoom_node]
      simp only [bst_search_loop, Tree.ptr_node, ha, if_false, hl, Res.ok_bind, Res.pure_eq]
      split
      · left; rfl
      · split
        · exact h1
        · exact h2

/-- The loop of `bst_insert`: the fresh node is linked at the position `zoom`
computes, or the node holding an EQUAL key is returned and nothing changes. -/
theorem bst_insert_loop_spec (cmp : Nat → Nat → Int) (key value a : Nat) (ha0 : a ≠ 0) :
    ∀ (t : Tree) (P : List Frame) (s : State), Represents cmp s (fill P t) → t ≠ .nil →
      s.mem a = some ⟨key, value, 0, 0, 0, 0⟩ → a ∉ (fill P t).addrs →
      ∀ fuel, t.size < fuel →
        ((zoom cmp key t P).2 = .nil →
          ∃ s', bst_insert_loop cmp key a fuel s t.ptr = .ok (s', a) ∧
            Represents cmp s' (fill (zoom cmp key t P).1 (.node a .black key value .nil .nil))) ∧
        ((zoom cmp key t P).2 ≠ .nil →
          bst_insert_loop cmp key a fuel s t.ptr = .ok (s, (zoom cmp key t P).2.ptr)) := by
  intro t
  induction t with
  | nil => intro P s _ ht; exact absurd rfl ht
  | node x c k v l r ihl ihr =>
    intro P s h _ ha hfresh fuel hf
    obtain ⟨fuel, rfl⟩ : ∃ k, fuel = k + 1 := ⟨fuel - 1, by omega⟩
    obtain ⟨hx0, hlx⟩ := rep_load h
    simp only [Tree.size] at hf
    have hrep := (rep_fill.mp h).2.2.2.1
    simp only [RepAt] at hrep
    have hl0 : l.ptr = 0 ↔ l = .nil := Tree.ptr_eq_zero_of_rep hrep.2.2.1
    have hr0 : r.ptr = 0 ↔ r = .nil := Tree.ptr_eq_zero_of_rep hrep.2.2.2
    rw [zoom_node]
    simp only [bst_insert_loop, Tree.ptr_node, hx0, if_false, hlx, Res.ok_bind, Res.pure_eq,
      NODE_KEY_EQUAL, NODE_KEY_LESS]
    by_cases hc0 : cmp key k = 0
    · simp [hc0]
    · by_cases hc1 : cmp key k = -1
      · simp only [if_neg hc0, if_pos hc1]
        by_cases hl : l = .nil
        · subst hl
          obtain ⟨s', e, hr⟩ := link_left_spec h ha0 ha hfresh
          simp only [Tree.ptr_nil, if_true, zoom_nil, forall_const]
          constructor
          · refine ⟨s', ?_, hr⟩
            simp only [bind, Res.bind] at e ⊢
            cases hm : modify s x (fun n => { n with left := a }) with
            | ok s1 =>
              rw [hm] at e
              simp only at e
              simp only [e]
            | fault => rw [hm] at e; cases e
            | timeout => rw [hm] at e; cases e
          · intro hne; exact absurd rfl hne
        · have := ihl (.L x c k v r :: P) s h hl ha hfresh fuel (by omega)
          simp only [hl0, hl, if_false]
          exact this
      · simp only [if_neg hc0, if_neg hc1]
        by_cases hr : r = .nil
        · subst hr
          obtain ⟨s', e, hr⟩ := link_right_spec h ha0 ha hfresh
          simp only [Tree.ptr_nil, if_true, zoom_nil, forall_const]
          constructor
          · refine ⟨s', ?_, hr⟩
            simp only [bind, Res.bind] at e ⊢
            cases hm : modify s x (fun n => { n with right := a }) with
            | ok s1 =>
              rw [hm] at e
              simp only at e
              simp only [e]
            | fault => rw [hm] at e; cases e
            | timeout => rw [hm] at e; cases e
          · intro hne; exact absurd rfl hne
        · have := ihr (.R x c k v l :: P) s h hr ha hfresh fuel (by omega)
          simp only [hr0, hr, if_false]
          exact this

end RBTree


namespace RBTree

theorem RepAt.allocated {m : Nat → Option rbtree_node} {t : Tree} :
    ∀ {par : Nat}, RepAt m par t → ∀ x ∈ t.addrs, m x ≠ none := by
  induction t with
  | nil => intro par _ x hx; simp at hx
  | node a c k v l r ihl ihr =>
    intro par h x hx
    simp only [RepAt] at h
    simp only [Tree.addrs_node, List.mem_cons, List.mem_append] at hx
    rcases hx with rfl | hx | hx
    · rw [h.2.1]; simp
    · exact ihl h.2.2.1 x hx
    · exact ihr h.2.2.2 x hx

theorem Represents.fresh {cmp : Nat → Nat → Int} {s : State} {T : Tree} (h : Represents cmp s T)
    {a : Nat} (ha : s.mem a = none) : a ∉ T.addrs :=
  fun hm => RepAt.allocated h.2.2.1 a hm ha

theorem Represents.store_fresh {cmp : Nat → Nat → Int} {s : State} {T : Tree}
    (h : Represents cmp s T) {a : Nat} (ha : a ∉ T.addrs) (n : rbtree_node) :
    Represents cmp (store s a n) T := by
  obtain ⟨h1, h2, h3, h4⟩ := h
  exact ⟨by simpa using h1, by simpa using h2, (RepAt_store ha).mpr h3, h4⟩

theorem Represents.root_ne_zero {cmp : Nat → Nat → Int} {s : State} {T : Tree}
    (h : Represents cmp s T) (hT : T ≠ .nil) : s.root ≠ 0 := by
  rw [h.2.1]
  exact fun e => hT ((Tree.ptr_eq_zero_of_rep h.2.2.1).mp e)

theorem Represents.root_eq_zero {cmp : Nat → Nat → Int} {s : State}
    (h : Represents cmp s .nil) : s.root = 0 := h.2.1

theorem fill_ne_nil (P : List Frame) {t : Tree} (ht : t ≠ .nil) : fill P t ≠ .nil := by
  induction P generalizing t with
  | nil => exact ht
  | cons f rest ih => exact ih (by cases f <;> simp)

theorem Tree.setColor_ne_nil {t : Tree} (ht : t ≠ .nil) (c : Color) : t.setColor c ≠ .nil := by
  cases t with
  | nil => exact absurd rfl ht
  | node a c0 k v l r => simp

@[simp] theorem Tree.setColor_ptr (t : Tree) (c : Color) : (t.setColor c).ptr = t.ptr := by
  cases t <;> rfl

/-- `rbtree_insert` of a key that is not in the tree, when `malloc` succeeds
and returns an address that is not one of the nodes of the tree: the fresh red
node is put at the position found by the descent, the fixup loop runs and the
root is coloured black. -/
theorem rbtree_insert_new_spec {cmp : Nat → Nat → Int} {s : State} {T : Tree} {a key value : Nat}
    (h : Represents cmp s T) (hroot : T.color = .black) (hk : key ≠ 0) (hv : value ≠ 0)
    (ha0 : a ≠ 0) (hfresh : a ∉ T.addrs) (hz : (zoom cmp key T []).2 = .nil)
    (fuel : Nat) (hfuel : T.size < fuel) :
    ∃ s', rbtree_insert fuel s a key value = .ok s' ∧
      Represents cmp s' ((insFix (zoom cmp key T []).1
        (.node a .red key value .nil .nil)).setColor .black) := by
  have h1 := h.store_fresh hfresh ⟨key, value, 0, 0, 0, 0⟩
  have hcmp : s.cmp = cmp := h.1
  have hlen := zoom_length cmp key T []
  simp only [List.length_nil, zero_add] at hlen
  have hob := zoom_outerBlack cmp key T [] trivial (fun _ => hroot)
  by_cases hT : T = .nil
  · subst hT
    have hr0 := h.root_eq_zero
    have h2 : Represents cmp (set_root (store s a ⟨key, value, 0, 0, 0, 0⟩) a)
        (fill [] (.node a .black key value .nil .nil)) := by
      refine ⟨by simpa using hcmp, by simp, ?_, by simp⟩
      simp [RepAt, ha0]
    obtain ⟨s3, e3, h3⟩ := set_color_red_spec h2
    obtain ⟨s4, e4, h4⟩ := rbtree_insert_fixup_spec (P := []) h3 (by simp) trivial fuel
      (by simp only [List.length_nil]; omega)
    refine ⟨s4, ?_, by simpa using h4⟩
    simp only [Tree.ptr_node, Tree.setColor_node] at e3 e4
    simp [rbtree_insert, hk, hv, bst_insert, bst_create_node, ha0, hr0, e3, e4]
  · have hr0 := h.root_ne_zero hT
    have hrt : s.root = T.ptr := h.2.1
    obtain ⟨e2, -⟩ := bst_insert_loop_spec cmp key value a ha0 T [] _ h1 hT
      (by simp) hfresh fuel hfuel
    obtain ⟨s2, e2, h2⟩ := e2 hz
    have hr2 : s2.root ≠ 0 := h2.root_ne_zero (fill_ne_nil _ (by simp))
    obtain ⟨s3, e3, h3⟩ := set_color_red_spec h2
    obtain ⟨s4, e4, h4⟩ := rbtree_insert_fixup_spec h3 (by simp) hob fuel (by omega)
    refine ⟨s4, ?_, by simpa using h4⟩
    simp only [Tree.ptr_node, Tree.setColor_node] at e3 e4
    rw [← hrt] at e2
    simp [rbtree_insert, hk, hv, bst_insert, bst_create_node, ha0, hr0, hcmp, e2, hr2, e3, e4]

/-- `rbtree_insert` of a key that the descent finds in the tree: the node
holding it is coloured red, the fixup loop runs from it and the root is
coloured black; the fresh node stays unlinked. -/
theorem rbtree_insert_dup_spec {cmp : Nat → Nat → Int} {s : State} {T : Tree} {a key value : Nat}
    (h : Represents cmp s T) (hroot : T.color = .black) (hk : key ≠ 0) (hv : value ≠ 0)
    (ha0 : a ≠ 0) (ha : s.mem a = none) (hz : (zoom cmp key T []).2 ≠ .nil)
    (fuel : Nat) (hfuel : T.size < fuel) :
    ∃ s', rbtree_insert fuel s a key value = .ok s' ∧
      Represents cmp s' ((insFix (zoom cmp key T []).1
        ((zoom cmp key T []).2.setColor .red)).setColor .black) := by
  have hfresh := h.fresh ha
  have h1 := h.store_fresh hfresh ⟨key, value, 0, 0, 0, 0⟩
  have hcmp : s.cmp = cmp := h.1
  have hlen := zoom_length cmp key T []
  simp only [List.length_nil, zero_add] at hlen
  have hob := zoom_outerBlack cmp key T [] trivial (fun _ => hroot)
  have hT : T ≠ .nil := by
    rintro rfl
    exact hz rfl
  have hr0 := h.root_ne_zero hT
  have hrt : s.root = T.ptr := h.2.1
  obtain ⟨-, e2⟩ := bst_insert_loop_spec cmp key value a ha0 T [] _ h1 hT
    (by simp) hfresh fuel hfuel
  specialize e2 hz
  have h2 : Represents cmp (store s a ⟨key, value, 0, 0, 0, 0⟩)
      (fill (zoom cmp key T []).1 (zoom cmp key T []).2) := by
    rw [fill_zoom]; exact h1
  obtain ⟨s3, e3, h3⟩ := set_color_red_spec h2
  obtain ⟨s4, e4, h4⟩ := rbtree_insert_fixup_spec h3 (Tree.setColor_ne_nil hz _) hob fuel
    (by omega)
  refine ⟨s4, ?_, h4⟩
  simp only [Tree.setColor_ptr] at e4
  rw [← hrt] at e2
  simp [rbtree_insert, hk, hv, bst_insert, bst_create_node, ha0, hr0, hcmp, e2, e3, e4]

theorem set_root_self (s : State) : set_root s s.root = s := rfl

theorem Tree.setColor_self {t : Tree} {c : Color} (h : t.color = c) : t.setColor c = t := by
  cases t with
  | nil => rfl
  | node a c0 k v l r => simp only [Tree.color_node] at h; subst h; rfl

/-- `rbtree_insert` when `malloc` fails: nothing is linked and the tree stays
as it is. -/
theorem rbtree_insert_nomem_spec {cmp : Nat → Nat → Int} {s : State} {T : Tree} {key value : Nat}
    (h : Represents cmp s T) (hroot : T.color = .black) (hk : key ≠ 0) (hv : value ≠ 0)
    (fuel : Nat) (hfuel : 0 < fuel) :
    ∃ s', rbtree_insert fuel s 0 key value = .ok s' ∧ Represents cmp s' T := by
  obtain ⟨fuel, rfl⟩ : ∃ k, fuel = k + 1 := ⟨fuel - 1, by omega⟩
  obtain ⟨s1, e1, h1⟩ := set_color_black_spec (P := []) (t := T) h
  rw [fill_nil, Tree.setColor_self hroot] at h1
  have hrt : s.root = T.ptr := h.2.1
  rw [← hrt] at e1
  refine ⟨s1, ?_, h1⟩
  by_cases hr : s.root = 0
  · simp [rbtree_insert, hk, hv, bst_insert, bst_create_node, hr, set_color, rbtree_insert_fixup,
      get_parent, rbtree_insert_fixup_loop, set_root]
    simp [set_color, hr] at e1
    rw [← e1]
    cases s
    simp at hr
    simp [hr]
  · simp [rbtree_insert, hk, hv, bst_insert, bst_create_node, hr, set_color, rbtree_insert_fixup,
      get_parent, rbtree_insert_fixup_loop, is_red, Ne.symm hr]
    simpa [set_color, hr] using e1

end RBTree


namespace RBTree

@[simp] theorem Tree.inorder_setColor (t : Tree) (c : Color) : (t.setColor c).inorder = t.inorder := by
  cases t <;> rfl

theorem inorder_fill (P : List Frame) :
    ∀ t : Tree, (fill P t).inorder = pathLeft P ++ t.inorder ++ pathRight P := by
  induction P with
  | nil => intro t; simp [pathLeft, pathRight]
  | cons f rest ih =>
    intro t
    cases f <;> simp [ih, pathLeft, pathRight]

/-- The fixup loop of the insertion does not change the in-order sequence. -/
theorem insFix_inorder (P : List Frame) (t : Tree) :
    (insFix P t).inorder = (fill P t).inorder := by
  induction P, t using insFix.induct with
  | case11 P t h1 h2 h3 h4 =>
    rw [insFix]
    all_goals assumption
  | case3 p kp vp ps g cg kg vg u rest t hu ih =>
    cases t <;> simp_all [insFix, inorder_fill, pathLeft, pathRight]
  | case6 p kp vp ps g cg kg vg u rest t hu ih =>
    cases t <;> simp_all [insFix, inorder_fill, pathLeft, pathRight]
  | _ =>
    rw [insFix]
    simp_all [inorder_fill, pathLeft, pathRight]

theorem Tree.keys_node (a c k v l r) : (Tree.node a c k v l r).keys = l.keys ++ k :: r.keys := by
  simp [Tree.keys]

@[simp] theorem Tree.keys_nil : Tree.nil.keys = [] := rfl

theorem Tree.mem_keys {t : Tree} {x : Nat} : x ∈ t.keys ↔ ∃ v, (x, v) ∈ t.inorder := by
  simp [Tree.keys]

/-- For a comparator that is a total order, the BST order invariant says that
the in-order sequence is strictly ascending. -/
theorem BST_iff_ascending {cmp : Nat → Nat → Int} (hc : CmpOK cmp) :
    ∀ t : Tree, BST cmp t ↔ Ascending cmp t.inorder := by
  intro t
  induction t with
  | nil => simp [BST, Ascending]
  | node a c k v l r ihl ihr =>
    simp only [BST, ihl, ihr, Ascending, Tree.inorder_node, List.pairwise_append,
      List.pairwise_cons, List.mem_cons, Tree.mem_keys]
    constructor
    · rintro ⟨h1, h2, h3, h4⟩
      refine ⟨h3, ⟨?_, h4⟩, ?_⟩
      · intro y hy
        exact (hc.anti _ _).mpr (h2 y.1 ⟨y.2, hy⟩)
      · intro x hx y hy
        rcases hy with rfl | hy
        · exact h1 x.1 ⟨x.2, hx⟩
        · exact hc.trans _ _ _ (h1 x.1 ⟨x.2, hx⟩) ((hc.anti _ _).mpr (h2 y.1 ⟨y.2, hy⟩))
    · rintro ⟨h3, ⟨h2, h4⟩, h1⟩
      refine ⟨?_, ?_, h3, h4⟩
      · rintro x ⟨w, hx⟩
        exact h1 (x, w) hx (k, v) (Or.inl rfl)
      · rintro x ⟨w, hx⟩
        exact (hc.anti _ _).mp (h2 (x, w) hx)

end RBTree


namespace RBTree

@[simp] theorem headColor_nil : headColor [] = .black := rfl
@[simp] theorem headColor_cons (f : Frame) (rest : List Frame) : headColor (f :: rest) = f.color := rfl
@[simp] theorem Tree.color_setColor_black (t : Tree) : (t.setColor .black).color = .black := by
  cases t <;> rfl

theorem NoRedRed_setBlack {t : Tree} (h : NoRedRed t) : NoRedRed (t.setColor .black) := by
  cases t with
  | nil => exact h
  | node a c k v l r =>
    simp only [NoRedRed, Tree.setColor_node] at h ⊢
    exact ⟨by simp, h.2⟩

theorem BlackHeight_setBlack {t : Tree} {n : Nat} (h : BlackHeight t n) :
    ∃ m, BlackHeight (t.setColor .black) m := by
  cases t with
  | nil => exact ⟨n, h⟩
  | node a c k v l r =>
    cases c with
    | black => exact ⟨n, h⟩
    | red => exact ⟨n + 1, n, rfl, h⟩

theorem BlackHeight_setBlack_red {t : Tree} {n : Nat} (h : BlackHeight t n) (hc : t.color = .red) :
    BlackHeight (t.setColor .black) (n + 1) := by
  cases t with
  | nil => simp at hc
  | node a c k v l r =>
    simp only [Tree.color_node] at hc
    subst hc
    exact ⟨n, rfl, h⟩

/-- Filling a path that satisfies the invariants with a subtree that
satisfies them gives a tree that satisfies them. -/
theorem fill_rb (P : List Frame) :
    ∀ (t : Tree) (n : Nat), NoRedRed t → BlackHeight t n → PathNoRedRed P →
      PathBlackHeight P n → (headColor P = .red → t.color = .black) →
      NoRedRed (fill P t) ∧ ∃ m, BlackHeight (fill P t) m := by
  induction P with
  | nil => intro t n h1 h2 _ _ _; exact ⟨h1, n, h2⟩
  | cons f rest ih =>
    intro t n h1 h2 h3 h4 h5
    simp only [PathNoRedRed, PathBlackHeight, headColor_cons] at h3 h4 h5
    obtain ⟨h3a, h3b, h3c⟩ := h3
    obtain ⟨h4a, h4b⟩ := h4
    rcases f with ⟨a, c, k, v, r⟩ | ⟨a, c, k, v, l⟩ <;> cases c <;>
      simp only [Frame.color_L, Frame.color_R, Frame.sib_L, Frame.sib_R, reduceCtorEq,
        false_implies, true_implies, forall_const] at h3b h4b h5 h3a h4a <;>
      refine ih _ _ ?_ ?_ h3c h4b ?_ <;>
      simp_all [NoRedRed, BlackHeight]

theorem insFix_red_unfold1 (p kp vp ps g cg kg vg u rest t) (h : u.color = .red) :
    insFix (.L p .red kp vp ps :: .L g cg kg vg u :: rest) t =
      insFix rest (.node g .red kg vg (.node p .black kp vp t ps) (u.setColor .black)) := by
  rw [insFix, h]

theorem insFix_red_unfold3 (p kp vp ps g cg kg vg u rest t) (h : u.color = .red) :
    insFix (.R p .red kp vp ps :: .L g cg kg vg u :: rest) t =
      insFix rest (.node g .red kg vg (.node p .black kp vp ps t) (u.setColor .black)) := by
  cases t <;> rw [insFix, h]

theorem insFix_red_unfold6 (p kp vp ps g cg kg vg u rest t) (h : u.color = .red) :
    insFix (.L p .red kp vp ps :: .R g cg kg vg u :: rest) t =
      insFix rest (.node g .red kg vg (u.setColor .black) (.node p .black kp vp t ps)) := by
  cases t <;> rw [insFix, h]

theorem insFix_red_unfold9 (p kp vp ps g cg kg vg u rest t) (h : u.color = .red) :
    insFix (.R p .red kp vp ps :: .R g cg kg vg u :: rest) t =
      insFix rest (.node g .red kg vg (u.setColor .black) (.node p .black kp vp ps t)) := by
  rw [insFix, h]

theorem OuterBlack.single {f : Frame} (h : OuterBlack [f]) : f.color = .black := h

/-- The fixup loop of the insertion, started below a red node whose only
possible violation is a red parent, gives a tree that (once the root is
coloured black) has no red-red pair and equal black counts on all paths. -/
theorem insFix_rb (P : List Frame) (t : Tree) :
    ∀ (n : Nat), NoRedRed t → BlackHeight t n → t.color = .red → PathNoRedRed P →
      PathBlackHeight P n → OuterBlack P →
      NoRedRed ((insFix P t).setColor .black) ∧
        ∃ m, BlackHeight ((insFix P t).setColor .black) m := by
  induction P, t using insFix.induct with
  | case11 P t h1 h2 h3 h4 =>
    intro n ht hb hc hp hq ho
    have e : insFix P t = fill P t := by
      rw [insFix]
      all_goals assumption
    rw [e]
    have key : headColor P = .red → False := by
      intro hr
      match P, hr, ho, hp with
      | [f], hr, ho, _ =>
        have := ho.single
        simp only [headColor_cons] at hr
        rw [hr] at this
        cases this
      | f :: g :: rest, hr, ho, hp =>
        simp only [headColor_cons] at hr
        simp only [PathNoRedRed, headColor_cons] at hp
        obtain ⟨-, hp2, -⟩ := hp
        obtain ⟨-, hg⟩ := hp2 hr
        rcases f with ⟨p, cp, kp, vp, ps⟩ | ⟨p, cp, kp, vp, ps⟩ <;>
        rcases g with ⟨g, cg, kg, vg, u⟩ | ⟨g, cg, kg, vg, u⟩ <;>
        simp only [Frame.color_L, Frame.color_R] at hr <;> subst hr
        · exact h1 _ _ _ _ _ _ _ _ _ _ rfl
        · exact h3 _ _ _ _ _ _ _ _ _ _ rfl
        · exact h2 _ _ _ _ _ _ _ _ _ _ rfl
        · exact h4 _ _ _ _ _ _ _ _ _ _ rfl
    obtain ⟨r1, m, r2⟩ := fill_rb P t n ht hb hp hq (fun hr => (key hr).elim)
    exact ⟨NoRedRed_setBlack r1, BlackHeight_setBlack r2⟩
  | case5 p kp vp ps g cg kg vg u rest hu =>
    intro n ht hb hc
    simp at hc
  | case8 p kp vp ps g cg kg vg u rest hu =>
    intro n ht hb hc
    simp at hc
  | case1 p kp vp ps g cg kg vg u rest t hu ih =>
    intro n ht hb hc hp hq ho
    have e := insFix_red_unfold1 p kp vp ps g cg kg vg u rest t hu
    rw [e]
    simp only [PathNoRedRed, PathBlackHeight, headColor_cons, Frame.color_L, Frame.color_R,
      Frame.sib_L, Frame.sib_R, forall_const] at hp hq
    obtain ⟨hp1, ⟨hp2, hp3⟩, hp4, hp5, hp6⟩ := hp
    obtain ⟨hq1, hq2, hq3⟩ := hq
    subst hp3
    refine ih (n + 1) ?_ ?_ rfl hp6 hq3 ho.tail2
    · simp [NoRedRed, ht, hp1, NoRedRed_setBlack hp4]
    · simp only [BlackHeight]
      exact ⟨⟨n, rfl, hb, hq1⟩, BlackHeight_setBlack_red hq2 hu⟩
  | case2 p kp vp ps g cg kg vg u rest t hu ih =>
    intro n ht hb hc hp hq ho
    rw [insFix, hu]
    simp only [PathNoRedRed, PathBlackHeight, headColor_cons, Frame.color_L, Frame.color_R,
      Frame.sib_L, Frame.sib_R, forall_const] at hp hq
    obtain ⟨hp1, ⟨hp2, hp3⟩, hp4, hp5, hp6⟩ := hp
    obtain ⟨hq1, hq2, hq3⟩ := hq
    subst hp3
    refine ih n ?_ ?_ rfl ?_ ?_ (ho.cons_of (by simp))
    · simp [NoRedRed, hp1, hp4, hp2, hu]
    · simp only [BlackHeight]
      exact ⟨hq1, hq2⟩
    · simp [PathNoRedRed, ht, hp6]
    · simp only [PathBlackHeight, Frame.sib_L, Frame.sib_R, Frame.color_L, Frame.color_R]
      exact ⟨hb, hq3⟩
  | case3 p kp vp ps g cg kg vg u rest t hu ih =>
    intro n ht hb hc hp hq ho
    have e := insFix_red_unfold3 p kp vp ps g cg kg vg u rest t hu
    rw [e]
    simp only [PathNoRedRed, PathBlackHeight, headColor_cons, Frame.color_L, Frame.color_R,
      Frame.sib_L, Frame.sib_R, forall_const] at hp hq
    obtain ⟨hp1, ⟨hp2, hp3⟩, hp4, hp5, hp6⟩ := hp
    obtain ⟨hq1, hq2, hq3⟩ := hq
    subst hp3
    refine ih (n + 1) ?_ ?_ rfl hp6 hq3 ho.tail2
    · simp [NoRedRed, ht, hp1, NoRedRed_setBlack hp4]
    · simp only [BlackHeight]
      exact ⟨⟨n, rfl, hq1, hb⟩, BlackHeight_setBlack_red hq2 hu⟩
  | case4 p kp vp ps g cg kg vg u rest hu n cn kn vn tl tr ih =>
    intro m ht hb hc hp hq ho
    rw [insFix, hu]
    simp only [PathNoRedRed, PathBlackHeight, headColor_cons, Frame.color_L, Frame.color_R,
      Frame.sib_L, Frame.sib_R, forall_const] at hp hq
    obtain ⟨hp1, ⟨hp2, hp3⟩, hp4, hp5, hp6⟩ := hp
    obtain ⟨hq1, hq2, hq3⟩ := hq
    subst hp3
    simp only [Tree.color_node] at hc
    subst hc
    simp only [NoRedRed, BlackHeight, forall_const] at ht hb
    obtain ⟨⟨ht1, ht2⟩, ht3, ht4⟩ := ht
    refine ih m ?_ ?_ rfl ?_ ?_ (ho.cons_of (by simp))
    · simp [NoRedRed, hp4, hu, ht1, ht2, ht3, ht4]
    · simp only [BlackHeight]
      exact ⟨hb.2, hq2⟩
    · simp [PathNoRedRed, NoRedRed, hp6, hp1, hp2, ht1, ht2, ht3, ht4]
    · simp only [PathBlackHeight, Frame.sib_L, Frame.sib_R, Frame.color_L, Frame.color_R,
        BlackHeight]
      exact ⟨⟨hq1, hb.1⟩, hq3⟩
  | case6 p kp vp ps g cg kg vg u rest t hu ih =>
    intro n ht hb hc hp hq ho
    have e := insFix_red_unfold6 p kp vp ps g cg kg vg u rest t hu
    rw [e]
    simp only [PathNoRedRed, PathBlackHeight, headColor_cons, Frame.color_L, Frame.color_R,
      Frame.sib_L, Frame.sib_R, forall_const] at hp hq
    obtain ⟨hp1, ⟨hp2, hp3⟩, hp4, hp5, hp6⟩ := hp
    obtain ⟨hq1, hq2, hq3⟩ := hq
    subst hp3
    refine ih (n + 1) ?_ ?_ rfl hp6 hq3 ho.tail2
    · simp [NoRedRed, ht, hp1, NoRedRed_setBlack hp4]
    · simp only [BlackHeight]
      exact ⟨BlackHeight_setBlack_red hq2 hu, ⟨n, rfl, hb, hq1⟩⟩
  | case7 p kp vp ps g cg kg vg u rest hu n cn kn vn tl tr ih =>
    intro m ht hb hc hp hq ho
    rw [insFix, hu]
    simp only [PathNoRedRed, PathBlackHeight, headColor_cons, Frame.color_L, Frame.color_R,
      Frame.sib_L, Frame.sib_R, forall_const] at hp hq
    obtain ⟨hp1, ⟨hp2, hp3⟩, hp4, hp5, hp6⟩ := hp
    obtain ⟨hq1, hq2, hq3⟩ := hq
    subst hp3
    simp only [Tree.color_node] at hc
    subst hc
    simp only [NoRedRed, BlackHeight, forall_const] at ht hb
    obtain ⟨⟨ht1, ht2⟩, ht3, ht4⟩ := ht
    refine ih m ?_ ?_ rfl ?_ ?_ (ho.cons_of (by simp))
    · simp [NoRedRed, hp4, hu, ht1, ht2, ht3, ht4]
    · simp only [BlackHeight]
      exact ⟨hq2, hb.1⟩
    · simp [PathNoRedRed, NoRedRed, hp6, hp1, hp2, ht1, ht2, ht3, ht4]
    · simp only [PathBlackHeight, Frame.sib_L, Frame.sib_R, Frame.color_L, Frame.color_R,
        BlackHeight]
      exact ⟨⟨hb.2, hq1⟩, hq3⟩
  | case9 p kp vp ps g cg kg vg u rest t hu ih =>
    intro n ht hb hc hp hq ho
    have e := insFix_red_unfold9 p kp vp ps g cg kg vg u rest t hu
    rw [e]
    simp only [PathNoRedRed, PathBlackHeight, headColor_cons, Frame.color_L, Frame.color_R,
      Frame.sib_L, Frame.sib_R, forall_const] at hp hq
    obtain ⟨hp1, ⟨hp2, hp3⟩, hp4, hp5, hp6⟩ := hp
    obtain ⟨hq1, hq2, hq3⟩ := hq
    subst hp3
    refine ih (n + 1) ?_ ?_ rfl hp6 hq3 ho.tail2
    · simp [NoRedRed, ht, hp1, NoRedRed_setBlack hp4]
    · simp only [BlackHeight]
      exact ⟨BlackHeight_setBlack_red hq2 hu, ⟨n, rfl, hq1, hb⟩⟩
  | case10 p kp vp ps g cg kg vg u rest t hu ih =>
    intro n ht hb hc hp hq ho
    rw [insFix, hu]
    simp only [PathNoRedRed, PathBlackHeight, headColor_cons, Frame.color_L, Frame.color_R,
      Frame.sib_L, Frame.sib_R, forall_const] at hp hq
    obtain ⟨hp1, ⟨hp2, hp3⟩, hp4, hp5, hp6⟩ := hp
    obtain ⟨hq1, hq2, hq3⟩ := hq
    subst hp3
    refine ih n ?_ ?_ rfl ?_ ?_ (ho.cons_of (by simp))
    · simp [NoRedRed, hp1, hp4, hp2, hu]
    · simp only [BlackHeight]
      exact ⟨hq2, hq1⟩
    · simp [PathNoRedRed, ht, hp6]
    · simp only [PathBlackHeight, Frame.sib_L, Frame.sib_R, Frame.color_L, Frame.color_R]
      exact ⟨hb, hq3⟩

end RBTree


namespace RBTree

theorem zoom_absent (cmp : Nat → Nat → Int) (key : Nat) :
    ∀ (t : Tree) (P : List Frame), ¬ Present cmp key t → (zoom cmp key t P).2 = .nil := by
  intro t
  induction t with
  | nil => intro P _; rfl
  | node a c k v l r ihl ihr =>
    intro P h
    have hk : ¬ cmp key k = 0 := fun e => h ⟨k, by simp [Tree.keys_node], e⟩
    have hl : ¬ Present cmp key l := fun ⟨x, hx, e⟩ => h ⟨x, by simp [Tree.keys_node, hx], e⟩
    have hr : ¬ Present cmp key r := fun ⟨x, hx, e⟩ => h ⟨x, by simp [Tree.keys_node, hx], e⟩
    rw [zoom_node, if_neg hk]
    split
    · exact ihl _ hl
    · exact ihr _ hr

theorem zoom_found (cmp : Nat → Nat → Int) (key : Nat) :
    ∀ (t : Tree) (P : List Frame) (a : Nat) (c : Color) (k v : Nat) (l r : Tree),
      (zoom cmp key t P).2 = .node a c k v l r → cmp key k = 0 ∧ (k, v) ∈ t.inorder := by
  intro t
  induction t with
  | nil => intro P a c k v l r h; cases h
  | node a0 c0 k0 v0 l0 r0 ihl ihr =>
    intro P a c k v l r h
    rw [zoom_node] at h
    split at h
    · cases h
      rename_i e
      exact ⟨e, by simp⟩
    · split at h
      · obtain ⟨h1, h2⟩ := ihl _ _ _ _ _ _ _ h
        exact ⟨h1, by simp [h2]⟩
      · obtain ⟨h1, h2⟩ := ihr _ _ _ _ _ _ _ h
        exact ⟨h1, by simp [h2]⟩

/-- The descent keeps everything before the hole below the key and everything
after the hole above it. -/
theorem zoom_bounds {cmp : Nat → Nat → Int} (hc : CmpOK cmp) (key : Nat) :
    ∀ (t : Tree) (P : List Frame), BST cmp t →
      (∀ x ∈ pathLeft P, cmp x.1 key = -1) → (∀ x ∈ pathRight P, cmp key x.1 = -1) →
      (∀ x ∈ pathLeft (zoom cmp key t P).1, cmp x.1 key = -1) ∧
        (∀ x ∈ pathRight (zoom cmp key t P).1, cmp key x.1 = -1) := by
  intro t
  induction t with
  | nil => intro P _ h1 h2; exact ⟨h1, h2⟩
  | node a c k v l r ihl ihr =>
    intro P hb h1 h2
    simp only [BST] at hb
    obtain ⟨hb1, hb2, hb3, hb4⟩ := hb
    rw [zoom_node]
    split
    · exact ⟨h1, h2⟩
    · split
      · rename_i hlt
        apply ihl _ hb3
        · simpa [pathLeft] using h1
        · intro x hx
          simp only [pathRight, List.cons_append, List.mem_cons, List.mem_append] at hx
          rcases hx with rfl | hx | hx
          · exact hlt
          · have : cmp x.1 k = 1 := hb2 x.1 (Tree.mem_keys.mpr ⟨x.2, hx⟩)
            exact hc.trans _ _ _ hlt ((hc.anti _ _).mpr this)
          · exact h2 x hx
      · rename_i hne hnl
        have hgt : cmp key k = 1 := by
          rcases hc.tri key k with h | h | h
          · exact absurd h hnl
          · exact absurd h hne
          · exact h
        have hkk : cmp k key = -1 := (hc.anti _ _).mpr hgt
        apply ihr _ hb4
        · intro x hx
          simp only [pathLeft, List.mem_append, List.mem_singleton] at hx
          rcases hx with hx | hx | rfl
          · exact h1 x hx
          · have : cmp x.1 k = -1 := hb1 x.1 (Tree.mem_keys.mpr ⟨x.2, hx⟩)
            exact hc.trans _ _ _ this hkk
          · exact hkk
        · simpa [pathRight] using h2

/-- The descent through a tree satisfying the red-black invariants ends, at a
missing child, with a path that satisfies them around a hole of black height 0. -/
theorem zoom_rb (cmp : Nat → Nat → Int) (key : Nat) :
    ∀ (t : Tree) (P : List Frame) (n : Nat), NoRedRed t → BlackHeight t n →
      PathNoRedRed P → PathBlackHeight P n → (headColor P = .red → t.color = .black) →
      (zoom cmp key t P).2 = .nil →
      PathNoRedRed (zoom cmp key t P).1 ∧ PathBlackHeight (zoom cmp key t P).1 0 := by
  intro t
  induction t with
  | nil =>
    intro P n _ h2 h3 h4 _ _
    simp only [BlackHeight] at h2
    subst h2
    exact ⟨h3, h4⟩
  | node a c k v l r ihl ihr =>
    intro P n h1 h2 h3 h4 h5 hz
    rw [zoom_node] at hz ⊢
    simp only [NoRedRed] at h1
    obtain ⟨h1a, h1b, h1c⟩ := h1
    simp only [Tree.color_node] at h5
    split at hz
    · cases hz
    · rename_i hne
      rw [if_neg hne]
      cases c with
      | black =>
        simp only [BlackHeight] at h2
        obtain ⟨m, rfl, h2a, h2b⟩ := h2
        split at hz
        · rename_i hlt
          rw [if_pos hlt]
          exact ihl _ m h1b h2a (by simp [PathNoRedRed, h1c, h3])
            (by simp [PathBlackHeight, h2b, h4]) (by simp) hz
        · rename_i hlt
          rw [if_neg hlt]
          exact ihr _ m h1c h2b (by simp [PathNoRedRed, h1b, h3])
            (by simp [PathBlackHeight, h2a, h4]) (by simp) hz
      | red =>
        simp only [BlackHeight] at h2
        obtain ⟨h2a, h2b⟩ := h2
        have hhead : headColor P = .black := by
          cases hh : headColor P with
          | black => rfl
          | red => cases h5 hh
        obtain ⟨hl, hr⟩ := h1a rfl
        split at hz
        · rename_i hlt
          rw [if_pos hlt]
          exact ihl _ n h1b h2a (by simp [PathNoRedRed, h1c, h3, hr, hhead])
            (by simp [PathBlackHeight, h2b, h4]) (by simp [hl]) hz
        · rename_i hlt
          rw [if_neg hlt]
          exact ihr _ n h1c h2b (by simp [PathNoRedRed, h1b, h3, hl, hhead])
            (by simp [PathBlackHeight, h2a, h4]) (by simp [hr]) hz

end RBTree


namespace RBTree

theorem natCmp_ok : CmpOK natCmp := by
  refine ⟨?_, ?_, ?_, ?_⟩
  · intro a b
    unfold natCmp
    split
    · exact Or.inl rfl
    · split
      · exact Or.inr (Or.inl rfl)
      · exact Or.inr (Or.inr rfl)
  · intro a b
    unfold natCmp
    constructor
    · intro h
      split at h
      · rw [if_neg (by omega), if_neg (by omega)]
      · split at h <;> simp [NODE_KEY_EQUAL, NODE_KEY_LESS, NODE_KEY_LARGER] at h
    · intro h
      split at h
      · simp [NODE_KEY_EQUAL, NODE_KEY_LESS, NODE_KEY_LARGER] at h
      · split at h
        · simp [NODE_KEY_EQUAL, NODE_KEY_LESS, NODE_KEY_LARGER] at h
        · rw [if_pos (by omega)]
  · intro a b c h1 h2
    unfold natCmp at *
    split at h1
    · split at h2
      · rw [if_pos (by omega)]
      · split at h2 <;> simp [NODE_KEY_EQUAL, NODE_KEY_LESS, NODE_KEY_LARGER] at h2
    · split at h1 <;> simp [NODE_KEY_EQUAL, NODE_KEY_LESS, NODE_KEY_LARGER] at h1
  · intro a b c h
    unfold natCmp at h
    split at h
    · simp [NODE_KEY_EQUAL, NODE_KEY_LESS, NODE_KEY_LARGER] at h
    · split at h
      · rename_i e
        rw [e]
      · simp [NODE_KEY_EQUAL, NODE_KEY_LESS, NODE_KEY_LARGER] at h

theorem mem_addrs_fill {P : List Frame} {t : Tree} {x : Nat} :
    x ∈ (fill P t).addrs ↔ x ∈ t.addrs ∨ x ∈ pathAddrs P := by
  rw [(addrs_fill (P := P) (t := t)).mem_iff, List.mem_append]

@[simp] theorem Tree.addrs_setColor (t : Tree) (c : Color) : (t.setColor c).addrs = t.addrs := by
  cases t <;> rfl

set_option maxHeartbeats 2000000 in
/-- The fixup loop of the insertion moves nodes but keeps their addresses. -/
theorem insFix_mem_addrs (P : List Frame) (t : Tree) (x : Nat) :
    x ∈ (insFix P t).addrs ↔ x ∈ (fill P t).addrs := by
  induction P, t using insFix.induct with
  | case11 P t h1 h2 h3 h4 =>
    rw [insFix]
    all_goals assumption
  | case1 p kp vp ps g cg kg vg u rest t hu ih =>
    rw [insFix_red_unfold1 _ _ _ _ _ _ _ _ _ _ _ hu, ih]
    simp only [mem_addrs_fill, Tree.addrs_node, Tree.addrs_setColor, pathAddrs_cons, Frame.addr_L,
      Frame.addr_R, Frame.sib_L, Frame.sib_R, List.mem_cons, List.mem_append]
    tauto
  | case3 p kp vp ps g cg kg vg u rest t hu ih =>
    rw [insFix_red_unfold3 _ _ _ _ _ _ _ _ _ _ _ hu, ih]
    simp only [mem_addrs_fill, Tree.addrs_node, Tree.addrs_setColor, pathAddrs_cons, Frame.addr_L,
      Frame.addr_R, Frame.sib_L, Frame.sib_R, List.mem_cons, List.mem_append]
    tauto
  | case6 p kp vp ps g cg kg vg u rest t hu ih =>
    rw [insFix_red_unfold6 _ _ _ _ _ _ _ _ _ _ _ hu, ih]
    simp only [mem_addrs_fill, Tree.addrs_node, Tree.addrs_setColor, pathAddrs_cons, Frame.addr_L,
      Frame.addr_R, Frame.sib_L, Frame.sib_R, List.mem_cons, List.mem_append]
    tauto
  | case9 p kp vp ps g cg kg vg u rest t hu ih =>
    rw [insFix_red_unfold9 _ _ _ _ _ _ _ _ _ _ _ hu, ih]
    simp only [mem_addrs_fill, Tree.addrs_node, Tree.addrs_setColor, pathAddrs_cons, Frame.addr_L,
      Frame.addr_R, Frame.sib_L, Frame.sib_R, List.mem_cons, List.mem_append]
    tauto
  | case2 p kp vp ps g cg kg vg u rest t hu ih =>
    rw [insFix, hu]
    simp only []
    rw [ih]
    simp only [mem_addrs_fill, Tree.addrs_node, Tree.addrs_setColor, pathAddrs_cons, Frame.addr_L,
      Frame.addr_R, Frame.sib_L, Frame.sib_R, List.mem_cons, List.mem_append]
    tauto
  | case10 p kp vp ps g cg kg vg u rest t hu ih =>
    rw [insFix, hu]
    simp only []
    rw [ih]
    simp only [mem_addrs_fill, Tree.addrs_node, Tree.addrs_setColor, pathAddrs_cons, Frame.addr_L,
      Frame.addr_R, Frame.sib_L, Frame.sib_R, List.mem_cons, List.mem_append]
    tauto
  | case4 p kp vp ps g cg kg vg u rest hu n cn kn vn tl tr ih =>
    rw [insFix, hu]
    simp only []
    rw [ih]
    simp only [mem_addrs_fill, Tree.addrs_node, Tree.addrs_setColor, pathAddrs_cons, Frame.addr_L,
      Frame.addr_R, Frame.sib_L, Frame.sib_R, List.mem_cons, List.mem_append]
    tauto
  | case7 p kp vp ps g cg kg vg u rest hu n cn kn vn tl tr ih =>
    rw [insFix, hu]
    simp only []
    rw [ih]
    simp only [mem_addrs_fill, Tree.addrs_node, Tree.addrs_setColor, pathAddrs_cons, Frame.addr_L,
      Frame.addr_R, Frame.sib_L, Frame.sib_R, List.mem_cons, List.mem_append]
    tauto
  | case5 p kp vp ps g cg kg vg u rest hu =>
    rw [insFix, hu]
  | case8 p kp vp ps g cg kg vg u rest hu =>
    rw [insFix, hu]

/-- Everything the code does on `rbtree_insert` of a key that is not in the
tree, on a tree with a black root and with `malloc` succeeding. -/
theorem rbtree_insert_new_full {cmp : Nat → Nat → Int} {s : State} {T : Tree} {a key value : Nat}
    (h : Represents cmp s T) (hroot : T.color = .black) (hk : key ≠ 0) (hv : value ≠ 0)
    (ha0 : a ≠ 0) (ha : a ∉ T.addrs) (habs : ¬ Present cmp key T)
    (fuel : Nat) (hfuel : T.size < fuel) :
    ∃ s' T', rbtree_insert fuel s a key value = .ok s' ∧ Represents cmp s' T' ∧
      T'.color = .black ∧
      T.inorder = pathLeft (zoom cmp key T []).1 ++ pathRight (zoom cmp key T []).1 ∧
      T'.inorder = pathLeft (zoom cmp key T []).1 ++ (key, value) :: pathRight (zoom cmp key T []).1 ∧
      (∀ n, NoRedRed T → BlackHeight T n → NoRedRed T' ∧ ∃ m, BlackHeight T' m) ∧
      (∀ x ∈ T'.addrs, x = a ∨ x ∈ T.addrs) := by
  have hz := zoom_absent cmp key T [] habs
  obtain ⟨s', e, hr⟩ := rbtree_insert_new_spec h hroot hk hv ha0 ha hz fuel hfuel
  refine ⟨s', _, e, hr, by simp, ?_, ?_, ?_, ?_⟩
  · have := congrArg Tree.inorder (fill_zoom cmp key T [])
    rw [hz, fill_nil, inorder_fill] at this
    rw [← this]
    simp
  · rw [Tree.inorder_setColor, insFix_inorder, inorder_fill]
    simp
  · intro n h1 h2
    obtain ⟨p1, p2⟩ := zoom_rb cmp key T [] n h1 h2 trivial trivial (by simp) hz
    exact insFix_rb _ _ 0 (by simp [NoRedRed]) (by simp [BlackHeight]) rfl p1 p2
      (zoom_outerBlack cmp key T [] trivial (fun _ => hroot))
  · intro x hx
    rw [Tree.addrs_setColor, insFix_mem_addrs, mem_addrs_fill] at hx
    have hT := congrArg Tree.addrs (fill_zoom cmp key T [])
    rw [hz, fill_nil] at hT
    rcases hx with hx | hx
    · simp only [Tree.addrs_node, Tree.addrs_nil, List.append_nil, List.mem_singleton] at hx
      exact Or.inl hx
    · right
      rw [← hT, mem_addrs_fill]
      exact Or.inr hx

/-- C1: for every tree satisfying the red-black invariants (no red node has a
red parent, every path from the root to a missing child has the same number of
black nodes, the root is black), every non-NULL key that is not in the tree and
every non-NULL value, `rbtree_insert` returns (given enough loop budget, and
whether or not `malloc` succeeds) and the tree then satisfies the three
invariants again. -/
theorem rbtree_insert_preserves_red_black (cmp : Nat → Nat → Int) (s : State) (T : Tree)
    (a key value : Nat) (hrep : Represents cmp s T) (hrb : RB T) (hkey : key ≠ 0)
    (hval : value ≠ 0) (habs : ¬ Present cmp key T) (halloc : a = 0 ∨ s.mem a = none) :
    ∃ n, ∀ fuel, n ≤ fuel →
      ∃ s' T', rbtree_insert fuel s a key value = .ok s' ∧ Represents cmp s' T' ∧ RB T' := by
  refine ⟨T.size + 1, fun fuel hfuel => ?_⟩
  obtain ⟨h1, ⟨n, h2⟩, h3⟩ := hrb
  by_cases ha0 : a = 0
  · subst ha0
    obtain ⟨s', e, hr⟩ := rbtree_insert_nomem_spec hrep h3 hkey hval fuel (by omega)
    exact ⟨s', T, e, hr, h1, ⟨n, h2⟩, h3⟩
  · have ha : s.mem a = none := halloc.resolve_left ha0
    obtain ⟨s', T', e, hr, hc, -, -, hinv, -⟩ :=
      rbtree_insert_new_full hrep h3 hkey hval ha0 (hrep.fresh ha) habs fuel (by omega)
    obtain ⟨r1, r2⟩ := hinv n h1 h2
    exact ⟨s', T', e, hr, r1, r2, hc⟩

theorem rbtree_insert_preserves_red_black_witness :
    ∃ n, ∀ fuel, n ≤ fuel →
      ∃ s' T', rbtree_insert fuel emptyState 1 5 7 = .ok s' ∧ Represents natCmp s' T' ∧ RB T' :=
  rbtree_insert_preserves_red_black natCmp emptyState .nil 1 5 7
    ⟨rfl, rfl, trivial, List.nodup_nil⟩ ⟨trivial, ⟨0, rfl⟩, rfl⟩ (by decide) (by decide)
    (by rintro ⟨x, hx, -⟩; simp at hx) (Or.inr rfl)

/-- Inserting, with `malloc` succeeding, a non-NULL key `key` that is not
in the tree with value `value` into a tree satisfying the BST order and
red-black invariants returns (given enough loop budget) and gives a tree whose
in-order (key, value) sequence is the old one with `(key, value)` added at its
sorted position: everything before it compares LESS than `key`, everything
after it GREATER, and the new sequence is strictly ascending, so the BST order
invariant holds again. -/
theorem rbtree_insert_step_inorder (cmp : Nat → Nat → Int) (s : State) (T : Tree)
    (a key value : Nat) (hcmp : CmpOK cmp) (hrep : Represents cmp s T) (hbst : BST cmp T)
    (hrb : RB T) (hkey : key ≠ 0) (hval : value ≠ 0) (habs : ¬ Present cmp key T)
    (ha0 : a ≠ 0) (ha : s.mem a = none) :
    ∃ n, ∀ fuel, n ≤ fuel →
      ∃ s' T', rbtree_insert fuel s a key value = .ok s' ∧ Represents cmp s' T' ∧
        (∃ l1 l2, T.inorder = l1 ++ l2 ∧ T'.inorder = l1 ++ (key, value) :: l2 ∧
          (∀ x ∈ l1, cmp x.1 key = NODE_KEY_LESS) ∧ (∀ x ∈ l2, cmp key x.1 = NODE_KEY_LESS)) ∧
        Ascending cmp T'.inorder ∧ BST cmp T' := by
  refine ⟨T.size + 1, fun fuel hfuel => ?_⟩
  obtain ⟨s', T', e, hr, -, hi1, hi2, -, -⟩ :=
    rbtree_insert_new_full hrep hrb.2.2 hkey hval ha0 (hrep.fresh ha) habs fuel (by omega)
  obtain ⟨b1, b2⟩ := zoom_bounds hcmp key T [] hbst (by simp [pathLeft]) (by simp [pathRight])
  have hasc : Ascending cmp T'.inorder := by
    have h0 := (BST_iff_ascending hcmp T).mp hbst
    rw [hi1] at h0
    rw [hi2]
    simp only [Ascending, List.pairwise_append, List.pairwise_cons, List.mem_cons] at h0 ⊢
    refine ⟨h0.1, ⟨b2, h0.2.1⟩, ?_⟩
    intro x hx y hy
    rcases hy with rfl | hy
    · exact b1 x hx
    · exact h0.2.2 x hx y hy
  exact ⟨s', T', e, hr, ⟨_, _, hi1, hi2, b1, b2⟩, hasc, (BST_iff_ascending hcmp T').mpr hasc⟩

end RBTree


namespace RBTree

theorem Tree.size_eq_length (t : Tree) : t.size = t.inorder.length := by
  induction t with
  | nil => rfl
  | node a c k v l r ihl ihr => simp [Tree.size, ihl, ihr]; omega

/-- On a search tree the descent reaches a node whenever the key is present. -/
theorem zoom_present {cmp : Nat → Nat → Int} (hc : CmpOK cmp) (key : Nat) :
    ∀ (t : Tree) (P : List Frame), BST cmp t → Present cmp key t →
      (zoom cmp key t P).2 ≠ .nil := by
  intro t
  induction t with
  | nil => intro P _ ⟨x, hx, _⟩; simp at hx
  | node a c k v l r ihl ihr =>
    intro P hb ⟨x, hx, hxe⟩
    simp only [BST] at hb
    obtain ⟨hb1, hb2, hb3, hb4⟩ := hb
    rw [zoom_node]
    split
    · simp
    · rename_i hne
      have hxk : cmp key k = cmp x k := hc.congr key x k hxe
      simp only [Tree.keys_node, List.mem_append, List.mem_cons] at hx
      split
      · rename_i hlt
        apply ihl _ hb3
        rcases hx with hx | rfl | hx
        · exact ⟨x, hx, hxe⟩
        · exact absurd hxe hne
        · have := hb2 x hx
          rw [← hxk, hlt] at this
          simp [NODE_KEY_LARGER] at this
      · rename_i hlt
        apply ihr _ hb4
        rcases hx with hx | rfl | hx
        · have := hb1 x hx
          rw [← hxk] at this
          exact absurd this hlt
        · exact absurd hxe hne
        · exact ⟨x, hx, hxe⟩

/-- In a strictly ascending sequence only one entry compares EQUAL to a key. -/
theorem ascending_unique {cmp : Nat → Nat → Int} (hc : CmpOK cmp) (key : Nat) :
    ∀ (l : List (Nat × Nat)), Ascending cmp l → ∀ x ∈ l, ∀ y ∈ l,
      cmp key x.1 = 0 → cmp key y.1 = 0 → x = y := by
  have hne : ∀ x y : Nat × Nat, cmp key x.1 = 0 → cmp key y.1 = 0 → cmp x.1 y.1 ≠ -1 := by
    intro x y hx hy h
    have e1 : cmp key y.1 = cmp x.1 y.1 := hc.congr key x.1 y.1 hx
    rw [hy, h] at e1
    simp at e1
  intro l
  induction l with
  | nil => intro _ x hx; simp at hx
  | cons z l ih =>
    intro hasc x hx y hy hxe hye
    simp only [Ascending, List.pairwise_cons] at hasc
    simp only [List.mem_cons] at hx hy
    rcases hx with rfl | hx <;> rcases hy with rfl | hy
    · rfl
    · exact absurd (hasc.1 y hy) (hne _ _ hxe hye)
    · exact absurd (hasc.1 x hx) (hne _ _ hye hxe)
    · exact ih hasc.2 x hx y hy hxe hye

end RBTree


namespace RBTree

theorem CmpOK.eq_symm {cmp : Nat → Nat → Int} (hc : CmpOK cmp) {a b : Nat}
    (h : cmp a b = NODE_KEY_EQUAL) : cmp b a = NODE_KEY_EQUAL := by
  rcases hc.tri b a with h1 | h1 | h1
  · have := (hc.anti b a).mp h1
    rw [h] at this
    simp [NODE_KEY_EQUAL, NODE_KEY_LARGER] at this
  · exact h1
  · have := (hc.anti a b).mpr h1
    rw [h] at this
    simp [NODE_KEY_EQUAL, NODE_KEY_LESS] at this

/-- Putting a new key at the position found by the descent keeps the in-order
sequence strictly ascending. -/
theorem zoom_insert_ascending {cmp : Nat → Nat → Int} (hc : CmpOK cmp) {T : Tree}
    (hbst : BST cmp T) (key value : Nat)
    (hi : T.inorder = pathLeft (zoom cmp key T []).1 ++ pathRight (zoom cmp key T []).1) :
    Ascending cmp
      (pathLeft (zoom cmp key T []).1 ++ (key, value) :: pathRight (zoom cmp key T []).1) := by
  obtain ⟨b1, b2⟩ := zoom_bounds hc key T [] hbst (by simp [pathLeft]) (by simp [pathRight])
  have h0 := (BST_iff_ascending hc T).mp hbst
  rw [hi] at h0
  simp only [Ascending, List.pairwise_append, List.pairwise_cons, List.mem_cons] at h0 ⊢
  refine ⟨h0.1, ⟨b2, h0.2.1⟩, ?_⟩
  intro x hx y hy
  rcases hy with rfl | hy
  · exact b1 x hx
  · exact h0.2.2 x hx y hy

/-- Inserting a list of entries with pairwise different new keys, each call of
`malloc` returning a new address: every call returns, and the tree holds the
old entries and the inserted ones in strictly ascending order. -/
theorem rbtree_insert_all_spec {cmp : Nat → Nat → Int} (hc : CmpOK cmp) :
    ∀ (l : List (Nat × Nat × Nat)) (s : State) (T : Tree), Represents cmp s T → BST cmp T →
      RB T →
      (∀ e ∈ l, e.1 ≠ 0 ∧ e.2.1 ≠ 0 ∧ e.2.2 ≠ 0 ∧ e.1 ∉ T.addrs ∧ ¬ Present cmp e.2.1 T) →
      (l.map Prod.fst).Nodup →
      l.Pairwise (fun x y => cmp x.2.1 y.2.1 ≠ NODE_KEY_EQUAL) →
      ∀ fuel, T.size + l.length < fuel →
      ∃ s' T', rbtree_insert_all fuel s l = .ok s' ∧ Represents cmp s' T' ∧ BST cmp T' ∧
        RB T' ∧ T'.inorder.Perm (T.inorder ++ l.map (fun e => (e.2.1, e.2.2))) := by
  intro l
  induction l with
  | nil =>
    intro s T h hb hrb _ _ _ fuel _
    exact ⟨s, T, rfl, h, hb, hrb, by simp⟩
  | cons e rest ih =>
    intro s T h hb hrb hall hnd hpw fuel hf
    obtain ⟨a, key, value⟩ := e
    obtain ⟨ha0, hk, hv, hfresh, habs⟩ := hall (a, key, value) (by simp)
    simp only [List.map_cons, List.nodup_cons, List.mem_map, not_exists, not_and] at hnd
    simp only [List.pairwise_cons] at hpw
    simp only [List.length_cons] at hf
    obtain ⟨s1, T1, e1, h1, hc1, hi1, hi2, hinv, haddr⟩ :=
      rbtree_insert_new_full h hrb.2.2 hk hv ha0 hfresh habs fuel (by omega)
    obtain ⟨n, hn⟩ := hrb.2.1
    obtain ⟨r1, r2⟩ := hinv n hrb.1 hn
    have hasc : Ascending cmp T1.inorder := by
      rw [hi2]
      exact zoom_insert_ascending hc hb key value hi1
    have hb1 : BST cmp T1 := (BST_iff_ascending hc T1).mpr hasc
    have hsz : T1.size = T.size + 1 := by
      rw [Tree.size_eq_length, Tree.size_eq_length, hi2, hi1]
      simp only [List.length_append, List.length_cons]
      omega
    have hall1 : ∀ e ∈ rest, e.1 ≠ 0 ∧ e.2.1 ≠ 0 ∧ e.2.2 ≠ 0 ∧ e.1 ∉ T1.addrs ∧
        ¬ Present cmp e.2.1 T1 := by
      intro e he
      obtain ⟨q1, q2, q3, q4, q5⟩ := hall e (List.mem_cons_of_mem _ he)
      refine ⟨q1, q2, q3, ?_, ?_⟩
      · intro hm
        rcases haddr _ hm with hm | hm
        · exact hnd.1 e he hm
        · exact q4 hm
      · rintro ⟨y, hy, hye⟩
        obtain ⟨vy, hyv⟩ := Tree.mem_keys.mp hy
        rw [hi2] at hyv
        simp only [List.mem_append, List.mem_cons, Prod.mk.injEq] at hyv
        have hold : (y, vy) ∈ T.inorder → False := fun hm =>
          q5 ⟨y, Tree.mem_keys.mpr ⟨vy, hm⟩, hye⟩
        rcases hyv with hyv | ⟨rfl, rfl⟩ | hyv
        · exact hold (by rw [hi1]; exact List.mem_append_left _ hyv)
        · exact hpw.1 e he (hc.eq_symm hye)
        · exact hold (by rw [hi1]; exact List.mem_append_right _ hyv)
    obtain ⟨s', T', e2, h2, hb2, hrb2, hperm⟩ := ih s1 T1 h1 hb1 ⟨r1, r2, hc1⟩ hall1 hnd.2 hpw.2
      fuel (by omega)
    refine ⟨s', T', ?_, h2, hb2, hrb2, ?_⟩
    · simp [rbtree_insert_all, e1, e2]
    · refine hperm.trans ?_
      rw [hi2, hi1]
      simp only [List.map_cons, List.append_assoc, List.cons_append]
      refine List.Perm.append_left _ ?_
      exact List.perm_middle.symm

/-- C3: (1) for every list of entries with non-NULL keys that are pairwise
different under the comparator and non-NULL values, inserted one after the
other with `rbtree_insert` into a tree set up by `rbtree_init`, every call
given more loop budget than the number of entries and every `malloc` returning
a new non-NULL address, all calls return and the in-order sequence of the tree
is strictly ascending and holds exactly the inserted entries, each once (the
list is arbitrary, so this holds after each insert of a longer list); and (2)
inserting a non-NULL key `key` that is not in the tree with value `value` into
a tree satisfying the BST order and red-black invariants returns and gives a
tree whose in-order (key, value) sequence is the old one with `(key, value)`
added at its sorted position: everything before it compares LESS than `key`,
everything after it GREATER, and the new sequence is strictly ascending. -/
theorem rbtree_insert_inorder (cmp : Nat → Nat → Int) (hcmp : CmpOK cmp) :
    (∀ (s0 : State) (l : List (Nat × Nat × Nat)),
      (∀ e ∈ l, e.1 ≠ 0 ∧ e.2.1 ≠ 0 ∧ e.2.2 ≠ 0) → (l.map Prod.fst).Nodup →
      l.Pairwise (fun x y => cmp x.2.1 y.2.1 ≠ NODE_KEY_EQUAL) →
      ∀ fuel, l.length < fuel →
        ∃ s' T, rbtree_insert_all fuel (rbtree_init s0 (some cmp)) l = .ok s' ∧
          Represents cmp s' T ∧ Ascending cmp T.inorder ∧
          T.keys.Perm (l.map (fun e => e.2.1)) ∧
          T.inorder.Perm (l.map (fun e => (e.2.1, e.2.2)))) ∧
    (∀ (s : State) (T : Tree) (a key value : Nat), Represents cmp s T → BST cmp T → RB T →
      key ≠ 0 → value ≠ 0 → ¬ Present cmp key T → a ≠ 0 → s.mem a = none →
      ∃ n, ∀ fuel, n ≤ fuel →
        ∃ s' T', rbtree_insert fuel s a key value = .ok s' ∧ Represents cmp s' T' ∧
          (∃ l1 l2, T.inorder = l1 ++ l2 ∧ T'.inorder = l1 ++ (key, value) :: l2 ∧
            (∀ x ∈ l1, cmp x.1 key = NODE_KEY_LESS) ∧
            (∀ x ∈ l2, cmp key x.1 = NODE_KEY_LESS)) ∧
          Ascending cmp T'.inorder ∧ BST cmp T') := by
  refine ⟨fun s0 l hne hnd hpw fuel hf => ?_, fun s T a key value hrep hbst hrb hkey hval habs
    ha0 ha => rbtree_insert_step_inorder cmp s T a key value hcmp hrep hbst hrb hkey hval habs
      ha0 ha⟩
  obtain ⟨s', T, e, h, hb, -, hperm⟩ := rbtree_insert_all_spec hcmp l (rbtree_init s0 (some cmp))
    .nil ⟨rfl, rfl, trivial, List.nodup_nil⟩ trivial ⟨trivial, ⟨0, rfl⟩, rfl⟩
    (fun e he => by
      obtain ⟨q1, q2, q3⟩ := hne e he
      refine ⟨q1, q2, q3, by simp, ?_⟩
      rintro ⟨x, hx, -⟩
      simp at hx)
    hnd hpw fuel (by simpa [Tree.size] using hf)
  simp only [Tree.inorder_nil, List.nil_append] at hperm
  refine ⟨s', T, e, h, (BST_iff_ascending hcmp T).mp hb, ?_, hperm⟩
  have := hperm.map Prod.fst
  simpa [Tree.keys, List.map_map, Function.comp_def] using this

theorem rbtree_insert_inorder_witness :
    (∃ s' T, rbtree_insert_all 3 (rbtree_init emptyState (some natCmp)) [(1, 5, 7), (2, 3, 9)]
        = .ok s' ∧ Represents natCmp s' T ∧ Ascending natCmp T.inorder ∧
        T.keys.Perm [5, 3] ∧ T.inorder.Perm [(5, 7), (3, 9)]) ∧
    ∃ n, ∀ fuel, n ≤ fuel →
      ∃ s' T', rbtree_insert fuel emptyState 1 5 7 = .ok s' ∧ Represents natCmp s' T' ∧
        (∃ l1 l2, Tree.nil.inorder = l1 ++ l2 ∧ T'.inorder = l1 ++ (5, 7) :: l2 ∧
          (∀ x ∈ l1, natCmp x.1 5 = NODE_KEY_LESS) ∧ (∀ x ∈ l2, natCmp 5 x.1 = NODE_KEY_LESS)) ∧
        Ascending natCmp T'.inorder ∧ BST natCmp T' :=
  ⟨(rbtree_insert_inorder natCmp natCmp_ok).1 emptyState [(1, 5, 7), (2, 3, 9)] (by decide)
      (by decide) (by decide) 3 (by decide),
    (rbtree_insert_inorder natCmp natCmp_ok).2 emptyState .nil 1 5 7
      ⟨rfl, rfl, trivial, List.nodup_nil⟩ trivial ⟨trivial, ⟨0, rfl⟩, rfl⟩ (by decide) (by decide)
      (by rintro ⟨x, hx, -⟩; simp at hx) (by decide) rfl⟩

end RBTree


namespace RBTree

/-- `rbtree_search` returns the pointer found by the descent. -/
theorem rbtree_search_spec {cmp : Nat → Nat → Int} {s : State} {T : Tree} {key : Nat}
    (h : Represents cmp s T) (hk : key ≠ 0) (fuel : Nat) (hfuel : T.size < fuel) :
    rbtree_search fuel s key = .ok (zoom cmp key T []).2.ptr := by
  have h1 := bst_search_loop_spec key T [] h fuel hfuel
  have hrt : s.root = T.ptr := h.2.1
  have hcmp : s.cmp = cmp := h.1
  simp [rbtree_search, hk, bst_search, hrt, hcmp, h1]

/-- On a search tree, `rbtree_search` for a present key returns the address of
the node that holds the entry with that key. -/
theorem rbtree_search_found {cmp : Nat → Nat → Int} {s : State} {T : Tree} {key k0 v1 : Nat}
    (hc : CmpOK cmp) (h : Represents cmp s T) (hb : BST cmp T) (hin : (k0, v1) ∈ T.inorder)
    (he : cmp key k0 = 0) (hk : key ≠ 0) (fuel : Nat) (hfuel : T.size < fuel) :
    ∃ x node, rbtree_search fuel s key = .ok x ∧ x ≠ 0 ∧ s.mem x = some node ∧
      node.key = k0 ∧ node.value = v1 := by
  have hp : Present cmp key T := ⟨k0, Tree.mem_keys.mpr ⟨v1, hin⟩, he⟩
  have hz := zoom_present hc key T [] hb hp
  obtain ⟨a, c, k, v, l, r, e⟩ : ∃ a c k v l r, (zoom cmp key T []).2 = .node a c k v l r := by
    cases hh : (zoom cmp key T []).2 with
    | nil => exact absurd hh hz
    | node a c k v l r => exact ⟨_, _, _, _, _, _, rfl⟩
  obtain ⟨f1, f2⟩ := zoom_found cmp key T [] a c k v l r e
  have hu := ascending_unique hc key T.inorder ((BST_iff_ascending hc T).mp hb) (k, v) f2
    (k0, v1) hin f1 he
  cases hu
  have hfz := fill_zoom cmp key T []
  rw [e] at hfz
  have h2 : Represents cmp s (fill (zoom cmp key T []).1 (.node a c k0 v1 l r)) := by
    rw [hfz]; exact h
  have h3 := (rep_fill.mp h2).2.2.2.1
  simp only [RepAt] at h3
  refine ⟨a, _, ?_, h3.1, h3.2.1, rfl, rfl⟩
  rw [rbtree_search_spec h hk fuel hfuel, e]
  rfl

/-- C9: for every tree satisfying the BST order invariant in which an entry
`(k0, v1)` with key EQUAL to `key` is stored, `rbtree_insert` of `key` with any
non-NULL value `v2` returns (given enough loop budget, whatever `malloc` did),
the in-order (key, value) sequence is the same afterwards, and the node
`rbtree_search` then finds for `key` still holds `k0` with the original value
`v1`.  The tree is one the public operations build: its root is black, as
every returning `rbtree_insert` leaves it (`set_color(tree->root,
COLOR_BLACK)` is its last statement), and the root is black again after the
call. -/
theorem rbtree_insert_duplicate_keeps_value (cmp : Nat → Nat → Int) (s : State) (T : Tree)
    (a key v2 k0 v1 : Nat) (hcmp : CmpOK cmp) (hrep : Represents cmp s T) (hbst : BST cmp T)
    (hroot : T.color = .black) (hkey : key ≠ 0) (hval : v2 ≠ 0) (hin : (k0, v1) ∈ T.inorder)
    (heq : cmp key k0 = NODE_KEY_EQUAL) (halloc : a = 0 ∨ s.mem a = none) :
    ∃ n, ∀ fuel, n ≤ fuel →
      ∃ s' T' x node, rbtree_insert fuel s a key v2 = .ok s' ∧ Represents cmp s' T' ∧
        T'.inorder = T.inorder ∧ rbtree_search fuel s' key = .ok x ∧ x ≠ 0 ∧
        s'.mem x = some node ∧ node.key = k0 ∧ node.value = v1 ∧ T'.color = .black := by
  refine ⟨T.size + 1, fun fuel hfuel => ?_⟩
  have hp : Present cmp key T := ⟨k0, Tree.mem_keys.mpr ⟨v1, hin⟩, heq⟩
  have main : ∃ s' T', rbtree_insert fuel s a key v2 = .ok s' ∧ Represents cmp s' T' ∧
      T'.inorder = T.inorder ∧ T'.color = .black := by
    by_cases ha0 : a = 0
    · subst ha0
      obtain ⟨s', e, hr⟩ := rbtree_insert_nomem_spec hrep hroot hkey hval fuel (by omega)
      exact ⟨s', T, e, hr, rfl, hroot⟩
    · have ha : s.mem a = none := halloc.resolve_left ha0
      have hz := zoom_present hcmp key T [] hbst hp
      obtain ⟨s', e, hr⟩ := rbtree_insert_dup_spec hrep hroot hkey hval ha0 ha hz fuel (by omega)
      refine ⟨s', _, e, hr, ?_, Tree.color_setColor_black _⟩
      rw [Tree.inorder_setColor, insFix_inorder, inorder_fill, Tree.inorder_setColor,
        ← inorder_fill, fill_zoom, fill_nil]
  obtain ⟨s', T', e, hr, hi, hcol⟩ := main
  have hb' : BST cmp T' := by
    rw [BST_iff_ascending hcmp, hi, ← BST_iff_ascending hcmp]
    exact hbst
  have hsz : T'.size < fuel := by
    rw [Tree.size_eq_length, hi, ← Tree.size_eq_length]
    omega
  obtain ⟨x, node, e2, hx0, hm, hk1, hv1⟩ :=
    rbtree_search_found hcmp hr hb' (hi ▸ hin) heq hkey fuel hsz
  exact ⟨s', T', x, node, e, hr, hi, e2, hx0, hm, hk1, hv1, hcol⟩

end RBTree


namespace RBTree

theorem oneState_rep : Represents natCmp oneState oneTree :=
  ⟨rfl, rfl, by decide, by decide⟩

theorem redRootState_rep : Represents natCmp redRootState redRootTree :=
  ⟨rfl, rfl, by decide, by decide⟩

theorem fourState_rep : Represents natCmp fourState fourTree :=
  ⟨rfl, rfl, by decide, by decide⟩

/-- Entered with `node == NULL` on a non-empty tree, the loop of
`rbtree_delete_fixup` never ends: every pass leaves the state and `node` as
they are. -/
theorem delete_fixup_loop_null (s : State) (root : Nat) (hroot : root ≠ 0) :
    ∀ fuel, rbtree_delete_fixup_loop root fuel s 0 = .timeout := by
  intro fuel
  induction fuel with
  | zero => rfl
  | succ n ih =>
    simp [rbtree_delete_fixup_loop, Ne.symm hroot, is_red, get_sibling, get_parent, get_nephew,
      get_niece, set_color, ih]

/-- `rbtree_delete` of a key that is not present in a non-empty tree never
returns, whatever the loop budget. -/
theorem rbtree_delete_absent_timeout {cmp : Nat → Nat → Int} {s : State} {T : Tree} {key : Nat}
    (h : Represents cmp s T) (hT : T ≠ .nil) (hk : key ≠ 0) (habs : ¬ Present cmp key T) :
    ∀ fuel, rbtree_delete fuel s key = .timeout := by
  intro fuel
  have hr0 := h.root_ne_zero hT
  have hrt : s.root = T.ptr := h.2.1
  have hcmp : s.cmp = cmp := h.1
  have hz := zoom_absent cmp key T [] habs
  have hfix : rbtree_delete_fixup fuel s 0 = .timeout := by
    simp only [rbtree_delete_fixup, delete_fixup_loop_null s s.root hr0 fuel, Res.timeout_bind]
  rcases bst_search_loop_any key T [] h fuel with e | e
  · rw [hz] at e
    simp only [Tree.ptr_nil] at e
    have hb : bst_delete fuel s s.root s.cmp key = .ok (s, 0) := by
      simp only [bst_delete, bst_search, hrt, hcmp, e, Res.ok_bind, if_true, Res.pure_eq]
    simp only [rbtree_delete, hk, if_false, hb, Res.ok_bind, hfix, Res.timeout_bind]
  · have hb : bst_delete fuel s s.root s.cmp key = .timeout := by
      simp only [bst_delete, bst_search, hrt, hcmp, e, Res.timeout_bind]
    simp only [rbtree_delete, hk, if_false, hb, Res.timeout_bind]

/-- C5 (code defect): on the one-node tree with key 10, which satisfies the BST
order and red-black invariants, `rbtree_delete` of the absent key 11 never
returns a tree, whatever the loop budget; on the empty tree it returns the
state unchanged. -/
theorem rbtree_delete_absent_key_no_result :
    Represents natCmp oneState oneTree ∧ BST natCmp oneTree ∧ RB oneTree ∧
      ¬ Present natCmp 11 oneTree ∧
      (∀ fuel s', rbtree_delete fuel oneState 11 ≠ .ok s') ∧
      (∀ fuel, ∃ s', rbtree_delete (fuel + 1) emptyState 11 = .ok s' ∧
        s'.root = emptyState.root ∧ s'.mem = emptyState.mem) := by
  have hp : ¬ Present natCmp 11 oneTree := by
    rintro ⟨x, hx, e⟩
    simp [oneTree, Tree.keys] at hx
    subst hx
    simp [natCmp] at e
  refine ⟨oneState_rep, by decide, ⟨by decide, ⟨1, by decide⟩, rfl⟩, hp, ?_, ?_⟩
  · intro fuel s' e
    rw [rbtree_delete_absent_timeout oneState_rep (by simp [oneTree]) (by decide) hp fuel] at e
    cases e
  · intro fuel
    exact ⟨_, rfl, rfl, rfl⟩

/-- C6 (code defect): on the tree with keys 10, 20, 30, 40, `rbtree_delete` of
the absent key 25 runs out of every loop budget: it does not terminate. -/
theorem rbtree_delete_absent_key_diverges :
    Represents natCmp fourState fourTree ∧ BST natCmp fourTree ∧ RB fourTree ∧
      ¬ Present natCmp 25 fourTree ∧ ∀ fuel, rbtree_delete fuel fourState 25 = .timeout := by
  have hp : ¬ Present natCmp 25 fourTree := by
    rintro ⟨x, hx, e⟩
    simp [fourTree, Tree.keys] at hx
    rcases hx with rfl | rfl | rfl | rfl <;> simp [natCmp] at e
  exact ⟨fourState_rep, by decide, ⟨by decide, ⟨2, by decide⟩, rfl⟩, hp,
    rbtree_delete_absent_timeout fourState_rep (by simp [fourTree]) (by decide) hp⟩

/-- C7 (code defect): deleting the only key of a one-node tree frees the node
but leaves `tree->root` pointing to it: the root reference is not cleared. -/
theorem rbtree_delete_last_node_keeps_root :
    Represents natCmp oneState oneTree ∧
      ∀ fuel, ∃ s', rbtree_delete (fuel + 2) oneState 10 = .ok s' ∧ s'.root = 1 ∧
        s'.mem 1 = none :=
  ⟨oneState_rep, fun _ => ⟨_, rfl, rfl, rfl⟩⟩

/-- C8 (code defect): in the tree with keys 10, 20, 30, 40, which satisfies the
BST order and red-black invariants, `rbtree_insert` of the present key 10
colours the black node of key 10 red; the tree afterwards has unequal black
counts. -/
theorem rbtree_insert_duplicate_recolours :
    Represents natCmp fourState fourTree ∧ BST natCmp fourTree ∧ RB fourTree ∧
      Present natCmp 10 fourTree ∧
      (∀ fuel, ∃ s', rbtree_insert (fuel + 5) fourState 5 10 999 = .ok s' ∧
        Represents natCmp s' fourTreeRed) ∧
      fourTreeRed ≠ fourTree ∧ ¬ RB fourTreeRed := by
  refine ⟨fourState_rep, by decide, ⟨by decide, ⟨2, by decide⟩, rfl⟩,
    ⟨10, by decide, by decide⟩, ?_, by decide, ?_⟩
  · intro fuel
    have hz : (zoom natCmp 10 fourTree []).2 ≠ .nil := by
      simp [zoom, fourTree, natCmp]
    obtain ⟨s', e, hr⟩ := rbtree_insert_dup_spec fourState_rep rfl (by decide : (10 : Nat) ≠ 0)
      (by decide : (999 : Nat) ≠ 0) (by decide : (5 : Nat) ≠ 0) rfl hz (fuel + 5)
      (by simp [fourTree, Tree.size])
    refine ⟨s', e, ?_⟩
    have e2 : (insFix (zoom natCmp 10 fourTree []).1
        ((zoom natCmp 10 fourTree []).2.setColor .red)).setColor .black = fourTreeRed := by
      simp [zoom, fourTree, natCmp, insFix, fourTreeRed]
    rw [e2] at hr
    exact hr
  · rintro ⟨-, ⟨n, h⟩, -⟩
    simp [fourTreeRed, BlackHeight] at h

theorem rbtree_insert_duplicate_keeps_value_witness :
    ∃ n, ∀ fuel, n ≤ fuel →
      ∃ s' T' x node, rbtree_insert fuel oneState 2 10 999 = .ok s' ∧
        Represents natCmp s' T' ∧ T'.inorder = oneTree.inorder ∧
        rbtree_search fuel s' 10 = .ok x ∧ x ≠ 0 ∧ s'.mem x = some node ∧
        node.key = 10 ∧ node.value = 100 ∧ T'.color = .black :=
  rbtree_insert_duplicate_keeps_value natCmp oneState oneTree 2 10 999 10 100 natCmp_ok
    oneState_rep (by decide) rfl (by decide) (by decide) (by decide) (by decide) (Or.inr rfl)

/-- Why the black root is among the hypotheses on `rbtree_insert`: on a search
tree whose root is red (root 20, left child 10), a state that no sequence of
public operations produces, `rbtree_insert` of the present key 10 dereferences
`NULL` in `rbtree_insert_fixup` (the red parent has no parent) and returns no
tree. -/
theorem rbtree_insert_duplicate_red_root_faults :
    Represents natCmp redRootState redRootTree ∧ BST natCmp redRootTree ∧
      (10, 100) ∈ redRootTree.inorder ∧ natCmp 10 10 = NODE_KEY_EQUAL ∧
      (∀ fuel, rbtree_insert (fuel + 2) redRootState 3 10 999 = .fault) ∧
      ∀ fuel s', rbtree_insert fuel redRootState 3 10 999 ≠ .ok s' := by
  refine ⟨redRootState_rep, by decide, by decide, by decide, fun _ => rfl, ?_⟩
  intro fuel s' h
  match fuel, h with
  | 0, h => cases h
  | 1, h => cases h
  | fuel + 2, h =>
    have e : rbtree_insert (fuel + 2) redRootState 3 10 999 = .fault := rfl
    rw [e] at h
    cases h

/-- C10 (code defect): after `rbtree_insert` of key 5 with value 7 into the
empty tree (node allocated at address 1), `rbtree_search` for key 5 returns
the address 1 of the node, not the stored value 7. -/
theorem rbtree_search_returns_node :
    ∀ fuel, ∃ s', rbtree_insert (fuel + 1) emptyState 1 5 7 = .ok s' ∧
      rbtree_search (fuel + 1) s' 5 = .ok 1 ∧
      s'.mem 1 = some ⟨5, 7, 0, 0, 0, COLOR_BLACK⟩ ∧ (1 : Nat) ≠ 7 :=
  fun _ => ⟨_, rfl, rfl, rfl, by decide⟩

end RBTree


namespace RBTree

theorem get_nephew_spec_L {cmp : Nat → Nat → Int} {s : State} {rest : List Frame}
    {pa : Nat} {pc : Color} {pk pv : Nat} {sa : Nat} {sc : Color} {sk sv : Nat} {sl sr : Tree}
    {a : Nat} {c : Color} {k v : Nat} {l r : Tree}
    (h : Represents cmp s (fill (.L pa pc pk pv (.node sa sc sk sv sl sr) :: rest)
      (.node a c k v l r))) :
    get_nephew s a = .ok sr.ptr ∧ get_niece s a = .ok sl.ptr := by
  have hp := get_parent_spec h
  have hs := get_sibling_spec h
  obtain ⟨hp0, hn⟩ := rep_load
      (show Represents cmp s (fill rest (.node pa pc pk pv (.node a c k v l r)
        (.node sa sc sk sv sl sr))) from h)
  obtain ⟨hs0, hsn⟩ := rep_load
      (show Represents cmp s (fill (.R pa pc pk pv (.node a c k v l r) :: rest)
        (.node sa sc sk sv sl sr)) from h)
  simp at hp hs
  simp [get_nephew, get_niece, hp, hs, hp0, hn, hs0, hsn]

theorem get_nephew_spec_R {cmp : Nat → Nat → Int} {s : State} {rest : List Frame}
    {pa : Nat} {pc : Color} {pk pv : Nat} {sa : Nat} {sc : Color} {sk sv : Nat} {sl sr : Tree}
    {a : Nat} {c : Color} {k v : Nat} {l r : Tree}
    (h : Represents cmp s (fill (.R pa pc pk pv (.node sa sc sk sv sl sr) :: rest)
      (.node a c k v l r))) :
    get_nephew s a = .ok sl.ptr ∧ get_niece s a = .ok sr.ptr := by
  have hp := get_parent_spec h
  have hs := get_sibling_spec h
  have hne := rep_sib_ptr_ne h (by simp)
  obtain ⟨hp0, hn⟩ := rep_load
      (show Represents cmp s (fill rest (.node pa pc pk pv (.node sa sc sk sv sl sr)
        (.node a c k v l r))) from h)
  obtain ⟨hs0, hsn⟩ := rep_load
      (show Represents cmp s (fill (.L pa pc pk pv (.node a c k v l r) :: rest)
        (.node sa sc sk sv sl sr)) from h)
  simp at hp hs hne
  simp [get_nephew, get_niece, hp, hs, hp0, hn, hs0, hsn, hne]

theorem get_nephew_spec_nil {cmp : Nat → Nat → Int} {s : State} {f : Frame} {rest : List Frame}
    {a : Nat} {c : Color} {k v : Nat} {l r : Tree}
    (h : Represents cmp s (fill (f :: rest) (.node a c k v l r))) (hs : f.sib = .nil) :
    get_nephew s a = .ok 0 ∧ get_niece s a = .ok 0 := by
  have hp := get_parent_spec h
  have hsib := get_sibling_spec h
  rw [hs] at hsib
  have hp0 : f.addr ≠ 0 := by
    cases f with
    | L pa pc pk pv pr =>
      exact (rep_load (show Represents cmp s (fill rest (.node pa pc pk pv (.node a c k v l r) pr))
        from h)).1
    | R pa pc pk pv pl =>
      exact (rep_load (show Represents cmp s (fill rest (.node pa pc pk pv pl (.node a c k v l r)))
        from h)).1
  simp at hp hsib
  simp [get_nephew, get_niece, hp, hsib, hp0]

/-- Writing the key of the node on top of the subtree in the hole. -/
theorem set_key_spec {cmp : Nat → Nat → Int} {s : State} {P : List Frame}
    {a : Nat} {c : Color} {k v : Nat} {l r : Tree}
    (h : Represents cmp s (fill P (.node a c k v l r))) (k' : Nat) :
    ∃ s', modify s a (fun m => { m with key := k' }) = .ok s' ∧
      Represents cmp s' (fill P (.node a c k' v l r)) := by
  obtain ⟨ha, hl⟩ := rep_load h
  rw [rep_fill] at h
  obtain ⟨h1, h2, h3, h4, h5⟩ := h
  have hnd : ((Tree.node a c k' v l r).addrs ++ pathAddrs P).Nodup := h5
  simp only [Tree.addrs_node, List.cons_append, List.nodup_cons, List.mem_append, not_or] at h5
  simp only [RepAt] at h4
  simp only [modify, hl, Res.ok_bind, Res.pure_eq, Res.ok.injEq, exists_eq_left']
  rw [rep_fill]
  refine ⟨by simp [h1], by simpa using h2, ?_, ?_, hnd⟩
  · simpa [h5] using h3
  · simp [RepAt, h5, h4, ha]

/-- Writing the value of the node on top of the subtree in the hole. -/
theorem set_value_spec {cmp : Nat → Nat → Int} {s : State} {P : List Frame}
    {a : Nat} {c : Color} {k v : Nat} {l r : Tree}
    (h : Represents cmp s (fill P (.node a c k v l r))) (v' : Nat) :
    ∃ s', modify s a (fun m => { m with value := v' }) = .ok s' ∧
      Represents cmp s' (fill P (.node a c k v' l r)) := by
  obtain ⟨ha, hl⟩ := rep_load h
  rw [rep_fill] at h
  obtain ⟨h1, h2, h3, h4, h5⟩ := h
  have hnd : ((Tree.node a c k v' l r).addrs ++ pathAddrs P).Nodup := h5
  simp only [Tree.addrs_node, List.cons_append, List.nodup_cons, List.mem_append, not_or] at h5
  simp only [RepAt] at h4
  simp only [modify, hl, Res.ok_bind, Res.pure_eq, Res.ok.injEq, exists_eq_left']
  rw [rep_fill]
  refine ⟨by simp [h1], by simpa using h2, ?_, ?_, hnd⟩
  · simpa [h5] using h3
  · simp [RepAt, h5, h4, ha]

theorem fill_append (Q P : List Frame) (t : Tree) : fill (Q ++ P) t = fill P (fill Q t) := by
  induction Q generalizing t with
  | nil => rfl
  | cons f Q ih => simp [ih]

theorem fill_spineR : ∀ (t : Tree) (acc : List Frame), fill (spineR t acc) t.maxNode = fill acc t
  | .nil, acc => rfl
  | .node a c k v l .nil, acc => rfl
  | .node a c k v l (.node b cb kb vb lb rb), acc => by
    rw [spineR, Tree.maxNode, fill_spineR (.node b cb kb vb lb rb)]
    rfl

theorem spineR_append : ∀ (t : Tree) (acc : List Frame), spineR t acc = spineR t [] ++ acc
  | .nil, acc => rfl
  | .node a c k v l .nil, acc => rfl
  | .node a c k v l (.node b cb kb vb lb rb), acc => by
    rw [spineR, spineR_append (.node b cb kb vb lb rb), spineR,
      spineR_append (.node b cb kb vb lb rb) [.R a c k v l]]
    simp

theorem Tree.maxNode_ne_nil : ∀ {t : Tree}, t ≠ .nil → t.maxNode ≠ .nil
  | .nil, h => absurd rfl h
  | .node a c k v l .nil, _ => by simp [Tree.maxNode]
  | .node a c k v l (.node b cb kb vb lb rb), _ => by
    rw [Tree.maxNode]
    exact Tree.maxNode_ne_nil (by simp)

theorem Tree.maxNode_size : ∀ (t : Tree), t.maxNode.size ≤ t.size
  | .nil => le_refl _
  | .node a c k v l .nil => le_refl _
  | .node a c k v l (.node b cb kb vb lb rb) => by
    rw [Tree.maxNode]
    have := Tree.maxNode_size (.node b cb kb vb lb rb)
    simp only [Tree.size] at this ⊢
    omega

/-- The inner loop of `bst_delete` ends at the rightmost node. -/
theorem bst_delete_rightmost_spec {cmp : Nat → Nat → Int} {s : State} :
    ∀ (t : Tree) (P : List Frame), t ≠ .nil → Represents cmp s (fill P t) →
      ∀ fuel, t.size ≤ fuel → bst_delete_rightmost s fuel t.ptr = .ok t.maxNode.ptr
  | .nil, _, h, _, _, _ => absurd rfl h
  | .node a c k v l .nil, P, _, h, fuel, hf => by
    obtain ⟨fuel, rfl⟩ : ∃ n, fuel = n + 1 := ⟨fuel - 1, by simp [Tree.size] at hf; omega⟩
    obtain ⟨ha, hl⟩ := rep_load h
    simp [bst_delete_rightmost, hl, Tree.maxNode]
  | .node a c k v l (.node b cb kb vb lb rb), P, _, h, fuel, hf => by
    obtain ⟨fuel, rfl⟩ : ∃ n, fuel = n + 1 := ⟨fuel - 1, by simp [Tree.size] at hf; omega⟩
    obtain ⟨ha, hl⟩ := rep_load h
    have hb := (rep_load (show Represents cmp s (fill (.R a c k v l :: P)
      (.node b cb kb vb lb rb)) from h)).1
    have ih := bst_delete_rightmost_spec (.node b cb kb vb lb rb) (.R a c k v l :: P) (by simp) h
      fuel (by simp only [Tree.size] at hf ⊢; omega)
    simp only [Tree.ptr_node] at ih
    simp [bst_delete_rightmost, hl, hb, ih, Tree.maxNode]

end RBTree


namespace RBTree

theorem rep_load_payload {cmp : Nat → Nat → Int} {s : State} {P : List Frame} {Y : Tree}
    (hY : Y ≠ .nil) (h : Represents cmp s (fill P Y)) :
    Y.ptr ≠ 0 ∧ ∃ nd, load s Y.ptr = .ok nd ∧ nd.key = Y.key ∧ nd.value = Y.val := by
  cases Y with
  | nil => exact absurd rfl hY
  | node a c k v l r =>
    obtain ⟨ha, hl⟩ := rep_load h
    exact ⟨ha, _, hl, rfl, rfl⟩

theorem SameLinks.refl (s : State) : SameLinks s s := ⟨rfl, rfl, fun _ => rfl⟩

theorem SameLinks.trans {s1 s2 s3 : State} (h1 : SameLinks s1 s2) (h2 : SameLinks s2 s3) :
    SameLinks s1 s3 :=
  ⟨h2.1.trans h1.1, h2.2.1.trans h1.2.1, fun b => (h2.2.2 b).trans (h1.2.2 b)⟩

/-- An assignment that keeps `parent`, `left`, `right` and `color` of the node
it writes to. -/
theorem modify_sameLinks {s s' : State} {p : Nat} {f : rbtree_node → rbtree_node}
    (hf : ∀ n, (f n).links = n.links) (h : modify s p f = .ok s') : SameLinks s s' := by
  unfold modify load at h
  by_cases hp : p = 0
  · simp [hp] at h
  · cases hm : s.mem p with
    | none =>
      simp [hp, hm] at h
    | some n =>
      simp only [hp, if_false, hm, Res.ok_bind, Res.pure_eq, Res.ok.injEq] at h
      subst h
      refine ⟨rfl, rfl, fun b => ?_⟩
      by_cases hb : b = p
      · subst hb
        simp [hm, hf]
      · simp [hb]

/-- The two assignments `node->key = successor->key; node->value =
successor->value;` of `bst_delete`, for a successor `Y` below `node`. -/
theorem copy_payload_spec {cmp : Nat → Nat → Int} {s : State} {P : List Frame}
    {x : Nat} {c : Color} {k v : Nat} {l r : Tree} (Y : Tree) (F : Nat → Nat → List Frame)
    (hY : Y ≠ .nil) (hF : ∀ k' v', fill (F k' v') Y = fill P (.node x c k' v' l r))
    (h : Represents cmp s (fill P (.node x c k v l r))) :
    ∃ n1 s1 n2 s2, load s Y.ptr = .ok n1 ∧ n1.key = Y.key ∧
      modify s x (fun m => { m with key := Y.key }) = .ok s1 ∧
      load s1 Y.ptr = .ok n2 ∧ n2.value = Y.val ∧
      modify s1 x (fun m => { m with value := Y.val }) = .ok s2 ∧
      Represents cmp s2 (fill (F Y.key Y.val) Y) ∧ SameLinks s s2 := by
  have h0 := h
  rw [← hF] at h0
  obtain ⟨_, n1, e1, e2, _⟩ := rep_load_payload hY h0
  obtain ⟨s1, e3, h1⟩ := set_key_spec h Y.key
  have h1b := h1
  rw [← hF] at h1b
  obtain ⟨_, n2, e4, _, e5⟩ := rep_load_payload hY h1b
  obtain ⟨s2, e6, h2⟩ := set_value_spec h1 Y.val
  rw [← hF] at h2
  exact ⟨n1, s1, n2, s2, e1, e2, e3, e4, e5, e6, h2,
    (modify_sameLinks (f := fun m => { m with key := Y.key }) (fun _ => rfl) e3).trans
      (modify_sameLinks (f := fun m => { m with value := Y.val }) (fun _ => rfl) e6)⟩

/-- The reduction loop of `bst_delete`, started at the node on top of `X`:
it returns the node `delReduce` ends at, the memory holds the tree
`delReduce` describes, and only keys and values of nodes have been written. -/
theorem bst_delete_loop_spec {cmp : Nat → Nat → Int} :
    ∀ (n : Nat) (s : State) (P : List Frame) (X : Tree), X ≠ .nil → X.size ≤ n →
      Represents cmp s (fill P X) → ∀ fuel, n < fuel →
      ∃ s', bst_delete_loop fuel s X.ptr = .ok (s', (delReduce n P X).2.ptr) ∧
        Represents cmp s' (fill (delReduce n P X).1 (delReduce n P X).2) ∧ SameLinks s s' := by
  intro n
  induction n with
  | zero =>
    intro s P X hX hsz
    cases X with
    | nil => exact absurd rfl hX
    | node x c k v l r => simp [Tree.size] at hsz
  | succ n ih =>
    intro s P X hX hsz h fuel hf
    obtain ⟨fuel, rfl⟩ : ∃ m, fuel = m + 1 := ⟨fuel - 1, by omega⟩
    cases X with
    | nil => exact absurd rfl hX
    | node x c k v l r =>
      obtain ⟨hx, hl⟩ := rep_load h
      cases l with
      | nil =>
        cases r with
        | nil =>
          refine ⟨s, ?_, h, SameLinks.refl s⟩
          simp [bst_delete_loop, hl, delReduce]
        | node b cb kb vb lb rb =>
          have hb := (rep_load (show Represents cmp s (fill (.R x c k v .nil :: P)
            (.node b cb kb vb lb rb)) from h)).1
          obtain ⟨n1, s1, n2, s2, e1, e2, e3, e4, e5, e6, h2, hl2⟩ :=
            copy_payload_spec (.node b cb kb vb lb rb) (fun k' v' => .R x c k' v' .nil :: P)
              (by simp) (fun _ _ => rfl) h
          obtain ⟨s', e7, h3, hl3⟩ := ih s2 _ (.node b cb kb vb lb rb) (by simp)
            (by simp only [Tree.size] at hsz ⊢; omega) h2 fuel (by omega)
          refine ⟨s', ?_, h3, hl2.trans hl3⟩
          simp only [Tree.ptr_node, Tree.key, Tree.val] at e1 e2 e3 e4 e5 e6 e7
          simp [bst_delete_loop, hl, hb, e1, e2, e3, e4, e5, e6, e7, delReduce]
      | node a ca ka va la ra =>
        have ha := (rep_load (show Represents cmp s (fill (.L x c k v r :: P)
            (.node a ca ka va la ra)) from h)).1
        cases r with
        | nil =>
          obtain ⟨n1, s1, n2, s2, e1, e2, e3, e4, e5, e6, h2, hl2⟩ :=
            copy_payload_spec (.node a ca ka va la ra) (fun k' v' => .L x c k' v' .nil :: P)
              (by simp) (fun _ _ => rfl) h
          obtain ⟨s', e7, h3, hl3⟩ := ih s2 _ (.node a ca ka va la ra) (by simp)
            (by simp only [Tree.size] at hsz ⊢; omega) h2 fuel (by omega)
          refine ⟨s', ?_, h3, hl2.trans hl3⟩
          simp only [Tree.ptr_node, Tree.key, Tree.val] at e1 e2 e3 e4 e5 e6 e7
          simp [bst_delete_loop, hl, ha, e1, e2, e3, e4, e5, e6, e7, delReduce]
        | node b cb kb vb lb rb =>
          have hb := (rep_load (show Represents cmp s (fill (.R x c k v (.node a ca ka va la ra)
            :: P) (.node b cb kb vb lb rb)) from h)).1
          have hmax := bst_delete_rightmost_spec (.node a ca ka va la ra) (.L x c k v
            (.node b cb kb vb lb rb) :: P) (by simp) h fuel
            (by simp only [Tree.size] at hsz ⊢; omega)
          have hne : (Tree.node a ca ka va la ra).maxNode ≠ .nil := Tree.maxNode_ne_nil (by simp)
          have hms := Tree.maxNode_size (.node a ca ka va la ra)
          obtain ⟨n1, s1, n2, s2, e1, e2, e3, e4, e5, e6, h2, hl2⟩ :=
            copy_payload_spec (Tree.node a ca ka va la ra).maxNode
              (fun k' v' => spineR (.node a ca ka va la ra) [] ++
                (.L x c k' v' (.node b cb kb vb lb rb) :: P))
              hne (fun _ _ => by rw [fill_append, fill_spineR]; rfl) h
          obtain ⟨s', e7, h3, hl3⟩ := ih s2 _ (Tree.node a ca ka va la ra).maxNode hne
            (by simp only [Tree.size] at hsz hms ⊢; omega) h2 fuel (by omega)
          refine ⟨s', ?_, h3, hl2.trans hl3⟩
          simp only [Tree.ptr_node] at hmax
          simp [bst_delete_loop, hl, ha, hb, hmax, e1, e2, e3, e4, e5, e6, e7, delReduce]

end RBTree


namespace RBTree

/-- One pass of the loop of `rbtree_delete_fixup`: no sibling. -/
theorem del_step_L_nil {cmp : Nat → Nat → Int} {s0 : State} {rest : List Frame}
    {p : Nat} {cp : Color} {kp vp : Nat} {n kn vn : Nat} {tl tr : Tree}
    (h0 : Represents cmp s0 (fill (.L p cp kp vp .nil :: rest) (.node n .black kn vn tl tr)))
    (r0 : Nat) (hne : n ≠ r0) :
    ∃ s', (∀ fuel, rbtree_delete_fixup_loop r0 (fuel + 1) s0 n = rbtree_delete_fixup_loop r0 fuel s' p) ∧
      Represents cmp s' (fill rest (.node p cp kp vp (.node n .black kn vn tl tr) .nil)) := by
  have hred := is_red_spec h0
  have hsib := get_sibling_spec h0
  have hpar := get_parent_spec h0
  have hnep := get_nephew_spec_nil h0 rfl
  have hz : is_red s0 0 = .ok 0 := by simp [is_red]
  have hc : set_color s0 0 1 = .ok s0 := by simp [set_color]
  refine ⟨s0, fun fuel => ?_, h0⟩
  simp only [Tree.ptr_node, Tree.ptr_nil, Tree.color_node, Tree.color_nil, Tree.setColor_node, Color.code_red, Color.code_black, parentOf_cons, Frame.addr_L, Frame.addr_R, Frame.sib_L, Frame.sib_R, ↓reduceIte] at hred hsib hpar hnep
  simp [rbtree_delete_fixup_loop, hne, hred, hsib, hpar, hnep, hz, hc]

/-- One pass of the loop of `rbtree_delete_fixup`: red sibling. -/
theorem del_step_L_red {cmp : Nat → Nat → Int} {s0 : State} {rest : List Frame}
    {p : Nat} {cp : Color} {kp vp : Nat} {n kn vn : Nat} {tl tr : Tree} {sa : Nat} {ks vs : Nat} {sn sf : Tree}
    (h0 : Represents cmp s0 (fill (.L p cp kp vp (.node sa .red ks vs sn sf) :: rest) (.node n .black kn vn tl tr)))
    (r0 : Nat) (hne : n ≠ r0) :
    ∃ s', (∀ fuel, rbtree_delete_fixup_loop r0 (fuel + 1) s0 n = rbtree_delete_fixup_loop r0 fuel s' n) ∧
      Represents cmp s' (fill (.L p .red kp vp sn :: .L sa .black ks vs sf :: rest) (.node n .black kn vn tl tr)) := by
  have hred := is_red_spec h0
  have hsib := get_sibling_spec h0
  have hpar := get_parent_spec h0
  have hreds := is_red_spec (show Represents cmp s0 (fill (.R p cp kp vp (.node n .black kn vn tl tr) :: rest) (.node sa .red ks vs sn sf)) from h0)
  obtain ⟨s1, hs1, h1⟩ := set_color_red_spec (show Represents cmp s0 (fill (rest) (.node p cp kp vp (.node n .black kn vn tl tr) (.node sa .red ks vs sn sf))) from h0)
  obtain ⟨s2, hs2, h2⟩ := set_color_black_spec (show Represents cmp s1 (fill (.R p .red kp vp (.node n .black kn vn tl tr) :: rest) (.node sa .red ks vs sn sf)) from h1)
  have hl := is_left_spec_L (show Represents cmp s2 (fill (.L p .red kp vp (.node sa .black ks vs sn sf) :: rest) (.node n .black kn vn tl tr)) from h2)
  obtain ⟨s3, hs3, h3⟩ := rotl_spec (show Represents cmp s2 (fill (rest) (.node p .red kp vp (.node n .black kn vn tl tr) (.node sa .black ks vs sn sf))) from h2) 0
  refine ⟨s3, fun fuel => ?_, h3⟩
  simp only [Tree.ptr_node, Tree.ptr_nil, Tree.color_node, Tree.color_nil, Tree.setColor_node, Color.code_red, Color.code_black, parentOf_cons, Frame.addr_L, Frame.addr_R, Frame.sib_L, Frame.sib_R, ↓reduceIte] at hred hsib hpar hreds hs1 hs2 hl hs3
  simp [rbtree_delete_fixup_loop, rot_by_side, hne, hred, hsib, hpar, hreds, hs1, hs2, hl, hs3]

/-- One pass of the loop of `rbtree_delete_fixup`: black sibling, red nephew. -/
theorem del_step_L_far {cmp : Nat → Nat → Int} {s0 : State} {rest : List Frame}
    {p : Nat} {cp : Color} {kp vp : Nat} {n kn vn : Nat} {tl tr : Tree} {sa : Nat} {ks vs : Nat} {sn sf : Tree}
    (h0 : Represents cmp s0 (fill (.L p cp kp vp (.node sa .black ks vs sn sf) :: rest) (.node n .black kn vn tl tr)))
    (hf : sf.color = .red) (r0 : Nat) (hne : n ≠ r0) :
    ∃ s', (∀ fuel, rbtree_delete_fixup_loop r0 (fuel + 1) s0 n = rbtree_delete_fixup_loop r0 fuel s' r0) ∧
      Represents cmp s' (fill rest (.node sa cp ks vs (.node p .black kp vp (.node n .black kn vn tl tr) sn) (sf.setColor .black))) := by
  have hred := is_red_spec h0
  have hsib := get_sibling_spec h0
  have hpar := get_parent_spec h0
  have hnep := get_nephew_spec_L h0
  have hreds := is_red_spec (show Represents cmp s0 (fill (.R p cp kp vp (.node n .black kn vn tl tr) :: rest) (.node sa .black ks vs sn sf)) from h0)
  have hredf := is_red_spec (show Represents cmp s0 (fill (.R sa .black ks vs sn :: .R p cp kp vp (.node n .black kn vn tl tr) :: rest) sf) from h0)
  have hlp := (rep_load (show Represents cmp s0 (fill (rest) (.node p cp kp vp (.node n .black kn vn tl tr) (.node sa .black ks vs sn sf))) from h0)).2
  obtain ⟨s1, hs1, h1⟩ := set_color_spec (show Represents cmp s0 (fill (.R p cp kp vp (.node n .black kn vn tl tr) :: rest) (.node sa .black ks vs sn sf)) from h0) cp
  obtain ⟨s2, hs2, h2⟩ := set_color_black_spec (show Represents cmp s1 (fill (rest) (.node p cp kp vp (.node n .black kn vn tl tr) (.node sa cp ks vs sn sf))) from h1)
  obtain ⟨s3, hs3, h3⟩ := set_color_black_spec (show Represents cmp s2 (fill (.R sa cp ks vs sn :: .R p .black kp vp (.node n .black kn vn tl tr) :: rest) sf) from h2)
  have hl := is_left_spec_L (show Represents cmp s3 (fill (.L p .black kp vp (.node sa cp ks vs sn (sf.setColor .black)) :: rest) (.node n .black kn vn tl tr)) from h3)
  obtain ⟨s4, hs4, h4⟩ := rotl_spec (show Represents cmp s3 (fill (rest) (.node p .black kp vp (.node n .black kn vn tl tr) (.node sa cp ks vs sn (sf.setColor .black)))) from h3) 0
  refine ⟨s4, fun fuel => ?_, h4⟩
  simp only [Tree.ptr_node, Tree.ptr_nil, Tree.color_node, Tree.color_nil, Tree.setColor_node, Color.code_red, Color.code_black, parentOf_cons, Frame.addr_L, Frame.addr_R, Frame.sib_L, Frame.sib_R, ↓reduceIte] at hred hsib hpar hnep hreds hredf hlp hs1 hs2 hs3 hl hs4
  simp [rbtree_delete_fixup_loop, rot_by_side, hne, hred, hsib, hpar, hnep, hreds, hredf, hf, hlp,
    hs1, hs2, hs3, hl, hs4]

/-- One pass of the loop of `rbtree_delete_fixup`: black sibling, black nephew,
red niece. -/
theorem del_step_L_near {cmp : Nat → Nat → Int} {s0 : State} {rest : List Frame}
    {p : Nat} {cp : Color} {kp vp : Nat} {n kn vn : Nat} {tl tr : Tree} {sa : Nat} {ks vs : Nat} {sf : Tree}
    {la kl vl : Nat} {nx ny : Tree}
    (h0 : Represents cmp s0 (fill (.L p cp kp vp (.node sa .black ks vs (.node la .red kl vl nx ny) sf) :: rest) (.node n .black kn vn tl tr)))
    (hf : sf.color = .black) (r0 : Nat) (hne : n ≠ r0) :
    ∃ s', (∀ fuel, rbtree_delete_fixup_loop r0 (fuel + 1) s0 n = rbtree_delete_fixup_loop r0 fuel s' n) ∧
      Represents cmp s' (fill (.L p cp kp vp (.node la .black kl vl nx (.node sa .red ks vs ny sf)) :: rest) (.node n .black kn vn tl tr)) ∧
      ∃ s1 s2, set_color s0 sa COLOR_RED = .ok s1 ∧ set_color s1 la COLOR_BLACK = .ok s2 ∧
        rotr s2 sa 0 = .ok s' := by
  have hred := is_red_spec h0
  have hsib := get_sibling_spec h0
  have hpar := get_parent_spec h0
  have hnep := get_nephew_spec_L h0
  have hreds := is_red_spec (show Represents cmp s0 (fill (.R p cp kp vp (.node n .black kn vn tl tr) :: rest) (.node sa .black ks vs (.node la .red kl vl nx ny) sf)) from h0)
  have hredf := is_red_spec (show Represents cmp s0 (fill (.R sa .black ks vs (.node la .red kl vl nx ny) :: .R p cp kp vp (.node n .black kn vn tl tr) :: rest) sf) from h0)
  have hredn := is_red_spec (show Represents cmp s0 (fill (.L sa .black ks vs sf :: .R p cp kp vp (.node n .black kn vn tl tr) :: rest) (.node la .red kl vl nx ny)) from h0)
  obtain ⟨s1, hs1, h1⟩ := set_color_red_spec (show Represents cmp s0 (fill (.R p cp kp vp (.node n .black kn vn tl tr) :: rest) (.node sa .black ks vs (.node la .red kl vl nx ny) sf)) from h0)
  obtain ⟨s2, hs2, h2⟩ := set_color_black_spec (show Represents cmp s1 (fill (.L sa .red ks vs sf :: .R p cp kp vp (.node n .black kn vn tl tr) :: rest) (.node la .red kl vl nx ny)) from h1)
  have hl := is_left_spec_L (show Represents cmp s2 (fill (.L p cp kp vp (.node sa .red ks vs (.node la .black kl vl nx ny) sf) :: rest) (.node n .black kn vn tl tr)) from h2)
  obtain ⟨s3, hs3, h3⟩ := rotr_spec (show Represents cmp s2 (fill (.R p cp kp vp (.node n .black kn vn tl tr) :: rest) (.node sa .red ks vs (.node la .black kl vl nx ny) sf)) from h2) 0
  refine ⟨s3, fun fuel => ?_, h3, s1, s2, hs1, hs2, hs3⟩
  simp only [Tree.ptr_node, Tree.ptr_nil, Tree.color_node, Tree.color_nil, Tree.setColor_node, Color.code_red, Color.code_black, parentOf_cons, Frame.addr_L, Frame.addr_R, Frame.sib_L, Frame.sib_R, ↓reduceIte] at hred hsib hpar hnep hreds hredf hredn hs1 hs2 hl hs3
  simp [rbtree_delete_fixup_loop, hne, hred, hsib, hpar, hnep, hreds, hredf, hredn, hf,
    hs1, hs2, hl, hs3]

/-- One pass of the loop of `rbtree_delete_fixup`: black sibling without a red
child. -/
theorem del_step_L_none {cmp : Nat → Nat → Int} {s0 : State} {rest : List Frame}
    {p : Nat} {cp : Color} {kp vp : Nat} {n kn vn : Nat} {tl tr : Tree} {sa : Nat} {ks vs : Nat} {sn sf : Tree}
    (h0 : Represents cmp s0 (fill (.L p cp kp vp (.node sa .black ks vs sn sf) :: rest) (.node n .black kn vn tl tr)))
    (hf : sf.color = .black) (hn : sn.color = .black) (r0 : Nat) (hne : n ≠ r0) :
    ∃ s', (∀ fuel, rbtree_delete_fixup_loop r0 (fuel + 1) s0 n = rbtree_delete_fixup_loop r0 fuel s' p) ∧
      Represents cmp s' (fill rest (.node p cp kp vp (.node n .black kn vn tl tr) (.node sa .red ks vs sn sf))) := by
  have hred := is_red_spec h0
  have hsib := get_sibling_spec h0
  have hpar := get_parent_spec h0
  have hnep := get_nephew_spec_L h0
  have hreds := is_red_spec (show Represents cmp s0 (fill (.R p cp kp vp (.node n .black kn vn tl tr) :: rest) (.node sa .black ks vs sn sf)) from h0)
  have hredf := is_red_spec (show Represents cmp s0 (fill (.R sa .black ks vs sn :: .R p cp kp vp (.node n .black kn vn tl tr) :: rest) sf) from h0)
  have hredn := is_red_spec (show Represents cmp s0 (fill (.L sa .black ks vs sf :: .R p cp kp vp (.node n .black kn vn tl tr) :: rest) sn) from h0)
  obtain ⟨s1, hs1, h1⟩ := set_color_red_spec (show Represents cmp s0 (fill (.R p cp kp vp (.node n .black kn vn tl tr) :: rest) (.node sa .black ks vs sn sf)) from h0)
  refine ⟨s1, fun fuel => ?_, h1⟩
  simp only [Tree.ptr_node, Tree.ptr_nil, Tree.color_node, Tree.color_nil, Tree.setColor_node, Color.code_red, Color.code_black, parentOf_cons, Frame.addr_L, Frame.addr_R, Frame.sib_L, Frame.sib_R, ↓reduceIte] at hred hsib hpar hnep hreds hredf hredn hs1
  simp [rbtree_delete_fixup_loop, hne, hred, hsib, hpar, hnep, hreds, hredf, hredn, hf, hn, hs1]

/-- One pass of the loop of `rbtree_delete_fixup`: no sibling. -/
theorem del_step_R_nil {cmp : Nat → Nat → Int} {s0 : State} {rest : List Frame}
    {p : Nat} {cp : Color} {kp vp : Nat} {n kn vn : Nat} {tl tr : Tree}
    (h0 : Represents cmp s0 (fill (.R p cp kp vp .nil :: rest) (.node n .black kn vn tl tr)))
    (r0 : Nat) (hne : n ≠ r0) :
    ∃ s', (∀ fuel, rbtree_delete_fixup_loop r0 (fuel + 1) s0 n = rbtree_delete_fixup_loop r0 fuel s' p) ∧
      Represents cmp s' (fill rest (.node p cp kp vp .nil (.node n .black kn vn tl tr))) := by
  have hred := is_red_spec h0
  have hsib := get_sibling_spec h0
  have hpar := get_parent_spec h0
  have hnep := get_nephew_spec_nil h0 rfl
  have hz : is_red s0 0 = .ok 0 := by simp [is_red]
  have hc : set_color s0 0 1 = .ok s0 := by simp [set_color]
  refine ⟨s0, fun fuel => ?_, h0⟩
  simp only [Tree.ptr_node, Tree.ptr_nil, Tree.color_node, Tree.color_nil, Tree.setColor_node, Color.code_red, Color.code_black, parentOf_cons, Frame.addr_L, Frame.addr_R, Frame.sib_L, Frame.sib_R, ↓reduceIte] at hred hsib hpar hnep
  simp [rbtree_delete_fixup_loop, hne, hred, hsib, hpar, hnep, hz, hc]

/-- One pass of the loop of `rbtree_delete_fixup`: red sibling. -/
theorem del_step_R_red {cmp : Nat → Nat → Int} {s0 : State} {rest : List Frame}
    {p : Nat} {cp : Color} {kp vp : Nat} {n kn vn : Nat} {tl tr : Tree} {sa : Nat} {ks vs : Nat} {sn sf : Tree}
    (h0 : Represents cmp s0 (fill (.R p cp kp vp (.node sa .red ks vs sf sn) :: rest) (.node n .black kn vn tl tr)))
    (r0 : Nat) (hne : n ≠ r0) :
    ∃ s', (∀ fuel, rbtree_delete_fixup_loop r0 (fuel + 1) s0 n = rbtree_delete_fixup_loop r0 fuel s' n) ∧
      Represents cmp s' (fill (.R p .red kp vp sn :: .R sa .black ks vs sf :: rest) (.node n .black kn vn tl tr)) := by
  have hred := is_red_spec h0
  have hsib := get_sibling_spec h0
  have hpar := get_parent_spec h0
  have hreds := is_red_spec (show Represents cmp s0 (fill (.L p cp kp vp (.node n .black kn vn tl tr) :: rest) (.node sa .red ks vs sf sn)) from h0)
  obtain ⟨s1, hs1, h1⟩ := set_color_red_spec (show Represents cmp s0 (fill (rest) (.node p cp kp vp (.node sa .red ks vs sf sn) (.node n .black kn vn tl tr))) from h0)
  obtain ⟨s2, hs2, h2⟩ := set_color_black_spec (show Represents cmp s1 (fill (.L p .red kp vp (.node n .black kn vn tl tr) :: rest) (.node sa .red ks vs sf sn)) from h1)
  have hl := is_left_spec_R (show Represents cmp s2 (fill (.R p .red kp vp (.node sa .black ks vs sf sn) :: rest) (.node n .black kn vn tl tr)) from h2)
  obtain ⟨s3, hs3, h3⟩ := rotr_spec (show Represents cmp s2 (fill (rest) (.node p .red kp vp (.node sa .black ks vs sf sn) (.node n .black kn vn tl tr))) from h2) 0
  refine ⟨s3, fun fuel => ?_, h3⟩
  simp only [Tree.ptr_node, Tree.ptr_nil, Tree.color_node, Tree.color_nil, Tree.setColor_node, Color.code_red, Color.code_black, parentOf_cons, Frame.addr_L, Frame.addr_R, Frame.sib_L, Frame.sib_R, ↓reduceIte] at hred hsib hpar hreds hs1 hs2 hl hs3
  simp [rbtree_delete_fixup_loop, rot_by_side, hne, hred, hsib, hpar, hreds, hs1, hs2, hl, hs3]

/-- One pass of the loop of `rbtree_delete_fixup`: black sibling, red nephew. -/
theorem del_step_R_far {cmp : Nat → Nat → Int} {s0 : State} {rest : List Frame}
    {p : Nat} {cp : Color} {kp vp : Nat} {n kn vn : Nat} {tl tr : Tree} {sa : Nat} {ks vs : Nat} {sn sf : Tree}
    (h0 : Represents cmp s0 (fill (.R p cp kp vp (.node sa .black ks vs sf sn) :: rest) (.node n .black kn vn tl tr)))
    (hf : sf.color = .red) (r0 : Nat) (hne : n ≠ r0) :
    ∃ s', (∀ fuel, rbtree_delete_fixup_loop r0 (fuel + 1) s0 n = rbtree_delete_fixup_loop r0 fuel s' r0) ∧
      Represents cmp s' (fill rest (.node sa cp ks vs (sf.setColor .black) (.node p .black kp vp sn (.node n .black kn vn tl tr)))) := by
  have hred := is_red_spec h0
  have hsib := get_sibling_spec h0
  have hpar := get_parent_spec h0
  have hnep := get_nephew_spec_R h0
  have hreds := is_red_spec (show Represents cmp s0 (fill (.L p cp kp vp (.node n .black kn vn tl tr) :: rest) (.node sa .black ks vs sf sn)) from h0)
  have hredf := is_red_spec (show Represents cmp s0 (fill (.L sa .black ks vs sn :: .L p cp kp vp (.node n .black kn vn tl tr) :: rest) sf) from h0)
  have hlp := (rep_load (show Represents cmp s0 (fill (rest) (.node p cp kp vp (.node sa .black ks vs sf sn) (.node n .black kn vn tl tr))) from h0)).2
  obtain ⟨s1, hs1, h1⟩ := set_color_spec (show Represents cmp s0 (fill (.L p cp kp vp (.node n .black kn vn tl tr) :: rest) (.node sa .black ks vs sf sn)) from h0) cp
  obtain ⟨s2, hs2, h2⟩ := set_color_black_spec (show Represents cmp s1 (fill (rest) (.node p cp kp vp (.node sa cp ks vs sf sn) (.node n .black kn vn tl tr))) from h1)
  obtain ⟨s3, hs3, h3⟩ := set_color_black_spec (show Represents cmp s2 (fill (.L sa cp ks vs sn :: .L p .black kp vp (.node n .black kn vn tl tr) :: rest) sf) from h2)
  have hl := is_left_spec_R (show Represents cmp s3 (fill (.R p .black kp vp (.node sa cp ks vs (sf.setColor .black) sn) :: rest) (.node n .black kn vn tl tr)) from h3)
  obtain ⟨s4, hs4, h4⟩ := rotr_spec (show Represents cmp s3 (fill (rest) (.node p .black kp vp (.node sa cp ks vs (sf.setColor .black) sn) (.node n .black kn vn tl tr))) from h3) 0
  refine ⟨s4, fun fuel => ?_, h4⟩
  simp only [Tree.ptr_node, Tree.ptr_nil, Tree.color_node, Tree.color_nil, Tree.setColor_node, Color.code_red, Color.code_black, parentOf_cons, Frame.addr_L, Frame.addr_R, Frame.sib_L, Frame.sib_R, ↓reduceIte] at hred hsib hpar hnep hreds hredf hlp hs1 hs2 hs3 hl hs4
  simp [rbtree_delete_fixup_loop, rot_by_side, hne, hred, hsib, hpar, hnep, hreds, hredf, hf, hlp,
    hs1, hs2, hs3, hl, hs4]

/-- One pass of the loop of `rbtree_delete_fixup`: black sibling, black nephew,
red niece. -/
theorem del_step_R_near {cmp : Nat → Nat → Int} {s0 : State} {rest : List Frame}
    {p : Nat} {cp : Color} {kp vp : Nat} {n kn vn : Nat} {tl tr : Tree} {sa : Nat} {ks vs : Nat} {sf : Tree}
    {la kl vl : Nat} {nx ny : Tree}
    (h0 : Represents cmp s0 (fill (.R p cp kp vp (.node sa .black ks vs sf (.node la .red kl vl ny nx)) :: rest) (.node n .black kn vn tl tr)))
    (hf : sf.color = .black) (r0 : Nat) (hne : n ≠ r0) :
    ∃ s', (∀ fuel, rbtree_delete_fixup_loop r0 (fuel + 1) s0 n = rbtree_delete_fixup_loop r0 fuel s' n) ∧
      Represents cmp s' (fill (.R p cp kp vp (.node la .black kl vl (.node sa .red ks vs sf ny) nx) :: rest) (.node n .black kn vn tl tr)) ∧
      ∃ s1 s2, set_color s0 sa COLOR_RED = .ok s1 ∧ set_color s1 la COLOR_BLACK = .ok s2 ∧
        rotl s2 sa 0 = .ok s' := by
  have hred := is_red_spec h0
  have hsib := get_sibling_spec h0
  have hpar := get_parent_spec h0
  have hnep := get_nephew_spec_R h0
  have hreds := is_red_spec (show Represents cmp s0 (fill (.L p cp kp vp (.node n .black kn vn tl tr) :: rest) (.node sa .black ks vs sf (.node la .red kl vl ny nx))) from h0)
  have hredf := is_red_spec (show Represents cmp s0 (fill (.L sa .black ks vs (.node la .red kl vl ny nx) :: .L p cp kp vp (.node n .black kn vn tl tr) :: rest) sf) from h0)
  have hredn := is_red_spec (show Represents cmp s0 (fill (.R sa .black ks vs sf :: .L p cp kp vp (.node n .black kn vn tl tr) :: rest) (.node la .red kl vl ny nx)) from h0)
  obtain ⟨s1, hs1, h1⟩ := set_color_red_spec (show Represents cmp s0 (fill (.L p cp kp vp (.node n .black kn vn tl tr) :: rest) (.node sa .black ks vs sf (.node la .red kl vl ny nx))) from h0)
  obtain ⟨s2, hs2, h2⟩ := set_color_black_spec (show Represents cmp s1 (fill (.R sa .red ks vs sf :: .L p cp kp vp (.node n .black kn vn tl tr) :: rest) (.node la .red kl vl ny nx)) from h1)
  have hl := is_left_spec_R (show Represents cmp s2 (fill (.R p cp kp vp (.node sa .red ks vs sf (.node la .black kl vl ny nx)) :: rest) (.node n .black kn vn tl tr)) from h2)
  obtain ⟨s3, hs3, h3⟩ := rotl_spec (show Represents cmp s2 (fill (.L p cp kp vp (.node n .black kn vn tl tr) :: rest) (.node sa .red ks vs sf (.node la .black kl vl ny nx))) from h2) 0
  refine ⟨s3, fun fuel => ?_, h3, s1, s2, hs1, hs2, hs3⟩
  simp only [Tree.ptr_node, Tree.ptr_nil, Tree.color_node, Tree.color_nil, Tree.setColor_node, Color.code_red, Color.code_black, parentOf_cons, Frame.addr_L, Frame.addr_R, Frame.sib_L, Frame.sib_R, ↓reduceIte] at hred hsib hpar hnep hreds hredf hredn hs1 hs2 hl hs3
  simp [rbtree_delete_fixup_loop, hne, hred, hsib, hpar, hnep, hreds, hredf, hredn, hf,
    hs1, hs2, hl, hs3]

/-- One pass of the loop of `rbtree_delete_fixup`: black sibling without a red
child. -/
theorem del_step_R_none {cmp : Nat → Nat → Int} {s0 : State} {rest : List Frame}
    {p : Nat} {cp : Color} {kp vp : Nat} {n kn vn : Nat} {tl tr : Tree} {sa : Nat} {ks vs : Nat} {sn sf : Tree}
    (h0 : Represents cmp s0 (fill (.R p cp kp vp (.node sa .black ks vs sf sn) :: rest) (.node n .black kn vn tl tr)))
    (hf : sf.color = .black) (hn : sn.color = .black) (r0 : Nat) (hne : n ≠ r0) :
    ∃ s', (∀ fuel, rbtree_delete_fixup_loop r0 (fuel + 1) s0 n = rbtree_delete_fixup_loop r0 fuel s' p) ∧
      Represents cmp s' (fill rest (.node p cp kp vp (.node sa .red ks vs sf sn) (.node n .black kn vn tl tr))) := by
  have hred := is_red_spec h0
  have hsib := get_sibling_spec h0
  have hpar := get_parent_spec h0
  have hnep := get_nephew_spec_R h0
  have hreds := is_red_spec (show Represents cmp s0 (fill (.L p cp kp vp (.node n .black kn vn tl tr) :: rest) (.node sa .black ks vs sf sn)) from h0)
  have hredf := is_red_spec (show Represents cmp s0 (fill (.L sa .black ks vs sn :: .L p cp kp vp (.node n .black kn vn tl tr) :: rest) sf) from h0)
  have hredn := is_red_spec (show Represents cmp s0 (fill (.R sa .black ks vs sf :: .L p cp kp vp (.node n .black kn vn tl tr) :: rest) sn) from h0)
  obtain ⟨s1, hs1, h1⟩ := set_color_red_spec (show Represents cmp s0 (fill (.L p cp kp vp (.node n .black kn vn tl tr) :: rest) (.node sa .black ks vs sf sn)) from h0)
  refine ⟨s1, fun fuel => ?_, h1⟩
  simp only [Tree.ptr_node, Tree.ptr_nil, Tree.color_node, Tree.color_nil, Tree.setColor_node, Color.code_red, Color.code_black, parentOf_cons, Frame.addr_L, Frame.addr_R, Frame.sib_L, Frame.sib_R, ↓reduceIte] at hred hsib hpar hnep hreds hredf hredn hs1
  simp [rbtree_delete_fixup_loop, hne, hred, hsib, hpar, hnep, hreds, hredf, hredn, hf, hn, hs1]

end RBTree


namespace RBTree

/-- One pass of the loop of the variant of `rbtree_delete_fixup` that reads the root again: no sibling. -/
theorem reread_step_L_nil {cmp : Nat → Nat → Int} {s0 : State} {rest : List Frame}
    {p : Nat} {cp : Color} {kp vp : Nat} {n kn vn : Nat} {tl tr : Tree}
    (h0 : Represents cmp s0 (fill (.L p cp kp vp .nil :: rest) (.node n .black kn vn tl tr)))
    :
    ∃ s', (∀ fuel, rbtree_delete_fixup_reread_loop (fuel + 1) s0 n = rbtree_delete_fixup_reread_loop fuel s' p) ∧
      Represents cmp s' (fill rest (.node p cp kp vp (.node n .black kn vn tl tr) .nil)) := by
  have hne : n ≠ s0.root := rep_root_ne h0 (by simp)
  have hred := is_red_spec h0
  have hsib := get_sibling_spec h0
  have hpar := get_parent_spec h0
  have hnep := get_nephew_spec_nil h0 rfl
  have hz : is_red s0 0 = .ok 0 := by simp [is_red]
  have hc : set_color s0 0 1 = .ok s0 := by simp [set_color]
  refine ⟨s0, fun fuel => ?_, h0⟩
  simp only [Tree.ptr_node, Tree.ptr_nil, Tree.color_node, Tree.color_nil, Tree.setColor_node, Color.code_red, Color.code_black, parentOf_cons, Frame.addr_L, Frame.addr_R, Frame.sib_L, Frame.sib_R, ↓reduceIte] at hred hsib hpar hnep
  simp [rbtree_delete_fixup_reread_loop, hne, hred, hsib, hpar, hnep, hz, hc]

/-- One pass of the loop of the variant of `rbtree_delete_fixup` that reads the root again: red sibling. -/
theorem reread_step_L_red {cmp : Nat → Nat → Int} {s0 : State} {rest : List Frame}
    {p : Nat} {cp : Color} {kp vp : Nat} {n kn vn : Nat} {tl tr : Tree} {sa : Nat} {ks vs : Nat} {sn sf : Tree}
    (h0 : Represents cmp s0 (fill (.L p cp kp vp (.node sa .red ks vs sn sf) :: rest) (.node n .black kn vn tl tr)))
    :
    ∃ s', (∀ fuel, rbtree_delete_fixup_reread_loop (fuel + 1) s0 n = rbtree_delete_fixup_reread_loop fuel s' n) ∧
      Represents cmp s' (fill (.L p .red kp vp sn :: .L sa .black ks vs sf :: rest) (.node n .black kn vn tl tr)) := by
  have hne : n ≠ s0.root := rep_root_ne h0 (by simp)
  have hred := is_red_spec h0
  have hsib := get_sibling_spec h0
  have hpar := get_parent_spec h0
  have hreds := is_red_spec (show Represents cmp s0 (fill (.R p cp kp vp (.node n .black kn vn tl tr) :: rest) (.node sa .red ks vs sn sf)) from h0)
  obtain ⟨s1, hs1, h1⟩ := set_color_red_spec (show Represents cmp s0 (fill (rest) (.node p cp kp vp (.node n .black kn vn tl tr) (.node sa .red ks vs sn sf))) from h0)
  obtain ⟨s2, hs2, h2⟩ := set_color_black_spec (show Represents cmp s1 (fill (.R p .red kp vp (.node n .black kn vn tl tr) :: rest) (.node sa .red ks vs sn sf)) from h1)
  have hl := is_left_spec_L (show Represents cmp s2 (fill (.L p .red kp vp (.node sa .black ks vs sn sf) :: rest) (.node n .black kn vn tl tr)) from h2)
  obtain ⟨s3, hs3, h3⟩ := rotl_spec (show Represents cmp s2 (fill (rest) (.node p .red kp vp (.node n .black kn vn tl tr) (.node sa .black ks vs sn sf))) from h2) 0
  refine ⟨s3, fun fuel => ?_, h3⟩
  simp only [Tree.ptr_node, Tree.ptr_nil, Tree.color_node, Tree.color_nil, Tree.setColor_node, Color.code_red, Color.code_black, parentOf_cons, Frame.addr_L, Frame.addr_R, Frame.sib_L, Frame.sib_R, ↓reduceIte] at hred hsib hpar hreds hs1 hs2 hl hs3
  simp [rbtree_delete_fixup_reread_loop, rot_by_side, hne, hred, hsib, hpar, hreds, hs1, hs2, hl, hs3]

/-- One pass of the loop of the variant of `rbtree_delete_fixup` that reads the root again: black sibling, red nephew. -/
theorem reread_step_L_far {cmp : Nat → Nat → Int} {s0 : State} {rest : List Frame}
    {p : Nat} {cp : Color} {kp vp : Nat} {n kn vn : Nat} {tl tr : Tree} {sa : Nat} {ks vs : Nat} {sn sf : Tree}
    (h0 : Represents cmp s0 (fill (.L p cp kp vp (.node sa .black ks vs sn sf) :: rest) (.node n .black kn vn tl tr)))
    (hf : sf.color = .red) :
    ∃ s', (∀ fuel, rbtree_delete_fixup_reread_loop (fuel + 1) s0 n = rbtree_delete_fixup_reread_loop fuel s' s'.root) ∧
      Represents cmp s' (fill rest (.node sa cp ks vs (.node p .black kp vp (.node n .black kn vn tl tr) sn) (sf.setColor .black))) := by
  have hne : n ≠ s0.root := rep_root_ne h0 (by simp)
  have hred := is_red_spec h0
  have hsib := get_sibling_spec h0
  have hpar := get_parent_spec h0
  have hnep := get_nephew_spec_L h0
  have hreds := is_red_spec (show Represents cmp s0 (fill (.R p cp kp vp (.node n .black kn vn tl tr) :: rest) (.node sa .black ks vs sn sf)) from h0)
  have hredf := is_red_spec (show Represents cmp s0 (fill (.R sa .black ks vs sn :: .R p cp kp vp (.node n .black kn vn tl tr) :: rest) sf) from h0)
  have hlp := (rep_load (show Represents cmp s0 (fill (rest) (.node p cp kp vp (.node n .black kn vn tl tr) (.node sa .black ks vs sn sf))) from h0)).2
  obtain ⟨s1, hs1, h1⟩ := set_color_spec (show Represents cmp s0 (fill (.R p cp kp vp (.node n .black kn vn tl tr) :: rest) (.node sa .black ks vs sn sf)) from h0) cp
  obtain ⟨s2, hs2, h2⟩ := set_color_black_spec (show Represents cmp s1 (fill (rest) (.node p cp kp vp (.node n .black kn vn tl tr) (.node sa cp ks vs sn sf))) from h1)
  obtain ⟨s3, hs3, h3⟩ := set_color_black_spec (show Represents cmp s2 (fill (.R sa cp ks vs sn :: .R p .black kp vp (.node n .black kn vn tl tr) :: rest) sf) from h2)
  have hl := is_left_spec_L (show Represents cmp s3 (fill (.L p .black kp vp (.node sa cp ks vs sn (sf.setColor .black)) :: rest) (.node n .black kn vn tl tr)) from h3)
  obtain ⟨s4, hs4, h4⟩ := rotl_spec (show Represents cmp s3 (fill (rest) (.node p .black kp vp (.node n .black kn vn tl tr) (.node sa cp ks vs sn (sf.setColor .black)))) from h3) 0
  refine ⟨s4, fun fuel => ?_, h4⟩
  simp only [Tree.ptr_node, Tree.ptr_nil, Tree.color_node, Tree.color_nil, Tree.setColor_node, Color.code_red, Color.code_black, parentOf_cons, Frame.addr_L, Frame.addr_R, Frame.sib_L, Frame.sib_R, ↓reduceIte] at hred hsib hpar hnep hreds hredf hlp hs1 hs2 hs3 hl hs4
  simp [rbtree_delete_fixup_reread_loop, rot_by_side, hne, hred, hsib, hpar, hnep, hreds, hredf, hf, hlp,
    hs1, hs2, hs3, hl, hs4]

/-- One pass of the loop of the variant of `rbtree_delete_fixup` that reads the root again: black sibling, black nephew,
red niece. -/
theorem reread_step_L_near {cmp : Nat → Nat → Int} {s0 : State} {rest : List Frame}
    {p : Nat} {cp : Color} {kp vp : Nat} {n kn vn : Nat} {tl tr : Tree} {sa : Nat} {ks vs : Nat} {sf : Tree}
    {la kl vl : Nat} {nx ny : Tree}
    (h0 : Represents cmp s0 (fill (.L p cp kp vp (.node sa .black ks vs (.node la .red kl vl nx ny) sf) :: rest) (.node n .black kn vn tl tr)))
    (hf : sf.color = .black) :
    ∃ s', (∀ fuel, rbtree_delete_fixup_reread_loop (fuel + 1) s0 n = rbtree_delete_fixup_reread_loop fuel s' n) ∧
      Represents cmp s' (fill (.L p cp kp vp (.node la .black kl vl nx (.node sa .red ks vs ny sf)) :: rest) (.node n .black kn vn tl tr)) ∧
      ∃ s1 s2, set_color s0 sa COLOR_RED = .ok s1 ∧ set_color s1 la COLOR_BLACK = .ok s2 ∧
        rotr s2 sa 0 = .ok s' := by
  have hne : n ≠ s0.root := rep_root_ne h0 (by simp)
  have hred := is_red_spec h0
  have hsib := get_sibling_spec h0
  have hpar := get_parent_spec h0
  have hnep := get_nephew_spec_L h0
  have hreds := is_red_spec (show Represents cmp s0 (fill (.R p cp kp vp (.node n .black kn vn tl tr) :: rest) (.node sa .black ks vs (.node la .red kl vl nx ny) sf)) from h0)
  have hredf := is_red_spec (show Represents cmp s0 (fill (.R sa .black ks vs (.node la .red kl vl nx ny) :: .R p cp kp vp (.node n .black kn vn tl tr) :: rest) sf) from h0)
  have hredn := is_red_spec (show Represents cmp s0 (fill (.L sa .black ks vs sf :: .R p cp kp vp (.node n .black kn vn tl tr) :: rest) (.node la .red kl vl nx ny)) from h0)
  obtain ⟨s1, hs1, h1⟩ := set_color_red_spec (show Represents cmp s0 (fill (.R p cp kp vp (.node n .black kn vn tl tr) :: rest) (.node sa .black ks vs (.node la .red kl vl nx ny) sf)) from h0)
  obtain ⟨s2, hs2, h2⟩ := set_color_black_spec (show Represents cmp s1 (fill (.L sa .red ks vs sf :: .R p cp kp vp (.node n .black kn vn tl tr) :: rest) (.node la .red kl vl nx ny)) from h1)
  have hl := is_left_spec_L (show Represents cmp s2 (fill (.L p cp kp vp (.node sa .red ks vs (.node la .black kl vl nx ny) sf) :: rest) (.node n .black kn vn tl tr)) from h2)
  obtain ⟨s3, hs3, h3⟩ := rotr_spec (show Represents cmp s2 (fill (.R p cp kp vp (.node n .black kn vn tl tr) :: rest) (.node sa .red ks vs (.node la .black kl vl nx ny) sf)) from h2) 0
  refine ⟨s3, fun fuel => ?_, h3, s1, s2, hs1, hs2, hs3⟩
  simp only [Tree.ptr_node, Tree.ptr_nil, Tree.color_node, Tree.color_nil, Tree.setColor_node, Color.code_red, Color.code_black, parentOf_cons, Frame.addr_L, Frame.addr_R, Frame.sib_L, Frame.sib_R, ↓reduceIte] at hred hsib hpar hnep hreds hredf hredn hs1 hs2 hl hs3
  simp [rbtree_delete_fixup_reread_loop, hne, hred, hsib, hpar, hnep, hreds, hredf, hredn, hf,
    hs1, hs2, hl, hs3]

/-- One pass of the loop of the variant of `rbtree_delete_fixup` that reads the root again: black sibling without a red
child. -/
theorem reread_step_L_none {cmp : Nat → Nat → Int} {s0 : State} {rest : List Frame}
    {p : Nat} {cp : Color} {kp vp : Nat} {n kn vn : Nat} {tl tr : Tree} {sa : Nat} {ks vs : Nat} {sn sf : Tree}
    (h0 : Represents cmp s0 (fill (.L p cp kp vp (.node sa .black ks vs sn sf) :: rest) (.node n .black kn vn tl tr)))
    (hf : sf.color = .black) (hn : sn.color = .black) :
    ∃ s', (∀ fuel, rbtree_delete_fixup_reread_loop (fuel + 1) s0 n = rbtree_delete_fixup_reread_loop fuel s' p) ∧
      Represents cmp s' (fill rest (.node p cp kp vp (.node n .black kn vn tl tr) (.node sa .red ks vs sn sf))) := by
  have hne : n ≠ s0.root := rep_root_ne h0 (by simp)
  have hred := is_red_spec h0
  have hsib := get_sibling_spec h0
  have hpar := get_parent_spec h0
  have hnep := get_nephew_spec_L h0
  have hreds := is_red_spec (show Represents cmp s0 (fill (.R p cp kp vp (.node n .black kn vn tl tr) :: rest) (.node sa .black ks vs sn sf)) from h0)
  have hredf := is_red_spec (show Represents cmp s0 (fill (.R sa .black ks vs sn :: .R p cp kp vp (.node n .black kn vn tl tr) :: rest) sf) from h0)
  have hredn := is_red_spec (show Represents cmp s0 (fill (.L sa .black ks vs sf :: .R p cp kp vp (.node n .black kn vn tl tr) :: rest) sn) from h0)
  obtain ⟨s1, hs1, h1⟩ := set_color_red_spec (show Represents cmp s0 (fill (.R p cp kp vp (.node n .black kn vn tl tr) :: rest) (.node sa .black ks vs sn sf)) from h0)
  refine ⟨s1, fun fuel => ?_, h1⟩
  simp only [Tree.ptr_node, Tree.ptr_nil, Tree.color_node, Tree.color_nil, Tree.setColor_node, Color.code_red, Color.code_black, parentOf_cons, Frame.addr_L, Frame.addr_R, Frame.sib_L, Frame.sib_R, ↓reduceIte] at hred hsib hpar hnep hreds hredf hredn hs1
  simp [rbtree_delete_fixup_reread_loop, hne, hred, hsib, hpar, hnep, hreds, hredf, hredn, hf, hn, hs1]

/-- One pass of the loop of the variant of `rbtree_delete_fixup` that reads the root again: no sibling. -/
theorem reread_step_R_nil {cmp : Nat → Nat → Int} {s0 : State} {rest : List Frame}
    {p : Nat} {cp : Color} {kp vp : Nat} {n kn vn : Nat} {tl tr : Tree}
    (h0 : Represents cmp s0 (fill (.R p cp kp vp .nil :: rest) (.node n .black kn vn tl tr)))
    :
    ∃ s', (∀ fuel, rbtree_delete_fixup_reread_loop (fuel + 1) s0 n = rbtree_delete_fixup_reread_loop fuel s' p) ∧
      Represents cmp s' (fill rest (.node p cp kp vp .nil (.node n .black kn vn tl tr))) := by
  have hne : n ≠ s0.root := rep_root_ne h0 (by simp)
  have hred := is_red_spec h0
  have hsib := get_sibling_spec h0
  have hpar := get_parent_spec h0
  have hnep := get_nephew_spec_nil h0 rfl
  have hz : is_red s0 0 = .ok 0 := by simp [is_red]
  have hc : set_color s0 0 1 = .ok s0 := by simp [set_color]
  refine ⟨s0, fun fuel => ?_, h0⟩
  simp only [Tree.ptr_node, Tree.ptr_nil, Tree.color_node, Tree.color_nil, Tree.setColor_node, Color.code_red, Color.code_black, parentOf_cons, Frame.addr_L, Frame.addr_R, Frame.sib_L, Frame.sib_R, ↓reduceIte] at hred hsib hpar hnep
  simp [rbtree_delete_fixup_reread_loop, hne, hred, hsib, hpar, hnep, hz, hc]

/-- One pass of the loop of the variant of `rbtree_delete_fixup` that reads the root again: red sibling. -/
theorem reread_step_R_red {cmp : Nat → Nat → Int} {s0 : State} {rest : List Frame}
    {p : Nat} {cp : Color} {kp vp : Nat} {n kn vn : Nat} {tl tr : Tree} {sa : Nat} {ks vs : Nat} {sn sf : Tree}
    (h0 : Represents cmp s0 (fill (.R p cp kp vp (.node sa .red ks vs sf sn) :: rest) (.node n .black kn vn tl tr)))
    :
    ∃ s', (∀ fuel, rbtree_delete_fixup_reread_loop (fuel + 1) s0 n = rbtree_delete_fixup_reread_loop fuel s' n) ∧
      Represents cmp s' (fill (.R p .red kp vp sn :: .R sa .black ks vs sf :: rest) (.node n .black kn vn tl tr)) := by
  have hne : n ≠ s0.root := rep_root_ne h0 (by simp)
  have hred := is_red_spec h0
  have hsib := get_sibling_spec h0
  have hpar := get_parent_spec h0
  have hreds := is_red_spec (show Represents cmp s0 (fill (.L p cp kp vp (.node n .black kn vn tl tr) :: rest) (.node sa .red ks vs sf sn)) from h0)
  obtain ⟨s1, hs1, h1⟩ := set_color_red_spec (show Represents cmp s0 (fill (rest) (.node p cp kp vp (.node sa .red ks vs sf sn) (.node n .black kn vn tl tr))) from h0)
  obtain ⟨s2, hs2, h2⟩ := set_color_black_spec (show Represents cmp s1 (fill (.L p .red kp vp (.node n .black kn vn tl tr) :: rest) (.node sa .red ks vs sf sn)) from h1)
  have hl := is_left_spec_R (show Represents cmp s2 (fill (.R p .red kp vp (.node sa .black ks vs sf sn) :: rest) (.node n .black kn vn tl tr)) from h2)
  obtain ⟨s3, hs3, h3⟩ := rotr_spec (show Represents cmp s2 (fill (rest) (.node p .red kp vp (.node sa .black ks vs sf sn) (.node n .black kn vn tl tr))) from h2) 0
  refine ⟨s3, fun fuel => ?_, h3⟩
  simp only [Tree.ptr_node, Tree.ptr_nil, Tree.color_node, Tree.color_nil, Tree.setColor_node, Color.code_red, Color.code_black, parentOf_cons, Frame.addr_L, Frame.addr_R, Frame.sib_L, Frame.sib_R, ↓reduceIte] at hred hsib hpar hreds hs1 hs2 hl hs3
  simp [rbtree_delete_fixup_reread_loop, rot_by_side, hne, hred, hsib, hpar, hreds, hs1, hs2, hl, hs3]

/-- One pass of the loop of the variant of `rbtree_delete_fixup` that reads the root again: black sibling, red nephew. -/
theorem reread_step_R_far {cmp : Nat → Nat → Int} {s0 : State} {rest : List Frame}
    {p : Nat} {cp : Color} {kp vp : Nat} {n kn vn : Nat} {tl tr : Tree} {sa : Nat} {ks vs : Nat} {sn sf : Tree}
    (h0 : Represents cmp s0 (fill (.R p cp kp vp (.node sa .black ks vs sf sn) :: rest) (.node n .black kn vn tl tr)))
    (hf : sf.color = .red) :
    ∃ s', (∀ fuel, rbtree_delete_fixup_reread_loop (fuel + 1) s0 n = rbtree_delete_fixup_reread_loop fuel s' s'.root) ∧
      Represents cmp s' (fill rest (.node sa cp ks vs (sf.setColor .black) (.node p .black kp vp sn (.node n .black kn vn tl tr)))) := by
  have hne : n ≠ s0.root := rep_root_ne h0 (by simp)
  have hred := is_red_spec h0
  have hsib := get_sibling_spec h0
  have hpar := get_parent_spec h0
  have hnep := get_nephew_spec_R h0
  have hreds := is_red_spec (show Represents cmp s0 (fill (.L p cp kp vp (.node n .black kn vn tl tr) :: rest) (.node sa .black ks vs sf sn)) from h0)
  have hredf := is_red_spec (show Represents cmp s0 (fill (.L sa .black ks vs sn :: .L p cp kp vp (.node n .black kn vn tl tr) :: rest) sf) from h0)
  have hlp := (rep_load (show Represents cmp s0 (fill (rest) (.node p cp kp vp (.node sa .black ks vs sf sn) (.node n .black kn vn tl tr))) from h0)).2
  obtain ⟨s1, hs1, h1⟩ := set_color_spec (show Represents cmp s0 (fill (.L p cp kp vp (.node n .black kn vn tl tr) :: rest) (.node sa .black ks vs sf sn)) from h0) cp
  obtain ⟨s2, hs2, h2⟩ := set_color_black_spec (show Represents cmp s1 (fill (rest) (.node p cp kp vp (.node sa cp ks vs sf sn) (.node n .black kn vn tl tr))) from h1)
  obtain ⟨s3, hs3, h3⟩ := set_color_black_spec (show Represents cmp s2 (fill (.L sa cp ks vs sn :: .L p .black kp vp (.node n .black kn vn tl tr) :: rest) sf) from h2)
  have hl := is_left_spec_R (show Represents cmp s3 (fill (.R p .black kp vp (.node sa cp ks vs (sf.setColor .black) sn) :: rest) (.node n .black kn vn tl tr)) from h3)
  obtain ⟨s4, hs4, h4⟩ := rotr_spec (show Represents cmp s3 (fill (rest) (.node p .black kp vp (.node sa cp ks vs (sf.setColor .black) sn) (.node n .black kn vn tl tr))) from h3) 0
  refine ⟨s4, fun fuel => ?_, h4⟩
  simp only [Tree.ptr_node, Tree.ptr_nil, Tree.color_node, Tree.color_nil, Tree.setColor_node, Color.code_red, Color.code_black, parentOf_cons, Frame.addr_L, Frame.addr_R, Frame.sib_L, Frame.sib_R, ↓reduceIte] at hred hsib hpar hnep hreds hredf hlp hs1 hs2 hs3 hl hs4
  simp [rbtree_delete_fixup_reread_loop, rot_by_side, hne, hred, hsib, hpar, hnep, hreds, hredf, hf, hlp,
    hs1, hs2, hs3, hl, hs4]

/-- One pass of the loop of the variant of `rbtree_delete_fixup` that reads the root again: black sibling, black nephew,
red niece. -/
theorem reread_step_R_near {cmp : Nat → Nat → Int} {s0 : State} {rest : List Frame}
    {p : Nat} {cp : Color} {kp vp : Nat} {n kn vn : Nat} {tl tr : Tree} {sa : Nat} {ks vs : Nat} {sf : Tree}
    {la kl vl : Nat} {nx ny : Tree}
    (h0 : Represents cmp s0 (fill (.R p cp kp vp (.node sa .black ks vs sf (.node la .red kl vl ny nx)) :: rest) (.node n .black kn vn tl tr)))
    (hf : sf.color = .black) :
    ∃ s', (∀ fuel, rbtree_delete_fixup_reread_loop (fuel + 1) s0 n = rbtree_delete_fixup_reread_loop fuel s' n) ∧
      Represents cmp s' (fill (.R p cp kp vp (.node la .black kl vl (.node sa .red ks vs sf ny) nx) :: rest) (.node n .black kn vn tl tr)) ∧
      ∃ s1 s2, set_color s0 sa COLOR_RED = .ok s1 ∧ set_color s1 la COLOR_BLACK = .ok s2 ∧
        rotl s2 sa 0 = .ok s' := by
  have hne : n ≠ s0.root := rep_root_ne h0 (by simp)
  have hred := is_red_spec h0
  have hsib := get_sibling_spec h0
  have hpar := get_parent_spec h0
  have hnep := get_nephew_spec_R h0
  have hreds := is_red_spec (show Represents cmp s0 (fill (.L p cp kp vp (.node n .black kn vn tl tr) :: rest) (.node sa .black ks vs sf (.node la .red kl vl ny nx))) from h0)
  have hredf := is_red_spec (show Represents cmp s0 (fill (.L sa .black ks vs (.node la .red kl vl ny nx) :: .L p cp kp vp (.node n .black kn vn tl tr) :: rest) sf) from h0)
  have hredn := is_red_spec (show Represents cmp s0 (fill (.R sa .black ks vs sf :: .L p cp kp vp (.node n .black kn vn tl tr) :: rest) (.node la .red kl vl ny nx)) from h0)
  obtain ⟨s1, hs1, h1⟩ := set_color_red_spec (show Represents cmp s0 (fill (.L p cp kp vp (.node n .black kn vn tl tr) :: rest) (.node sa .black ks vs sf (.node la .red kl vl ny nx))) from h0)
  obtain ⟨s2, hs2, h2⟩ := set_color_black_spec (show Represents cmp s1 (fill (.R sa .red ks vs sf :: .L p cp kp vp (.node n .black kn vn tl tr) :: rest) (.node la .red kl vl ny nx)) from h1)
  have hl := is_left_spec_R (show Represents cmp s2 (fill (.R p cp kp vp (.node sa .red ks vs sf (.node la .black kl vl ny nx)) :: rest) (.node n .black kn vn tl tr)) from h2)
  obtain ⟨s3, hs3, h3⟩ := rotl_spec (show Represents cmp s2 (fill (.L p cp kp vp (.node n .black kn vn tl tr) :: rest) (.node sa .red ks vs sf (.node la .black kl vl ny nx))) from h2) 0
  refine ⟨s3, fun fuel => ?_, h3, s1, s2, hs1, hs2, hs3⟩
  simp only [Tree.ptr_node, Tree.ptr_nil, Tree.color_node, Tree.color_nil, Tree.setColor_node, Color.code_red, Color.code_black, parentOf_cons, Frame.addr_L, Frame.addr_R, Frame.sib_L, Frame.sib_R, ↓reduceIte] at hred hsib hpar hnep hreds hredf hredn hs1 hs2 hl hs3
  simp [rbtree_delete_fixup_reread_loop, hne, hred, hsib, hpar, hnep, hreds, hredf, hredn, hf,
    hs1, hs2, hl, hs3]

/-- One pass of the loop of the variant of `rbtree_delete_fixup` that reads the root again: black sibling without a red
child. -/
theorem reread_step_R_none {cmp : Nat → Nat → Int} {s0 : State} {rest : List Frame}
    {p : Nat} {cp : Color} {kp vp : Nat} {n kn vn : Nat} {tl tr : Tree} {sa : Nat} {ks vs : Nat} {sn sf : Tree}
    (h0 : Represents cmp s0 (fill (.R p cp kp vp (.node sa .black ks vs sf sn) :: rest) (.node n .black kn vn tl tr)))
    (hf : sf.color = .black) (hn : sn.color = .black) :
    ∃ s', (∀ fuel, rbtree_delete_fixup_reread_loop (fuel + 1) s0 n = rbtree_delete_fixup_reread_loop fuel s' p) ∧
      Represents cmp s' (fill rest (.node p cp kp vp (.node sa .red ks vs sf sn) (.node n .black kn vn tl tr))) := by
  have hne : n ≠ s0.root := rep_root_ne h0 (by simp)
  have hred := is_red_spec h0
  have hsib := get_sibling_spec h0
  have hpar := get_parent_spec h0
  have hnep := get_nephew_spec_R h0
  have hreds := is_red_spec (show Represents cmp s0 (fill (.L p cp kp vp (.node n .black kn vn tl tr) :: rest) (.node sa .black ks vs sf sn)) from h0)
  have hredf := is_red_spec (show Represents cmp s0 (fill (.L sa .black ks vs sn :: .L p cp kp vp (.node n .black kn vn tl tr) :: rest) sf) from h0)
  have hredn := is_red_spec (show Represents cmp s0 (fill (.R sa .black ks vs sf :: .L p cp kp vp (.node n .black kn vn tl tr) :: rest) sn) from h0)
  obtain ⟨s1, hs1, h1⟩ := set_color_red_spec (show Represents cmp s0 (fill (.L p cp kp vp (.node n .black kn vn tl tr) :: rest) (.node sa .black ks vs sf sn)) from h0)
  refine ⟨s1, fun fuel => ?_, h1⟩
  simp only [Tree.ptr_node, Tree.ptr_nil, Tree.color_node, Tree.color_nil, Tree.setColor_node, Color.code_red, Color.code_black, parentOf_cons, Frame.addr_L, Frame.addr_R, Frame.sib_L, Frame.sib_R, ↓reduceIte] at hred hsib hpar hnep hreds hredf hredn hs1
  simp [rbtree_delete_fixup_reread_loop, hne, hred, hsib, hpar, hnep, hreds, hredf, hredn, hf, hn, hs1]

end RBTree


namespace RBTree

theorem del_exit_root (r0 : Nat) (s : State) (fuel : Nat) :
    rbtree_delete_fixup_loop r0 (fuel + 1) s r0 = .ok (s, r0) := by
  simp [rbtree_delete_fixup_loop]

theorem del_exit_red {cmp : Nat → Nat → Int} {s : State} {P : List Frame} {t : Tree}
    (h : Represents cmp s (fill P t)) (ht : t.color = .red) (r0 : Nat) (fuel : Nat) :
    rbtree_delete_fixup_loop r0 (fuel + 1) s t.ptr = .ok (s, t.ptr) := by
  have h1 := is_red_spec h
  rw [ht] at h1
  by_cases e : t.ptr = r0
  · simp [rbtree_delete_fixup_loop, e]
  · simp [rbtree_delete_fixup_loop, e, h1]

theorem RootInv.focus_ne {cmp : Nat → Nat → Int} {s : State} {r0 : Nat} {f : Frame}
    {rest : List Frame} {t : Tree} (hri : RootInv r0 (f :: rest) t)
    (h : Represents cmp s (fill (f :: rest) t)) (ht : t ≠ .nil) (hc : t.color = .black) :
    t.ptr ≠ r0 := by
  rcases hri with ⟨e, _⟩ | ⟨f', rest', e, ha, _⟩ | ⟨_, hr⟩
  · have := rep_root_ne h ht
    rw [(rep_fill.mp h).2.1] at this
    rw [e]
    exact this
  · cases e
    rw [← ha]
    exact rep_ptr_ne_parent h
  · rw [hc] at hr
    cases hr

theorem RootInv.nil_ptr {r0 : Nat} {t : Tree} (hri : RootInv r0 [] t) : t.ptr = r0 := by
  rcases hri with ⟨e, _⟩ | ⟨f', rest', e, _, _⟩ | ⟨e, _⟩
  · exact e.symm
  · cases e
  · exact e

/-- After a rotation above a red sibling the remembered root is still the
root, or it is the red parent of the current node. -/
theorem RootInv.step_red {r0 : Nat} {f f1 g1 : Frame} {rest : List Frame} {t : Tree}
    (hri : RootInv r0 (f :: rest) t) (hc : t.color = .black) (ha : f1.addr = f.addr)
    (hr : f1.color = .red) : RootInv r0 (f1 :: g1 :: rest) t := by
  rcases hri with ⟨e, ho⟩ | ⟨f', rest', e, hfa, _⟩ | ⟨_, h3⟩
  · cases rest with
    | nil => exact Or.inr (Or.inl ⟨f1, _, rfl, by rw [ha, e]; rfl, hr⟩)
    | cons g rest' => exact Or.inl ⟨by rw [e]; rfl, ho⟩
  · cases e
    exact Or.inr (Or.inl ⟨f1, _, rfl, by rw [ha, hfa], hr⟩)
  · rw [hc] at h3
    cases h3

theorem RootInv.step_near {r0 : Nat} {f f1 : Frame} {rest : List Frame} {t : Tree}
    (hri : RootInv r0 (f :: rest) t) (ha : f1.addr = f.addr) (hr : f1.color = f.color) :
    RootInv r0 (f1 :: rest) t := by
  rcases hri with ⟨e, ho⟩ | ⟨f', rest', e, hfa, hfc⟩ | h3
  · refine Or.inl ⟨by rw [e]; simp [ha], ?_⟩
    cases rest with
    | nil => simp only [OuterBlack] at ho ⊢; rw [hr]; exact ho
    | cons g rest' => exact ho
  · cases e
    exact Or.inr (Or.inl ⟨f1, _, rfl, by rw [ha, hfa], by rw [hr, hfc]⟩)
  · exact Or.inr (Or.inr h3)

theorem RootInv.step_up {r0 : Nat} {f : Frame} {rest : List Frame} {t u : Tree}
    (hri : RootInv r0 (f :: rest) t) (hc : t.color = .black) (ha : u.ptr = f.addr)
    (hr : u.color = f.color) : RootInv r0 rest u := by
  rcases hri with ⟨e, ho⟩ | ⟨f', rest', e, hfa, hfc⟩ | ⟨_, h3⟩
  · refine Or.inl ⟨by rw [e, ha]; rfl, ?_⟩
    cases rest with
    | nil => trivial
    | cons g rest' => exact ho
  · cases e
    exact Or.inr (Or.inr ⟨by rw [ha, hfa], by rw [hr, hfc]⟩)
  · rw [hc] at h3
    cases h3

theorem fill_setColor_outer : ∀ (P : List Frame) (X : Tree), P ≠ [] → OuterBlack P →
    (fill P X).setColor .black = fill P X
  | [], _, h, _ => absurd rfl h
  | [f], X, _, ho => by
    simp only [OuterBlack] at ho
    cases f <;> simp_all
  | f :: g :: rest, X, _, ho => fill_setColor_outer (g :: rest) (f.plug X) (by simp) ho

/-- The last `set_color(node, COLOR_BLACK)` of `rbtree_delete_fixup` after the
loop set `node = root`: the remembered root is either the root of the tree or
the former parent, which that pass has coloured black. -/
theorem root_black_spec {cmp : Nat → Nat → Int} {s : State} {r0 : Nat} {f : Frame}
    {rest : List Frame} {t X : Tree} (hri : RootInv r0 (f :: rest) t) (hc : t.color = .black)
    (h : Represents cmp s (fill rest X))
    (hp : ∃ s', set_color s f.addr 0 = .ok s' ∧ Represents cmp s' (fill rest X)) :
    ∃ s', set_color s r0 0 = .ok s' ∧ Represents cmp s' (fill rest X) := by
  rcases hri with ⟨e, ho⟩ | ⟨f', rest', e, hfa, _⟩ | ⟨_, h3⟩
  · cases rest with
    | nil =>
      have : r0 = f.addr := e
      rw [this]
      exact hp
    | cons g rest' =>
      have e2 : r0 = (fill (g :: rest') X).ptr := by rw [ptr_fill, e]; rfl
      obtain ⟨s', h1, h2⟩ := set_color_black_spec
        (show Represents cmp s (fill [] (fill (g :: rest') X)) from h)
      have ho2 : OuterBlack (g :: rest') := ho
      rw [fill_nil, fill_setColor_outer (g :: rest') X (by simp) ho2] at h2
      exact ⟨s', by rw [e2]; exact h1, h2⟩
  · cases e
    rw [← hfa]
    exact hp
  · rw [hc] at h3
    cases h3

end RBTree


namespace RBTree

set_option maxHeartbeats 1000000 in
/-- The loop of `rbtree_delete_fixup` followed by the final
`set_color(node, COLOR_BLACK)`: whenever `delFix` gives a tree within `n`
passes, the code, run with more than `n` units of loop budget, returns with
the memory holding that tree. `r0` is the root pointer read before the loop. -/
theorem delete_fixup_loop_spec {cmp : Nat → Nat → Int} (r0 : Nat) :
    ∀ (n : Nat) (P : List Frame) (t : Tree) (s : State) (T' : Tree),
      delFix n P t = some T' → t ≠ .nil → RootInv r0 P t → Represents cmp s (fill P t) →
      ∀ fuel, n < fuel →
      ∃ s1 nd s', rbtree_delete_fixup_loop r0 fuel s t.ptr = .ok (s1, nd) ∧
        set_color s1 nd 0 = .ok s' ∧ Represents cmp s' T' := by
  intro n
  induction n with
  | zero =>
    intro P t s T' hd
    simp [delFix] at hd
  | succ n ih =>
    intro P t s T' hd ht hri h fuel hf
    obtain ⟨fuel, rfl⟩ : ∃ m, fuel = m + 1 := ⟨fuel - 1, by omega⟩
    cases P with
    | nil =>
      have e := hri.nil_ptr
      simp only [delFix, Option.some.injEq] at hd
      subst hd
      obtain ⟨s', h1, h2⟩ := set_color_black_spec h
      refine ⟨s, t.ptr, s', ?_, h1, h2⟩
      rw [e]
      exact del_exit_root r0 s fuel
    | cons f rest =>
      cases hc : t.color with
      | red =>
        have hd2 : delFix (n + 1) (f :: rest) t = some (fill (f :: rest) (t.setColor .black)) := by
          simp only [delFix, hc]
        rw [hd2, Option.some.injEq] at hd
        subst hd
        obtain ⟨s', h1, h2⟩ := set_color_black_spec h
        exact ⟨s, t.ptr, s', del_exit_red h hc r0 fuel, h1, h2⟩
      | black =>
        cases t with
        | nil => exact absurd rfl ht
        | node x c k v l r =>
          simp only [Tree.color_node] at hc
          subst hc
          have hne := hri.focus_ne h (by simp) rfl
          simp only [Tree.ptr_node] at hne ⊢
          cases f with
          | L p cp kp vp sib =>
            cases sib with
            | nil =>
              obtain ⟨s1, e1, h1⟩ := del_step_L_nil h r0 hne
              simp only [delFix, Tree.color_node] at hd
              obtain ⟨s2, nd, s3, e2, e3, h3⟩ := ih rest _ s1 T' hd (by simp)
                (hri.step_up rfl rfl rfl) h1 fuel (by omega)
              exact ⟨s2, nd, s3, by rw [e1]; exact e2, e3, h3⟩
            | node sa sc ks vs sn sf =>
              cases sc with
              | red =>
                obtain ⟨s1, e1, h1⟩ := del_step_L_red h r0 hne
                simp only [delFix, Tree.color_node] at hd
                obtain ⟨s2, nd, s3, e2, e3, h3⟩ := ih _ _ s1 T' hd (by simp)
                  (hri.step_red rfl rfl rfl) h1 fuel (by omega)
                exact ⟨s2, nd, s3, by rw [e1]; exact e2, e3, h3⟩
              | black =>
                cases hfc : sf.color with
                | red =>
                  obtain ⟨s1, e1, h1⟩ := del_step_L_far h hfc r0 hne
                  simp only [delFix, Tree.color_node, hfc, Option.some.injEq] at hd
                  subst hd
                  obtain ⟨fuel, rfl⟩ : ∃ m, fuel = m + 1 := ⟨fuel - 1, by omega⟩
                  obtain ⟨s2, e2, h2⟩ := root_black_spec hri rfl h1
                    (set_color_black_spec (show Represents cmp s1 (fill (.L sa cp ks vs
                      (sf.setColor .black) :: rest) (.node p .black kp vp (.node x .black k v l r) sn)) from h1))
                  exact ⟨s1, r0, s2, by rw [e1]; exact del_exit_root r0 s1 fuel, e2, h2⟩
                | black =>
                  cases sn with
                  | nil =>
                    obtain ⟨s1, e1, h1⟩ := del_step_L_none h hfc rfl r0 hne
                    simp only [delFix, Tree.color_node, hfc] at hd
                    obtain ⟨s2, nd, s3, e2, e3, h3⟩ := ih rest _ s1 T' hd (by simp)
                      (hri.step_up rfl rfl rfl) h1 fuel (by omega)
                    exact ⟨s2, nd, s3, by rw [e1]; exact e2, e3, h3⟩
                  | node la lc kl vl nx ny =>
                    cases lc with
                    | red =>
                      obtain ⟨s1, e1, h1, -⟩ := del_step_L_near h hfc r0 hne
                      simp only [delFix, Tree.color_node, hfc] at hd
                      obtain ⟨s2, nd, s3, e2, e3, h3⟩ := ih _ _ s1 T' hd (by simp)
                        (hri.step_near rfl rfl) h1 fuel (by omega)
                      exact ⟨s2, nd, s3, by rw [e1]; exact e2, e3, h3⟩
                    | black =>
                      obtain ⟨s1, e1, h1⟩ := del_step_L_none h hfc rfl r0 hne
                      simp only [delFix, Tree.color_node, hfc] at hd
                      obtain ⟨s2, nd, s3, e2, e3, h3⟩ := ih rest _ s1 T' hd (by simp)
                        (hri.step_up rfl rfl rfl) h1 fuel (by omega)
                      exact ⟨s2, nd, s3, by rw [e1]; exact e2, e3, h3⟩
          | R p cp kp vp sib =>
            cases sib with
            | nil =>
              obtain ⟨s1, e1, h1⟩ := del_step_R_nil h r0 hne
              simp only [delFix, Tree.color_node] at hd
              obtain ⟨s2, nd, s3, e2, e3, h3⟩ := ih rest _ s1 T' hd (by simp)
                (hri.step_up rfl rfl rfl) h1 fuel (by omega)
              exact ⟨s2, nd, s3, by rw [e1]; exact e2, e3, h3⟩
            | node sa sc ks vs sf sn =>
              cases sc with
              | red =>
                obtain ⟨s1, e1, h1⟩ := del_step_R_red h r0 hne
                simp only [delFix, Tree.color_node] at hd
                obtain ⟨s2, nd, s3, e2, e3, h3⟩ := ih _ _ s1 T' hd (by simp)
                  (hri.step_red rfl rfl rfl) h1 fuel (by omega)
                exact ⟨s2, nd, s3, by rw [e1]; exact e2, e3, h3⟩
              | black =>
                cases hfc : sf.color with
                | red =>
                  obtain ⟨s1, e1, h1⟩ := del_step_R_far h hfc r0 hne
                  simp only [delFix, Tree.color_node, hfc, Option.some.injEq] at hd
                  subst hd
                  obtain ⟨fuel, rfl⟩ : ∃ m, fuel = m + 1 := ⟨fuel - 1, by omega⟩
                  obtain ⟨s2, e2, h2⟩ := root_black_spec hri rfl h1
                    (set_color_black_spec (show Represents cmp s1 (fill (.R sa cp ks vs
                      (sf.setColor .black) :: rest) (.node p .black kp vp sn (.node x .black k v l r))) from h1))
                  exact ⟨s1, r0, s2, by rw [e1]; exact del_exit_root r0 s1 fuel, e2, h2⟩
                | black =>
                  cases sn with
                  | nil =>
                    obtain ⟨s1, e1, h1⟩ := del_step_R_none h hfc rfl r0 hne
                    simp only [delFix, Tree.color_node, hfc] at hd
                    obtain ⟨s2, nd, s3, e2, e3, h3⟩ := ih rest _ s1 T' hd (by simp)
                      (hri.step_up rfl rfl rfl) h1 fuel (by omega)
                    exact ⟨s2, nd, s3, by rw [e1]; exact e2, e3, h3⟩
                  | node la lc kl vl ny nx =>
                    cases lc with
                    | red =>
                      obtain ⟨s1, e1, h1, -⟩ := del_step_R_near h hfc r0 hne
                      simp only [delFix, Tree.color_node, hfc] at hd
                      obtain ⟨s2, nd, s3, e2, e3, h3⟩ := ih _ _ s1 T' hd (by simp)
                        (hri.step_near rfl rfl) h1 fuel (by omega)
                      exact ⟨s2, nd, s3, by rw [e1]; exact e2, e3, h3⟩
                    | black =>
                      obtain ⟨s1, e1, h1⟩ := del_step_R_none h hfc rfl r0 hne
                      simp only [delFix, Tree.color_node, hfc] at hd
                      obtain ⟨s2, nd, s3, e2, e3, h3⟩ := ih rest _ s1 T' hd (by simp)
                        (hri.step_up rfl rfl rfl) h1 fuel (by omega)
                      exact ⟨s2, nd, s3, by rw [e1]; exact e2, e3, h3⟩

/-- `rbtree_delete_fixup` called on the node on top of `t`, in a tree with a
black root. -/
theorem rbtree_delete_fixup_spec {cmp : Nat → Nat → Int} {s : State} {P : List Frame} {t : Tree}
    {n : Nat} {T' : Tree} (hd : delFix n P t = some T') (ht : t ≠ .nil) (ho : OuterBlack P)
    (h : Represents cmp s (fill P t)) (fuel : Nat) (hf : n < fuel) :
    ∃ s', rbtree_delete_fixup fuel s t.ptr = .ok s' ∧ Represents cmp s' T' := by
  have hr : s.root = rootPtr P t.ptr := (rep_fill.mp h).2.1
  obtain ⟨s1, nd, s', e1, e2, h2⟩ := delete_fixup_loop_spec s.root n P t s T' hd ht
    (Or.inl ⟨hr, ho⟩) h fuel hf
  exact ⟨s', by simp [rbtree_delete_fixup, e1, e2], h2⟩

end RBTree


namespace RBTree

theorem release_of {s : State} {a : Nat} {n : rbtree_node} (ha : a ≠ 0) (h : s.mem a = some n) :
    release s a = .ok { s with mem := fun q => if q = a then none else s.mem q } := by
  simp [release, load_of ha h]

/-- The end of `rbtree_delete`: the leaf is unlinked from its parent and freed. -/
theorem rbtree_delete_unlink_spec {cmp : Nat → Nat → Int} {s : State} {f : Frame}
    {rest : List Frame} {z : Nat} {c : Color} {k v : Nat}
    (h : Represents cmp s (fill (f :: rest) (.node z c k v .nil .nil))) :
    ∃ s', (do
        let parent ← get_parent s z
        let s ←
          if parent ≠ 0 then do
            let p ← load s parent
            if p.left = z then modify s parent (fun n => { n with left := 0 })
            else modify s parent (fun n => { n with right := 0 })
          else pure s
        bst_destroy_node s z) = .ok s' ∧
      Represents cmp s' (fill rest (f.plug .nil)) := by
  have hp := get_parent_spec h
  have hsne := rep_sib_ptr_ne h (by simp)
  rw [rep_fill] at h
  obtain ⟨h1, h2, h3, h4, h5⟩ := h
  simp only [RepAt, Tree.ptr_nil, Tree.ptr_node] at h4
  obtain ⟨hz0, hz, -, -⟩ := h4
  cases f with
  | L p cp kp vp r =>
    simp only [RepCtx, Tree.ptr_node] at h3
    obtain ⟨hp0, hpm, hr, hctx⟩ := h3
    simp only [Tree.addrs_node, Tree.addrs_nil, pathAddrs_cons, Frame.addr_L, Frame.sib_L,
      List.cons_append, List.nil_append, List.nodup_cons, List.mem_cons, List.mem_append,
      not_or, List.nodup_append] at h5
    obtain ⟨⟨hzp, hzr, hzc⟩, ⟨hpr, hpc⟩, hrn, hcn, hdis⟩ := h5
    have hpz : p ≠ z := fun e => hzp e.symm
    simp only [parentOf_cons, Frame.addr_L] at hp
    refine ⟨{ store s p ⟨kp, vp, parentOf rest, 0, r.ptr, cp.code⟩ with
      mem := fun q => if q = z then none
        else (store s p ⟨kp, vp, parentOf rest, 0, r.ptr, cp.code⟩).mem q }, ?_, ?_⟩
    · simp only [hp, Res.ok_bind, ne_eq, hp0, not_false_eq_true, if_true, load_of hp0 hpm,
        modify_of hp0 hpm, bst_destroy_node, hz0, if_false]
      rw [release_of (n := ⟨k, v, p, 0, 0, c.code⟩) hz0 (by simp [hzp, hz])]
    · rw [rep_fill]
      refine ⟨h1, by simpa using h2, ?_, ?_, ?_⟩
      · refine (RepCtx_congr ?_).mpr hctx
        intro a ha
        have e1 : a ≠ z := fun e => hzc (e ▸ ha)
        have e2 : a ≠ p := fun e => hpc (e ▸ ha)
        simp [e1, e2]
      · simp only [RepAt, Tree.ptr_nil, Tree.ptr_node, Frame.plug]
        refine ⟨hp0, by simp [hpz], trivial, ?_⟩
        refine (RepAt_congr ?_).mpr hr
        intro a ha
        have e1 : a ≠ z := fun e => hzr (e ▸ ha)
        have e2 : a ≠ p := fun e => hpr (e ▸ ha)
        simp [e1, e2]
      · simp only [Frame.plug, Tree.addrs_node, Tree.addrs_nil, List.cons_append,
          List.nil_append, List.nodup_cons, List.mem_append, not_or, List.nodup_append]
        exact ⟨⟨hpr, hpc⟩, hrn, hcn, hdis⟩
  | R p cp kp vp l =>
    simp only [RepCtx, Tree.ptr_node] at h3
    obtain ⟨hp0, hpm, hr, hctx⟩ := h3
    simp only [Tree.addrs_node, Tree.addrs_nil, pathAddrs_cons, Frame.addr_R, Frame.sib_R,
      List.cons_append, List.nil_append, List.nodup_cons, List.mem_cons, List.mem_append,
      not_or, List.nodup_append] at h5
    obtain ⟨⟨hzp, hzr, hzc⟩, ⟨hpr, hpc⟩, hrn, hcn, hdis⟩ := h5
    have hpz : p ≠ z := fun e => hzp e.symm
    simp only [parentOf_cons, Frame.addr_R] at hp
    simp only [Frame.sib_R, Tree.ptr_node] at hsne
    refine ⟨{ store s p ⟨kp, vp, parentOf rest, l.ptr, 0, cp.code⟩ with
      mem := fun q => if q = z then none
        else (store s p ⟨kp, vp, parentOf rest, l.ptr, 0, cp.code⟩).mem q }, ?_, ?_⟩
    · simp only [hp, Res.ok_bind, ne_eq, hp0, not_false_eq_true, if_true, load_of hp0 hpm,
        modify_of hp0 hpm, bst_destroy_node, hz0, if_false, hsne]
      rw [release_of (n := ⟨k, v, p, 0, 0, c.code⟩) hz0 (by simp [hzp, hz])]
    · rw [rep_fill]
      refine ⟨h1, by simpa using h2, ?_, ?_, ?_⟩
      · refine (RepCtx_congr ?_).mpr hctx
        intro a ha
        have e1 : a ≠ z := fun e => hzc (e ▸ ha)
        have e2 : a ≠ p := fun e => hpc (e ▸ ha)
        simp [e1, e2]
      · simp only [RepAt, Tree.ptr_nil, Tree.ptr_node, Frame.plug]
        refine ⟨hp0, by simp [hpz], ?_, trivial⟩
        refine (RepAt_congr ?_).mpr hr
        intro a ha
        have e1 : a ≠ z := fun e => hzr (e ▸ ha)
        have e2 : a ≠ p := fun e => hpr (e ▸ ha)
        simp [e1, e2]
      · simp only [Frame.plug, Tree.addrs_node, Tree.addrs_nil, List.cons_append,
          List.append_nil, List.nodup_cons, List.mem_append, not_or, List.nodup_append]
        exact ⟨⟨hpr, hpc⟩, hrn, hcn, hdis⟩

end RBTree


namespace RBTree

theorem fill_nrr_inv : ∀ (P : List Frame) (t : Tree), NoRedRed (fill P t) →
    NoRedRed t ∧ PathNoRedRed P ∧ (headColor P = .red → t.color = .black)
  | [], t, h => ⟨h, trivial, by simp⟩
  | f :: rest, t, h => by
    obtain ⟨h1, h2, h3⟩ := fill_nrr_inv rest (f.plug t) h
    cases f with
    | L a c k v r =>
      simp only [Frame.plug, NoRedRed, Tree.color_node] at h1 h3
      simp only [PathNoRedRed, Frame.sib_L, Frame.color_L, headColor_cons]
      refine ⟨h1.2.1, ⟨h1.2.2, fun hc => ⟨(h1.1 hc).2, ?_⟩, h2⟩, fun hc => (h1.1 hc).1⟩
      cases hh : headColor rest with
      | black => rfl
      | red => rw [h3 hh] at hc; cases hc
    | R a c k v l =>
      simp only [Frame.plug, NoRedRed, Tree.color_node] at h1 h3
      simp only [PathNoRedRed, Frame.sib_R, Frame.color_R, headColor_cons]
      refine ⟨h1.2.2, ⟨h1.2.1, fun hc => ⟨(h1.1 hc).1, ?_⟩, h2⟩, fun hc => (h1.1 hc).2⟩
      cases hh : headColor rest with
      | black => rfl
      | red => rw [h3 hh] at hc; cases hc

theorem fill_bh_inv : ∀ (P : List Frame) (t : Tree) (M : Nat), BlackHeight (fill P t) M →
    ∃ m, BlackHeight t m ∧ PathBlackHeight P m
  | [], t, M, h => ⟨M, h, trivial⟩
  | f :: rest, t, M, h => by
    obtain ⟨m, h1, h2⟩ := fill_bh_inv rest (f.plug t) M h
    cases f with
    | L a c k v r =>
      cases c with
      | black =>
        obtain ⟨m', rfl, h3, h4⟩ := h1
        exact ⟨m', h3, h4, h2⟩
      | red => exact ⟨m, h1.1, h1.2, h2⟩
    | R a c k v l =>
      cases c with
      | black =>
        obtain ⟨m', rfl, h3, h4⟩ := h1
        exact ⟨m', h4, h3, h2⟩
      | red => exact ⟨m, h1.2, h1.1, h2⟩

theorem color_fill_outer : ∀ (P : List Frame) (t : Tree), P ≠ [] →
    ((fill P t).color = .black ↔ OuterBlack P)
  | [], _, h => absurd rfl h
  | [f], t, _ => by cases f <;> simp [OuterBlack]
  | f :: g :: rest, t, _ => color_fill_outer (g :: rest) (f.plug t) (by simp)

theorem color_fill_congr : ∀ (P : List Frame) (t t' : Tree), t.color = t'.color →
    (fill P t).color = (fill P t').color
  | [], _, _, h => h
  | f :: rest, t, t', _ => by
    apply color_fill_congr rest
    cases f <;> rfl

theorem OuterBlack.tail {f : Frame} {rest : List Frame} (h : OuterBlack (f :: rest)) :
    OuterBlack rest := by
  cases rest with
  | nil => trivial
  | cons g rest => exact h

theorem OuterBlack.head_of_single {f : Frame} {rest : List Frame} (h : OuterBlack (f :: rest))
    (hr : rest = []) : f.color = .black := by
  subst hr
  exact h

theorem pathLeft_append : ∀ (Q P : List Frame), pathLeft (Q ++ P) = pathLeft P ++ pathLeft Q
  | [], P => by simp [pathLeft]
  | .L _ _ _ _ _ :: Q, P => by simp [pathLeft, pathLeft_append Q P]
  | .R _ _ _ _ _ :: Q, P => by simp [pathLeft, pathLeft_append Q P]

theorem pathRight_append : ∀ (Q P : List Frame), pathRight (Q ++ P) = pathRight Q ++ pathRight P
  | [], P => by simp [pathRight]
  | .L _ _ _ _ _ :: Q, P => by simp [pathRight, pathRight_append Q P]
  | .R _ _ _ _ _ :: Q, P => by simp [pathRight, pathRight_append Q P]

theorem pathRight_spineR : ∀ (t : Tree) (acc : List Frame), pathRight (spineR t acc) = pathRight acc
  | .nil, acc => rfl
  | .node a c k v l .nil, acc => rfl
  | .node a c k v l (.node b cb kb vb lb rb), acc => by
    rw [spineR, pathRight_spineR (.node b cb kb vb lb rb)]
    rfl

theorem Tree.maxNode_right : ∀ (t : Tree), t ≠ .nil →
    ∃ a c k v l, t.maxNode = .node a c k v l .nil
  | .nil, h => absurd rfl h
  | .node a c k v l .nil, _ => ⟨a, c, k, v, l, rfl⟩
  | .node a c k v l (.node b cb kb vb lb rb), _ => by
    rw [Tree.maxNode]
    exact Tree.maxNode_right (.node b cb kb vb lb rb) (by simp)

/-- Colouring the top node of a filled path black is colouring the outermost
frame black. -/
theorem exists_blacken : ∀ (Q : List Frame), ∃ Q' : List Frame, (Q' = [] ↔ Q = []) ∧
    ∀ t : Tree, (Q = [] → t.color = .black) → (fill Q t).setColor .black = fill Q' t
  | [] => ⟨[], Iff.rfl, fun t ht => by
      have ht := ht rfl
      cases t with
      | nil => rfl
      | node a c k v l r => simp only [Tree.color_node] at ht; subst ht; rfl⟩
  | [f] => by
    cases f with
    | L a c k v r => exact ⟨[.L a .black k v r], by simp, fun t _ => rfl⟩
    | R a c k v l => exact ⟨[.R a .black k v l], by simp, fun t _ => rfl⟩
  | f :: g :: rest => by
    obtain ⟨Q', _, h2⟩ := exists_blacken (g :: rest)
    exact ⟨f :: Q', by simp, fun t _ => h2 (f.plug t) (by simp)⟩

/-- A subtree without a black node on any path is empty or a single red node. -/
theorem bh_zero {t : Tree} (hb : BlackHeight t 0) (hn : NoRedRed t) :
    t = .nil ∨ ∃ a k v, t = .node a .red k v .nil .nil := by
  cases t with
  | nil => exact Or.inl rfl
  | node a c k v l r =>
    cases c with
    | black =>
      obtain ⟨m, hm, -⟩ := hb
      omega
    | red =>
      obtain ⟨hl, hr⟩ := hb
      simp only [NoRedRed, true_implies] at hn
      obtain ⟨⟨cl, cr⟩, -, -⟩ := hn
      have el : l = .nil := by
        cases l with
        | nil => rfl
        | node la lc lk lv ll lr =>
          simp only [Tree.color_node] at cl
          subst cl
          obtain ⟨m, hm, -⟩ := hl
          omega
      have er : r = .nil := by
        cases r with
        | nil => rfl
        | node la lc lk lv ll lr =>
          simp only [Tree.color_node] at cr
          subst cr
          obtain ⟨m, hm, -⟩ := hr
          omega
      subst el er
      exact Or.inr ⟨a, k, v, rfl⟩

theorem BlackHeight.unique : ∀ {t : Tree} {n m : Nat}, BlackHeight t n → BlackHeight t m → n = m
  | .nil, _, _, h1, h2 => by
    simp only [BlackHeight] at h1 h2
    omega
  | .node _ .red _ _ l _, _, _, h1, h2 => BlackHeight.unique h1.1 h2.1
  | .node _ .black _ _ l _, _, _, h1, h2 => by
    obtain ⟨a, rfl, h1, -⟩ := h1
    obtain ⟨b, rfl, h2, -⟩ := h2
    rw [BlackHeight.unique h1 h2]

/-- The red-black invariants do not depend on the key and value of a node. -/
theorem RB_payload {P : List Frame} {a : Nat} {c : Color} {k v : Nat} (k' v' : Nat) {l r : Tree}
    (h : RB (fill P (.node a c k v l r))) : RB (fill P (.node a c k' v' l r)) := by
  obtain ⟨h1, ⟨M, h2⟩, h3⟩ := h
  obtain ⟨n1, n2, n3⟩ := fill_nrr_inv P _ h1
  obtain ⟨m, b1, b2⟩ := fill_bh_inv P _ M h2
  have hb : BlackHeight (.node a c k' v' l r) m := by cases c <;> exact b1
  obtain ⟨r1, r2⟩ := fill_rb P (.node a c k' v' l r) m n1 hb n2 b2 n3
  refine ⟨r1, r2, ?_⟩
  rw [← h3]
  exact color_fill_congr P _ _ rfl

theorem size_fill (P : List Frame) (t : Tree) :
    (fill P t).size = t.size + (pathLeft P).length + (pathRight P).length := by
  rw [Tree.size_eq_length, inorder_fill, Tree.size_eq_length]
  simp only [List.length_append]
  omega

/-- What `delReduce` keeps: anything that does not depend on the keys and
values stored in the nodes. -/
theorem delReduce_pres (Φ : Tree → Prop)
    (hΦ : ∀ (P : List Frame) (a : Nat) (c : Color) (k v k' v' : Nat) (l r : Tree),
      Φ (fill P (.node a c k v l r)) → Φ (fill P (.node a c k' v' l r))) :
    ∀ (n : Nat) (P : List Frame) (X : Tree), Φ (fill P X) →
      Φ (fill (delReduce n P X).1 (delReduce n P X).2) := by
  intro n
  induction n with
  | zero => intro P X h; exact h
  | succ n ih =>
    intro P X h
    cases X with
    | nil => exact h
    | node x c k v l r =>
      cases l with
      | nil =>
        cases r with
        | nil => exact h
        | node b cb kb vb lb rb =>
          rw [delReduce]
          exact ih _ _ (hΦ P x c k v kb vb _ _ h)
      | node a ca ka va la ra =>
        cases r with
        | nil =>
          rw [delReduce]
          exact ih _ _ (hΦ P x c k v ka va _ _ h)
        | node b cb kb vb lb rb =>
          rw [delReduce]
          apply ih
          rw [fill_append, fill_spineR]
          exact hΦ P x c k v _ _ _ _ h

end RBTree


namespace RBTree

theorem bh_node_nil_left {x : Nat} {c : Color} {k v : Nat} {r : Tree} {m : Nat}
    (h : BlackHeight (.node x c k v .nil r) m) : BlackHeight r 0 := by
  cases c with
  | black =>
    obtain ⟨m', -, h1, h2⟩ := h
    simp only [BlackHeight] at h1
    subst h1
    exact h2
  | red =>
    obtain ⟨h1, h2⟩ := h
    simp only [BlackHeight] at h1
    subst h1
    exact h2

theorem bh_node_nil_right {x : Nat} {c : Color} {k v : Nat} {l : Tree} {m : Nat}
    (h : BlackHeight (.node x c k v l .nil) m) : BlackHeight l 0 := by
  cases c with
  | black =>
    obtain ⟨m', -, h1, h2⟩ := h
    simp only [BlackHeight] at h2
    subst h2
    exact h1
  | red =>
    obtain ⟨h1, h2⟩ := h
    simp only [BlackHeight] at h2
    subst h2
    exact h1

theorem bh_child {x : Nat} {c : Color} {k v : Nat} {l r : Tree} {m : Nat}
    (h : BlackHeight (.node x c k v l r) m) : (∃ a, BlackHeight l a) ∧ ∃ b, BlackHeight r b := by
  cases c with
  | black =>
    obtain ⟨m', -, h1, h2⟩ := h
    exact ⟨⟨m', h1⟩, ⟨m', h2⟩⟩
  | red => exact ⟨⟨m, h.1⟩, ⟨m, h.2⟩⟩

/-- On a subtree of a red-black tree the reduction of `bst_delete` ends at a
node without children, and the entries left when that node is taken out are
the old ones without the entry of the node the reduction started at. -/
theorem delReduce_inorder : ∀ (n : Nat) (P : List Frame) (x : Nat) (c : Color) (k v : Nat)
    (l r : Tree) (m : Nat), NoRedRed (.node x c k v l r) → BlackHeight (.node x c k v l r) m →
    (Tree.node x c k v l r).size ≤ n →
    (∃ z cz kz vz, (delReduce n P (.node x c k v l r)).2 = .node z cz kz vz .nil .nil) ∧
      (fill (delReduce n P (.node x c k v l r)).1 .nil).inorder =
        pathLeft P ++ (l.inorder ++ r.inorder) ++ pathRight P := by
  intro n
  induction n with
  | zero => intro P x c k v l r m _ _ hs; simp [Tree.size] at hs
  | succ n ih =>
    intro P x c k v l r m hn hb hs
    cases l with
    | nil =>
      cases r with
      | nil =>
        refine ⟨⟨x, c, k, v, rfl⟩, ?_⟩
        simp [delReduce, inorder_fill]
      | node b cb kb vb lb rb =>
        have hb0 := bh_node_nil_left hb
        have hnb : NoRedRed (.node b cb kb vb lb rb) := hn.2.2
        rcases bh_zero hb0 hnb with e | ⟨a', k', v', e⟩
        · cases e
        · simp only [Tree.node.injEq] at e
          obtain ⟨rfl, rfl, rfl, rfl, rfl, rfl⟩ := e
          rw [delReduce]
          obtain ⟨i1, i2⟩ := ih (.R x c kb vb .nil :: P) b .red kb vb .nil .nil 0 hnb hb0
            (by simp only [Tree.size] at hs ⊢; omega)
          refine ⟨i1, ?_⟩
          rw [i2]
          simp [pathLeft, pathRight]
    | node a ca ka va la ra =>
      cases r with
      | nil =>
        have hb0 := bh_node_nil_right hb
        have hna : NoRedRed (.node a ca ka va la ra) := hn.2.1
        rcases bh_zero hb0 hna with e | ⟨a', k', v', e⟩
        · cases e
        · simp only [Tree.node.injEq] at e
          obtain ⟨rfl, rfl, rfl, rfl, rfl, rfl⟩ := e
          rw [delReduce]
          obtain ⟨i1, i2⟩ := ih (.L x c ka va .nil :: P) a .red ka va .nil .nil 0 hna hb0
            (by simp only [Tree.size] at hs ⊢; omega)
          refine ⟨i1, ?_⟩
          rw [i2]
          simp [pathLeft, pathRight]
      | node b cb kb vb lb rb =>
        obtain ⟨am, cm, km, vm, lm, hM⟩ := Tree.maxNode_right (.node a ca ka va la ra) (by simp)
        have hfill := fill_spineR (.node a ca ka va la ra) []
        rw [hM, fill_nil] at hfill
        have hna : NoRedRed (.node a ca ka va la ra) := hn.2.1
        obtain ⟨⟨ma, hba⟩, -⟩ := bh_child hb
        rw [← hfill] at hna hba
        obtain ⟨n1, -, -⟩ := fill_nrr_inv _ _ hna
        obtain ⟨mm, b1, -⟩ := fill_bh_inv _ _ _ hba
        have hms := Tree.maxNode_size (.node a ca ka va la ra)
        rw [hM] at hms
        rw [delReduce, hM]
        obtain ⟨i1, i2⟩ := ih (spineR (.node a ca ka va la ra) [] ++
            (.L x c km vm (.node b cb kb vb lb rb) :: P)) am cm km vm lm .nil mm n1 b1
            (by simp only [Tree.size] at hs hms ⊢; omega)
        simp only [Tree.key, Tree.val]
        refine ⟨i1, ?_⟩
        rw [i2]
        have hin := congrArg Tree.inorder hfill
        rw [inorder_fill, pathRight_spineR] at hin
        rw [← hin, pathLeft_append, pathRight_append, pathRight_spineR]
        simp [pathLeft, pathRight]

/-- The reduction of `bst_delete` in a red-black tree with at least two nodes:
it ends at a node without children that is not the root, the tree keeps its
colours and shape, and without that node its entries are the old ones without
the entry of the node the reduction started at. -/
theorem delReduce_rb {n : Nat} {P : List Frame} {x : Nat} {c : Color} {k v : Nat} {l r : Tree}
    (hrb : RB (fill P (.node x c k v l r))) (hs : (Tree.node x c k v l r).size ≤ n)
    (h2 : 2 ≤ (fill P (.node x c k v l r)).size) :
    ∃ Ps z cz kz vz, delReduce n P (.node x c k v l r) = (Ps, .node z cz kz vz .nil .nil) ∧
      Ps ≠ [] ∧ RB (fill Ps (.node z cz kz vz .nil .nil)) ∧
      (fill Ps .nil).inorder = pathLeft P ++ (l.inorder ++ r.inorder) ++ pathRight P := by
  obtain ⟨n1, -, -⟩ := fill_nrr_inv _ _ hrb.1
  obtain ⟨M, hM⟩ := hrb.2.1
  obtain ⟨m, b1, -⟩ := fill_bh_inv _ _ _ hM
  obtain ⟨⟨z, cz, kz, vz, e⟩, hin⟩ := delReduce_inorder n P x c k v l r m n1 b1 hs
  have hrb2 := delReduce_pres RB (fun P a c k v k' v' l r h => RB_payload k' v' h) n P _ hrb
  have hsz := delReduce_pres (fun T => 2 ≤ T.size)
    (fun P a c k v k' v' l r h => by
      have h' : 2 ≤ (fill P (.node a c k v l r)).size := h
      show 2 ≤ (fill P (.node a c k' v' l r)).size
      rw [size_fill] at h' ⊢
      exact h') n P _ h2
  refine ⟨(delReduce n P (.node x c k v l r)).1, z, cz, kz, vz, ?_, ?_, ?_, hin⟩
  · rw [← e]
  · intro e0
    rw [e0, e] at hsz
    simp [Tree.size] at hsz
  · rw [← e]
    exact hrb2

end RBTree


namespace RBTree

theorem delFix_nil_path (n : Nat) (t : Tree) : delFix (n + 1) [] t = some (t.setColor .black) := by
  rw [delFix]

theorem delFix_red_focus (n : Nat) (f : Frame) (rest : List Frame) {t : Tree}
    (h : t.color = .red) :
    delFix (n + 1) (f :: rest) t = some (fill (f :: rest) (t.setColor .black)) := by
  simp only [delFix, h]

theorem delMeasure_red (P : List Frame) {t : Tree} (h : t.color = .red) : delMeasure P t = 0 := by
  simp only [delMeasure, h]

theorem delMeasure_black (f : Frame) (rest : List Frame) {t : Tree} (h : t.color = .black) :
    delMeasure (f :: rest) t = sibBonus f + pathWeight (f :: rest) := by
  simp only [delMeasure, h]

theorem sibBonus_le (f : Frame) : sibBonus f ≤ 3 := by
  unfold sibBonus
  split <;> try omega
  all_goals split <;> omega

theorem delMeasure_le (P : List Frame) (t : Tree) : delMeasure P t ≤ 3 + pathWeight P := by
  unfold delMeasure
  split
  · omega
  · omega
  · have := sibBonus_le ‹Frame›
    omega

theorem delFix_L_red (n : Nat) (p : Nat) (cp : Color) (kp vp : Nat) (sa ks vs : Nat) (sn sf : Tree)
    (rest : List Frame) {t : Tree} (h : t.color = .black) :
    delFix (n + 1) (.L p cp kp vp (.node sa .red ks vs sn sf) :: rest) t =
      delFix n (.L p .red kp vp sn :: .L sa .black ks vs sf :: rest) t := by
  simp only [delFix, h]

theorem delFix_L_far (n : Nat) (p : Nat) (cp : Color) (kp vp : Nat) (sa ks vs : Nat) (sn : Tree) {sf : Tree}
    (rest : List Frame) {t : Tree} (h : t.color = .black) (hf : sf.color = .red) :
    delFix (n + 1) (.L p cp kp vp (.node sa .black ks vs sn sf) :: rest) t =
      some (fill rest (.node sa cp ks vs (.node p .black kp vp t sn) (sf.setColor .black))) := by
  simp only [delFix, h, hf]

theorem delFix_L_near (n : Nat) (p : Nat) (cp : Color) (kp vp : Nat) (sa ks vs : Nat) (la kl vl : Nat) (nx ny : Tree)
    {sf : Tree} (rest : List Frame) {t : Tree} (h : t.color = .black) (hf : sf.color = .black) :
    delFix (n + 1) (.L p cp kp vp (.node sa .black ks vs (.node la .red kl vl nx ny) sf) :: rest) t =
      delFix n (.L p cp kp vp (.node la .black kl vl nx (.node sa .red ks vs ny sf)) :: rest) t := by
  simp only [delFix, h, hf]

theorem delFix_L_none (n : Nat) (p : Nat) (cp : Color) (kp vp : Nat) (sa ks vs : Nat) {sn sf : Tree}
    (rest : List Frame) {t : Tree} (h : t.color = .black) (hf : sf.color = .black)
    (hn : sn.color = .black) :
    delFix (n + 1) (.L p cp kp vp (.node sa .black ks vs sn sf) :: rest) t =
      delFix n rest (.node p cp kp vp t (.node sa .red ks vs sn sf)) := by
  cases sn with
  | nil => simp only [delFix, h, hf]
  | node a c k v l r =>
    simp only [Tree.color_node] at hn
    subst hn
    simp only [delFix, h, hf]

theorem sibBonus_L_red (p : Nat) (cp : Color) (kp vp : Nat) (sa ks vs : Nat) (sn sf : Tree) :
    sibBonus (.L p cp kp vp (.node sa .red ks vs sn sf)) = 3 := rfl

theorem sibBonus_L_black (p : Nat) (cp : Color) (kp vp : Nat) {s : Tree}
    (h : s.color = .black) : sibBonus (.L p cp kp vp s) ≤ 1 := by
  cases s with
  | nil => simp [sibBonus]
  | node a c k v l r =>
    simp only [Tree.color_node] at h
    subst h
    simp only [sibBonus]
    split <;> omega

theorem sibBonus_L_near (p : Nat) (cp : Color) (kp vp : Nat) (sa ks vs : Nat)
    (la kl vl : Nat) (nx ny : Tree) {sf : Tree} (hf : sf.color = .black) :
    sibBonus (.L p cp kp vp (.node sa .black ks vs (.node la .red kl vl nx ny) sf)) = 1 := by
  simp [sibBonus, hf]

theorem sibBonus_L_far (p : Nat) (cp : Color) (kp vp : Nat) (la kl vl : Nat)
    (nx : Tree) (sa ks vs : Nat) (ny sf : Tree) :
    sibBonus (.L p cp kp vp (.node la .black kl vl nx (.node sa .red ks vs ny sf))) = 0 := by
  simp [sibBonus]

theorem delFix_R_red (n : Nat) (p : Nat) (cp : Color) (kp vp : Nat) (sa ks vs : Nat) (sn sf : Tree)
    (rest : List Frame) {t : Tree} (h : t.color = .black) :
    delFix (n + 1) (.R p cp kp vp (.node sa .red ks vs sf sn) :: rest) t =
      delFix n (.R p .red kp vp sn :: .R sa .black ks vs sf :: rest) t := by
  simp only [delFix, h]

theorem delFix_R_far (n : Nat) (p : Nat) (cp : Color) (kp vp : Nat) (sa ks vs : Nat) (sn : Tree) {sf : Tree}
    (rest : List Frame) {t : Tree} (h : t.color = .black) (hf : sf.color = .red) :
    delFix (n + 1) (.R p cp kp vp (.node sa .black ks vs sf sn) :: rest) t =
      some (fill rest (.node sa cp ks vs (sf.setColor .black) (.node p .black kp vp sn t))) := by
  simp only [delFix, h, hf]

theorem delFix_R_near (n : Nat) (p : Nat) (cp : Color) (kp vp : Nat) (sa ks vs : Nat) (la kl vl : Nat) (nx ny : Tree)
    {sf : Tree} (rest : List Frame) {t : Tree} (h : t.color = .black) (hf : sf.color = .black) :
    delFix (n + 1) (.R p cp kp vp (.node sa .black ks vs sf (.node la .red kl vl ny nx)) :: rest) t =
      delFix n (.R p cp kp vp (.node la .black kl vl (.node sa .red ks vs sf ny) nx) :: rest) t := by
  simp only [delFix, h, hf]

theorem delFix_R_none (n : Nat) (p : Nat) (cp : Color) (kp vp : Nat) (sa ks vs : Nat) {sn sf : Tree}
    (rest : List Frame) {t : Tree} (h : t.color = .black) (hf : sf.color = .black)
    (hn : sn.color = .black) :
    delFix (n + 1) (.R p cp kp vp (.node sa .black ks vs sf sn) :: rest) t =
      delFix n rest (.node p cp kp vp (.node sa .red ks vs sf sn) t) := by
  cases sn with
  | nil => simp only [delFix, h, hf]
  | node a c k v l r =>
    simp only [Tree.color_node] at hn
    subst hn
    simp only [delFix, h, hf]

theorem sibBonus_R_red (p : Nat) (cp : Color) (kp vp : Nat) (sa ks vs : Nat) (sn sf : Tree) :
    sibBonus (.R p cp kp vp (.node sa .red ks vs sf sn)) = 3 := rfl

theorem sibBonus_R_black (p : Nat) (cp : Color) (kp vp : Nat) {s : Tree}
    (h : s.color = .black) : sibBonus (.R p cp kp vp s) ≤ 1 := by
  cases s with
  | nil => simp [sibBonus]
  | node a c k v l r =>
    simp only [Tree.color_node] at h
    subst h
    simp only [sibBonus]
    split <;> omega

theorem sibBonus_R_near (p : Nat) (cp : Color) (kp vp : Nat) (sa ks vs : Nat)
    (la kl vl : Nat) (nx ny : Tree) {sf : Tree} (hf : sf.color = .black) :
    sibBonus (.R p cp kp vp (.node sa .black ks vs sf (.node la .red kl vl ny nx))) = 1 := by
  simp [sibBonus, hf]

theorem sibBonus_R_far (p : Nat) (cp : Color) (kp vp : Nat) (la kl vl : Nat)
    (nx : Tree) (sa ks vs : Nat) (ny sf : Tree) :
    sibBonus (.R p cp kp vp (.node la .black kl vl (.node sa .red ks vs sf ny) nx)) = 0 := by
  simp [sibBonus]

end RBTree


namespace RBTree

theorem OuterBlack.push {f f1 g : Frame} {rest : List Frame} (h : OuterBlack (f :: rest))
    (hg : g.color = .black) : OuterBlack (f1 :: g :: rest) := by
  cases rest with
  | nil => exact hg
  | cons x rest => exact h

theorem OuterBlack.swap_head {f f1 : Frame} {rest : List Frame} (h : OuterBlack (f :: rest))
    (hc : f1.color = f.color) : OuterBlack (f1 :: rest) := by
  cases rest with
  | nil => simp only [OuterBlack] at h ⊢; rw [hc]; exact h
  | cons x rest => exact h

theorem fill_color_black {f : Frame} {rest : List Frame} {X : Tree} (h : OuterBlack (f :: rest))
    (hc : X.color = f.color) : (fill rest X).color = .black := by
  cases rest with
  | nil =>
    simp only [OuterBlack] at h
    rw [fill_nil, hc, h]
  | cons g rest => exact (color_fill_outer (g :: rest) X (by simp)).mpr h

set_option maxHeartbeats 1000000 in
/-- The loop of `rbtree_delete_fixup`, started at a black node `z` without
children that is about to be removed, in a tree satisfying the red-black
invariants: within `delMeasure` passes it ends in a tree that still contains
`z` as a node without children, and that satisfies the red-black invariants
once `z` is taken out.  `Q` is the part of the path to `z` that lies below the
current node of the loop, `P` the part above it. -/
theorem delFix_rb (z kz vz : Nat) : ∀ (n : Nat) (P Q : List Frame) (m : Nat),
    NoRedRed ((fill Q .nil).setColor .black) → BlackHeight (fill Q .nil) m →
    PathBlackHeight P (m + 1) → PathNoRedRed P → OuterBlack P →
    delMeasure P (fill Q .nil) < n →
    ∃ Pz, delFix n P (fill Q (.node z .black kz vz .nil .nil)) = some (fill Pz (.node z .black kz vz .nil .nil)) ∧ (P ≠ [] ∨ Q ≠ [] → Pz ≠ []) ∧
      RB (fill Pz .nil) ∧ (fill Pz .nil).inorder = (fill P (fill Q .nil)).inorder := by
  intro n
  induction n with
  | zero => intro P Q m _ _ _ _ _ h; omega
  | succ n ih =>
    intro P Q m nrr bh pbh pnrr outer hμ
    have hcol : (fill Q (.node z .black kz vz .nil .nil)).color = (fill Q .nil).color := color_fill_congr Q _ _ rfl
    cases P with
    | nil =>
      obtain ⟨Q', hq1, hq2⟩ := exists_blacken Q
      refine ⟨Q', ?_, ?_, ?_, ?_⟩
      · rw [delFix_nil_path, hq2 (.node z .black kz vz .nil .nil) (fun _ => rfl)]
      · intro h
        rcases h with h | h
        · exact absurd rfl h
        · exact fun e => h (hq1.mp e)
      · rw [← hq2 .nil (fun _ => rfl)]
        obtain ⟨m', hm'⟩ := BlackHeight_setBlack bh
        exact ⟨nrr, ⟨m', hm'⟩, by simp⟩
      · rw [← hq2 .nil (fun _ => rfl)]
        simp
    | cons f rest =>
      cases hc : (fill Q .nil).color with
      | red =>
        obtain ⟨Q', hq1, hq2⟩ := exists_blacken Q
        refine ⟨Q' ++ f :: rest, ?_, by simp, ?_, ?_⟩
        · rw [delFix_red_focus n f rest (hcol.trans hc), hq2 (.node z .black kz vz .nil .nil) (fun _ => rfl), fill_append]
        · rw [fill_append, ← hq2 .nil (fun _ => rfl)]
          obtain ⟨r1, r2⟩ := fill_rb (f :: rest) _ (m + 1) nrr (BlackHeight_setBlack_red bh hc)
            pnrr pbh (fun _ => by simp)
          exact ⟨r1, r2, (color_fill_outer (f :: rest) _ (by simp)).mpr outer⟩
        · rw [fill_append, ← hq2 .nil (fun _ => rfl), inorder_fill, inorder_fill]
          simp
      | black =>
        have ht : (fill Q (.node z .black kz vz .nil .nil)).color = .black := hcol.trans hc
        have hnt : NoRedRed (fill Q .nil) := by
          have := nrr
          rwa [Tree.setColor_self hc] at this
        rw [delMeasure_black f rest hc] at hμ
        cases f with
        | L p cp kp vp sib =>
          simp only [PathBlackHeight, PathNoRedRed, Frame.sib_L, Frame.color_L] at pbh pnrr
          obtain ⟨hsb, hrb⟩ := pbh
          obtain ⟨hsn, hpc, hrn⟩ := pnrr
          cases sib with
          | nil => simp [BlackHeight] at hsb
          | node sa sc ks vs sn sf =>
            cases sc with
            | red =>
              have hcp : cp = .black := by
                cases cp with
                | black => rfl
                | red =>
                  have := (hpc rfl).1
                  simp at this
              subst hcp
              obtain ⟨hbn, hbf⟩ := hsb
              simp only [NoRedRed, true_implies] at hsn
              obtain ⟨⟨cn, cf⟩, nn, nf⟩ := hsn
              have pbh' : PathBlackHeight (.L p .red kp vp sn ::
                  .L sa .black ks vs sf :: rest) (m + 1) := by
                simp only [PathBlackHeight, Frame.sib_L, Frame.color_L]
                exact ⟨hbn, hbf, hrb⟩
              have pnrr' : PathNoRedRed (.L p .red kp vp sn ::
                  .L sa .black ks vs sf :: rest) := by
                exact ⟨nn, fun _ => ⟨cn, rfl⟩, nf,
                  fun (h : Color.black = Color.red) => absurd h (by decide), hrn⟩
              have hμ' : delMeasure (.L p .red kp vp sn ::
                  .L sa .black ks vs sf :: rest) (fill Q .nil) < n := by
                rw [delMeasure_black _ _ hc]
                have := sibBonus_L_black p .red kp vp cn
                simp only [pathWeight, Frame.color_L, sibBonus_L_red] at hμ ⊢
                omega
              obtain ⟨Pz, e, hne, hrbz, hin⟩ := ih _ Q m nrr bh pbh' pnrr'
                (outer.push rfl) hμ'
              refine ⟨Pz, ?_, fun _ => hne (Or.inl (by simp)), hrbz, ?_⟩
              · rw [delFix_L_red n p .black kp vp sa ks vs sn sf rest ht]
                exact e
              · rw [hin]
                simp [inorder_fill, pathLeft, pathRight]
            | black =>
              obtain ⟨m', hm', hbn, hbf⟩ := hsb
              have hmm : m' = m := by omega
              subst hmm
              simp only [NoRedRed] at hsn
              obtain ⟨-, nn, nf⟩ := hsn
              cases hf : sf.color with
              | red =>
                refine ⟨Q ++ (.L p .black kp vp sn ::
                  .L sa cp ks vs (sf.setColor .black) :: rest), ?_, by simp, ?_, ?_⟩
                · rw [delFix_L_far n p cp kp vp sa ks vs sn rest ht hf, fill_append]
                  rfl
                · rw [fill_append]
                  show RB (fill rest (.node sa cp ks vs (.node p .black kp vp (fill Q .nil) sn) (sf.setColor .black)))
                  have hX1 : NoRedRed (.node sa cp ks vs (.node p .black kp vp (fill Q .nil) sn) (sf.setColor .black)) := by
                    exact ⟨fun _ => ⟨rfl, Tree.color_setColor_black sf⟩,
                      ⟨fun h => absurd h (by decide), hnt, nn⟩, NoRedRed_setBlack nf⟩
                  have hcc : headColor rest = .red → cp = .black := fun hh => by
                    cases cp with
                    | black => rfl
                    | red =>
                      have := (hpc rfl).2
                      rw [hh] at this
                      cases this
                  obtain ⟨r1, r2⟩ : NoRedRed (fill rest (.node sa cp ks vs (.node p .black kp vp (fill Q .nil) sn) (sf.setColor .black))) ∧
                      ∃ q, BlackHeight (fill rest (.node sa cp ks vs (.node p .black kp vp (fill Q .nil) sn) (sf.setColor .black))) q := by
                    refine fill_rb rest _ _ hX1 ?_ hrn hrb hcc
                    cases cp with
                    | black =>
                      exact ⟨m' + 1, rfl, ⟨m', rfl, bh, hbn⟩, BlackHeight_setBlack_red hbf hf⟩
                    | red =>
                      exact ⟨⟨m', rfl, bh, hbn⟩, BlackHeight_setBlack_red hbf hf⟩
                  exact ⟨r1, r2, fill_color_black outer rfl⟩
                · simp [fill_append, inorder_fill, pathLeft, pathRight]
              | black =>
                cases hn : sn.color with
                | red =>
                  cases sn with
                  | nil => simp at hn
                  | node la lc kl vl nx ny =>
                    simp only [Tree.color_node] at hn
                    subst hn
                    obtain ⟨hbx, hby⟩ := hbn
                    simp only [NoRedRed, true_implies] at nn
                    obtain ⟨⟨cx, cy⟩, nx1, ny1⟩ := nn
                    have pbh' : PathBlackHeight (.L p cp kp vp (.node la .black kl vl nx (.node sa .red ks vs ny sf)) :: rest)
                        (m' + 1) := by
                      simp only [PathBlackHeight, Frame.sib_L, Frame.color_L]
                      exact ⟨⟨m', rfl, hbx, ⟨hby, hbf⟩⟩, hrb⟩
                    have pnrr' : PathNoRedRed (.L p cp kp vp (.node la .black kl vl nx (.node sa .red ks vs ny sf)) :: rest) := by
                      exact ⟨⟨fun h => absurd h (by decide), nx1, ⟨fun _ => ⟨cy, hf⟩, ny1, nf⟩⟩,
                        fun h => ⟨rfl, (hpc h).2⟩, hrn⟩
                    have hμ' : delMeasure (.L p cp kp vp (.node la .black kl vl nx (.node sa .red ks vs ny sf)) :: rest)
                        (fill Q .nil) < n := by
                      rw [delMeasure_black _ _ hc]
                      rw [sibBonus_L_near p cp kp vp sa ks vs la kl vl nx ny hf] at hμ
                      rw [sibBonus_L_far]
                      simp only [pathWeight, Frame.color_L] at hμ ⊢
                      omega
                    obtain ⟨Pz, e, hne, hrbz, hin⟩ := ih _ Q m' nrr bh pbh' pnrr'
                      (outer.swap_head rfl) hμ'
                    refine ⟨Pz, ?_, fun _ => hne (Or.inl (by simp)), hrbz, ?_⟩
                    · rw [delFix_L_near n p cp kp vp sa ks vs la kl vl nx ny rest ht hf]
                      exact e
                    · rw [hin]
                      simp [inorder_fill, pathLeft, pathRight]
                | black =>
                  have hfq : ∀ u : Tree, fill (Q ++ [.L p cp kp vp (.node sa .red ks vs sn sf)]) u =
                      (.node p cp kp vp (fill Q u) (.node sa .red ks vs sn sf)) := fun u => by
                    rw [fill_append]
                    rfl
                  have nrr' : NoRedRed ((fill (Q ++ [.L p cp kp vp (.node sa .red ks vs sn sf)])
                      .nil).setColor .black) := by
                    rw [hfq]
                    exact ⟨fun h => absurd h (by decide), hnt, ⟨fun _ => ⟨hn, hf⟩, nn, nf⟩⟩
                  have key : ∃ Pz, delFix n rest (fill (Q ++ [.L p cp kp vp (.node sa .red ks vs sn sf)]) (.node z .black kz vz .nil .nil)) =
                        some (fill Pz (.node z .black kz vz .nil .nil)) ∧ Pz ≠ [] ∧ RB (fill Pz .nil) ∧
                      (fill Pz .nil).inorder = (fill rest (fill (Q ++
                        [.L p cp kp vp (.node sa .red ks vs sn sf)]) .nil)).inorder := by
                    cases cp with
                    | black =>
                      have bh' : BlackHeight (fill (Q ++ [.L p .black kp vp (.node sa .red ks vs sn sf)])
                          .nil) (m' + 1) := by
                        rw [hfq]
                        exact ⟨m', rfl, bh, ⟨hbn, hbf⟩⟩
                      have hμ' : delMeasure rest (fill (Q ++
                          [.L p .black kp vp (.node sa .red ks vs sn sf)]) .nil) < n := by
                        have := delMeasure_le rest (fill (Q ++
                          [.L p .black kp vp (.node sa .red ks vs sn sf)]) .nil)
                        simp only [pathWeight, Frame.color_L] at hμ
                        omega
                      obtain ⟨Pz, e, hne, hrbz, hin⟩ := ih rest _ (m' + 1) nrr' bh' hrb hrn
                        outer.tail hμ'
                      exact ⟨Pz, e, hne (Or.inr (by simp)), hrbz, hin⟩
                    | red =>
                      have bh' : BlackHeight (fill (Q ++ [.L p .red kp vp (.node sa .red ks vs sn sf)])
                          .nil) m' := by
                        rw [hfq]
                        exact ⟨bh, ⟨hbn, hbf⟩⟩
                      have hμ' : delMeasure rest (fill (Q ++
                          [.L p .red kp vp (.node sa .red ks vs sn sf)]) .nil) < n := by
                        rw [delMeasure_red rest (by rw [hfq]; rfl)]
                        simp only [pathWeight, Frame.color_L] at hμ
                        omega
                      obtain ⟨Pz, e, hne, hrbz, hin⟩ := ih rest _ m' nrr' bh' hrb hrn
                        outer.tail hμ'
                      exact ⟨Pz, e, hne (Or.inr (by simp)), hrbz, hin⟩
                  obtain ⟨Pz, e, hne, hrbz, hin⟩ := key
                  refine ⟨Pz, ?_, fun _ => hne, hrbz, ?_⟩
                  · rw [delFix_L_none n p cp kp vp sa ks vs rest ht hf hn, ← hfq]
                    exact e
                  · rw [hin, hfq]
                    simp [inorder_fill, pathLeft, pathRight]
        | R p cp kp vp sib =>
          simp only [PathBlackHeight, PathNoRedRed, Frame.sib_R, Frame.color_R] at pbh pnrr
          obtain ⟨hsb, hrb⟩ := pbh
          obtain ⟨hsn, hpc, hrn⟩ := pnrr
          cases sib with
          | nil => simp [BlackHeight] at hsb
          | node sa sc ks vs sf sn =>
            cases sc with
            | red =>
              have hcp : cp = .black := by
                cases cp with
                | black => rfl
                | red =>
                  have := (hpc rfl).1
                  simp at this
              subst hcp
              obtain ⟨hbf, hbn⟩ := hsb
              simp only [NoRedRed, true_implies] at hsn
              obtain ⟨⟨cf, cn⟩, nf, nn⟩ := hsn
              have pbh' : PathBlackHeight (.R p .red kp vp sn ::
                  .R sa .black ks vs sf :: rest) (m + 1) := by
                simp only [PathBlackHeight, Frame.sib_R, Frame.color_R]
                exact ⟨hbn, hbf, hrb⟩
              have pnrr' : PathNoRedRed (.R p .red kp vp sn ::
                  .R sa .black ks vs sf :: rest) := by
                exact ⟨nn, fun _ => ⟨cn, rfl⟩, nf,
                  fun (h : Color.black = Color.red) => absurd h (by decide), hrn⟩
              have hμ' : delMeasure (.R p .red kp vp sn ::
                  .R sa .black ks vs sf :: rest) (fill Q .nil) < n := by
                rw [delMeasure_black _ _ hc]
                have := sibBonus_R_black p .red kp vp cn
                simp only [pathWeight, Frame.color_R, sibBonus_R_red] at hμ ⊢
                omega
              obtain ⟨Pz, e, hne, hrbz, hin⟩ := ih _ Q m nrr bh pbh' pnrr'
                (outer.push rfl) hμ'
              refine ⟨Pz, ?_, fun _ => hne (Or.inl (by simp)), hrbz, ?_⟩
              · rw [delFix_R_red n p .black kp vp sa ks vs sn sf rest ht]
                exact e
              · rw [hin]
                simp [inorder_fill, pathLeft, pathRight]
            | black =>
              obtain ⟨m', hm', hbf, hbn⟩ := hsb
              have hmm : m' = m := by omega
              subst hmm
              simp only [NoRedRed] at hsn
              obtain ⟨-, nf, nn⟩ := hsn
              cases hf : sf.color with
              | red =>
                refine ⟨Q ++ (.R p .black kp vp sn ::
                  .R sa cp ks vs (sf.setColor .black) :: rest), ?_, by simp, ?_, ?_⟩
                · rw [delFix_R_far n p cp kp vp sa ks vs sn rest ht hf, fill_append]
                  rfl
                · rw [fill_append]
                  show RB (fill rest (.node sa cp ks vs (sf.setColor .black) (.node p .black kp vp sn (fill Q .nil))))
                  have hX1 : NoRedRed (.node sa cp ks vs (sf.setColor .black) (.node p .black kp vp sn (fill Q .nil))) := by
                    exact ⟨fun _ => ⟨Tree.color_setColor_black sf, rfl⟩,
                      NoRedRed_setBlack nf, ⟨fun h => absurd h (by decide), nn, hnt⟩⟩
                  have hcc : headColor rest = .red → cp = .black := fun hh => by
                    cases cp with
                    | black => rfl
                    | red =>
                      have := (hpc rfl).2
                      rw [hh] at this
                      cases this
                  obtain ⟨r1, r2⟩ : NoRedRed (fill rest (.node sa cp ks vs (sf.setColor .black) (.node p .black kp vp sn (fill Q .nil)))) ∧
                      ∃ q, BlackHeight (fill rest (.node sa cp ks vs (sf.setColor .black) (.node p .black kp vp sn (fill Q .nil)))) q := by
                    refine fill_rb rest _ _ hX1 ?_ hrn hrb hcc
                    cases cp with
                    | black =>
                      exact ⟨m' + 1, rfl, BlackHeight_setBlack_red hbf hf, ⟨m', rfl, hbn, bh⟩⟩
                    | red =>
                      exact ⟨BlackHeight_setBlack_red hbf hf, ⟨m', rfl, hbn, bh⟩⟩
                  exact ⟨r1, r2, fill_color_black outer rfl⟩
                · simp [fill_append, inorder_fill, pathLeft, pathRight]
              | black =>
                cases hn : sn.color with
                | red =>
                  cases sn with
                  | nil => simp at hn
                  | node la lc kl vl ny nx =>
                    simp only [Tree.color_node] at hn
                    subst hn
                    obtain ⟨hby, hbx⟩ := hbn
                    simp only [NoRedRed, true_implies] at nn
                    obtain ⟨⟨cy, cx⟩, ny1, nx1⟩ := nn
                    have pbh' : PathBlackHeight (.R p cp kp vp (.node la .black kl vl (.node sa .red ks vs sf ny) nx) :: rest)
                        (m' + 1) := by
                      simp only [PathBlackHeight, Frame.sib_R, Frame.color_R]
                      exact ⟨⟨m', rfl, ⟨hbf, hby⟩, hbx⟩, hrb⟩
                    have pnrr' : PathNoRedRed (.R p cp kp vp (.node la .black kl vl (.node sa .red ks vs sf ny) nx) :: rest) := by
                      exact ⟨⟨fun h => absurd h (by decide), ⟨fun _ => ⟨hf, cy⟩, nf, ny1⟩, nx1⟩,
                        fun h => ⟨rfl, (hpc h).2⟩, hrn⟩
                    have hμ' : delMeasure (.R p cp kp vp (.node la .black kl vl (.node sa .red ks vs sf ny) nx) :: rest)
                        (fill Q .nil) < n := by
                      rw [delMeasure_black _ _ hc]
                      rw [sibBonus_R_near p cp kp vp sa ks vs la kl vl nx ny hf] at hμ
                      rw [sibBonus_R_far]
                      simp only [pathWeight, Frame.color_R] at hμ ⊢
                      omega
                    obtain ⟨Pz, e, hne, hrbz, hin⟩ := ih _ Q m' nrr bh pbh' pnrr'
                      (outer.swap_head rfl) hμ'
                    refine ⟨Pz, ?_, fun _ => hne (Or.inl (by simp)), hrbz, ?_⟩
                    · rw [delFix_R_near n p cp kp vp sa ks vs la kl vl nx ny rest ht hf]
                      exact e
                    · rw [hin]
                      simp [inorder_fill, pathLeft, pathRight]
                | black =>
                  have hfq : ∀ u : Tree, fill (Q ++ [.R p cp kp vp (.node sa .red ks vs sf sn)]) u =
                      (.node p cp kp vp (.node sa .red ks vs sf sn) (fill Q u)) := fun u => by
                    rw [fill_append]
                    rfl
                  have nrr' : NoRedRed ((fill (Q ++ [.R p cp kp vp (.node sa .red ks vs sf sn)])
                      .nil).setColor .black) := by
                    rw [hfq]
                    exact ⟨fun h => absurd h (by decide), ⟨fun _ => ⟨hf, hn⟩, nf, nn⟩, hnt⟩
                  have key : ∃ Pz, delFix n rest (fill (Q ++ [.R p cp kp vp (.node sa .red ks vs sf sn)]) (.node z .black kz vz .nil .nil)) =
                        some (fill Pz (.node z .black kz vz .nil .nil)) ∧ Pz ≠ [] ∧ RB (fill Pz .nil) ∧
                      (fill Pz .nil).inorder = (fill rest (fill (Q ++
                        [.R p cp kp vp (.node sa .red ks vs sf sn)]) .nil)).inorder := by
                    cases cp with
                    | black =>
                      have bh' : BlackHeight (fill (Q ++ [.R p .black kp vp (.node sa .red ks vs sf sn)])
                          .nil) (m' + 1) := by
                        rw [hfq]
                        exact ⟨m', rfl, ⟨hbf, hbn⟩, bh⟩
                      have hμ' : delMeasure rest (fill (Q ++
                          [.R p .black kp vp (.node sa .red ks vs sf sn)]) .nil) < n := by
                        have := delMeasure_le rest (fill (Q ++
                          [.R p .black kp vp (.node sa .red ks vs sf sn)]) .nil)
                        simp only [pathWeight, Frame.color_R] at hμ
                        omega
                      obtain ⟨Pz, e, hne, hrbz, hin⟩ := ih rest _ (m' + 1) nrr' bh' hrb hrn
                        outer.tail hμ'
                      exact ⟨Pz, e, hne (Or.inr (by simp)), hrbz, hin⟩
                    | red =>
                      have bh' : BlackHeight (fill (Q ++ [.R p .red kp vp (.node sa .red ks vs sf sn)])
                          .nil) m' := by
                        rw [hfq]
                        exact ⟨⟨hbf, hbn⟩, bh⟩
                      have hμ' : delMeasure rest (fill (Q ++
                          [.R p .red kp vp (.node sa .red ks vs sf sn)]) .nil) < n := by
                        rw [delMeasure_red rest (by rw [hfq]; rfl)]
                        simp only [pathWeight, Frame.color_R] at hμ
                        omega
                      obtain ⟨Pz, e, hne, hrbz, hin⟩ := ih rest _ m' nrr' bh' hrb hrn
                        outer.tail hμ'
                      exact ⟨Pz, e, hne (Or.inr (by simp)), hrbz, hin⟩
                  obtain ⟨Pz, e, hne, hrbz, hin⟩ := key
                  refine ⟨Pz, ?_, fun _ => hne, hrbz, ?_⟩
                  · rw [delFix_R_none n p cp kp vp sa ks vs rest ht hf hn, ← hfq]
                    exact e
                  · rw [hin, hfq]
                    simp [inorder_fill, pathLeft, pathRight]

end RBTree


namespace RBTree

/-- The loop of `rbtree_delete_fixup` started at a node without children of a
tree with at least two nodes that satisfies the red-black invariants: it ends
within `pathWeight Ps + 4` passes, the node is still in the tree without
children and below a parent, and taking it out leaves a tree that satisfies the
red-black invariants and has the other entries in the same order. -/
theorem delFix_leaf {Ps : List Frame} {z : Nat} {cz : Color} {kz vz : Nat} (hne : Ps ≠ [])
    (hrb : RB (fill Ps (.node z cz kz vz .nil .nil))) :
    OuterBlack Ps ∧ ∃ Pz cz', delFix (pathWeight Ps + 4) Ps (.node z cz kz vz .nil .nil) =
        some (fill Pz (.node z cz' kz vz .nil .nil)) ∧ Pz ≠ [] ∧ RB (fill Pz .nil) ∧
      (fill Pz .nil).inorder = (fill Ps .nil).inorder := by
  obtain ⟨h1, ⟨M, h2⟩, h3⟩ := hrb
  obtain ⟨-, n2, -⟩ := fill_nrr_inv Ps _ h1
  obtain ⟨m, b1, b2⟩ := fill_bh_inv Ps _ M h2
  have ho : OuterBlack Ps := (color_fill_outer Ps _ hne).mp h3
  refine ⟨ho, ?_⟩
  cases cz with
  | red =>
    obtain ⟨f, rest, rfl⟩ := List.exists_cons_of_ne_nil hne
    have hm : m = 0 := b1.1
    subst hm
    refine ⟨f :: rest, .black, ?_, hne, ?_, rfl⟩
    · exact delFix_red_focus (pathWeight (f :: rest) + 3) f rest
        (t := .node z .red kz vz .nil .nil) rfl
    · obtain ⟨r1, r2⟩ := fill_rb (f :: rest) .nil 0 trivial rfl n2 b2 (fun _ => rfl)
      exact ⟨r1, r2, (color_fill_outer (f :: rest) _ hne).mpr ho⟩
  | black =>
    obtain ⟨m', hm', hb', -⟩ := b1
    have hm0 : m' = 0 := hb'
    subst hm0
    subst hm'
    have hμ : delMeasure Ps (fill [] .nil) < pathWeight Ps + 4 := by
      have := delMeasure_le Ps (fill [] .nil)
      omega
    obtain ⟨Pz, e, hz, hr, hin⟩ := delFix_rb z kz vz (pathWeight Ps + 4) Ps [] 0 trivial rfl
      b2 n2 ho hμ
    exact ⟨Pz, .black, e, hz (Or.inl hne), hr, hin⟩

end RBTree


namespace RBTree

/-- Everything the code does on `rbtree_delete` of a key that is in the tree,
for a tree with at least two nodes that satisfies the BST order and red-black
invariants: with enough loop budget the call returns, the memory holds a tree
that satisfies the red-black invariants, and the in-order sequence has lost
exactly the entry of the node found for the key. -/
theorem rbtree_delete_full {cmp : Nat → Nat → Int} {s : State} {T : Tree} {key : Nat}
    (hc : CmpOK cmp) (h : Represents cmp s T) (hb : BST cmp T) (hrb : RB T)
    (h2 : 2 ≤ T.size) (hp : Present cmp key T) (hk : key ≠ 0) :
    ∃ n0, ∀ fuel, n0 ≤ fuel →
      ∃ s' T', rbtree_delete fuel s key = .ok s' ∧ Represents cmp s' T' ∧ RB T' ∧
        ∃ l1 k v l2, T.inorder = l1 ++ (k, v) :: l2 ∧ cmp key k = NODE_KEY_EQUAL ∧
          T'.inorder = l1 ++ l2 := by
  have hz := zoom_present hc key T [] hb hp
  obtain ⟨x, c, k, v, l, r, e⟩ : ∃ a c k v l r, (zoom cmp key T []).2 = .node a c k v l r := by
    cases hh : (zoom cmp key T []).2 with
    | nil => exact absurd hh hz
    | node a c k v l r => exact ⟨_, _, _, _, _, _, rfl⟩
  obtain ⟨hkey, -⟩ := zoom_found cmp key T [] x c k v l r e
  have hT : fill (zoom cmp key T []).1 (.node x c k v l r) = T := by
    rw [← e]
    exact fill_zoom cmp key T []
  have hrb' : RB (fill (zoom cmp key T []).1 (.node x c k v l r)) := by rw [hT]; exact hrb
  have h2' : 2 ≤ (fill (zoom cmp key T []).1 (.node x c k v l r)).size := by rw [hT]; exact h2
  obtain ⟨Ps, z, cz, kz, vz, ered, hne, hrbs, hin⟩ := delReduce_rb hrb' (le_refl _) h2'
  obtain ⟨ho, Pz, cz', hfix, hzne, hrbz, hinz⟩ := delFix_leaf hne hrbs
  have hsz : (Tree.node x c k v l r).size ≤ T.size := by
    rw [← hT, size_fill]
    omega
  refine ⟨T.size + pathWeight Ps + 6, fun fuel hf => ?_⟩
  have hsearch := bst_search_loop_spec key T [] h fuel (by omega)
  rw [e] at hsearch
  have hrep : Represents cmp s (fill (zoom cmp key T []).1 (.node x c k v l r)) := by
    rw [hT]
    exact h
  have hx0 : x ≠ 0 := (rep_load hrep).1
  obtain ⟨s1, e1, h1, -⟩ := bst_delete_loop_spec _ s _ (.node x c k v l r) (by simp) (le_refl _)
    hrep fuel (by omega)
  rw [ered] at e1 h1
  obtain ⟨s2, e2, h2s⟩ := rbtree_delete_fixup_spec hfix (by simp) ho h1 fuel (by omega)
  obtain ⟨f, rest, rfl⟩ := List.exists_cons_of_ne_nil hzne
  obtain ⟨s3, e3, h3⟩ := rbtree_delete_unlink_spec h2s
  have hrt : s.root = T.ptr := h.2.1
  have hcmp : s.cmp = cmp := h.1
  refine ⟨s3, fill rest (f.plug .nil), ?_, h3, hrbz, ?_⟩
  · simp only [Tree.ptr_node] at hsearch e1 e2
    simp only [rbtree_delete, hk, if_false, bst_delete, bst_search, hrt, hcmp, hsearch,
      Res.ok_bind, hx0, e1, e2, Res.pure_eq]
    exact e3
  · refine ⟨pathLeft (zoom cmp key T []).1 ++ l.inorder, k, v,
      r.inorder ++ pathRight (zoom cmp key T []).1, ?_, hkey, ?_⟩
    · have hi := congrArg Tree.inorder hT
      rw [inorder_fill] at hi
      rw [← hi]
      simp
    · have : (fill rest (f.plug .nil)).inorder = (fill (f :: rest) .nil).inorder := rfl
      rw [this, hinz, hin]
      simp

end RBTree


namespace RBTree

theorem CmpOK.irrefl {cmp : Nat → Nat → Int} (hc : CmpOK cmp) (a : Nat) :
    cmp a a ≠ NODE_KEY_LESS := by
  intro h
  have h2 := (hc.anti a a).mp h
  rw [h] at h2
  simp [NODE_KEY_LESS, NODE_KEY_LARGER] at h2

/-- C2: for every tree with at least two keys that satisfies the BST order
invariant and the red-black invariants (no red node has a red parent, every
path from the root to a missing child has the same number of black nodes, the
root is black) and for every key present in it, `rbtree_delete` returns (given
enough loop budget) and the tree then satisfies the three red-black invariants
again. -/
theorem rbtree_delete_preserves_red_black (cmp : Nat → Nat → Int) (s : State) (T : Tree)
    (key : Nat) (hcmp : CmpOK cmp) (hrep : Represents cmp s T) (hbst : BST cmp T) (hrb : RB T)
    (hsize : 2 ≤ T.size) (hpres : Present cmp key T) :
    ∃ n, ∀ fuel, n ≤ fuel →
      ∃ s' T', rbtree_delete fuel s key = .ok s' ∧ Represents cmp s' T' ∧
        NoRedRed T' ∧ (∃ b, BlackHeight T' b) ∧ T'.color = .black := by
  by_cases hkey : key = 0
  · exact ⟨0, fun fuel _ => ⟨s, T, by simp [rbtree_delete, hkey], hrep, hrb⟩⟩
  · obtain ⟨n, hn⟩ := rbtree_delete_full hcmp hrep hbst hrb hsize hpres hkey
    refine ⟨n, fun fuel hf => ?_⟩
    obtain ⟨s', T', e, hr, hrb', -⟩ := hn fuel hf
    exact ⟨s', T', e, hr, hrb'⟩

theorem rbtree_delete_preserves_red_black_witness :
    ∃ n, ∀ fuel, n ≤ fuel →
      ∃ s' T', rbtree_delete fuel fourState 10 = .ok s' ∧ Represents natCmp s' T' ∧
        NoRedRed T' ∧ (∃ b, BlackHeight T' b) ∧ T'.color = .black :=
  rbtree_delete_preserves_red_black natCmp fourState fourTree 10 natCmp_ok fourState_rep
    (by decide) ⟨by decide, ⟨2, by decide⟩, rfl⟩ (by decide) ⟨10, by decide, rfl⟩

/-- C4: for every tree with at least two keys that satisfies the BST order
invariant and the red-black invariants and for every non-NULL key `key`
present in it, `rbtree_delete` returns (given enough loop budget) and the
in-order (key, value) sequence of the tree is then the old one with the single
entry for `key` removed: `key` is no longer present, every entry of another key
is still there with its value, and the sequence is still strictly ascending,
so the BST order invariant holds again. -/
theorem rbtree_delete_inorder (cmp : Nat → Nat → Int) (s : State) (T : Tree)
    (key : Nat) (hcmp : CmpOK cmp) (hrep : Represents cmp s T) (hbst : BST cmp T) (hrb : RB T)
    (hsize : 2 ≤ T.size) (hkey : key ≠ 0) (hpres : Present cmp key T) :
    ∃ n, ∀ fuel, n ≤ fuel →
      ∃ s' T', rbtree_delete fuel s key = .ok s' ∧ Represents cmp s' T' ∧
        (∃ l1 k v l2, T.inorder = l1 ++ (k, v) :: l2 ∧ cmp key k = NODE_KEY_EQUAL ∧
          T'.inorder = l1 ++ l2) ∧
        ¬ Present cmp key T' ∧
        (∀ e ∈ T.inorder, cmp key e.1 ≠ NODE_KEY_EQUAL → e ∈ T'.inorder) ∧
        Ascending cmp T'.inorder ∧ BST cmp T' := by
  obtain ⟨n, hn⟩ := rbtree_delete_full hcmp hrep hbst hrb hsize hpres hkey
  refine ⟨n, fun fuel hf => ?_⟩
  obtain ⟨s', T', e, hr, -, l1, k, v, l2, h1, h2, h3⟩ := hn fuel hf
  have hasc0 := (BST_iff_ascending hcmp T).mp hbst
  have hasc : Ascending cmp T'.inorder := by
    have h0 := hasc0
    rw [h1] at h0
    rw [h3]
    simp only [Ascending, List.pairwise_append, List.pairwise_cons, List.mem_cons] at h0 ⊢
    exact ⟨h0.1, h0.2.1.2, fun x hx y hy => h0.2.2 x hx y (Or.inr hy)⟩
  refine ⟨s', T', e, hr, ⟨l1, k, v, l2, h1, h2, h3⟩, ?_, ?_, hasc,
    (BST_iff_ascending hcmp T').mpr hasc⟩
  · rintro ⟨y, hy, hye⟩
    obtain ⟨vy, hyv⟩ := Tree.mem_keys.mp hy
    rw [h3] at hyv
    have hmem : (y, vy) ∈ T.inorder := by
      rw [h1]
      simp only [List.mem_append, List.mem_cons] at hyv ⊢
      tauto
    have hkmem : (k, v) ∈ T.inorder := by
      rw [h1]
      simp
    have hu := ascending_unique hcmp key T.inorder hasc0 (y, vy) hmem (k, v) hkmem hye h2
    cases hu
    have h0 := hasc0
    rw [h1] at h0
    simp only [Ascending, List.pairwise_append, List.pairwise_cons, List.mem_cons] at h0
    simp only [List.mem_append] at hyv
    rcases hyv with hyv | hyv
    · exact hcmp.irrefl _ (h0.2.2 _ hyv _ (Or.inl rfl))
    · exact hcmp.irrefl _ (h0.2.1.1 _ hyv)
  · intro e0 he0 hne
    rw [h1] at he0
    rw [h3]
    simp only [List.mem_append, List.mem_cons] at he0 ⊢
    rcases he0 with h | h | h
    · exact Or.inl h
    · subst h
      exact absurd h2 hne
    · exact Or.inr h

theorem rbtree_delete_inorder_witness :
    ∃ n, ∀ fuel, n ≤ fuel →
      ∃ s' T', rbtree_delete fuel fourState 20 = .ok s' ∧ Represents natCmp s' T' ∧
        (∃ l1 k v l2, fourTree.inorder = l1 ++ (k, v) :: l2 ∧ natCmp 20 k = NODE_KEY_EQUAL ∧
          T'.inorder = l1 ++ l2) ∧
        ¬ Present natCmp 20 T' ∧
        (∀ e ∈ fourTree.inorder, natCmp 20 e.1 ≠ NODE_KEY_EQUAL → e ∈ T'.inorder) ∧
        Ascending natCmp T'.inorder ∧ BST natCmp T' :=
  rbtree_delete_inorder natCmp fourState fourTree 20 natCmp_ok fourState_rep
    (by decide) ⟨by decide, ⟨2, by decide⟩, rfl⟩ (by decide) (by decide) ⟨20, by decide, rfl⟩

end RBTree


namespace RBTree

/-- C11: for every tree satisfying the BST order invariant under a comparator
that is a consistent total order and every non-NULL key, `rbtree_exists`
returns (given more loop budget than the tree has nodes) `NODE_FOUND` if and
only if some node of the tree holds a key that compares EQUAL to the key, and
`NODE_NOT_FOUND` otherwise; on the empty tree it returns `NODE_NOT_FOUND`. -/
theorem rbtree_exists_iff_present (cmp : Nat → Nat → Int) (s : State) (T : Tree) (key : Nat)
    (hcmp : CmpOK cmp) (hrep : Represents cmp s T) (hbst : BST cmp T) (hkey : key ≠ 0) :
    ∀ fuel, T.size < fuel →
      ∃ r, rbtree_exists fuel s key = .ok r ∧
        (r = NODE_FOUND ↔ Present cmp key T) ∧
        (r = NODE_NOT_FOUND ↔ ¬ Present cmp key T) ∧
        (T = .nil → r = NODE_NOT_FOUND) := by
  intro fuel hf
  have hs := rbtree_search_spec hrep hkey fuel hf
  by_cases hp : Present cmp key T
  · have hz := zoom_present hcmp key T [] hbst hp
    have hfz := fill_zoom cmp key T []
    have hrep2 : Represents cmp s (fill (zoom cmp key T []).1 (zoom cmp key T []).2) := by
      rw [hfz]
      exact hrep
    have hne : (zoom cmp key T []).2.ptr ≠ 0 := by
      intro e
      exact hz ((Tree.ptr_eq_zero_of_rep (rep_fill.mp hrep2).2.2.2.1).mp e)
    refine ⟨NODE_FOUND, by simp [rbtree_exists, hs, hne], by simp [hp], by simp [hp], ?_⟩
    rintro rfl
    obtain ⟨x, hx, -⟩ := hp
    simp at hx
  · have hz := zoom_absent cmp key T [] hp
    refine ⟨NODE_NOT_FOUND, by simp [rbtree_exists, hs, hz], by simp [hp], by simp [hp],
      fun _ => rfl⟩

theorem rbtree_exists_iff_present_witness :
    ∃ r, rbtree_exists 5 fourState 30 = .ok r ∧
      (r = NODE_FOUND ↔ Present natCmp 30 fourTree) ∧
      (r = NODE_NOT_FOUND ↔ ¬ Present natCmp 30 fourTree) ∧
      (fourTree = .nil → r = NODE_NOT_FOUND) :=
  rbtree_exists_iff_present natCmp fourState fourTree 30 natCmp_ok fourState_rep (by decide)
    (by decide) 5 (by decide)

/-- C14: `rbtree_insert` with a NULL key or a NULL value returns at once and
changes nothing: the root pointer, the comparator and every node in memory
(hence shape, colours, keys and values of the tree) are as before, whatever
the other argument and whatever `malloc` would have returned. -/
theorem rbtree_insert_null_noop (fuel : Nat) (s : State) (a key value : Nat)
    (hnull : key = 0 ∨ value = 0) : rbtree_insert fuel s a key value = .ok s := by
  simp [rbtree_insert, hnull]

theorem rbtree_insert_null_noop_witness :
    rbtree_insert 0 fourState 5 0 999 = .ok fourState ∧
      rbtree_insert 0 fourState 5 50 0 = .ok fourState :=
  ⟨rbtree_insert_null_noop 0 fourState 5 0 999 (Or.inl rfl),
    rbtree_insert_null_noop 0 fourState 5 50 0 (Or.inr rfl)⟩

/-- C16: in every tree, for every node `x` with a right child `y`, `rotl` on
`x`, with (`c ≠ 0`) or without (`c = 0`) the colour swap, returns, keeps the
in-order (key, value) sequence of the whole tree, puts `y` at the former
position of `x` with `x` as its left child (the left subtree of `y` becomes the
right subtree of `x`), and the root pointer becomes `y` exactly when `x` was the
root and is unchanged otherwise; and the mirror image for `rotr` on a node with
a left child. -/
theorem rotation_preserves_inorder (cmp : Nat → Nat → Int) (s : State) (P : List Frame)
    (x : Nat) (cx : Color) (kx vx : Nat) (α : Tree) (y : Nat) (cy : Color) (ky vy : Nat)
    (β γ : Tree) (c : Int) :
    (Represents cmp s (fill P (.node x cx kx vx α (.node y cy ky vy β γ))) →
      ∃ s', rotl s x c = .ok s' ∧
        Represents cmp s' (fill P (.node y (if c = 0 then cy else cx) ky vy
          (.node x (if c = 0 then cx else cy) kx vx α β) γ)) ∧
        (fill P (.node y (if c = 0 then cy else cx) ky vy
          (.node x (if c = 0 then cx else cy) kx vx α β) γ)).inorder =
          (fill P (.node x cx kx vx α (.node y cy ky vy β γ))).inorder ∧
        (s.root = x ↔ s'.root = y) ∧ (s.root ≠ x → s'.root = s.root)) ∧
    (Represents cmp s (fill P (.node x cx kx vx (.node y cy ky vy γ β) α)) →
      ∃ s', rotr s x c = .ok s' ∧
        Represents cmp s' (fill P (.node y (if c = 0 then cy else cx) ky vy γ
          (.node x (if c = 0 then cx else cy) kx vx β α))) ∧
        (fill P (.node y (if c = 0 then cy else cx) ky vy γ
          (.node x (if c = 0 then cx else cy) kx vx β α))).inorder =
          (fill P (.node x cx kx vx (.node y cy ky vy γ β) α)).inorder ∧
        (s.root = x ↔ s'.root = y) ∧ (s.root ≠ x → s'.root = s.root)) := by
  have hroot : ∀ (s s' : State) (t t' : Tree), t ≠ .nil → t' ≠ .nil →
      Represents cmp s (fill P t) → Represents cmp s' (fill P t') →
      (s.root = t.ptr ↔ s'.root = t'.ptr) ∧ (s.root ≠ t.ptr → s'.root = s.root) := by
    intro s s' t t' ht ht' h h'
    have e := (rep_fill.mp h).2.1
    have e' := (rep_fill.mp h').2.1
    cases P with
    | nil =>
      simp only [rootPtr_nil] at e e'
      exact ⟨⟨fun _ => e', fun _ => e⟩, fun hn => absurd e hn⟩
    | cons f rest =>
      have n1 := rep_root_ne h ht
      have n2 := rep_root_ne h' ht'
      refine ⟨⟨fun q => absurd q.symm n1, fun q => absurd q.symm n2⟩, fun _ => ?_⟩
      rw [e, e']
      rfl
  constructor
  · intro h
    obtain ⟨s', e, h'⟩ := rotl_spec h c
    obtain ⟨r1, r2⟩ := hroot s s' _ _ (by simp) (by simp) h h'
    exact ⟨s', e, h', by simp [inorder_fill], r1, r2⟩
  · intro h
    obtain ⟨s', e, h'⟩ := rotr_spec h c
    obtain ⟨r1, r2⟩ := hroot s s' _ _ (by simp) (by simp) h h'
    exact ⟨s', e, h', by simp [inorder_fill], r1, r2⟩

theorem rotation_preserves_inorder_witness :
    (∃ s', rotl fourState 3 1 = .ok s' ∧
        Represents natCmp s' (.node 2 .black 20 200 (.node 1 .black 10 100 .nil .nil)
          (.node 4 .black 40 400 (.node 3 .red 30 300 .nil .nil) .nil)) ∧
        (Tree.node 2 .black 20 200 (.node 1 .black 10 100 .nil .nil)
          (.node 4 .black 40 400 (.node 3 .red 30 300 .nil .nil) .nil)).inorder =
          fourTree.inorder ∧
        (fourState.root = 3 ↔ s'.root = 4) ∧ (fourState.root ≠ 3 → s'.root = fourState.root)) ∧
    (∃ s', rotr fourState 2 0 = .ok s' ∧
        Represents natCmp s' (.node 1 .black 10 100 .nil
          (.node 2 .black 20 200 .nil
            (.node 3 .black 30 300 .nil (.node 4 .red 40 400 .nil .nil)))) ∧
        (Tree.node 1 .black 10 100 .nil
          (.node 2 .black 20 200 .nil
            (.node 3 .black 30 300 .nil (.node 4 .red 40 400 .nil .nil)))).inorder =
          fourTree.inorder ∧
        (fourState.root = 2 ↔ s'.root = 1) ∧ (fourState.root ≠ 2 → s'.root = fourState.root)) :=
  ⟨(rotation_preserves_inorder natCmp fourState [.R 2 .black 20 200 (.node 1 .black 10 100 .nil .nil)]
      3 .black 30 300 .nil 4 .red 40 400 .nil .nil 1).1 fourState_rep,
    (rotation_preserves_inorder natCmp fourState [] 2 .black 20 200
      (.node 3 .black 30 300 .nil (.node 4 .red 40 400 .nil .nil)) 1 .black 10 100 .nil .nil 0).2
      fourState_rep⟩

end RBTree


namespace RBTree

/-- The three stages of `rbtree_delete` for a key found by the descent, with
the trees computed by `zoom`, `delReduce` and `delFix`: `bst_delete` returns
the node `z` without children that `delReduce` ends at, `rbtree_delete_fixup`
leaves the tree `delFix` gives, in which `z` still has no children and has a
parent, and the call ends with that tree without `z`. -/
theorem rbtree_delete_stages {cmp : Nat → Nat → Int} {s : State} {T : Tree} {key : Nat}
    (h : Represents cmp s T) (hk : key ≠ 0) {x : Nat} {c : Color} {k v : Nat} {l r : Tree}
    (hz : (zoom cmp key T []).2 = .node x c k v l r)
    {Ps : List Frame} {z : Nat} {cz : Color} {kz vz : Nat}
    (hred : delReduce (Tree.node x c k v l r).size (zoom cmp key T []).1 (.node x c k v l r) =
      (Ps, .node z cz kz vz .nil .nil))
    (ho : OuterBlack Ps) {n : Nat} {f : Frame} {rest : List Frame} {cz' : Color}
    (hfix : delFix n Ps (.node z cz kz vz .nil .nil) =
      some (fill (f :: rest) (.node z cz' kz vz .nil .nil)))
    (fuel : Nat) (hf : T.size + n < fuel) :
    ∃ s1 s2 s', bst_delete fuel s s.root s.cmp key = .ok (s1, z) ∧
      Represents cmp s1 (fill Ps (.node z cz kz vz .nil .nil)) ∧
      rbtree_delete_fixup fuel s1 z = .ok s2 ∧
      Represents cmp s2 (fill (f :: rest) (.node z cz' kz vz .nil .nil)) ∧
      rbtree_delete fuel s key = .ok s' ∧ Represents cmp s' (fill rest (f.plug .nil)) := by
  have hT : fill (zoom cmp key T []).1 (.node x c k v l r) = T := by
    rw [← hz]
    exact fill_zoom cmp key T []
  have hsz : (Tree.node x c k v l r).size ≤ T.size := by
    have := congrArg Tree.size hT
    rw [size_fill] at this
    omega
  have hsearch := bst_search_loop_spec key T [] h fuel (by omega)
  rw [hz] at hsearch
  have hrep : Represents cmp s (fill (zoom cmp key T []).1 (.node x c k v l r)) := by
    rw [hT]
    exact h
  have hx0 : x ≠ 0 := (rep_load hrep).1
  obtain ⟨s1, e1, h1, -⟩ := bst_delete_loop_spec _ s _ (.node x c k v l r) (by simp) (le_refl _)
    hrep fuel (by omega)
  rw [hred] at e1 h1
  obtain ⟨s2, e2, h2s⟩ := rbtree_delete_fixup_spec hfix (by simp) ho h1 fuel (by omega)
  obtain ⟨s3, e3, h3⟩ := rbtree_delete_unlink_spec h2s
  have hrt : s.root = T.ptr := h.2.1
  have hcmp : s.cmp = cmp := h.1
  simp only [Tree.ptr_node] at hsearch e1 e2
  have hb : bst_delete fuel s s.root s.cmp key = .ok (s1, z) := by
    simp only [bst_delete, bst_search, hrt, hcmp, hsearch, Res.ok_bind, hx0, if_false, e1]
  refine ⟨s1, s2, s3, hb, h1, e2, h2s, ?_, h3⟩
  simp only [rbtree_delete, hk, if_false, hb, Res.ok_bind, e2]
  exact e3

end RBTree


namespace RBTree

/-- One `rbtree_insert` of a new key into a tree with a black root, with the
tree it leaves computed by `zoom` and `insFix`. -/
theorem rbtree_insert_step {cmp : Nat → Nat → Int} {s : State} {T : Tree} (a key value : Nat)
    (T' : Tree) (h : Represents cmp s T) (hroot : T.color = .black) (hk : key ≠ 0)
    (hv : value ≠ 0) (ha0 : a ≠ 0) (hfresh : a ∉ T.addrs)
    (hz : (zoom cmp key T []).2 = .nil)
    (hT : (insFix (zoom cmp key T []).1 (.node a .red key value .nil .nil)).setColor .black = T')
    (fuel : Nat) (hfuel : T.size < fuel) :
    ∃ s', rbtree_insert fuel s a key value = .ok s' ∧ Represents cmp s' T' := by
  obtain ⟨s', e, hr⟩ := rbtree_insert_new_spec h hroot hk hv ha0 hfresh hz fuel hfuel
  rw [hT] at hr
  exact ⟨s', e, hr⟩

/-- The scenario of inserting the keys 10, 20, 30 into a fresh tree with the
integer comparator, for any values and any addresses returned by `malloc`:
the root holds 20 and is black, its children hold 10 and 30, are red and have
no children. -/
theorem rbtree_insert_10_20_30_spec (s0 : State) (a1 a2 a3 v1 v2 v3 : Nat)
    (ha : a1 ≠ 0 ∧ a2 ≠ 0 ∧ a3 ≠ 0) (hd : a1 ≠ a2 ∧ a1 ≠ a3 ∧ a2 ≠ a3)
    (hv : v1 ≠ 0 ∧ v2 ≠ 0 ∧ v3 ≠ 0) (fuel : Nat) (hf : 3 ≤ fuel) :
    ∃ s', rbtree_insert_all fuel (rbtree_init s0 (some natCmp))
        [(a1, 10, v1), (a2, 20, v2), (a3, 30, v3)] = .ok s' ∧
      Represents natCmp s' (.node a2 .black 20 v2 (.node a1 .red 10 v1 .nil .nil)
        (.node a3 .red 30 v3 .nil .nil)) := by
  obtain ⟨h1, h2, h3⟩ := ha
  obtain ⟨d12, d13, d23⟩ := hd
  obtain ⟨w1, w2, w3⟩ := hv
  have r0 : Represents natCmp (rbtree_init s0 (some natCmp)) .nil :=
    ⟨rfl, rfl, trivial, List.nodup_nil⟩
  obtain ⟨s1, e1, r1⟩ := rbtree_insert_step a1 10 v1 (.node a1 .black 10 v1 .nil .nil) r0 rfl
    (by decide) w1 h1 (by simp) rfl (by simp [zoom, insFix]) fuel (by simp [Tree.size]; omega)
  obtain ⟨s2, e2, r2⟩ := rbtree_insert_step a2 20 v2
    (.node a1 .black 10 v1 .nil (.node a2 .red 20 v2 .nil .nil)) r1 rfl
    (by decide) w2 h2 (by simp [Ne.symm d12]) rfl
    (by simp [zoom, natCmp, insFix, NODE_KEY_LARGER, NODE_KEY_LESS, NODE_KEY_EQUAL]) fuel (by simp [Tree.size]; omega)
  obtain ⟨s3, e3, r3⟩ := rbtree_insert_step a3 30 v3
    (.node a2 .black 20 v2 (.node a1 .red 10 v1 .nil .nil) (.node a3 .red 30 v3 .nil .nil)) r2 rfl
    (by decide) w3 h3 (by simp [Ne.symm d13, Ne.symm d23]) rfl
    (by simp [zoom, natCmp, insFix, NODE_KEY_LARGER, NODE_KEY_LESS, NODE_KEY_EQUAL]) fuel (by simp [Tree.size]; omega)
  exact ⟨s3, by simp [rbtree_insert_all, e1, e2, e3], r3⟩

set_option maxHeartbeats 4000000 in
/-- The scenario of inserting the keys 4, 2, 6, 1, 3, 5, 7 into a fresh tree
with the integer comparator and then deleting 4, for any values and any
addresses returned by `malloc`: the seven inserts build the full tree of
height three with red nodes at the bottom, and the delete moves the entry of
key 3 (the in-order predecessor) into the root node and removes the node that
held it. -/
theorem rbtree_seven_delete_spec (s0 : State) (a1 a2 a3 a4 a5 a6 a7 : Nat)
    (v1 v2 v3 v4 v5 v6 v7 : Nat) (hnd : [a1, a2, a3, a4, a5, a6, a7].Nodup)
    (ha : ∀ a ∈ [a1, a2, a3, a4, a5, a6, a7], a ≠ 0)
    (hv : ∀ v ∈ [v1, v2, v3, v4, v5, v6, v7], v ≠ 0) (fuel : Nat) (hf : 9 ≤ fuel) :
    ∃ s7 s', rbtree_insert_all fuel (rbtree_init s0 (some natCmp))
        [(a1, 4, v1), (a2, 2, v2), (a3, 6, v3), (a4, 1, v4), (a5, 3, v5), (a6, 5, v6),
          (a7, 7, v7)] = .ok s7 ∧
      Represents natCmp s7 (.node a1 .black 4 v1
        (.node a2 .black 2 v2 (.node a4 .red 1 v4 .nil .nil) (.node a5 .red 3 v5 .nil .nil))
        (.node a3 .black 6 v3 (.node a6 .red 5 v6 .nil .nil) (.node a7 .red 7 v7 .nil .nil))) ∧
      rbtree_delete fuel s7 4 = .ok s' ∧
      Represents natCmp s' (.node a1 .black 3 v5
        (.node a2 .black 2 v2 (.node a4 .red 1 v4 .nil .nil) .nil)
        (.node a3 .black 6 v3 (.node a6 .red 5 v6 .nil .nil) (.node a7 .red 7 v7 .nil .nil))) := by
  have f0 : 0 < fuel := by omega
  have f1 : 1 < fuel := by omega
  have f2 : 2 < fuel := by omega
  have f3 : 3 < fuel := by omega
  have f4 : 4 < fuel := by omega
  have f5 : 5 < fuel := by omega
  have f6 : 6 < fuel := by omega
  have f8 : 7 + 1 < fuel := by omega
  simp only [List.nodup_cons, List.mem_cons, List.mem_singleton, not_or, List.not_mem_nil,
    not_false_eq_true, List.nodup_nil, and_true] at hnd
  simp only [List.mem_cons, List.mem_singleton, forall_eq_or_imp, forall_eq, List.not_mem_nil,
    false_implies, implies_true, and_true] at ha hv
  obtain ⟨h1, h2, h3, h4, h5, h6, h7⟩ := ha
  obtain ⟨w1, w2, w3, w4, w5, w6, w7⟩ := hv
  obtain ⟨⟨d12, d13, d14, d15, d16, d17⟩, ⟨d23, d24, d25, d26, d27⟩, ⟨d34, d35, d36, d37⟩,
    ⟨d45, d46, d47⟩, ⟨d56, d57⟩, d67⟩ := hnd
  have r0 : Represents natCmp (rbtree_init s0 (some natCmp)) .nil :=
    ⟨rfl, rfl, trivial, List.nodup_nil⟩
  obtain ⟨s1, e1, r1⟩ := rbtree_insert_step a1 4 v1
    (.node a1 .black 4 v1 .nil .nil) r0 rfl
    (by decide) w1 h1 (by simp) rfl
    (by simp [zoom, natCmp, insFix, NODE_KEY_LARGER, NODE_KEY_LESS, NODE_KEY_EQUAL])
    fuel f0
  obtain ⟨s2, e2, r2⟩ := rbtree_insert_step a2 2 v2
    (.node a1 .black 4 v1 (.node a2 .red 2 v2 .nil .nil) .nil) r1 rfl
    (by decide) w2 h2 (by simp [Ne.symm d12]) rfl
    (by simp [zoom, natCmp, insFix, NODE_KEY_LARGER, NODE_KEY_LESS, NODE_KEY_EQUAL])
    fuel f1
  obtain ⟨s3, e3, r3⟩ := rbtree_insert_step a3 6 v3
    (.node a1 .black 4 v1 (.node a2 .red 2 v2 .nil .nil) (.node a3 .red 6 v3 .nil .nil)) r2 rfl
    (by decide) w3 h3 (by simp [Ne.symm d13, Ne.symm d23]) rfl
    (by simp [zoom, natCmp, insFix, NODE_KEY_LARGER, NODE_KEY_LESS, NODE_KEY_EQUAL])
    fuel f2
  obtain ⟨s4, e4, r4⟩ := rbtree_insert_step a4 1 v4
    (.node a1 .black 4 v1 (.node a2 .black 2 v2 (.node a4 .red 1 v4 .nil .nil) .nil)
      (.node a3 .black 6 v3 .nil .nil)) r3 rfl
    (by decide) w4 h4 (by simp [Ne.symm d14, Ne.symm d24, Ne.symm d34]) rfl
    (by simp [zoom, natCmp, insFix, NODE_KEY_LARGER, NODE_KEY_LESS, NODE_KEY_EQUAL])
    fuel f3
  obtain ⟨s5, e5, r5⟩ := rbtree_insert_step a5 3 v5
    (.node a1 .black 4 v1
      (.node a2 .black 2 v2 (.node a4 .red 1 v4 .nil .nil) (.node a5 .red 3 v5 .nil .nil))
      (.node a3 .black 6 v3 .nil .nil)) r4 rfl
    (by decide) w5 h5 (by simp [Ne.symm d15, Ne.symm d25, Ne.symm d35, Ne.symm d45]) rfl
    (by simp [zoom, natCmp, insFix, NODE_KEY_LARGER, NODE_KEY_LESS, NODE_KEY_EQUAL])
    fuel f4
  obtain ⟨s6, e6, r6⟩ := rbtree_insert_step a6 5 v6
    (.node a1 .black 4 v1
      (.node a2 .black 2 v2 (.node a4 .red 1 v4 .nil .nil) (.node a5 .red 3 v5 .nil .nil))
      (.node a3 .black 6 v3 (.node a6 .red 5 v6 .nil .nil) .nil)) r5 rfl
    (by decide) w6 h6 (by simp [Ne.symm d16, Ne.symm d26, Ne.symm d36, Ne.symm d46, Ne.symm d56]) rfl
    (by simp [zoom, natCmp, insFix, NODE_KEY_LARGER, NODE_KEY_LESS, NODE_KEY_EQUAL])
    fuel f5
  obtain ⟨s7, e7, r7⟩ := rbtree_insert_step a7 7 v7
    (.node a1 .black 4 v1
      (.node a2 .black 2 v2 (.node a4 .red 1 v4 .nil .nil) (.node a5 .red 3 v5 .nil .nil))
      (.node a3 .black 6 v3 (.node a6 .red 5 v6 .nil .nil) (.node a7 .red 7 v7 .nil .nil))) r6 rfl
    (by decide) w7 h7 (by simp [Ne.symm d17, Ne.symm d27, Ne.symm d37, Ne.symm d47, Ne.symm d57, Ne.symm d67]) rfl
    (by simp [zoom, natCmp, insFix, NODE_KEY_LARGER, NODE_KEY_LESS, NODE_KEY_EQUAL])
    fuel f6
  have hz : (zoom natCmp 4 (.node a1 .black 4 v1
        (.node a2 .black 2 v2 (.node a4 .red 1 v4 .nil .nil) (.node a5 .red 3 v5 .nil .nil))
        (.node a3 .black 6 v3 (.node a6 .red 5 v6 .nil .nil) (.node a7 .red 7 v7 .nil .nil)))
      []).2 = .node a1 .black 4 v1
        (.node a2 .black 2 v2 (.node a4 .red 1 v4 .nil .nil) (.node a5 .red 3 v5 .nil .nil))
        (.node a3 .black 6 v3 (.node a6 .red 5 v6 .nil .nil) (.node a7 .red 7 v7 .nil .nil)) :=
    rfl
  have hred : delReduce (Tree.node a1 .black 4 v1
        (.node a2 .black 2 v2 (.node a4 .red 1 v4 .nil .nil) (.node a5 .red 3 v5 .nil .nil))
        (.node a3 .black 6 v3 (.node a6 .red 5 v6 .nil .nil)
          (.node a7 .red 7 v7 .nil .nil))).size
      (zoom natCmp 4 (.node a1 .black 4 v1
        (.node a2 .black 2 v2 (.node a4 .red 1 v4 .nil .nil) (.node a5 .red 3 v5 .nil .nil))
        (.node a3 .black 6 v3 (.node a6 .red 5 v6 .nil .nil) (.node a7 .red 7 v7 .nil .nil)))
      []).1
      (.node a1 .black 4 v1
        (.node a2 .black 2 v2 (.node a4 .red 1 v4 .nil .nil) (.node a5 .red 3 v5 .nil .nil))
        (.node a3 .black 6 v3 (.node a6 .red 5 v6 .nil .nil) (.node a7 .red 7 v7 .nil .nil))) =
      ([.R a2 .black 2 v2 (.node a4 .red 1 v4 .nil .nil),
        .L a1 .black 3 v5
          (.node a3 .black 6 v3 (.node a6 .red 5 v6 .nil .nil) (.node a7 .red 7 v7 .nil .nil))],
        .node a5 .red 3 v5 .nil .nil) := rfl
  have hfix : delFix 1 [.R a2 .black 2 v2 (.node a4 .red 1 v4 .nil .nil),
        .L a1 .black 3 v5
          (.node a3 .black 6 v3 (.node a6 .red 5 v6 .nil .nil) (.node a7 .red 7 v7 .nil .nil))]
      (.node a5 .red 3 v5 .nil .nil) =
      some (fill (.R a2 .black 2 v2 (.node a4 .red 1 v4 .nil .nil) ::
        [.L a1 .black 3 v5
          (.node a3 .black 6 v3 (.node a6 .red 5 v6 .nil .nil) (.node a7 .red 7 v7 .nil .nil))])
        (.node a5 .black 3 v5 .nil .nil)) := rfl
  obtain ⟨t1, t2, s', -, -, -, -, ed, rd⟩ := rbtree_delete_stages r7 (by decide : (4 : Nat) ≠ 0)
    hz hred rfl hfix fuel f8
  exact ⟨s7, s', by simp [rbtree_insert_all, e1, e2, e3, e4, e5, e6, e7], r7, ed, rd⟩

/-- C12 (amended): starting from a freshly initialised tree with the integer
comparator, after `rbtree_insert` of the keys 10, 20, 30 in that order (any
non-NULL values, `malloc` returning three different non-NULL addresses) the
root holds key 20 and is BLACK, its left child holds key 10 and is RED, its
right child holds key 30 and is RED, and neither child has children. -/
theorem rbtree_insert_10_20_30 (s0 : State) (a1 a2 a3 v1 v2 v3 : Nat)
    (ha : a1 ≠ 0 ∧ a2 ≠ 0 ∧ a3 ≠ 0) (hd : a1 ≠ a2 ∧ a1 ≠ a3 ∧ a2 ≠ a3)
    (hv : v1 ≠ 0 ∧ v2 ≠ 0 ∧ v3 ≠ 0) (fuel : Nat) (hf : 3 ≤ fuel) :
    ∃ s', rbtree_insert_all fuel (rbtree_init s0 (some natCmp))
        [(a1, 10, v1), (a2, 20, v2), (a3, 30, v3)] = .ok s' ∧
      Represents natCmp s' (.node a2 .black 20 v2 (.node a1 .red 10 v1 .nil .nil)
        (.node a3 .red 30 v3 .nil .nil)) ∧
      s'.root = a2 ∧ s'.mem a2 = some ⟨20, v2, 0, a1, a3, COLOR_BLACK⟩ ∧
      s'.mem a1 = some ⟨10, v1, a2, 0, 0, COLOR_RED⟩ ∧
      s'.mem a3 = some ⟨30, v3, a2, 0, 0, COLOR_RED⟩ := by
  obtain ⟨s', e, h⟩ := rbtree_insert_10_20_30_spec s0 a1 a2 a3 v1 v2 v3 ha hd hv fuel hf
  have hr := h.2.1
  have hm := h.2.2.1
  simp only [RepAt, Tree.ptr_node, Tree.ptr_nil, Color.code_black, Color.code_red] at hm
  exact ⟨s', e, h, hr, hm.2.1, hm.2.2.1.2.1, hm.2.2.2.2.1⟩

theorem rbtree_insert_10_20_30_witness :
    ∃ s', rbtree_insert_all 3 (rbtree_init emptyState (some natCmp))
        [(1, 10, 100), (2, 20, 200), (3, 30, 300)] = .ok s' ∧
      Represents natCmp s' (.node 2 .black 20 200 (.node 1 .red 10 100 .nil .nil)
        (.node 3 .red 30 300 .nil .nil)) ∧
      s'.root = 2 ∧ s'.mem 2 = some ⟨20, 200, 0, 1, 3, COLOR_BLACK⟩ ∧
      s'.mem 1 = some ⟨10, 100, 2, 0, 0, COLOR_RED⟩ ∧
      s'.mem 3 = some ⟨30, 300, 2, 0, 0, COLOR_RED⟩ :=
  rbtree_insert_10_20_30 emptyState 1 2 3 100 200 300 (by decide) (by decide) (by decide) 3
    (by decide)

/-- C12 as stated fails: after `rbtree_insert` of 10, 20, 30 (values 100, 200,
300, nodes allocated at the addresses 1, 2, 3) into a fresh tree the children
of the root 20 are not BLACK: the nodes of 10 and 30 are RED, so the memory
does not hold the tree of the claim. -/
theorem rbtree_insert_10_20_30_children_not_black :
    ∃ s' l r, rbtree_insert_all 3 (rbtree_init emptyState (some natCmp))
        [(1, 10, 100), (2, 20, 200), (3, 30, 300)] = .ok s' ∧
      s'.root = 2 ∧ s'.mem 2 = some ⟨20, 200, 0, 1, 3, COLOR_BLACK⟩ ∧
      s'.mem 1 = some l ∧ l.key = 10 ∧ l.color ≠ COLOR_BLACK ∧
      s'.mem 3 = some r ∧ r.key = 30 ∧ r.color ≠ COLOR_BLACK ∧
      ¬ Represents natCmp s' (.node 2 .black 20 200 (.node 1 .black 10 100 .nil .nil)
        (.node 3 .black 30 300 .nil .nil)) :=
  ⟨_, _, _, rfl, rfl, rfl, rfl, rfl, by decide, rfl, rfl, by decide,
    fun h => absurd h.2.2.1 (by decide)⟩

/-- C13: starting from a freshly initialised tree with the integer comparator,
after inserting the keys 4, 2, 6, 1, 3, 5, 7 in that order (any non-NULL
values, `malloc` returning seven different non-NULL addresses) and then calling
`rbtree_delete` for key 4, all calls return, the root holds key 3, the
in-order key sequence is 1, 2, 3, 5, 6, 7, and the tree satisfies the BST order
invariant and the red-black invariants. -/
theorem rbtree_delete_root_of_seven (s0 : State) (a1 a2 a3 a4 a5 a6 a7 : Nat)
    (v1 v2 v3 v4 v5 v6 v7 : Nat) (hnd : [a1, a2, a3, a4, a5, a6, a7].Nodup)
    (ha : ∀ a ∈ [a1, a2, a3, a4, a5, a6, a7], a ≠ 0)
    (hv : ∀ v ∈ [v1, v2, v3, v4, v5, v6, v7], v ≠ 0) (fuel : Nat) (hf : 9 ≤ fuel) :
    ∃ s7 s' T' root, rbtree_insert_all fuel (rbtree_init s0 (some natCmp))
        [(a1, 4, v1), (a2, 2, v2), (a3, 6, v3), (a4, 1, v4), (a5, 3, v5), (a6, 5, v6),
          (a7, 7, v7)] = .ok s7 ∧
      rbtree_delete fuel s7 4 = .ok s' ∧ Represents natCmp s' T' ∧
      s'.mem s'.root = some root ∧ root.key = 3 ∧
      T'.keys = [1, 2, 3, 5, 6, 7] ∧ BST natCmp T' ∧
      NoRedRed T' ∧ (∃ b, BlackHeight T' b) ∧ T'.color = .black := by
  obtain ⟨s7, s', e7, -, ed, rd⟩ :=
    rbtree_seven_delete_spec s0 a1 a2 a3 a4 a5 a6 a7 v1 v2 v3 v4 v5 v6 v7 hnd ha hv fuel hf
  have hm := rd.2.2.1
  simp only [RepAt, Tree.ptr_node, Tree.ptr_nil, Color.code_black, Color.code_red] at hm
  refine ⟨s7, s', _, ⟨3, v5, 0, a2, a3, 0⟩, e7, ed, rd, ?_, rfl, rfl, ?_, ?_, ⟨2, ?_⟩, rfl⟩
  · rw [rd.2.1]
    exact hm.2.1
  · simp [BST, Tree.keys, natCmp, NODE_KEY_LARGER, NODE_KEY_LESS, NODE_KEY_EQUAL]
  · simp [NoRedRed]
  · simp [BlackHeight]

theorem rbtree_delete_root_of_seven_witness :
    ∃ s7 s' T' root, rbtree_insert_all 9 (rbtree_init emptyState (some natCmp))
        [(1, 4, 40), (2, 2, 20), (3, 6, 60), (4, 1, 10), (5, 3, 30), (6, 5, 50),
          (7, 7, 70)] = .ok s7 ∧
      rbtree_delete 9 s7 4 = .ok s' ∧ Represents natCmp s' T' ∧
      s'.mem s'.root = some root ∧ root.key = 3 ∧
      T'.keys = [1, 2, 3, 5, 6, 7] ∧ BST natCmp T' ∧
      NoRedRed T' ∧ (∃ b, BlackHeight T' b) ∧ T'.color = .black :=
  rbtree_delete_root_of_seven emptyState 1 2 3 4 5 6 7 40 20 60 10 30 50 70 (by decide)
    (by decide) (by decide) 9 (by decide)

end RBTree


namespace RBTree

/-- Given as many passes as its subtree has nodes, the reduction of
`bst_delete` ends at a node without children. -/
theorem delReduce_leaf : ∀ (n : Nat) (P : List Frame) (X : Tree), X ≠ .nil → X.size ≤ n →
    ∃ z c k v, (delReduce n P X).2 = .node z c k v .nil .nil := by
  intro n
  induction n with
  | zero =>
    intro P X hX hs
    cases X with
    | nil => exact absurd rfl hX
    | node x c k v l r => simp [Tree.size] at hs
  | succ n ih =>
    intro P X hX hs
    cases X with
    | nil => exact absurd rfl hX
    | node x c k v l r =>
      cases l with
      | nil =>
        cases r with
        | nil => exact ⟨x, c, k, v, rfl⟩
        | node b cb kb vb lb rb =>
          rw [delReduce]
          exact ih _ _ (by simp) (by simp only [Tree.size] at hs ⊢; omega)
      | node a ca ka va la ra =>
        cases r with
        | nil =>
          rw [delReduce]
          exact ih _ _ (by simp) (by simp only [Tree.size] at hs ⊢; omega)
        | node b cb kb vb lb rb =>
          rw [delReduce]
          have hms := Tree.maxNode_size (.node a ca ka va la ra)
          exact ih _ _ (Tree.maxNode_ne_nil (by simp))
            (by simp only [Tree.size] at hs hms ⊢; omega)

/-- C15: for every tree satisfying the BST order invariant (under a comparator
that is a consistent total order) and every key, `bst_delete` returns (given
more loop budget than the tree has nodes); the returned pointer is `NULL`
exactly when the key is not present; otherwise it is a node of the tree that
has no left and no right child; and the call has changed at most keys and
values of nodes: the root pointer, the set of allocated nodes and the
`parent`, `left`, `right` and `color` of every node are as before. -/
theorem bst_delete_returns_leaf (cmp : Nat → Nat → Int) (s : State) (T : Tree) (key : Nat)
    (hcmp : CmpOK cmp) (hrep : Represents cmp s T) (hbst : BST cmp T) :
    ∀ fuel, T.size < fuel →
      ∃ s' x, bst_delete fuel s s.root s.cmp key = .ok (s', x) ∧
        (x = 0 ↔ ¬ Present cmp key T) ∧
        (x ≠ 0 → x ∈ T.addrs ∧ ∃ nd, s'.mem x = some nd ∧ nd.left = 0 ∧ nd.right = 0) ∧
        SameLinks s s' := by
  intro fuel hf
  have hrt : s.root = T.ptr := hrep.2.1
  have hc : s.cmp = cmp := hrep.1
  have hsearch := bst_search_loop_spec key T [] hrep fuel hf
  by_cases hp : Present cmp key T
  · have hz := zoom_present hcmp key T [] hbst hp
    have hT := fill_zoom cmp key T []
    simp only [fill_nil] at hT
    have hrep2 : Represents cmp s (fill (zoom cmp key T []).1 (zoom cmp key T []).2) := by
      rw [hT]
      exact hrep
    have hsz : (zoom cmp key T []).2.size ≤ T.size := by
      have := congrArg Tree.size hT
      rw [size_fill] at this
      omega
    have hx0 : (zoom cmp key T []).2.ptr ≠ 0 := fun e =>
      hz ((Tree.ptr_eq_zero_of_rep (rep_fill.mp hrep2).2.2.2.1).mp e)
    obtain ⟨s', e1, h1, hl⟩ := bst_delete_loop_spec _ s _ _ hz (le_refl _) hrep2 fuel
      (by omega)
    obtain ⟨z, c, k, v, ez⟩ := delReduce_leaf (zoom cmp key T []).2.size (zoom cmp key T []).1
      (zoom cmp key T []).2 hz (le_refl _)
    have hmem := delReduce_pres (fun T' => ∀ y ∈ T'.addrs, y ∈ T.addrs)
      (fun P a c k v k' v' l r h y hy => h y (by
        rw [mem_addrs_fill] at hy ⊢
        exact hy))
      (zoom cmp key T []).2.size (zoom cmp key T []).1 (zoom cmp key T []).2
      (fun y hy => by rw [hT] at hy; exact hy)
    rw [ez] at e1 h1 hmem
    obtain ⟨hz0, hload⟩ := rep_load h1
    have hcell : s'.mem z = some ⟨k, v, parentOf (delReduce (zoom cmp key T []).2.size
        (zoom cmp key T []).1 (zoom cmp key T []).2).1, 0, 0, c.code⟩ := by
      unfold load at hload
      simp only [hz0, if_false] at hload
      cases hm : s'.mem z with
      | none => rw [hm] at hload; cases hload
      | some nd =>
        rw [hm] at hload
        simp only [Res.ok.injEq] at hload
        rw [hload]
        rfl
    refine ⟨s', z, ?_, by simp [hz0, hp], fun _ => ⟨hmem z (by
      rw [mem_addrs_fill]
      exact Or.inl (by simp)), _, hcell, rfl, rfl⟩, hl⟩
    simp only [Tree.ptr_node] at e1
    simp only [bst_delete, bst_search, hrt, hc, hsearch, Res.ok_bind, hx0, if_false, e1]
  · have hz := zoom_absent cmp key T [] hp
    rw [hz] at hsearch
    refine ⟨s, 0, ?_, by simp [hp], fun h => absurd rfl h, SameLinks.refl s⟩
    simp [bst_delete, bst_search, hrt, hc, hsearch]

theorem bst_delete_returns_leaf_witness :
    ∃ s' x, bst_delete 5 fourState fourState.root fourState.cmp 20 = .ok (s', x) ∧
      (x = 0 ↔ ¬ Present natCmp 20 fourTree) ∧
      (x ≠ 0 → x ∈ fourTree.addrs ∧
        ∃ nd, s'.mem x = some nd ∧ nd.left = 0 ∧ nd.right = 0) ∧
      SameLinks fourState s' :=
  bst_delete_returns_leaf natCmp fourState fourTree 20 natCmp_ok fourState_rep (by decide) 5
    (by decide)

end RBTree


namespace RBTree

/-- Filling a path that has no red node with a red child with a subtree that
has none, under a head of the path that is not red together with the top of
the subtree, gives a tree that has none. -/
theorem fill_nrr (P : List Frame) :
    ∀ (t : Tree), NoRedRed t → PathNoRedRed P →
      (headColor P = .red → t.color = .black) → NoRedRed (fill P t) := by
  induction P with
  | nil => intro t h1 _ _; exact h1
  | cons f rest ih =>
    intro t h1 h3 h5
    simp only [PathNoRedRed, headColor_cons] at h3 h5
    obtain ⟨h3a, h3b, h3c⟩ := h3
    rcases f with ⟨a, c, k, v, r⟩ | ⟨a, c, k, v, l⟩ <;> cases c <;>
      simp only [Frame.color_L, Frame.color_R, Frame.sib_L, Frame.sib_R, reduceCtorEq,
        false_implies, true_implies, forall_const] at h3b h5 h3a <;>
      refine ih _ ?_ h3c ?_ <;>
      simp_all [NoRedRed]

/-- C17: the pass of the loop of `rbtree_insert_fixup` with a red node below a
red parent, a black grandparent and a black (or missing) uncle, the invariants
holding everywhere else.  In the four configurations (node and parent both
left children, node a left child of a right child, node a right child of a
left child, both right children) the pass is one colour-swapping rotation at
the grandparent, preceded by one non-swapping rotation at the parent in the
two zig-zag configurations and only there; the loop test that follows is
false, so that the loop returns; and the tree it leaves has no red node with a
red child. -/
theorem insert_fixup_uncle_black (cmp : Nat → Nat → Int) :
    (∀ (s : State) (rest : List Frame) (p kp vp : Nat) (ps : Tree) (g kg vg : Nat) (u : Tree)
        (n kn vn : Nat) (tl tr : Tree),
      Represents cmp s (fill (.L p .red kp vp ps :: .L g .black kg vg u :: rest)
        (.node n .red kn vn tl tr)) →
      PathNoRedRed (.L p .red kp vp ps :: .L g .black kg vg u :: rest) →
      NoRedRed (.node n .red kn vn tl tr) → u.color = .black →
      ∃ s', rotr s g 1 = .ok s' ∧
        (∀ fuel, rbtree_insert_fixup_loop (fuel + 1) s n p =
          rbtree_insert_fixup_loop fuel s' g p) ∧
        rbtree_insert_fixup_loop 1 s' g p = .ok s' ∧
        (∀ fuel, rbtree_insert_fixup_loop (fuel + 2) s n p = .ok s') ∧
        Represents cmp s' (fill rest (.node p .black kp vp (.node n .red kn vn tl tr) (.node g .red kg vg ps u))) ∧
        NoRedRed (fill rest (.node p .black kp vp (.node n .red kn vn tl tr) (.node g .red kg vg ps u)))) ∧
    (∀ (s : State) (rest : List Frame) (p kp vp : Nat) (ps : Tree) (g kg vg : Nat) (u : Tree)
        (n kn vn : Nat) (tl tr : Tree),
      Represents cmp s (fill (.L p .red kp vp ps :: .R g .black kg vg u :: rest)
        (.node n .red kn vn tl tr)) →
      PathNoRedRed (.L p .red kp vp ps :: .R g .black kg vg u :: rest) →
      NoRedRed (.node n .red kn vn tl tr) → u.color = .black →
      ∃ s', (∃ s1, rotr s p 0 = .ok s1 ∧ rotl s1 g 1 = .ok s') ∧
        (∀ fuel, rbtree_insert_fixup_loop (fuel + 1) s n p =
          rbtree_insert_fixup_loop fuel s' g n) ∧
        rbtree_insert_fixup_loop 1 s' g n = .ok s' ∧
        (∀ fuel, rbtree_insert_fixup_loop (fuel + 2) s n p = .ok s') ∧
        Represents cmp s' (fill rest (.node n .black kn vn (.node g .red kg vg u tl) (.node p .red kp vp tr ps))) ∧
        NoRedRed (fill rest (.node n .black kn vn (.node g .red kg vg u tl) (.node p .red kp vp tr ps)))) ∧
    (∀ (s : State) (rest : List Frame) (p kp vp : Nat) (ps : Tree) (g kg vg : Nat) (u : Tree)
        (n kn vn : Nat) (tl tr : Tree),
      Represents cmp s (fill (.R p .red kp vp ps :: .L g .black kg vg u :: rest)
        (.node n .red kn vn tl tr)) →
      PathNoRedRed (.R p .red kp vp ps :: .L g .black kg vg u :: rest) →
      NoRedRed (.node n .red kn vn tl tr) → u.color = .black →
      ∃ s', (∃ s1, rotl s p 0 = .ok s1 ∧ rotr s1 g 1 = .ok s') ∧
        (∀ fuel, rbtree_insert_fixup_loop (fuel + 1) s n p =
          rbtree_insert_fixup_loop fuel s' g n) ∧
        rbtree_insert_fixup_loop 1 s' g n = .ok s' ∧
        (∀ fuel, rbtree_insert_fixup_loop (fuel + 2) s n p = .ok s') ∧
        Represents cmp s' (fill rest (.node n .black kn vn (.node p .red kp vp ps tl) (.node g .red kg vg tr u))) ∧
        NoRedRed (fill rest (.node n .black kn vn (.node p .red kp vp ps tl) (.node g .red kg vg tr u)))) ∧
    (∀ (s : State) (rest : List Frame) (p kp vp : Nat) (ps : Tree) (g kg vg : Nat) (u : Tree)
        (n kn vn : Nat) (tl tr : Tree),
      Represents cmp s (fill (.R p .red kp vp ps :: .R g .black kg vg u :: rest)
        (.node n .red kn vn tl tr)) →
      PathNoRedRed (.R p .red kp vp ps :: .R g .black kg vg u :: rest) →
      NoRedRed (.node n .red kn vn tl tr) → u.color = .black →
      ∃ s', rotl s g 1 = .ok s' ∧
        (∀ fuel, rbtree_insert_fixup_loop (fuel + 1) s n p =
          rbtree_insert_fixup_loop fuel s' g p) ∧
        rbtree_insert_fixup_loop 1 s' g p = .ok s' ∧
        (∀ fuel, rbtree_insert_fixup_loop (fuel + 2) s n p = .ok s') ∧
        Represents cmp s' (fill rest (.node p .black kp vp (.node g .red kg vg u ps) (.node n .red kn vn tl tr))) ∧
        NoRedRed (fill rest (.node p .black kp vp (.node g .red kg vg u ps) (.node n .red kn vn tl tr)))) := by
  refine ⟨?_, ?_, ?_, ?_⟩
  · intro s rest p kp vp ps g kg vg u n kn vn tl tr h hp hn hu
    simp only [PathNoRedRed, Frame.sib_L, Frame.sib_R, Frame.color_L, Frame.color_R,
      NoRedRed, true_implies, reduceCtorEq, false_implies, headColor_cons, and_true, true_and] at hp hn
    obtain ⟨s1, e1, h1, r1⟩ := loop_step_LL_black h hu 0
    have hex := loop_exit_black (show Represents cmp s1 (fill (.R p .black kp vp (.node n .red kn vn tl tr) :: rest) (.node g .red kg vg ps u)) from h1) rfl
    have hstep : ∀ fuel, rbtree_insert_fixup_loop (fuel + 1) s n p =
        rbtree_insert_fixup_loop fuel s1 g p := by
      intro fuel
      obtain ⟨s2, e2, -, r2⟩ := loop_step_LL_black h hu fuel
      have e : s2 = s1 := Res.ok.inj (r2.symm.trans r1)
      rw [e2, e]
    refine ⟨s1, r1, hstep, hex 0, fun fuel => (hstep (fuel + 1)).trans (hex fuel), h1, ?_⟩
    refine fill_nrr rest _ ?_ hp.2.2.2 (fun _ => rfl)
    simp only [NoRedRed, Tree.color_node, true_implies, reduceCtorEq, false_implies, and_true, true_and]
    tauto
  · intro s rest p kp vp ps g kg vg u n kn vn tl tr h hp hn hu
    simp only [PathNoRedRed, Frame.sib_L, Frame.sib_R, Frame.color_L, Frame.color_R,
      NoRedRed, true_implies, reduceCtorEq, false_implies, headColor_cons, and_true, true_and] at hp hn
    obtain ⟨s1, e1, h1, r1⟩ := loop_step_LR_black h hu 0
    have hex := loop_exit_black (show Represents cmp s1 (fill (.L n .black kn vn (.node p .red kp vp tr ps) :: rest) (.node g .red kg vg u tl)) from h1) rfl
    have hstep : ∀ fuel, rbtree_insert_fixup_loop (fuel + 1) s n p =
        rbtree_insert_fixup_loop fuel s1 g n := by
      intro fuel
      obtain ⟨s2, e2, -, r2⟩ := loop_step_LR_black h hu fuel
      obtain ⟨sa, ra, ra2⟩ := r1
      obtain ⟨sb, rb, rb2⟩ := r2
      have e0 : sb = sa := Res.ok.inj (rb.symm.trans ra)
      subst e0
      have e : s2 = s1 := Res.ok.inj (rb2.symm.trans ra2)
      rw [e2, e]
    refine ⟨s1, r1, hstep, hex 0, fun fuel => (hstep (fuel + 1)).trans (hex fuel), h1, ?_⟩
    refine fill_nrr rest _ ?_ hp.2.2.2 (fun _ => rfl)
    simp only [NoRedRed, Tree.color_node, true_implies, reduceCtorEq, false_implies, and_true, true_and]
    tauto
  · intro s rest p kp vp ps g kg vg u n kn vn tl tr h hp hn hu
    simp only [PathNoRedRed, Frame.sib_L, Frame.sib_R, Frame.color_L, Frame.color_R,
      NoRedRed, true_implies, reduceCtorEq, false_implies, headColor_cons, and_true, true_and] at hp hn
    obtain ⟨s1, e1, h1, r1⟩ := loop_step_RL_black h hu 0
    have hex := loop_exit_black (show Represents cmp s1 (fill (.R n .black kn vn (.node p .red kp vp ps tl) :: rest) (.node g .red kg vg tr u)) from h1) rfl
    have hstep : ∀ fuel, rbtree_insert_fixup_loop (fuel + 1) s n p =
        rbtree_insert_fixup_loop fuel s1 g n := by
      intro fuel
      obtain ⟨s2, e2, -, r2⟩ := loop_step_RL_black h hu fuel
      obtain ⟨sa, ra, ra2⟩ := r1
      obtain ⟨sb, rb, rb2⟩ := r2
      have e0 : sb = sa := Res.ok.inj (rb.symm.trans ra)
      subst e0
      have e : s2 = s1 := Res.ok.inj (rb2.symm.trans ra2)
      rw [e2, e]
    refine ⟨s1, r1, hstep, hex 0, fun fuel => (hstep (fuel + 1)).trans (hex fuel), h1, ?_⟩
    refine fill_nrr rest _ ?_ hp.2.2.2 (fun _ => rfl)
    simp only [NoRedRed, Tree.color_node, true_implies, reduceCtorEq, false_implies, and_true, true_and]
    tauto
  · intro s rest p kp vp ps g kg vg u n kn vn tl tr h hp hn hu
    simp only [PathNoRedRed, Frame.sib_L, Frame.sib_R, Frame.color_L, Frame.color_R,
      NoRedRed, true_implies, reduceCtorEq, false_implies, headColor_cons, and_true, true_and] at hp hn
    obtain ⟨s1, e1, h1, r1⟩ := loop_step_RR_black h hu 0
    have hex := loop_exit_black (show Represents cmp s1 (fill (.L p .black kp vp (.node n .red kn vn tl tr) :: rest) (.node g .red kg vg u ps)) from h1) rfl
    have hstep : ∀ fuel, rbtree_insert_fixup_loop (fuel + 1) s n p =
        rbtree_insert_fixup_loop fuel s1 g p := by
      intro fuel
      obtain ⟨s2, e2, -, r2⟩ := loop_step_RR_black h hu fuel
      have e : s2 = s1 := Res.ok.inj (r2.symm.trans r1)
      rw [e2, e]
    refine ⟨s1, r1, hstep, hex 0, fun fuel => (hstep (fuel + 1)).trans (hex fuel), h1, ?_⟩
    refine fill_nrr rest _ ?_ hp.2.2.2 (fun _ => rfl)
    simp only [NoRedRed, Tree.color_node, true_implies, reduceCtorEq, false_implies, and_true, true_and]
    tauto

theorem insert_fixup_uncle_black_witness :
    (∃ s', rotr zigLeftState 3 1 = .ok s' ∧
      rbtree_insert_fixup_loop 2 zigLeftState 1 2 = .ok s' ∧
      Represents natCmp s' (.node 2 .black 20 200 (.node 1 .red 10 100 .nil .nil)
        (.node 3 .red 30 300 .nil .nil))) ∧
    (∃ s', (∃ s1, rotr zagLeftState 3 0 = .ok s1 ∧ rotl s1 1 1 = .ok s') ∧
      rbtree_insert_fixup_loop 2 zagLeftState 2 3 = .ok s' ∧
      Represents natCmp s' (.node 2 .black 20 200 (.node 1 .red 10 100 .nil .nil)
        (.node 3 .red 30 300 .nil .nil))) ∧
    (∃ s', (∃ s1, rotl zagRightState 1 0 = .ok s1 ∧ rotr s1 3 1 = .ok s') ∧
      rbtree_insert_fixup_loop 2 zagRightState 2 1 = .ok s' ∧
      Represents natCmp s' (.node 2 .black 20 200 (.node 1 .red 10 100 .nil .nil)
        (.node 3 .red 30 300 .nil .nil))) ∧
    (∃ s', rotl zigRightState 1 1 = .ok s' ∧
      rbtree_insert_fixup_loop 2 zigRightState 3 2 = .ok s' ∧
      Represents natCmp s' (.node 2 .black 20 200 (.node 1 .red 10 100 .nil .nil)
        (.node 3 .red 30 300 .nil .nil))) := by
  have H := insert_fixup_uncle_black natCmp
  refine ⟨?_, ?_, ?_, ?_⟩
  · obtain ⟨s', r, -, -, e, h, -⟩ := H.1 zigLeftState [] 2 20 200 .nil 3 30 300 .nil
      1 10 100 .nil .nil ⟨rfl, rfl, by decide, by decide⟩ (by simp [PathNoRedRed, NoRedRed, headColor])
      (by simp [NoRedRed]) rfl
    exact ⟨s', r, e 0, h⟩
  · obtain ⟨s', r, -, -, e, h, -⟩ := H.2.1 zagLeftState [] 3 30 300 .nil 1 10 100 .nil
      2 20 200 .nil .nil ⟨rfl, rfl, by decide, by decide⟩ (by simp [PathNoRedRed, NoRedRed, headColor])
      (by simp [NoRedRed]) rfl
    exact ⟨s', r, e 0, h⟩
  · obtain ⟨s', r, -, -, e, h, -⟩ := H.2.2.1 zagRightState [] 1 10 100 .nil 3 30 300 .nil
      2 20 200 .nil .nil ⟨rfl, rfl, by decide, by decide⟩ (by simp [PathNoRedRed, NoRedRed, headColor])
      (by simp [NoRedRed]) rfl
    exact ⟨s', r, e 0, h⟩
  · obtain ⟨s', r, -, -, e, h, -⟩ := H.2.2.2 zigRightState [] 2 20 200 .nil 1 10 100 .nil
      3 30 300 .nil .nil ⟨rfl, rfl, by decide, by decide⟩ (by simp [PathNoRedRed, NoRedRed, headColor])
      (by simp [NoRedRed]) rfl
    exact ⟨s', r, e 0, h⟩

end RBTree


namespace RBTree

theorem reread_exit_root (s : State) (fuel : Nat) :
    rbtree_delete_fixup_reread_loop (fuel + 1) s s.root = .ok (s, s.root) := by
  simp [rbtree_delete_fixup_reread_loop]

theorem reread_exit_red {cmp : Nat → Nat → Int} {s : State} {P : List Frame} {t : Tree}
    (h : Represents cmp s (fill P t)) (ht : t.color = .red) (fuel : Nat) :
    rbtree_delete_fixup_reread_loop (fuel + 1) s t.ptr = .ok (s, t.ptr) := by
  have h1 := is_red_spec h
  rw [ht] at h1
  by_cases e : t.ptr = s.root
  · simp [rbtree_delete_fixup_reread_loop, e]
  · simp [rbtree_delete_fixup_reread_loop, e, h1]

/-- Colouring the root of a tree whose root is black leaves the tree as it
is. -/
theorem root_set_black {cmp : Nat → Nat → Int} {s : State} {T : Tree}
    (h : Represents cmp s T) (hc : T.color = .black) :
    ∃ s', set_color s s.root 0 = .ok s' ∧ Represents cmp s' T := by
  obtain ⟨s', h1, h2⟩ := set_color_black_spec (show Represents cmp s (fill [] T) from h)
  have e : T.setColor .black = T := by
    cases T with
    | nil => rfl
    | node a c k v l r =>
      simp only [Tree.color_node] at hc
      subst hc
      rfl
  rw [fill_nil, e] at h2
  exact ⟨s', by rw [h.2.1]; exact h1, h2⟩

set_option maxHeartbeats 1000000 in
/-- The loop of the variant of `rbtree_delete_fixup` that reads the root again,
followed by the final `set_color(node, COLOR_BLACK)`: whenever `delFix` gives
a tree within `n` passes, the variant, run with more than `n` units of loop
budget on a tree with a black root, returns with the memory holding that
tree. -/
theorem reread_loop_spec {cmp : Nat → Nat → Int} :
    ∀ (n : Nat) (P : List Frame) (t : Tree) (s : State) (T' : Tree),
      delFix n P t = some T' → t ≠ .nil → OuterBlack P → Represents cmp s (fill P t) →
      ∀ fuel, n < fuel →
      ∃ s1 nd s', rbtree_delete_fixup_reread_loop fuel s t.ptr = .ok (s1, nd) ∧
        set_color s1 nd 0 = .ok s' ∧ Represents cmp s' T' := by
  intro n
  induction n with
  | zero =>
    intro P t s T' hd
    simp [delFix] at hd
  | succ n ih =>
    intro P t s T' hd ht ho h fuel hf
    obtain ⟨fuel, rfl⟩ : ∃ m, fuel = m + 1 := ⟨fuel - 1, by omega⟩
    cases P with
    | nil =>
      have e : t.ptr = s.root := h.2.1.symm
      simp only [delFix, Option.some.injEq] at hd
      subst hd
      obtain ⟨s', h1, h2⟩ := set_color_black_spec h
      refine ⟨s, t.ptr, s', ?_, h1, h2⟩
      rw [e]
      exact reread_exit_root s fuel
    | cons f rest =>
      cases hc : t.color with
      | red =>
        have hd2 : delFix (n + 1) (f :: rest) t = some (fill (f :: rest) (t.setColor .black)) := by
          simp only [delFix, hc]
        rw [hd2, Option.some.injEq] at hd
        subst hd
        obtain ⟨s', h1, h2⟩ := set_color_black_spec h
        exact ⟨s, t.ptr, s', reread_exit_red h hc fuel, h1, h2⟩
      | black =>
        cases t with
        | nil => exact absurd rfl ht
        | node x c k v l r =>
          simp only [Tree.color_node] at hc
          subst hc
          simp only [Tree.ptr_node]
          cases f with
          | L p cp kp vp sib =>
            cases sib with
            | nil =>
              obtain ⟨s1, e1, h1⟩ := reread_step_L_nil h
              simp only [delFix, Tree.color_node] at hd
              obtain ⟨s2, nd, s3, e2, e3, h3⟩ := ih rest _ s1 T' hd (by simp)
                ho.tail h1 fuel (by omega)
              exact ⟨s2, nd, s3, by rw [e1]; exact e2, e3, h3⟩
            | node sa sc ks vs sn sf =>
              cases sc with
              | red =>
                obtain ⟨s1, e1, h1⟩ := reread_step_L_red h
                simp only [delFix, Tree.color_node] at hd
                obtain ⟨s2, nd, s3, e2, e3, h3⟩ := ih _ _ s1 T' hd (by simp)
                  (ho.push rfl) h1 fuel (by omega)
                exact ⟨s2, nd, s3, by rw [e1]; exact e2, e3, h3⟩
              | black =>
                cases hfc : sf.color with
                | red =>
                  obtain ⟨s1, e1, h1⟩ := reread_step_L_far h hfc
                  simp only [delFix, Tree.color_node, hfc, Option.some.injEq] at hd
                  subst hd
                  obtain ⟨fuel, rfl⟩ : ∃ m, fuel = m + 1 := ⟨fuel - 1, by omega⟩
                  obtain ⟨s2, e2, h2⟩ := root_set_black h1 (fill_color_black ho rfl)
                  exact ⟨s1, s1.root, s2, by rw [e1]; exact reread_exit_root s1 fuel, e2, h2⟩
                | black =>
                  cases sn with
                  | nil =>
                    obtain ⟨s1, e1, h1⟩ := reread_step_L_none h hfc rfl
                    simp only [delFix, Tree.color_node, hfc] at hd
                    obtain ⟨s2, nd, s3, e2, e3, h3⟩ := ih rest _ s1 T' hd (by simp)
                      ho.tail h1 fuel (by omega)
                    exact ⟨s2, nd, s3, by rw [e1]; exact e2, e3, h3⟩
                  | node la lc kl vl nx ny =>
                    cases lc with
                    | red =>
                      obtain ⟨s1, e1, h1, -⟩ := reread_step_L_near h hfc
                      simp only [delFix, Tree.color_node, hfc] at hd
                      obtain ⟨s2, nd, s3, e2, e3, h3⟩ := ih _ _ s1 T' hd (by simp)
                        (ho.swap_head rfl) h1 fuel (by omega)
                      exact ⟨s2, nd, s3, by rw [e1]; exact e2, e3, h3⟩
                    | black =>
                      obtain ⟨s1, e1, h1⟩ := reread_step_L_none h hfc rfl
                      simp only [delFix, Tree.color_node, hfc] at hd
                      obtain ⟨s2, nd, s3, e2, e3, h3⟩ := ih rest _ s1 T' hd (by simp)
                        ho.tail h1 fuel (by omega)
                      exact ⟨s2, nd, s3, by rw [e1]; exact e2, e3, h3⟩
          | R p cp kp vp sib =>
            cases sib with
            | nil =>
              obtain ⟨s1, e1, h1⟩ := reread_step_R_nil h
              simp only [delFix, Tree.color_node] at hd
              obtain ⟨s2, nd, s3, e2, e3, h3⟩ := ih rest _ s1 T' hd (by simp)
                ho.tail h1 fuel (by omega)
              exact ⟨s2, nd, s3, by rw [e1]; exact e2, e3, h3⟩
            | node sa sc ks vs sf sn =>
              cases sc with
              | red =>
                obtain ⟨s1, e1, h1⟩ := reread_step_R_red h
                simp only [delFix, Tree.color_node] at hd
                obtain ⟨s2, nd, s3, e2, e3, h3⟩ := ih _ _ s1 T' hd (by simp)
                  (ho.push rfl) h1 fuel (by omega)
                exact ⟨s2, nd, s3, by rw [e1]; exact e2, e3, h3⟩
              | black =>
                cases hfc : sf.color with
                | red =>
                  obtain ⟨s1, e1, h1⟩ := reread_step_R_far h hfc
                  simp only [delFix, Tree.color_node, hfc, Option.some.injEq] at hd
                  subst hd
                  obtain ⟨fuel, rfl⟩ : ∃ m, fuel = m + 1 := ⟨fuel - 1, by omega⟩
                  obtain ⟨s2, e2, h2⟩ := root_set_black h1 (fill_color_black ho rfl)
                  exact ⟨s1, s1.root, s2, by rw [e1]; exact reread_exit_root s1 fuel, e2, h2⟩
                | black =>
                  cases sn with
                  | nil =>
                    obtain ⟨s1, e1, h1⟩ := reread_step_R_none h hfc rfl
                    simp only [delFix, Tree.color_node, hfc] at hd
                    obtain ⟨s2, nd, s3, e2, e3, h3⟩ := ih rest _ s1 T' hd (by simp)
                      ho.tail h1 fuel (by omega)
                    exact ⟨s2, nd, s3, by rw [e1]; exact e2, e3, h3⟩
                  | node la lc kl vl ny nx =>
                    cases lc with
                    | red =>
                      obtain ⟨s1, e1, h1, -⟩ := reread_step_R_near h hfc
                      simp only [delFix, Tree.color_node, hfc] at hd
                      obtain ⟨s2, nd, s3, e2, e3, h3⟩ := ih _ _ s1 T' hd (by simp)
                        (ho.swap_head rfl) h1 fuel (by omega)
                      exact ⟨s2, nd, s3, by rw [e1]; exact e2, e3, h3⟩
                    | black =>
                      obtain ⟨s1, e1, h1⟩ := reread_step_R_none h hfc rfl
                      simp only [delFix, Tree.color_node, hfc] at hd
                      obtain ⟨s2, nd, s3, e2, e3, h3⟩ := ih rest _ s1 T' hd (by simp)
                        ho.tail h1 fuel (by omega)
                      exact ⟨s2, nd, s3, by rw [e1]; exact e2, e3, h3⟩

/-- The variant of `rbtree_delete_fixup` that reads the root again, called on
the node on top of `t`, in a tree with a black root. -/
theorem rbtree_delete_fixup_reread_spec {cmp : Nat → Nat → Int} {s : State} {P : List Frame}
    {t : Tree} {n : Nat} {T' : Tree} (hd : delFix n P t = some T') (ht : t ≠ .nil)
    (ho : OuterBlack P) (h : Represents cmp s (fill P t)) (fuel : Nat) (hf : n < fuel) :
    ∃ s', rbtree_delete_fixup_reread fuel s t.ptr = .ok s' ∧ Represents cmp s' T' := by
  obtain ⟨s1, nd, s', e1, e2, h2⟩ := reread_loop_spec n P t s T' hd ht ho h fuel hf
  exact ⟨s', by simp [rbtree_delete_fixup_reread, e1, e2], h2⟩

end RBTree


namespace RBTree

/-- C18: the pass of the loop of `rbtree_delete_fixup` at a black node other
than the remembered root whose sibling is black, whose far nephew is black or
missing and whose near niece is red, for a left child and for a right child.
The pass colours the sibling red and the niece black and rotates at the
sibling away from the node; the node stays the current node; afterwards the
sibling of the node (the former niece) is black and its far nephew (the former
sibling) is red; the next pass is the one of the red far nephew, which sets the
current node to the remembered root, and the loop test that follows ends the
loop. -/
theorem delete_fixup_red_niece (cmp : Nat → Nat → Int) :
    (∀ (s : State) (rest : List Frame) (p : Nat) (cp : Color) (kp vp n kn vn : Nat) (tl tr : Tree)
        (sa ks vs : Nat) (sf : Tree) (la kl vl : Nat) (nx ny : Tree) (r0 : Nat),
      Represents cmp s (fill (.L p cp kp vp (.node sa .black ks vs (.node la .red kl vl nx ny) sf) :: rest)
        (.node n .black kn vn tl tr)) →
      sf.color = .black → n ≠ r0 →
      ∃ s1, (∃ sx sy, set_color s sa COLOR_RED = .ok sx ∧ set_color sx la COLOR_BLACK = .ok sy ∧
          rotr sy sa 0 = .ok s1) ∧
        (∀ fuel, rbtree_delete_fixup_loop r0 (fuel + 1) s n =
          rbtree_delete_fixup_loop r0 fuel s1 n) ∧
        Represents cmp s1 (fill (.L p cp kp vp (.node la .black kl vl nx (.node sa .red ks vs ny sf)) :: rest)
          (.node n .black kn vn tl tr)) ∧
        get_sibling s1 n = .ok la ∧ is_red s1 la = .ok COLOR_BLACK ∧
        get_nephew s1 n = .ok sa ∧ is_red s1 sa = .ok COLOR_RED ∧
        ∃ s2, (∀ fuel, rbtree_delete_fixup_loop r0 (fuel + 1) s1 n =
            rbtree_delete_fixup_loop r0 fuel s2 r0) ∧
          rbtree_delete_fixup_loop r0 1 s2 r0 = .ok (s2, r0) ∧
          (∀ fuel, rbtree_delete_fixup_loop r0 (fuel + 3) s n = .ok (s2, r0)) ∧
          Represents cmp s2 (fill rest
            (.node la cp kl vl (.node p .black kp vp (.node n .black kn vn tl tr) nx) (.node sa .black ks vs ny sf)))) ∧
    (∀ (s : State) (rest : List Frame) (p : Nat) (cp : Color) (kp vp n kn vn : Nat) (tl tr : Tree)
        (sa ks vs : Nat) (sf : Tree) (la kl vl : Nat) (nx ny : Tree) (r0 : Nat),
      Represents cmp s (fill (.R p cp kp vp (.node sa .black ks vs sf (.node la .red kl vl ny nx)) :: rest)
        (.node n .black kn vn tl tr)) →
      sf.color = .black → n ≠ r0 →
      ∃ s1, (∃ sx sy, set_color s sa COLOR_RED = .ok sx ∧ set_color sx la COLOR_BLACK = .ok sy ∧
          rotl sy sa 0 = .ok s1) ∧
        (∀ fuel, rbtree_delete_fixup_loop r0 (fuel + 1) s n =
          rbtree_delete_fixup_loop r0 fuel s1 n) ∧
        Represents cmp s1 (fill (.R p cp kp vp (.node la .black kl vl (.node sa .red ks vs sf ny) nx) :: rest)
          (.node n .black kn vn tl tr)) ∧
        get_sibling s1 n = .ok la ∧ is_red s1 la = .ok COLOR_BLACK ∧
        get_nephew s1 n = .ok sa ∧ is_red s1 sa = .ok COLOR_RED ∧
        ∃ s2, (∀ fuel, rbtree_delete_fixup_loop r0 (fuel + 1) s1 n =
            rbtree_delete_fixup_loop r0 fuel s2 r0) ∧
          rbtree_delete_fixup_loop r0 1 s2 r0 = .ok (s2, r0) ∧
          (∀ fuel, rbtree_delete_fixup_loop r0 (fuel + 3) s n = .ok (s2, r0)) ∧
          Represents cmp s2 (fill rest
            (.node la cp kl vl (.node sa .black ks vs sf ny) (.node p .black kp vp nx (.node n .black kn vn tl tr))))) := by
  refine ⟨?_, ?_⟩
  · intro s rest p cp kp vp n kn vn tl tr sa ks vs sf la kl vl nx ny r0 h hf hne
    obtain ⟨s1, e1, h1, hops⟩ := del_step_L_near h hf r0 hne
    have hsib := get_sibling_spec h1
    have hnep := (get_nephew_spec_L h1).1
    have hrs := is_red_spec (show Represents cmp s1 (fill (.R p cp kp vp (.node n .black kn vn tl tr) :: rest)
      (.node la .black kl vl nx (.node sa .red ks vs ny sf))) from h1)
    have hrf := is_red_spec (show Represents cmp s1 (fill (.R la .black kl vl nx ::
      .R p cp kp vp (.node n .black kn vn tl tr) :: rest) (.node sa .red ks vs ny sf)) from h1)
    obtain ⟨s2, e2, h2⟩ := del_step_L_far h1 rfl r0 hne
    exact ⟨s1, hops, e1, h1, hsib, hrs, hnep, hrf, s2, e2, del_exit_root r0 s2 0,
      fun fuel => (e1 (fuel + 2)).trans ((e2 (fuel + 1)).trans (del_exit_root r0 s2 fuel)), h2⟩
  · intro s rest p cp kp vp n kn vn tl tr sa ks vs sf la kl vl nx ny r0 h hf hne
    obtain ⟨s1, e1, h1, hops⟩ := del_step_R_near h hf r0 hne
    have hsib := get_sibling_spec h1
    have hnep := (get_nephew_spec_R h1).1
    have hrs := is_red_spec (show Represents cmp s1 (fill (.L p cp kp vp (.node n .black kn vn tl tr) :: rest)
      (.node la .black kl vl (.node sa .red ks vs sf ny) nx)) from h1)
    have hrf := is_red_spec (show Represents cmp s1 (fill (.L la .black kl vl nx ::
      .L p cp kp vp (.node n .black kn vn tl tr) :: rest) (.node sa .red ks vs sf ny)) from h1)
    obtain ⟨s2, e2, h2⟩ := del_step_R_far h1 rfl r0 hne
    exact ⟨s1, hops, e1, h1, hsib, hrs, hnep, hrf, s2, e2, del_exit_root r0 s2 0,
      fun fuel => (e1 (fuel + 2)).trans ((e2 (fuel + 1)).trans (del_exit_root r0 s2 fuel)), h2⟩

theorem delete_fixup_red_niece_witness :
    (∃ s1 s2, rbtree_delete_fixup_loop 2 1 nearLeftState 1 =
        rbtree_delete_fixup_loop 2 0 s1 1 ∧
      get_sibling s1 1 = .ok 3 ∧ is_red s1 3 = .ok COLOR_BLACK ∧
      get_nephew s1 1 = .ok 4 ∧ is_red s1 4 = .ok COLOR_RED ∧
      rbtree_delete_fixup_loop 2 3 nearLeftState 1 = .ok (s2, 2) ∧
      Represents natCmp s2 (.node 3 .black 30 300
        (.node 2 .black 20 200 (.node 1 .black 10 100 .nil .nil) .nil)
        (.node 4 .black 40 400 .nil .nil))) ∧
    (∃ s1 s2, rbtree_delete_fixup_loop 3 1 nearRightState 4 =
        rbtree_delete_fixup_loop 3 0 s1 4 ∧
      get_sibling s1 4 = .ok 2 ∧ is_red s1 2 = .ok COLOR_BLACK ∧
      get_nephew s1 4 = .ok 1 ∧ is_red s1 1 = .ok COLOR_RED ∧
      rbtree_delete_fixup_loop 3 3 nearRightState 4 = .ok (s2, 3) ∧
      Represents natCmp s2 (.node 2 .black 20 200 (.node 1 .black 10 100 .nil .nil)
        (.node 3 .black 30 300 .nil (.node 4 .black 40 400 .nil .nil)))) := by
  have H := delete_fixup_red_niece natCmp
  refine ⟨?_, ?_⟩
  · obtain ⟨s1, -, e1, -, a1, a2, a3, a4, s2, -, -, e3, h2⟩ :=
      H.1 nearLeftState [] 2 .black 20 200 1 10 100 .nil .nil 4 40 400 .nil 3 30 300 .nil .nil 2
        ⟨rfl, rfl, by decide, by decide⟩ rfl (by decide)
    exact ⟨s1, s2, e1 0, a1, a2, a3, a4, e3 0, h2⟩
  · obtain ⟨s1, -, e1, -, a1, a2, a3, a4, s2, -, -, e3, h2⟩ :=
      H.2 nearRightState [] 3 .black 30 300 4 40 400 .nil .nil 1 10 100 .nil 2 20 200 .nil .nil 3
        ⟨rfl, rfl, by decide, by decide⟩ rfl (by decide)
    exact ⟨s1, s2, e1 0, a1, a2, a3, a4, e3 0, h2⟩

/-- C20: `rbtree_delete_fixup`, which reads `tree->root` once before its loop,
and the variant that reads it again at each loop test and at the assignment
`node = root`, called on a node without children of a tree that satisfies the
red-black invariants: given enough loop budget both return, and they leave the
same tree, shape and colours. -/
theorem rbtree_delete_fixup_reread_same (cmp : Nat → Nat → Int) (s : State) (P : List Frame)
    (z : Nat) (cz : Color) (kz vz : Nat)
    (hrep : Represents cmp s (fill P (.node z cz kz vz .nil .nil)))
    (hrb : RB (fill P (.node z cz kz vz .nil .nil))) :
    ∃ n T', ∀ fuel, n < fuel →
      ∃ s1 s2, rbtree_delete_fixup fuel s z = .ok s1 ∧
        rbtree_delete_fixup_reread fuel s z = .ok s2 ∧
        Represents cmp s1 T' ∧ Represents cmp s2 T' := by
  have key : ∃ n T', delFix n P (.node z cz kz vz .nil .nil) = some T' ∧ OuterBlack P := by
    by_cases hP : P = []
    · subst hP
      exact ⟨1, _, rfl, trivial⟩
    · obtain ⟨ho, Pz, cz', hd, -⟩ := delFix_leaf hP hrb
      exact ⟨_, _, hd, ho⟩
  obtain ⟨n, T', hd, ho⟩ := key
  refine ⟨n, T', fun fuel hf => ?_⟩
  obtain ⟨s1, e1, h1⟩ := rbtree_delete_fixup_spec hd (by simp) ho hrep fuel hf
  obtain ⟨s2, e2, h2⟩ := rbtree_delete_fixup_reread_spec hd (by simp) ho hrep fuel hf
  exact ⟨s1, s2, e1, e2, h1, h2⟩

theorem rbtree_delete_fixup_reread_same_witness :
    ∃ n T', ∀ fuel, n < fuel →
      ∃ s1 s2, rbtree_delete_fixup fuel nearLeftState 1 = .ok s1 ∧
        rbtree_delete_fixup_reread fuel nearLeftState 1 = .ok s2 ∧
        Represents natCmp s1 T' ∧ Represents natCmp s2 T' :=
  rbtree_delete_fixup_reread_same natCmp nearLeftState
    [.L 2 .black 20 200 (.node 4 .black 40 400 (.node 3 .red 30 300 .nil .nil) .nil)]
    1 .black 10 100 ⟨rfl, rfl, by decide, by decide⟩ ⟨by decide, ⟨2, by decide⟩, rfl⟩

end RBTree


namespace RBTree

end RBTree


namespace RBTree

theorem RootSeen.red {r0 : Nat} {f f1 g1 : Frame} {rest : List Frame} {t : Tree}
    (hri : RootSeen r0 (f :: rest) t) (hc : t.color = .black) (ha : f1.addr = f.addr)
    (hr : f1.color = .red) : RootSeen r0 (f1 :: g1 :: rest) t := by
  rcases hri with e | ⟨f', rest', e, hfa, _⟩ | ⟨_, h3⟩
  · cases rest with
    | nil => exact Or.inr (Or.inl ⟨f1, _, rfl, by rw [ha, e]; rfl, hr⟩)
    | cons g rest' => exact Or.inl (by rw [e]; rfl)
  · cases e
    exact Or.inr (Or.inl ⟨f1, _, rfl, by rw [ha, hfa], hr⟩)
  · rw [hc] at h3
    cases h3

end RBTree


namespace RBTree

theorem unorderedState_rep : Represents natCmp unorderedState unorderedTree :=
  ⟨rfl, rfl, by decide, by decide⟩

/-- Why the black root and the BST order are among the hypotheses: two states
with consistent links that no sequence of public operations produces.  On the
tree with the red root 20 and the left child 10, `rbtree_insert` of the absent
key 30 returns no tree: `rbtree_insert_fixup` finds the red parent 20 without a
parent and calls `rotl` on `NULL`.  On the tree with the black root 10 and the
left child 20, which is out of order, `rbtree_delete` of its key 20 never
returns: the search does not find the key. -/
theorem unreachable_states_fail :
    (Represents natCmp redRootState redRootTree ∧ ¬ Present natCmp 30 redRootTree ∧
      3 ∉ redRootTree.addrs ∧ redRootState.mem 3 = none ∧
      (∀ fuel, rbtree_insert (fuel + 2) redRootState 3 30 300 = .fault) ∧
      ∀ fuel s', rbtree_insert fuel redRootState 3 30 300 ≠ .ok s') ∧
    (Represents natCmp unorderedState unorderedTree ∧ Present natCmp 20 unorderedTree ∧
      2 ≤ unorderedTree.size ∧
      ∀ fuel s', rbtree_delete fuel unorderedState 20 ≠ .ok s') := by
  have habs : ¬ Present natCmp 30 redRootTree := by
    rintro ⟨x, hx, e⟩
    simp [redRootTree, Tree.keys] at hx
    rcases hx with rfl | rfl <;> simp [natCmp] at e
  refine ⟨⟨redRootState_rep, habs, by decide, rfl, fun _ => rfl, ?_⟩,
    unorderedState_rep, ⟨20, by simp [unorderedTree, Tree.keys], rfl⟩, by decide, ?_⟩
  · intro fuel s' h
    match fuel, h with
    | 0, h => cases h
    | 1, h => cases h
    | fuel + 2, h =>
      have e : rbtree_insert (fuel + 2) redRootState 3 30 300 = .fault := rfl
      rw [e] at h
      cases h
  · intro fuel s' h
    match fuel, h with
    | 0, h => cases h
    | 1, h => cases h
    | fuel + 2, h =>
      have hb : bst_delete (fuel + 2) unorderedState unorderedState.root unorderedState.cmp 20 =
          .ok (unorderedState, 0) := rfl
      have hfix : rbtree_delete_fixup (fuel + 2) unorderedState 0 = .timeout := by
        simp only [rbtree_delete_fixup,
          delete_fixup_loop_null unorderedState unorderedState.root (by decide) (fuel + 2),
          Res.timeout_bind]
      have e : rbtree_delete (fuel + 2) unorderedState 20 = .timeout := by
        simp only [rbtree_delete, hb, Res.ok_bind, hfix, Res.timeout_bind]
        simp
      rw [e] at h
      cases h

end RBTree

